import Mathlib

/-!
# hjson: scanner, parser and value tree

A shallow embedding of `scanner.go`, `parser.go`, `json.go` and `visitor.go`.

* The input of a scan is the sequence of runes that `bufio.Reader.ReadRune`
  delivers, a `List Char`; `ReadRune` fails exactly when that sequence is
  exhausted, and `UnreadRune` puts the rune just read back in front.
* `bytes.Buffer` contents and Go strings are `List Char` as well.
* Go's `int` is taken to be 64 bits wide.
* `unicode.IsDigit` and `unicode.IsLetter` are fixed on ASCII; their values on the
  remaining runes come from the Unicode tables, which are a parameter.
-/

namespace hjson

/-! ## Tokens and errors -/

/-- Token kinds: the `iota` constants of `scanner.go`. -/
inductive Token where
  | tokenInvalid
  | tokenComma
  | tokenColon
  | tokenQuota
  | tokenLBrace
  | tokenRBrace
  | tokenLBracket
  | tokenRBracket
  | tokenNumber
  | tokenString
  | tokenNull
  | tokenTrue
  | tokenFalse
  | tokenEOF
  deriving DecidableEq, Repr

open Token

/-- Go `error` values: the sentinel `errEOF` (compared by identity in the scanner)
and the errors built by `fmt.Errorf`, which carry their message. -/
inductive Error where
  | errEOF
  | errorf (msg : String)
  deriving DecidableEq, Repr

open Error

/-- The Unicode range tables consulted by `unicode.IsDigit` and `unicode.IsLetter`
for runes outside the range the Go library decides by comparison. -/
structure UnicodeTables where
  digit : Char → Bool
  letter : Char → Bool

/-- The tables that hold no rune at all; used to evaluate the scanner on ASCII text. -/
def asciiTables : UnicodeTables := ⟨fun _ => false, fun _ => false⟩

/-- Go `unicode.IsDigit`: up to `MaxLatin1` a rune is a digit iff it is `0`..`9`. -/
def IsDigit (T : UnicodeTables) (r : Char) : Bool :=
  if r.toNat ≤ 255 then decide (48 ≤ r.toNat ∧ r.toNat ≤ 57) else T.digit r

/-- Go `unicode.IsLetter`: an ASCII rune is a letter iff it is `a`..`z` or `A`..`Z`. -/
def IsLetter (T : UnicodeTables) (r : Char) : Bool :=
  if r.toNat < 128 then
    decide ((97 ≤ r.toNat ∧ r.toNat ≤ 122) ∨ (65 ≤ r.toNat ∧ r.toNat ≤ 90))
  else T.letter r

/-! ## Scanner -/

/-- The `scanner` struct: the unread runes of `reader`, the contents of `buf`,
the counters and the recorded error. -/
structure scanner where
  reader : List Char
  buf : List Char
  line : Nat
  pos : Nat
  err : Option Error
  deriving DecidableEq, Repr

/-- Go `newScanner`. -/
def newScanner (reader : List Char) : scanner :=
  { reader := reader, buf := [], line := 1, pos := 1, err := none }

/-- Go `isWhitespace`: space, tab and carriage return. -/
def isWhitespace (r : Char) : Bool :=
  if r = ' ' ∨ r = '\t' ∨ r = '\r' then true else false

/-- Go `lookup`: the three keywords, anything else is invalid. -/
def lookup (lit : List Char) : Token :=
  if lit = ['n', 'u', 'l', 'l'] then tokenNull
  else if lit = ['t', 'r', 'u', 'e'] then tokenTrue
  else if lit = ['f', 'a', 'l', 's', 'e'] then tokenFalse
  else tokenInvalid

/-- The test of `scanHex` on one rune. -/
def isHexDigit (r : Char) : Bool :=
  decide ((48 ≤ r.toNat ∧ r.toNat ≤ 57) ∨ (97 ≤ r.toNat ∧ r.toNat ≤ 102)
    ∨ (65 ≤ r.toNat ∧ r.toNat ≤ 70))

/-- The loop of `scanHex` with `n` rounds left, on the unread runes and the buffer;
returns the error, the buffer and the unread runes. -/
def scanHexLoop : Nat → List Char → List Char → Option Error × List Char × List Char
  | 0, rd, buf => (none, buf, rd)
  | _ + 1, [], buf => (some errEOF, buf, [])
  | n + 1, r :: rd, buf =>
    if isHexDigit r then scanHexLoop n rd (buf ++ [r])
    else (some (errorf ("encounter invalid hexadecimal digit:" ++ String.singleton r)), buf, rd)

/-- Go `scanner.scanHex`: four rounds. -/
def scanHex (s : scanner) : Option Error × scanner :=
  match scanHexLoop 4 s.reader s.buf with
  | (e, buf, rd) => (e, { s with reader := rd, buf := buf })

/-- The escape characters that `scanString` lets through with an empty `case`. -/
def isSimpleEscape (r : Char) : Bool :=
  if r = '"' ∨ r = '\\' ∨ r = '/' ∨ r = 'b' ∨ r = 'f' ∨ r = 'n' ∨ r = 'r' ∨ r = 't'
  then true else false

/-- The loop of `scanString` on the unread runes and the buffer. The call of `scanHex`
on `\u` is unrolled into the loop: the first argument counts the rounds `scanHex` has
left, and is 0 outside of it (`scanStringLoop_scanHex` relates it to `scanHexLoop`). -/
def scanStringLoop : Nat → List Char → List Char → Option Error × List Char × List Char
  | 0, [], buf => (none, buf, [])
  | 0, r :: rd, buf =>
    if r = '\\' then
      match rd with
      | [] => (some errEOF, buf ++ [r], [])
      | r2 :: rd2 =>
        if isSimpleEscape r2 then scanStringLoop 0 rd2 (buf ++ [r] ++ [r2])
        else if r2 = 'u' then scanStringLoop 4 rd2 (buf ++ [r] ++ [r2])
        else (some (errorf ("invalid escape sequence: " ++ String.singleton r2)), buf ++ [r], rd2)
    else if r = '"' then (none, buf, rd)
    else scanStringLoop 0 rd (buf ++ [r])
  | _ + 1, [], buf => (some errEOF, buf, [])
  | n + 1, r :: rd, buf =>
    if isHexDigit r then scanStringLoop n rd (buf ++ [r])
    else (some (errorf ("encounter invalid hexadecimal digit:" ++ String.singleton r)), buf, rd)

/-- Go `scanner.scanString`. -/
def scanString (s : scanner) : Option Error × scanner :=
  match scanStringLoop 0 s.reader s.buf with
  | (e, buf, rd) => (e, { s with reader := rd, buf := buf })

/-- The message of the three error returns of `scanFraction`. -/
def numericError (r : Char) : Error :=
  errorf ("invalid character:'" ++ String.singleton r ++ "' in numeric literal")

/-- The loop of `scanFraction` with its two flags. -/
def scanFractionLoop (T : UnicodeTables) :
    List Char → List Char → Bool → Bool → Option Error × List Char × List Char
  | [], buf, _, _ => (some errEOF, buf, [])
  | r :: rd, buf, sawE, sawSign =>
    if r = '-' ∨ r = '+' then
      if !sawSign then scanFractionLoop T rd (buf ++ [r]) sawE true
      else (some (numericError r), buf, rd)
    else if r = 'e' ∨ r = 'E' then
      if sawSign && !sawE then (some (numericError r), buf, rd)
      else if !sawE then scanFractionLoop T rd (buf ++ [r]) true sawSign
      else (some (numericError r), buf, rd)
    else if IsDigit T r then scanFractionLoop T rd (buf ++ [r]) sawE sawSign
    else (none, buf, r :: rd)

/-- Go `scanner.scanFraction`. -/
def scanFraction (T : UnicodeTables) (s : scanner) : Option Error × scanner :=
  match scanFractionLoop T s.reader s.buf false false with
  | (e, buf, rd) => (e, { s with reader := rd, buf := buf })

/-- The loop of `scanNumber`; on `.`, `e` or `E` it hands over to `scanFraction`. -/
def scanNumberLoop (T : UnicodeTables) :
    List Char → List Char → Option Error × List Char × List Char
  | [], buf => (none, buf, [])
  | r :: rd, buf =>
    if IsDigit T r then scanNumberLoop T rd (buf ++ [r])
    else if r = '.' then scanFractionLoop T rd (buf ++ [r]) false false
    else if r = 'e' ∨ r = 'E' then scanFractionLoop T rd (buf ++ [r]) false false
    else if !IsDigit T r then (none, buf, r :: rd)
    else scanNumberLoop T rd buf

/-- Go `scanner.scanNumber`. -/
def scanNumber (T : UnicodeTables) (s : scanner) : Option Error × scanner :=
  match scanNumberLoop T s.reader s.buf with
  | (e, buf, rd) => (e, { s with reader := rd, buf := buf })

/-- The loop of `scanIdent`. -/
def scanIdentLoop (T : UnicodeTables) :
    List Char → List Char → Option Error × List Char × List Char
  | [], buf => (some errEOF, buf, [])
  | r :: rd, buf =>
    if IsLetter T r then scanIdentLoop T rd (buf ++ [r])
    else (none, buf, r :: rd)

/-- Go `scanner.scanIdent`. -/
def scanIdent (T : UnicodeTables) (s : scanner) : Option Error × scanner :=
  match scanIdentLoop T s.reader s.buf with
  | (e, buf, rd) => (e, { s with reader := rd, buf := buf })

/-- The loop of `nextToken` over the unread runes; `s` carries the other fields. -/
def nextTokenLoop (T : UnicodeTables) : List Char → scanner → Token × List Char × scanner
  | [], s => (tokenEOF, [], { s with reader := [] })
  | r :: rd, s =>
    if isWhitespace r then nextTokenLoop T rd s
    else if r = '"' then
      match scanString { s with reader := rd, buf := [] } with
      | (some e, s1) =>
        if e = errEOF then (tokenEOF, [], s1)
        else (tokenInvalid, s1.buf, { s1 with err := some e })
      | (none, s1) => (tokenString, s1.buf, s1)
    else if r = ',' then (tokenComma, [','], { s with reader := rd })
    else if r = ':' then (tokenColon, [':'], { s with reader := rd })
    else if r = '{' then (tokenLBrace, ['{'], { s with reader := rd })
    else if r = '}' then (tokenRBrace, ['}'], { s with reader := rd })
    else if r = '[' then (tokenLBracket, ['['], { s with reader := rd })
    else if r = ']' then (tokenRBracket, [']'], { s with reader := rd })
    else if r = '\n' then nextTokenLoop T rd { s with line := s.line + 1 }
    else if IsDigit T r then
      match scanNumber T { s with reader := r :: rd, buf := [] } with
      | (some e, s1) =>
        if e = errEOF then (tokenEOF, [], s1)
        else (tokenInvalid, s1.buf, { s1 with err := some e })
      | (none, s1) => (tokenNumber, s1.buf, s1)
    else
      match scanIdent T { s with reader := r :: rd, buf := [] } with
      | (some _, s1) => (tokenEOF, [], s1)
      | (none, s1) => (lookup s1.buf, s1.buf, s1)

/-- Go `scanner.nextToken`: the token kind, its literal and the scanner afterwards. -/
def nextToken (T : UnicodeTables) (s : scanner) : Token × List Char × scanner :=
  nextTokenLoop T s.reader s

/-- The loop of `TestScanner`: `n` calls of `nextToken` in a row and what they return. -/
def scanTokens (T : UnicodeTables) : Nat → scanner → List (Token × List Char)
  | 0, _ => []
  | n + 1, s =>
    match nextToken T s with
    | (tok, lit, s1) => (tok, lit) :: scanTokens T n s1

/-! ## Value tree -/

/-- The six variants of `Value`. A Go `map[string]Value` is kept as the list of
its entries, one per key; the order is that of first insertion. -/
inductive Value where
  | JObject (values : List (List Char × Value))
  | JArray (elements : List Value)
  | JNumber (n : Int)
  | JString (s : List Char)
  | JBool (b : Bool)
  | JNull
  deriving Repr

open Value

/-- Map read `m[key]` with the comma-ok result. -/
def mapGet (m : List (List Char × Value)) (key : List Char) : Option Value :=
  match m with
  | [] => none
  | (k, v) :: rest => if k = key then some v else mapGet rest key

/-- Map write `m[key] = value`: overwrite the entry of `key` or add one. -/
def mapSet (m : List (List Char × Value)) (key : List Char) (value : Value) :
    List (List Char × Value) :=
  match m with
  | [] => [(key, value)]
  | (k, v) :: rest => if k = key then (k, value) :: rest else (k, v) :: mapSet rest key value

/-- Go `NewObject`. -/
def NewObject : List (List Char × Value) := []

/-- Go `NewArray`. -/
def NewArray : List Value := []

/-- Go `JArray.addValue`. -/
def addValue (elements : List Value) (v : Value) : List Value := elements ++ [v]

/-! ## strconv.Atoi -/

/-- The two failures of `strconv`: `ErrSyntax` and `ErrRange`. -/
inductive NumError where
  | ErrSyntax
  | ErrRange
  deriving DecidableEq, Repr

/-- The digit loop of `strconv.ParseUint` in base 10 at 64 bits, `n` being the value
read so far: a rune other than `0`..`9` is a syntax error with value 0, an overflow
is a range error with value `2^64-1`. -/
def parseUintLoop : List Char → Nat → Nat × Option NumError
  | [], n => (n, none)
  | c :: cs, n =>
    if 48 ≤ c.toNat ∧ c.toNat ≤ 57 then
      if n ≥ (2 ^ 64 - 1) / 10 + 1 then (2 ^ 64 - 1, some NumError.ErrRange)
      else
        let n1 := (n * 10 + (c.toNat - 48)) % 2 ^ 64
        if n1 < n * 10 ∨ n1 > 2 ^ 64 - 1 then (2 ^ 64 - 1, some NumError.ErrRange)
        else parseUintLoop cs n1
    else (0, some NumError.ErrSyntax)

/-- Go `strconv.ParseUint(s, 10, 64)`. -/
def ParseUint (s : List Char) : Nat × Option NumError :=
  if s = [] then (0, some NumError.ErrSyntax) else parseUintLoop s 0

/-- Go `strconv.ParseInt(s, 10, 0)` with 64-bit `int`: an optional sign, then
`ParseUint`; a value out of range is clamped to the nearest bound. -/
def ParseInt (s : List Char) : Int × Option NumError :=
  if s = [] then (0, some NumError.ErrSyntax)
  else
    let neg := s.head? = some '-'
    let body := if s.head? = some '+' ∨ s.head? = some '-' then s.tail else s
    match ParseUint body with
    | (_, some NumError.ErrSyntax) => (0, some NumError.ErrSyntax)
    | (un, e) =>
      if !neg ∧ un ≥ 2 ^ 63 then (2 ^ 63 - 1, some NumError.ErrRange)
      else if neg ∧ un > 2 ^ 63 then (-(2 ^ 63), some NumError.ErrRange)
      else (if neg then -(un : Int) else (un : Int), e)

/-- Go `strconv.Atoi`: "equivalent to ParseInt(s, 10, 0), converted to type int";
its fast path for short inputs computes the same value and the same failure. -/
def Atoi (s : List Char) : Int × Option NumError := ParseInt s

/-! ## Parser -/

/-- The `parser` struct: the scanner and the one token of lookahead. -/
structure parser where
  jscanner : scanner
  token : Token
  literal : List Char
  deriving DecidableEq, Repr

/-- Go `newParser`; `token` and `literal` start at their zero values. -/
def newParser (reader : List Char) : parser :=
  { jscanner := newScanner reader, token := tokenInvalid, literal := [] }

/-- Go `NewParser`: a parser on the runes of a string. -/
def NewParser (s : List Char) : parser := newParser s

/-- Go `parser.match`: on the expected kind read the next token and report true,
otherwise leave the parser as it is and report false. -/
def parser.matchToken (T : UnicodeTables) (p : parser) (token : Token) : Bool × parser :=
  if p.token = token then
    match nextToken T p.jscanner with
    | (tok, lit, s) => (true, { jscanner := s, token := tok, literal := lit })
  else (false, p)

/-- Go `parser.getErr`: a recorded scanner error goes before the given one. -/
def parser.getErr (p : parser) (err : Error) : Error :=
  match p.jscanner.err with
  | some e => e
  | none => err

/-- Go `parser.parseNumber`: `Atoi` with its error dropped, then `match(tokenNumber)`.
The error result is always nil. -/
def parser.parseNumber (T : UnicodeTables) (p : parser) : Value × parser :=
  let v := (Atoi p.literal).1
  (JNumber v, (p.matchToken T tokenNumber).2)

/-- What a production hands back: `(nil, err)` with `err` non-nil, or `(value, nil)`
with a value just built, and the parser afterwards. -/
abbrev Outcome := Except Error Value × parser

/-- The end of `parseObject`, after its loop: `match(tokenRBrace)` or the error. -/
def parser.parseObjectEnd (T : UnicodeTables) (obj : List (List Char × Value)) (p : parser) :
    Outcome :=
  match p.matchToken T tokenRBrace with
  | (false, p1) =>
    (.error (p1.getErr
      (errorf ("expect: key-value pair or '\x7d' got:" ++ String.mk p1.literal))), p1)
  | (true, p1) => (.ok (JObject obj), p1)

/-- The end of `parseArray`, after its loop: `match(tokenRBracket)` or the error. -/
def parser.parseArrayEnd (T : UnicodeTables) (array : List Value) (p : parser) : Outcome :=
  match p.matchToken T tokenRBracket with
  | (false, p1) => (.error (errorf ("expected:], got: " ++ String.mk p1.literal)), p1)
  | (true, p1) => (.ok (JArray array), p1)

mutual

/-- Go `parser.parseObject`; `none` when the recursion budget `fuel` is used up. -/
def parser.parseObject (T : UnicodeTables) : Nat → parser → Option Outcome
  | 0, _ => none
  | fuel + 1, p =>
    parser.parseObjectLoop T fuel NewObject (p.matchToken T tokenLBrace).2

/-- The `for` loop of `parseObject` followed by its closing check, `obj` being the
entries collected so far. -/
def parser.parseObjectLoop (T : UnicodeTables) :
    Nat → List (List Char × Value) → parser → Option Outcome
  | 0, _, _ => none
  | fuel + 1, obj, p =>
    if p.token ≠ tokenString then some (parser.parseObjectEnd T obj p)
    else
      let key := p.literal
      if (mapGet obj key).isSome then
        some (.error (errorf ("repeated key:" ++ String.mk key ++ " in object")), p)
      else
        let p1 := (p.matchToken T tokenString).2
        match p1.matchToken T tokenColon with
        | (false, p2) =>
          some (.error (p2.getErr (errorf ("expect: ':' got:" ++ String.mk p2.literal))), p2)
        | (true, p2) =>
          match parser.parseValues T fuel p2 with
          | none => none
          | some (.error err, p3) => some (.error err, p3)
          | some (.ok value, p3) =>
            let obj1 := mapSet obj key value
            if p3.token ≠ tokenComma then some (parser.parseObjectEnd T obj1 p3)
            else parser.parseObjectLoop T fuel obj1 (p3.matchToken T tokenComma).2

/-- Go `parser.parseValues`. -/
def parser.parseValues (T : UnicodeTables) : Nat → parser → Option Outcome
  | 0, _ => none
  | fuel + 1, p =>
    match p.token with
    | tokenLBrace => parser.parseObject T fuel p
    | tokenLBracket => parser.parseArray T fuel p
    | tokenString => some (.ok (JString p.literal), (p.matchToken T tokenString).2)
    | tokenNumber => some (.ok (p.parseNumber T).1, (p.parseNumber T).2)
    | tokenNull => some (.ok JNull, (p.matchToken T tokenNull).2)
    | tokenTrue => some (.ok (JBool true), (p.matchToken T tokenTrue).2)
    | tokenFalse => some (.ok (JBool false), (p.matchToken T tokenFalse).2)
    | tokenEOF => some (.error errEOF, p)
    | _ => some (.error (p.getErr
        (errorf "expect: STRING, NUMBER, TRUE, FALSE, NULL, \x7b, [")), p)

/-- Go `parser.parseArray`. -/
def parser.parseArray (T : UnicodeTables) : Nat → parser → Option Outcome
  | 0, _ => none
  | fuel + 1, p =>
    parser.parseArrayLoop T fuel NewArray (p.matchToken T tokenLBracket).2

/-- The `for` loop of `parseArray` followed by its closing check, `array` being the
elements collected so far: first the `switch` on the lookahead, then the comma test. -/
def parser.parseArrayLoop (T : UnicodeTables) :
    Nat → List Value → parser → Option Outcome
  | 0, _, _ => none
  | fuel + 1, array, p =>
    let afterSwitch : Option (Except Error (List Value) × parser) :=
      match p.token with
      | tokenNumber => some (.ok (addValue array (p.parseNumber T).1), (p.parseNumber T).2)
      | tokenString =>
        some (.ok (addValue array (JString p.literal)), (p.matchToken T tokenString).2)
      | tokenNull => some (.ok (addValue array JNull), (p.matchToken T tokenNull).2)
      | tokenTrue => some (.ok (addValue array (JBool true)), (p.matchToken T tokenTrue).2)
      | tokenFalse => some (.ok (addValue array (JBool false)), (p.matchToken T tokenFalse).2)
      | tokenLBrace =>
        match parser.parseObject T fuel p with
        | none => none
        | some (.error err, p1) => some (.error err, p1)
        | some (.ok v, p1) => some (.ok (addValue array v), p1)
      | tokenLBracket =>
        match parser.parseArray T fuel p with
        | none => none
        | some (.error err, p1) => some (.error err, p1)
        | some (.ok v, p1) => some (.ok (addValue array v), p1)
      | tokenEOF => some (.error errEOF, p)
      | _ => some (.ok array, p)
    match afterSwitch with
    | none => none
    | some (.error err, p1) => some (.error err, p1)
    | some (.ok array1, p1) =>
      if p1.token ≠ tokenComma then some (parser.parseArrayEnd T array1 p1)
      else parser.parseArrayLoop T fuel array1 (p1.matchToken T tokenComma).2

end

/-- The recursion budget given to `parse`: three per rune of input, and three more. -/
def parseFuel (p : parser) : Nat := 3 * p.jscanner.reader.length + 3

/-- Go `parser.parse`: the value result, the error result (either may be nil) and the
parser afterwards; `none` only if the recursion budget were exhausted. -/
def parser.parse (T : UnicodeTables) (p : parser) :
    Option (Option Value × Option Error × parser) :=
  match nextToken T p.jscanner with
  | (token, literal, s) =>
    let p1 : parser := { jscanner := s, token := token, literal := literal }
    match token with
    | tokenLBrace =>
      match parser.parseObject T (parseFuel p) p1 with
      | none => none
      | some (.error err, p2) => some (none, some err, p2)
      | some (.ok v, p2) => some (some v, none, p2)
    | tokenLBracket =>
      match parser.parseArray T (parseFuel p) p1 with
      | none => none
      | some (.error err, p2) => some (none, some err, p2)
      | some (.ok v, p2) => some (some v, none, p2)
    | tokenEOF => some (none, some errEOF, p1)
    | tokenInvalid => some (none, p1.jscanner.err, p1)
    | _ => some (none, some (errorf ("expected: '\x7b', '[' got: " ++ String.mk p1.literal)), p1)

/-- Go `ToValue`: `(nil, err)` when `parse` reports an error, `(value, nil)` otherwise. -/
def ToValue (T : UnicodeTables) (data : List Char) : Option (Option Value × Option Error) :=
  match parser.parse T (newParser data) with
  | none => none
  | some (_, some err, _) => some (none, some err)
  | some (value, none, _) => some (value, none)

/-! ## Serializer -/

/-- Go `strconv.Itoa`: the decimal rendering, with `-` in front of a negative number. -/
def Itoa (n : Int) : List Char :=
  if n < 0 then '-' :: Nat.toDigits 10 n.natAbs else Nat.toDigits 10 n.toNat

mutual

/-- Go `Value.accept` on a `nodeVisitor` whose buffer holds `buf`: the `walk` method
of the variant. `walkNumber` prints with `fmt.Sprint`, which uses the `String` method
of `JNumber`; `walkBool` prints with the verb `%t`; `walkNull` writes `null`. -/
def accept : Value → List Char → List Char
  | JObject values, buf => walkObject values values.length 0 (buf ++ ['{']) ++ ['}']
  | JArray elements, buf => walkArray elements elements.length 0 (buf ++ ['[']) ++ [']']
  | JString s, buf => buf ++ s
  | JNumber n, buf => buf ++ Itoa n
  | JBool true, buf => buf ++ ['t', 'r', 'u', 'e']
  | JBool false, buf => buf ++ ['f', 'a', 'l', 's', 'e']
  | JNull, buf => buf ++ ['n', 'u', 'l', 'l']

/-- The `for` loop of `walkObject` over the entries still to visit, `num` being
`len(obj.values)` and `i` the counter. Go leaves the order of a `range` over a map
open; here it is the order of the entry list. -/
def walkObject : List (List Char × Value) → Nat → Nat → List Char → List Char
  | [], _, _, buf => buf
  | (k, v) :: rest, num, i, buf =>
    let buf1 := accept v (buf ++ k ++ [':'])
    if (i : Int) = (num : Int) - 1 then buf1
    else walkObject rest num (i + 1) (buf1 ++ [','])

/-- The `for` loop of `walkArray` over the elements still to visit, `num` being
`len(array.elements)` and `i` the index. -/
def walkArray : List Value → Nat → Nat → List Char → List Char
  | [], _, _, buf => buf
  | v :: rest, num, i, buf =>
    let buf1 := accept v buf
    if (i : Int) = (num : Int) - 1 then buf1
    else walkArray rest num (i + 1) (buf1 ++ [','])

end

/-- Go `newNodeVisitor`: the buffer starts empty. -/
def newNodeVisitor : List Char := []

/-- Go `String()` of the six variants: objects and arrays through a new visitor, a
string as it is, a number through `Itoa`, then `true`, `false` and `null`. -/
def Value.String : Value → List Char
  | JObject values => accept (JObject values) newNodeVisitor
  | JArray elements => accept (JArray elements) newNodeVisitor
  | JString s => s
  | JNumber n => Itoa n
  | JBool true => ['t', 'r', 'u', 'e']
  | JBool false => ['f', 'a', 'l', 's', 'e']
  | JNull => ['n', 'u', 'l', 'l']

end hjson

namespace hjson

open Token Error Value

/-! ## Construction and access (`json.go`, the API section) -/

/-- The signed integer kinds that `converBaseType` handles. -/
inductive IntKind where
  | Int8
  | Int16
  | Int32
  | Int64
  | Int
  deriving DecidableEq, Repr

/-- The unsigned integer kinds that `converBaseType` handles. -/
inductive UintKind where
  | Uint8
  | Uint16
  | Uint32
  | Uint64
  | Uint
  deriving DecidableEq, Repr

/-- The width of a signed kind; `int` is 64 bits wide. -/
def IntKind.bits : IntKind → Nat
  | .Int8 => 8
  | .Int16 => 16
  | .Int32 => 32
  | .Int64 => 64
  | .Int => 64

/-- The width of an unsigned kind; `uint` is 64 bits wide. -/
def UintKind.bits : UintKind → Nat
  | .Uint8 => 8
  | .Uint16 => 16
  | .Uint32 => 32
  | .Uint64 => 64
  | .Uint => 64

/-- The two's complement value of width `w` that an integer is converted to. -/
def wrapSigned (w : Nat) (n : Int) : Int :=
  (n + 2 ^ (w - 1)) % 2 ^ w - 2 ^ (w - 1)

/-- A host value handed over as `interface{}`: the nil interface, a bool, a string, an
integer of one of the ten kinds (the integer `n` converted to that kind), or a value
of any other kind. -/
inductive HostValue where
  | nil
  | bool (b : Bool)
  | string (s : List Char)
  | int (k : IntKind) (n : Int)
  | uint (k : UintKind) (n : Nat)
  | other
  deriving DecidableEq, Repr

/-- Go `converBaseType`: the scalar variant and `true`, or `(nil, false)` for a value
of another kind. A signed integer goes through `v.Int()`, an unsigned one through
`v.Uint()`, and both are converted to the `int64` behind `JNumber`. -/
def converBaseType : HostValue → Option Value × Bool
  | .nil => (some JNull, true)
  | .bool b => (some (JBool b), true)
  | .string s => (some (JString s), true)
  | .int k n => (some (JNumber (wrapSigned 64 (wrapSigned k.bits n))), true)
  | .uint k n => (some (JNumber (wrapSigned 64 (n % 2 ^ k.bits))), true)
  | .other => (none, false)

/-- Go `toJSONValue` on the values that `converBaseType` converts. What it does with a
value of another kind (reflection over arrays, maps, slices, structs and pointers, a
panic otherwise) is not part of this model: the result is `none` there. -/
def toJSONValue (value : HostValue) : Option Value :=
  match converBaseType value with
  | (jv, true) => jv
  | (_, false) => none

/-- Go `AddArrayElement`: append the converted value. -/
def AddArrayElement (elements : List Value) (value : HostValue) : Option (List Value) :=
  match toJSONValue value with
  | some jv => some (elements ++ [jv])
  | none => none

/-- Go `AddValue`: `obj.values[key] = toJSONValue(value)`. The map is an allocated one,
as `NewObject` and the parser leave it. -/
def AddValue (obj : List (List Char × Value)) (key : List Char) (value : HostValue) :
    Option (List (List Char × Value)) :=
  match toJSONValue value with
  | some jv => some (mapSet obj key jv)
  | none => none

/-- Go `GetObjField`: the map read with its comma-ok result. -/
def GetObjField (obj : List (List Char × Value)) (key : List Char) : Option Value × Bool :=
  match mapGet obj key with
  | some v => (some v, true)
  | none => (none, false)

/-- The two ways `Index` stops with a panic: the `panic("")` of its guard, and the
run-time panic of the slice index expression `value.elements[index]`. -/
inductive Panic where
  | guard
  | indexOutOfRange (index : Int) (len : Nat)
  deriving DecidableEq, Repr

/-- Go `Index`: the guard lets `index = len` through; the slice index expression then
panics for every index that is not below the length. -/
def Index (elements : List Value) (index : Int) : Except Panic Value :=
  if index < 0 ∨ index > elements.length then .error Panic.guard
  else
    match elements[index.toNat]? with
    | some v => .ok v
    | none => .error (Panic.indexOutOfRange index elements.length)

end hjson

namespace hjson

open Token Error Value

/-- The runes that reach the `default` case of the `switch` in `nextToken`: not
whitespace, not a quote, not punctuation and not a line feed. -/
def isDefaultCase (r : Char) : Bool :=
  !isWhitespace r && r != '"' && r != ',' && r != ':' && r != '{' && r != '}'
    && r != '[' && r != ']' && r != '\n'

/-- Text that consists of ASCII runes only. -/
def asciiOnly (rd : List Char) : Prop := ∀ c ∈ rd, c.toNat < 128

/-! ## Measures used by the termination argument -/

/-- Whether a token kind stands for at least one rune taken from the input: every
kind but end-of-input and invalid does. -/
def consumes (t : Token) : Nat :=
  if t = tokenEOF ∨ t = tokenInvalid then 0 else 1

/-- The runes a parser has still to deal with: the unread input and the lookahead. -/
def parser.pending (p : parser) : Nat := p.jscanner.reader.length + consumes p.token

end hjson

namespace hjson

open Token Error Value

/-! ## The test helper `check` -/

mutual

/-- Go `check` of `parser_test.go`, true when it returns nil: the same type on both
sides, equal payloads for scalars (the test compares their `String()`, which tells two
scalars of one type apart), arrays of equal length compared element by element, objects
with equally many entries where every expected key is present with a checked value. -/
def check : Value → Value → Bool
  | JObject values, JObject gotValues =>
    decide (values.length = gotValues.length) && checkValues values gotValues
  | JArray elements, JArray gotElements =>
    decide (elements.length = gotElements.length) && checkElements elements gotElements
  | JNumber n, JNumber m => decide (n = m)
  | JString s, JString t => decide (s = t)
  | JBool b, JBool c => decide (b = c)
  | JNull, JNull => true
  | _, _ => false

/-- The loop of `check` over the elements of the array it got. -/
def checkElements : List Value → List Value → Bool
  | _, [] => true
  | [], _ :: _ => false
  | e :: es, g :: gs => check e g && checkElements es gs

/-- The loop of `check` over the entries of the expected object. -/
def checkValues : List (List Char × Value) → List (List Char × Value) → Bool
  | [], _ => true
  | (k, v) :: rest, gotValues =>
    (match mapGet gotValues k with
      | none => false
      | some e => check v e) && checkValues rest gotValues

end

/-! ## JSON text -/

/-- A token as the scanner hands it over: kind and literal. -/
abbrev Tok := Token × List Char

mutual

/-- The tokens of the JSON text of a value: integers in decimal, strings and keys
as string tokens, `:` after a key, `,` between members and between elements. -/
def tokensOf : Value → List Tok
  | JObject values => (tokenLBrace, ['{']) :: (memberTokens values ++ [(tokenRBrace, ['}'])])
  | JArray elements =>
    (tokenLBracket, ['[']) :: (elementTokens elements ++ [(tokenRBracket, [']'])])
  | JNumber n => [(tokenNumber, Nat.toDigits 10 n.toNat)]
  | JString s => [(tokenString, s)]
  | JBool true => [(tokenTrue, ['t', 'r', 'u', 'e'])]
  | JBool false => [(tokenFalse, ['f', 'a', 'l', 's', 'e'])]
  | JNull => [(tokenNull, ['n', 'u', 'l', 'l'])]

/-- The tokens of the members of an object, separated by commas. -/
def memberTokens : List (List Char × Value) → List Tok
  | [] => []
  | [(k, v)] => (tokenString, k) :: (tokenColon, [':']) :: tokensOf v
  | (k, v) :: m :: rest =>
    (tokenString, k) :: (tokenColon, [':']) :: (tokensOf v
      ++ (tokenComma, [',']) :: memberTokens (m :: rest))

/-- The tokens of the elements of an array, separated by commas. -/
def elementTokens : List Value → List Tok
  | [] => []
  | [v] => tokensOf v
  | v :: w :: rest => tokensOf v ++ (tokenComma, [',']) :: elementTokens (w :: rest)

end

/-- How a token is written: a string between double quotes, the others as they are. -/
def tokenText (t : Tok) : List Char :=
  if t.1 = tokenString then '"' :: (t.2 ++ ['"']) else t.2

/-- The characters allowed between tokens: space, tab, carriage return, line feed. -/
def isSpace (c : Char) : Bool := isWhitespace c || c == '\n'

/-- Every gap consists of whitespace and line feeds only. -/
def allSpace (gaps : List (List Char)) : Prop := ∀ ws ∈ gaps, ∀ c ∈ ws, isSpace c = true

/-- The text made of the given tokens with the given gaps: the first gap before the
first token, the next between the first and the second, and so on; when the gaps
run out the remaining tokens follow each other directly. -/
def spaced : List (List Char) → List Tok → List Char
  | [], [] => []
  | ws :: _, [] => ws
  | [], t :: ts => tokenText t ++ spaced [] ts
  | ws :: gaps, t :: ts => ws ++ (tokenText t ++ spaced gaps ts)

mutual

/-- The trees of claim C2: integers within `0 .. 2^63-1`, strings and keys without a
double quote or a backslash, and pairwise distinct keys in every object. -/
def plainTree : Value → Bool
  | JObject values => plainMembers values && decide ((values.map Prod.fst).Nodup)
  | JArray elements => plainElements elements
  | JNumber n => decide (0 ≤ n ∧ n ≤ 2 ^ 63 - 1)
  | JString s => decide ('"' ∉ s ∧ '\\' ∉ s)
  | JBool _ => true
  | JNull => true

/-- `plainTree` for the members of an object. -/
def plainMembers : List (List Char × Value) → Bool
  | [] => true
  | (k, v) :: rest => decide ('"' ∉ k ∧ '\\' ∉ k) && plainTree v && plainMembers rest

/-- `plainTree` for the elements of an array. -/
def plainElements : List Value → Bool
  | [] => true
  | v :: rest => plainTree v && plainElements rest

end

/-- A non-empty run of ASCII digits. -/
def digitRun (ds : List Char) : Prop := ds ≠ [] ∧ ∀ c ∈ ds, 48 ≤ c.toNat ∧ c.toNat ≤ 57

/-- A numeric literal: the integer digits, then maybe `.` and fraction digits, then
maybe an exponent marker, maybe a sign, and exponent digits. -/
def numericLiteral (int : List Char) (frac : Option (List Char))
    (exp : Option (Char × Option Char × List Char)) : List Char :=
  int ++ ((match frac with
    | none => []
    | some f => '.' :: f) ++ (match exp with
    | none => []
    | some (e, sign, ds) => e :: (sign.toList ++ ds)))

/-- The eight shapes D, D.D, DeD, De+D, De-D, D.DeD, D.De+D, D.De-D: every D a non-empty
run of ASCII digits, the marker `e` or `E`, the sign `+` or `-`. -/
def numericShape (int : List Char) (frac : Option (List Char))
    (exp : Option (Char × Option Char × List Char)) : Prop :=
  digitRun int ∧ (∀ f, frac = some f → digitRun f) ∧
    ∀ e sign ds, exp = some (e, sign, ds) →
      (e = 'e' ∨ e = 'E') ∧ (∀ c, sign = some c → c = '+' ∨ c = '-') ∧ digitRun ds

/-- The bodies of string literals that `scanString` accepts: runes other than the
double quote and the backslash, a backslash with one of the eight escape characters,
and `\u` with four hexadecimal digits. -/
inductive StringBody : List Char → Prop where
  | nil : StringBody []
  | plain (c : Char) (rest : List Char) :
      c ≠ '"' → c ≠ '\\' → StringBody rest → StringBody (c :: rest)
  | escape (e : Char) (rest : List Char) :
      isSimpleEscape e = true → StringBody rest → StringBody ('\\' :: e :: rest)
  | unicode (h1 h2 h3 h4 : Char) (rest : List Char) :
      isHexDigit h1 = true → isHexDigit h2 = true → isHexDigit h3 = true →
      isHexDigit h4 = true → StringBody rest →
      StringBody ('\\' :: 'u' :: h1 :: h2 :: h3 :: h4 :: rest)

mutual

/-- The trees whose `String()` is JSON text: no string, no object member (a string and
a key are written without quotes), and integers within `0 .. 2^63-1` (a `-` starts no
number token). -/
def bareTree : Value → Bool
  | JObject values => values.isEmpty
  | JArray elements => bareElements elements
  | JNumber n => decide (0 ≤ n ∧ n ≤ 2 ^ 63 - 1)
  | JString _ => false
  | JBool _ => true
  | JNull => true

/-- `bareTree` for the elements of an array. -/
def bareElements : List Value → Bool
  | [] => true
  | v :: rest => bareTree v && bareElements rest

end

mutual

/-- Every object of the tree has pairwise distinct keys. -/
def distinctKeys : Value → Bool
  | JObject values => decide ((values.map Prod.fst).Nodup) && distinctMembers values
  | JArray elements => distinctElements elements
  | _ => true

/-- `distinctKeys` for the values of the members of an object. -/
def distinctMembers : List (List Char × Value) → Bool
  | [] => true
  | (_, v) :: rest => distinctKeys v && distinctMembers rest

/-- `distinctKeys` for the elements of an array. -/
def distinctElements : List Value → Bool
  | [] => true
  | v :: rest => distinctKeys v && distinctElements rest

end

/-- The root is an object or an array. -/
def isContainer : Value → Bool
  | JObject _ => true
  | JArray _ => true
  | _ => false

/-- The tokens the scanner can return on input without escapes: punctuation with
its own character as literal, strings without a double quote or a backslash, numbers
that are a non-empty run of ASCII digits, and the three keywords. -/
def wellFormedTok (t : Tok) : Bool :=
  match t.1 with
  | tokenComma => decide (t.2 = [','])
  | tokenColon => decide (t.2 = [':'])
  | tokenLBrace => decide (t.2 = ['{'])
  | tokenRBrace => decide (t.2 = ['}'])
  | tokenLBracket => decide (t.2 = ['['])
  | tokenRBracket => decide (t.2 = [']'])
  | tokenString => decide ('"' ∉ t.2 ∧ '\\' ∉ t.2)
  | tokenNumber => decide (t.2 ≠ [] ∧ ∀ c ∈ t.2, 48 ≤ c.toNat ∧ c.toNat ≤ 57)
  | tokenNull => decide (t.2 = ['n', 'u', 'l', 'l'])
  | tokenTrue => decide (t.2 = ['t', 'r', 'u', 'e'])
  | tokenFalse => decide (t.2 = ['f', 'a', 'l', 's', 'e'])
  | _ => false

/-- Numbers and keywords: the tokens whose end is only seen at the next rune. -/
def isWord (t : Tok) : Bool :=
  decide (t.1 = tokenNumber ∨ t.1 = tokenNull ∨ t.1 = tokenTrue ∨ t.1 = tokenFalse)

/-- The tokens that follow a value inside an array or an object. -/
def isSeparator (t : Tok) : Bool :=
  decide (t.1 = tokenComma ∨ t.1 = tokenRBrace ∨ t.1 = tokenRBracket)

/-- The token list begins with a separator. -/
def startsWithSeparator : List Tok → Bool
  | [] => false
  | t :: _ => isSeparator t

/-- Every number and keyword of the token list is followed by a separator. -/
def delimited : List Tok → Bool
  | [] => true
  | t :: ts => (!isWord t || startsWithSeparator ts) && delimited ts

/-- The text begins with a rune that ends a number or a keyword: whitespace, a line
feed, `,`, `]` or `}`. -/
def startsWithDelimiter : List Char → Bool
  | [] => false
  | c :: _ => isSpace c || c == ',' || c == ']' || c == '}'

/-- A tree that is written as a single token. -/
def isScalar : Value → Bool
  | JObject _ => false
  | JArray _ => false
  | _ => true

/-- The parser whose lookahead is the next token of scanner `s`: what `parse` sets up
first and what every successful `match` leaves. -/
def parser.load (T : UnicodeTables) (s : scanner) : parser :=
  match nextToken T s with
  | (tok, lit, s1) => { jscanner := s1, token := tok, literal := lit }

/-- Go `parser.match` when it succeeds: the lookahead is replaced by the next token. -/
def parser.advance (T : UnicodeTables) (p : parser) : parser :=
  (p.matchToken T p.token).2

/-- The lookahead of the parser and the tokens its scanner delivers after it are the
given ones, in this order. -/
def parser.reads (T : UnicodeTables) : parser → List Tok → Prop
  | _, [] => True
  | p, t :: ts => p.token = t.1 ∧ p.literal = t.2 ∧ parser.reads T (p.advance T) ts

/-- The parser gets the tree `v` from the tokens of `v`: with the first of them as
lookahead and the others coming, `parseValues` returns `v` with enough budget and
leaves the parser on what follows. -/
def ParsesTree (T : UnicodeTables) (v : Value) : Prop :=
  ∀ (p : parser) (rest : List Tok), p.reads T (tokensOf v ++ rest) →
    ∃ n p1, parser.parseValues T n p = some (.ok v, p1) ∧ p1.reads T rest

end hjson

namespace hjson

open Token Error Value

/-! ## The compact rendering -/

/-- The decimal digits of an integer, with `-` in front of a negative one. -/
def decimal (n : Int) : List Char :=
  (if n < 0 then ['-'] else []) ++ Nat.toDigits 10 n.natAbs

mutual

/-- The compact rendering of a tree: `null`, `true`, `false`, the decimal digits, the
string payload as it is, `[` elements `]` and `{` members `}`. -/
def render : Value → List Char
  | JNull => ['n', 'u', 'l', 'l']
  | JBool b => if b then ['t', 'r', 'u', 'e'] else ['f', 'a', 'l', 's', 'e']
  | JNumber n => decimal n
  | JString s => s
  | JArray es => ['['] ++ renderElements es ++ [']']
  | JObject ms => ['\x7b'] ++ renderMembers ms ++ ['\x7d']

/-- The renderings of the elements in order, joined by `,`. -/
def renderElements : List Value → List Char
  | [] => []
  | v :: rest => render v ++ (if rest.isEmpty then [] else ',' :: renderElements rest)

/-- The members as `key:value` in order, joined by `,`. -/
def renderMembers : List (List Char × Value) → List Char
  | [] => []
  | (k, v) :: rest =>
    k ++ [':'] ++ render v ++ (if rest.isEmpty then [] else ',' :: renderMembers rest)

end

/-- A tree for the rendering: `{a:1,b:[true,null,-7],c:{}}` with the string `x y`
as the last member. -/
def renderSample : Value :=
  JObject [(['a'], JNumber 1), (['b'], JArray [JBool true, JNull, JNumber (-7)]),
    (['c'], JObject []), (['d'], JString ['x', ' ', 'y'])]

end hjson

namespace hjson

open Token Error Value

/-! ## Example data -/

/-- The array of `TestParseArray`. -/
def testArray : Value :=
  JArray [JNull, JBool true, JBool false, JString ['k', 'e', 'y'], JString ['k', 'e', 'y'],
    JArray [JNumber 1, JNumber 2], JObject [(['k', 'e', 'y'], JString ['h', 'e', 'l', 'l', 'o'])]]

/-- The gaps of the text of `TestParseArray`: a blank after some of the commas. -/
def testArrayGaps : List (List Char) :=
  [[], [], [], [], [], [' '], [], [' '], [], [' '], [], [], [], [], [' ']]

/-- A tree without strings and members: `[null,true,[1,2,\x7b\x7d],[],2^63-1]`. -/
def bareTestArray : Value :=
  JArray [JNull, JBool true, JArray [JNumber 1, JNumber 2, JObject []], JArray [],
    JNumber 9223372036854775807]

/-- The string body of the escape test as it is written in the source text, 18 runes:
`\"\\ha\/\b\f\n\r\t`. -/
def escapeBody : List Char :=
  ['\\', '"', '\\', '\\', 'h', 'a', '\\', '/', '\\', 'b', '\\', 'f', '\\', 'n', '\\', 'r',
    '\\', 't']

/-- The ten runes that decoding the escapes of `escapeBody` would give: double quote,
backslash, `h`, `a`, slash, backspace, form feed, line feed, carriage return, tab. -/
def escapeDecoded : List Char :=
  ['"', '\\', 'h', 'a', '/', Char.ofNat 8, Char.ofNat 12, '\n', '\r', '\t']

/-- The document of the escape test: the object with the one key `key` and the string
literal of `escapeBody` as its value. -/
def escapeDocument : List Char :=
  ['{', '"', 'k', 'e', 'y', '"', ':', '"'] ++ escapeBody ++ ['"', '}']

/-- Two members with distinct keys: `"a":1` and `"b":[2]`. -/
def repeatedKeyMembers : List (List Char × Value) :=
  [(['a'], JNumber 1), (['b'], JArray [JNumber 2])]

/-- The gaps of the text `\x7b"a":1 , "b":[2] , "a"`: a blank on both sides of the
two commas between members. -/
def repeatedKeyGaps : List (List Char) :=
  [[], [], [], [], [' '], [' '], [], [], [], [], [' '], [' ']]

end hjson

namespace hjson

open Token Error Value

/-! ## Building an object by a sequence of `AddValue` calls -/

/-- The loop of `TestAddValue`: one `AddValue` per key and host value, in order. -/
def addEach : List (List Char × Value) → List (List Char × HostValue) →
    Option (List (List Char × Value))
  | obj, [] => some obj
  | obj, (k, v) :: rest =>
    match AddValue obj k v with
    | some obj1 => addEach obj1 rest
    | none => none

/-- Three `AddValue` calls, the third on the key of the first. -/
def addSample : List (List Char × HostValue) :=
  [(['a'], HostValue.int IntKind.Int 1), (['b'], HostValue.bool true),
    (['a'], HostValue.string ['x'])]

end hjson

namespace hjson

open Token Error Value

/-! ## The value of a run of digits -/

/-- The number denoted by the digits `ds` read after the value `n`. -/
def decimalFrom (n : Nat) (ds : List Char) : Nat :=
  ds.foldl (fun a c => a * 10 + (c.toNat - 48)) n

/-- The number denoted by a run of decimal digits. -/
def decimalValue (ds : List Char) : Nat := decimalFrom 0 ds

end hjson

namespace hjson

open Token Error Value

/-! ## Sample inputs -/

/-- The body of the string literal `"k\"ey"` of `TestScanner`: five runes. -/
def quoteBody : List Char := ['k', '\\', '"', 'e', 'y']

/-- The second document of `TestScanner`. -/
def quoteDocument : List Char :=
  "\x7b\"xx\":\"k\\\"ey\", \"value\":[1, 2, true, null]\x7d".toList

/-- A string body with a `\u` escape: seven runes. -/
def unicodeBody : List Char := ['\\', 'u', '0', '0', 'e', '9', 'x']

/-- A parser whose lookahead is a number token with the given literal. -/
def numberLookahead (lit : List Char) : parser :=
  { jscanner := newScanner [']'], token := tokenNumber, literal := lit }

end hjson

namespace hjson

open Token Error Value

/-! ## Input that goes on behind what a scanner holds -/

/-- The scanner with more input behind its unread runes. -/
def scanner.extend (s : scanner) (rest : List Char) : scanner :=
  { s with reader := s.reader ++ rest }

/-- The parser with more input behind the unread runes of its scanner. -/
def parser.extend (p : parser) (rest : List Char) : parser :=
  { p with jscanner := p.jscanner.extend rest }

/-- The input is used up and the lookahead was read at its very end: it is the
end-of-input token, a string that met the end in place of its closing quote, or a
number that met the end in place of a delimiter. -/
def parser.dead (p : parser) : Prop :=
  p.jscanner.reader = [] ∧
    (p.token = tokenEOF ∨ p.token = tokenString ∨ p.token = tokenNumber)

/-- The text ends with `\x7d` or `]`. -/
def endsWithCloser (text : List Char) : Prop :=
  ∃ front c, text = front ++ [c] ∧ (c = '\x7d' ∨ c = ']')

end hjson

namespace hjson

open Token Error Value

/-- A production run on a piece of the input and on the whole of it: whenever the run on
the piece returns a value, the run on the whole input returns the same value, and the
two lookaheads afterwards are loaded from the same scanner, without and with the rest of
the input behind it. -/
def cutStable (T : UnicodeTables) (rest : List Char) (f : parser → Option Outcome) : Prop :=
  ∀ (s : scanner) (v : Value) (p1 : parser), f (parser.load T s) = some (.ok v, p1) →
    ∃ s1, p1 = parser.load T s1 ∧
      f (parser.load T (s.extend rest)) = some (.ok v, parser.load T (s1.extend rest))

/-- The same for `parseValues`, which can also return a string or a number that was
read at the very end of the piece. -/
def cutStableValue (T : UnicodeTables) (rest : List Char) (f : parser → Option Outcome) :
    Prop :=
  ∀ (s : scanner) (v : Value) (p1 : parser), f (parser.load T s) = some (.ok v, p1) →
    p1.dead ∨ ∃ s1, p1 = parser.load T s1 ∧
      f (parser.load T (s.extend rest)) = some (.ok v, parser.load T (s1.extend rest))

end hjson

namespace hjson

open Token Error Value

/-- A document with an escape, a fraction with an exponent and a keyword:
`\x7b"k":["a\n",1.5e+2,true]\x7d`. -/
def truncatedDocument : List Char := "\x7b\"k\":[\"a\\n\",1.5e+2,true]\x7d".toList

/-- The first nine runes of `truncatedDocument`: it stops behind the backslash. -/
def truncatedPiece : List Char := truncatedDocument.take 9

/-- What `truncatedPiece` leaves of `truncatedDocument`. -/
def truncatedRest : List Char := truncatedDocument.drop 9

end hjson

namespace hjson

open Token Error Value

/-! ## Integers of a tree -/

mutual

/-- Every Integer node of the tree is at least 0. -/
def nonNegative : Value → Bool
  | JObject values => nonNegativeMembers values
  | JArray elements => nonNegativeElements elements
  | JNumber n => decide (0 ≤ n)
  | _ => true

/-- `nonNegative` for the values of the members of an object. -/
def nonNegativeMembers : List (List Char × Value) → Bool
  | [] => true
  | (_, v) :: rest => nonNegative v && nonNegativeMembers rest

/-- `nonNegative` for the elements of an array. -/
def nonNegativeElements : List Value → Bool
  | [] => true
  | v :: rest => nonNegative v && nonNegativeElements rest

end

/-- The lookahead, when it is a number token, has a literal that does not begin
with `-`. -/
def parser.unsignedNumber (p : parser) : Prop :=
  p.token = tokenNumber → p.literal.head? ≠ some '-'

/-! ## Texts in which a key comes twice -/

mutual

/-- The trees that stand for JSON text in which a key may come more than once among
the members of an object: integers within `0 .. 2^63-1`, strings and keys without a
double quote or a backslash. The members of an object are listed as they are written,
repeated keys included. -/
def rawTree : Value → Bool
  | JObject values => rawMembers values
  | JArray elements => rawElements elements
  | JNumber n => decide (0 ≤ n ∧ n ≤ 2 ^ 63 - 1)
  | JString s => decide ('"' ∉ s ∧ '\\' ∉ s)
  | JBool _ => true
  | JNull => true

/-- `rawTree` for the members of an object. -/
def rawMembers : List (List Char × Value) → Bool
  | [] => true
  | (k, v) :: rest => decide ('"' ∉ k ∧ '\\' ∉ k) && rawTree v && rawMembers rest

/-- `rawTree` for the elements of an array. -/
def rawElements : List Value → Bool
  | [] => true
  | v :: rest => rawTree v && rawElements rest

end

mutual

/-- The first place, in reading order, where a key is written that is already a key of
an earlier member of the same object, at any depth of the tree: the tokens of the tree
up to and including this key, and the key. `none` when no object of the tree has a key
twice. -/
def repeatCut : Value → Option (List Tok × List Char)
  | JObject values =>
    (repeatCutMembers [] values).map fun c => ((tokenLBrace, ['{']) :: c.1, c.2)
  | JArray elements =>
    (repeatCutElements elements).map fun c => ((tokenLBracket, ['[']) :: c.1, c.2)
  | _ => none

/-- `repeatCut` for the members of an object that follow members with the keys `seen`:
the key of the next member is in `seen`, or the value of this member has the first
repeat, or the repeat comes in a later member. -/
def repeatCutMembers : List (List Char) → List (List Char × Value) →
    Option (List Tok × List Char)
  | _, [] => none
  | seen, (k, v) :: rest =>
    if k ∈ seen then some ([(tokenString, k)], k)
    else
      match repeatCut v with
      | some c => some ((tokenString, k) :: (tokenColon, [':']) :: c.1, c.2)
      | none =>
        (repeatCutMembers (seen ++ [k]) rest).map fun c =>
          ((tokenString, k) :: (tokenColon, [':']) :: (tokensOf v
            ++ (tokenComma, [',']) :: c.1), c.2)

/-- `repeatCut` for the elements of an array. -/
def repeatCutElements : List Value → Option (List Tok × List Char)
  | [] => none
  | v :: rest =>
    match repeatCut v with
    | some c => some c
    | none =>
      (repeatCutElements rest).map fun c => (tokensOf v ++ (tokenComma, [',']) :: c.1, c.2)

end

/-- A tree with a key twice in an object two levels down:
`\x7b"x":[7,\x7b"a":1,"b":[],"a":2\x7d],"y":null\x7d`. -/
def nestedRepeat : Value :=
  JObject [(['x'], JArray [JNumber 7,
      JObject [(['a'], JNumber 1), (['b'], JArray []), (['a'], JNumber 2)]]),
    (['y'], JNull)]

/-- The gaps of the text `\x7b "x" : [7, \x7b"a":1,"b":[],"a"`: a blank after the
opening brace, on both sides of the first colon and after the first comma. -/
def nestedRepeatGaps : List (List Char) :=
  [[], [' '], [' '], [' '], [], [], [' ']]

end hjson

namespace hjson

open Token Error Value

/-! ## The scanner never reads backwards -/

/-- The unrolled `scanHex` rounds inside `scanStringLoop` are `scanHexLoop`: an error
of `scanHex` ends the string scan, otherwise the loop goes on where `scanHex` stopped. -/
theorem scanStringLoop_scanHex (n : Nat) (rd buf : List Char) :
    scanStringLoop n rd buf =
      match scanHexLoop n rd buf with
      | (some e, b, rd1) => (some e, b, rd1)
      | (none, b, rd1) => scanStringLoop 0 rd1 b := by
  induction n generalizing rd buf with
  | zero => simp [scanHexLoop]
  | succ n ih =>
    cases rd with
    | nil => simp [scanHexLoop, scanStringLoop]
    | cons r rd =>
      simp only [scanStringLoop, scanHexLoop]
      split_ifs
      · exact ih _ _
      · rfl

theorem scanStringLoop_length (n : Nat) (rd buf : List Char) :
    (scanStringLoop n rd buf).2.2.length ≤ rd.length := by
  induction n, rd, buf using scanStringLoop.induct with
  | case1 buf => simp [scanStringLoop]
  | case2 buf => simp [scanStringLoop]
  | case3 buf r2 rd2 h ih =>
    rw [scanStringLoop.eq_def]; simp only [h, if_true]
    exact Nat.le_succ_of_le (Nat.le_succ_of_le ih)
  | case4 buf rd2 h ih =>
    rw [scanStringLoop.eq_def]; simp only [h, if_true]
    exact Nat.le_succ_of_le (Nat.le_succ_of_le ih)
  | case5 buf r2 rd2 h1 h2 =>
    rw [scanStringLoop.eq_def]; simp [h1, h2]; omega
  | case6 rd buf h =>
    rw [scanStringLoop.eq_def]; simp
  | case7 r rd buf h1 h2 ih =>
    rw [scanStringLoop.eq_def]; simp only [h1, h2, if_false]
    exact Nat.le_succ_of_le ih
  | case8 n buf => simp [scanStringLoop]
  | case9 n r rd buf h ih =>
    rw [scanStringLoop.eq_def]; simp only [h, if_true]
    exact Nat.le_succ_of_le ih
  | case10 n r rd buf h =>
    rw [scanStringLoop.eq_def]; simp [h]

theorem scanFractionLoop_length (T : UnicodeTables) (rd buf : List Char) (sawE sawSign : Bool) :
    (scanFractionLoop T rd buf sawE sawSign).2.2.length ≤ rd.length := by
  induction rd generalizing buf sawE sawSign with
  | nil => simp [scanFractionLoop]
  | cons r rd ih =>
    rw [scanFractionLoop.eq_def]
    simp only []
    split_ifs <;> first
      | exact Nat.le_succ_of_le (ih _ _ _)
      | simp

theorem scanNumberLoop_length (T : UnicodeTables) (rd buf : List Char) :
    (scanNumberLoop T rd buf).2.2.length ≤ rd.length := by
  induction rd generalizing buf with
  | nil => simp [scanNumberLoop]
  | cons r rd ih =>
    rw [scanNumberLoop.eq_def]
    simp only []
    split_ifs <;> first
      | exact Nat.le_succ_of_le (ih _)
      | exact Nat.le_succ_of_le (scanFractionLoop_length T _ _ _ _)
      | simp

/-- A number scan that starts on a digit takes at least that digit. -/
theorem scanNumberLoop_length_digit (T : UnicodeTables) (r : Char) (rd buf : List Char)
    (h : IsDigit T r = true) : (scanNumberLoop T (r :: rd) buf).2.2.length ≤ rd.length := by
  rw [scanNumberLoop.eq_def]
  simp only [h, if_true]
  exact scanNumberLoop_length T _ _

/-- An identifier scan moves runes from the input to the buffer, one for one. -/
theorem scanIdentLoop_length (T : UnicodeTables) (rd buf : List Char) :
    (scanIdentLoop T rd buf).2.2.length + (scanIdentLoop T rd buf).2.1.length
      = rd.length + buf.length := by
  induction rd generalizing buf with
  | nil => simp [scanIdentLoop]
  | cons r rd ih =>
    rw [scanIdentLoop.eq_def]
    simp only []
    split_ifs
    · rw [ih]; simp; omega
    · simp

theorem lookup_consumes (lit : List Char) : consumes (lookup lit) ≤ lit.length := by
  unfold lookup consumes
  split_ifs <;> simp_all

/-! ### One step of `nextToken` -/

theorem nextTokenLoop_nil (T : UnicodeTables) (s : scanner) :
    nextTokenLoop T [] s = (tokenEOF, [], { s with reader := [] }) := by
  rw [nextTokenLoop.eq_def]

theorem nextTokenLoop_ws (T : UnicodeTables) (r : Char) (rd : List Char) (s : scanner)
    (h : isWhitespace r = true) : nextTokenLoop T (r :: rd) s = nextTokenLoop T rd s := by
  rw [nextTokenLoop.eq_def]; simp only [h, if_true]

theorem nextTokenLoop_nl (T : UnicodeTables) (rd : List Char) (s : scanner) :
    nextTokenLoop T ('\n' :: rd) s = nextTokenLoop T rd { s with line := s.line + 1 } := by
  rw [nextTokenLoop.eq_def]; simp [isWhitespace]

theorem nextTokenLoop_quote (T : UnicodeTables) (rd : List Char) (s : scanner) :
    nextTokenLoop T ('"' :: rd) s =
      match scanString { s with reader := rd, buf := [] } with
      | (some e, s1) =>
        if e = errEOF then (tokenEOF, [], s1)
        else (tokenInvalid, s1.buf, { s1 with err := some e })
      | (none, s1) => (tokenString, s1.buf, s1) := by
  rw [nextTokenLoop.eq_def]; simp [isWhitespace] <;> rfl

theorem nextTokenLoop_comma (T : UnicodeTables) (rd : List Char) (s : scanner) :
    nextTokenLoop T (',' :: rd) s = (tokenComma, [','], { s with reader := rd }) := by
  rw [nextTokenLoop.eq_def]; simp [isWhitespace]

theorem nextTokenLoop_colon (T : UnicodeTables) (rd : List Char) (s : scanner) :
    nextTokenLoop T (':' :: rd) s = (tokenColon, [':'], { s with reader := rd }) := by
  rw [nextTokenLoop.eq_def]; simp [isWhitespace]

theorem nextTokenLoop_lbrace (T : UnicodeTables) (rd : List Char) (s : scanner) :
    nextTokenLoop T ('{' :: rd) s = (tokenLBrace, ['{'], { s with reader := rd }) := by
  rw [nextTokenLoop.eq_def]; simp [isWhitespace]

theorem nextTokenLoop_rbrace (T : UnicodeTables) (rd : List Char) (s : scanner) :
    nextTokenLoop T ('}' :: rd) s = (tokenRBrace, ['}'], { s with reader := rd }) := by
  rw [nextTokenLoop.eq_def]; simp [isWhitespace]

theorem nextTokenLoop_lbracket (T : UnicodeTables) (rd : List Char) (s : scanner) :
    nextTokenLoop T ('[' :: rd) s = (tokenLBracket, ['['], { s with reader := rd }) := by
  rw [nextTokenLoop.eq_def]; simp [isWhitespace]

theorem nextTokenLoop_rbracket (T : UnicodeTables) (rd : List Char) (s : scanner) :
    nextTokenLoop T (']' :: rd) s = (tokenRBracket, [']'], { s with reader := rd }) := by
  rw [nextTokenLoop.eq_def]; simp [isWhitespace]

theorem nextTokenLoop_default (T : UnicodeTables) (r : Char) (rd : List Char) (s : scanner)
    (h : isDefaultCase r = true) :
    nextTokenLoop T (r :: rd) s =
      if IsDigit T r then
        match scanNumber T { s with reader := r :: rd, buf := [] } with
        | (some e, s1) =>
          if e = errEOF then (tokenEOF, [], s1)
          else (tokenInvalid, s1.buf, { s1 with err := some e })
        | (none, s1) => (tokenNumber, s1.buf, s1)
      else
        match scanIdent T { s with reader := r :: rd, buf := [] } with
        | (some _, s1) => (tokenEOF, [], s1)
        | (none, s1) => (lookup s1.buf, s1.buf, s1) := by
  simp only [isDefaultCase, Bool.and_eq_true, Bool.not_eq_true', bne_iff_ne, ne_eq] at h
  obtain ⟨⟨⟨⟨⟨⟨⟨⟨h1, h2⟩, h3⟩, h4⟩, h5⟩, h6⟩, h7⟩, h8⟩, h9⟩ := h
  rw [nextTokenLoop.eq_def]
  simp only [h1, h2, h3, h4, h5, h6, h7, h8, h9, if_false, Bool.false_eq_true] <;> rfl

/-- Every rune is whitespace, a line feed, a quote, one of the six punctuation marks,
or reaches the `default` case. -/
theorem rune_cases (r : Char) :
    isWhitespace r = true ∨ r = '\n' ∨ r = '"' ∨ r = ',' ∨ r = ':' ∨ r = '{' ∨ r = '}'
      ∨ r = '[' ∨ r = ']' ∨ isDefaultCase r = true := by
  simp only [isDefaultCase, Bool.and_eq_true, Bool.not_eq_true', bne_iff_ne, ne_eq]
  cases isWhitespace r
  · tauto
  · exact Or.inl rfl

/-- The scanner never reads backwards, and a token other than end-of-input and invalid
has taken at least one rune. -/
theorem nextTokenLoop_length (T : UnicodeTables) (rd : List Char) (s : scanner) :
    (nextTokenLoop T rd s).2.2.reader.length + consumes (nextTokenLoop T rd s).1
      ≤ rd.length := by
  induction rd generalizing s with
  | nil => simp [nextTokenLoop, consumes]
  | cons r rd ih =>
    rcases rune_cases r with h | h | h | h | h | h | h | h | h | h
    · rw [nextTokenLoop_ws T r rd s h]; exact Nat.le_succ_of_le (ih _)
    · subst h; rw [nextTokenLoop_nl]; exact Nat.le_succ_of_le (ih _)
    · subst h; rw [nextTokenLoop_quote]
      have hl := scanStringLoop_length 0 rd []
      simp only [scanString]
      rcases hs : scanStringLoop 0 rd [] with ⟨_ | e, b, rd1⟩
      · rw [hs] at hl; simp [consumes]; simpa using hl
      · rw [hs] at hl
        simp only []
        split_ifs <;> simp [consumes] <;> simp at hl <;> omega
    · subst h; rw [nextTokenLoop_comma]; simp [consumes]
    · subst h; rw [nextTokenLoop_colon]; simp [consumes]
    · subst h; rw [nextTokenLoop_lbrace]; simp [consumes]
    · subst h; rw [nextTokenLoop_rbrace]; simp [consumes]
    · subst h; rw [nextTokenLoop_lbracket]; simp [consumes]
    · subst h; rw [nextTokenLoop_rbracket]; simp [consumes]
    · rw [nextTokenLoop_default T r rd s h]
      by_cases h10 : IsDigit T r = true
      · rw [if_pos h10]
        have hl := scanNumberLoop_length_digit T r rd [] h10
        simp only [scanNumber]
        rcases hs : scanNumberLoop T (r :: rd) [] with ⟨_ | e, b, rd1⟩
        · rw [hs] at hl; simp [consumes]; simpa using hl
        · rw [hs] at hl
          simp only []
          split_ifs <;> simp [consumes] <;> simp at hl <;> omega
      · rw [if_neg h10]
        have hl := scanIdentLoop_length T (r :: rd) []
        simp only [scanIdent]
        rcases hs : scanIdentLoop T (r :: rd) [] with ⟨_ | e, b, rd1⟩
        · rw [hs] at hl
          have := lookup_consumes b
          simp at hl ⊢; omega
        · rw [hs] at hl
          simp [consumes] at hl ⊢; omega

theorem nextToken_length (T : UnicodeTables) (s : scanner) :
    (nextToken T s).2.2.reader.length + consumes (nextToken T s).1 ≤ s.reader.length :=
  nextTokenLoop_length T s.reader s

end hjson

namespace hjson

open Token Error Value

/-! ## The recursion budget: more never changes a result, and `parse` has enough -/

theorem fuel_mono (T : UnicodeTables) (n : Nat) :
    (∀ p r, parser.parseObject T n p = some r → parser.parseObject T (n + 1) p = some r) ∧
    (∀ obj p r, parser.parseObjectLoop T n obj p = some r →
      parser.parseObjectLoop T (n + 1) obj p = some r) ∧
    (∀ p r, parser.parseValues T n p = some r → parser.parseValues T (n + 1) p = some r) ∧
    (∀ p r, parser.parseArray T n p = some r → parser.parseArray T (n + 1) p = some r) ∧
    (∀ arr p r, parser.parseArrayLoop T n arr p = some r →
      parser.parseArrayLoop T (n + 1) arr p = some r) := by
  induction n with
  | zero =>
    refine ⟨?_, ?_, ?_, ?_, ?_⟩ <;> intros <;>
      simp_all [parser.parseObject, parser.parseObjectLoop, parser.parseValues,
        parser.parseArray, parser.parseArrayLoop]
  | succ n ih =>
    obtain ⟨ihO, ihOL, ihV, ihA, ihAL⟩ := ih
    refine ⟨?_, ?_, ?_, ?_, ?_⟩
    · intro p r h
      rw [parser.parseObject] at h ⊢
      exact ihOL _ _ _ h
    · intro obj p r h
      rw [parser.parseObjectLoop] at h ⊢
      by_cases h1 : p.token ≠ tokenString
      · rw [if_pos h1] at h ⊢; exact h
      · rw [if_neg h1] at h ⊢
        simp only [] at h ⊢
        by_cases h2 : (mapGet obj p.literal).isSome = true
        · rw [if_pos h2] at h ⊢; exact h
        · rw [if_neg h2] at h ⊢
          rcases hm : parser.matchToken T (parser.matchToken T p tokenString).2 tokenColon
            with ⟨b, p2⟩
          rw [hm] at h
          cases b
          · exact h
          · simp only [] at h ⊢
            cases hv : parser.parseValues T n p2 with
            | none => rw [hv] at h; simp at h
            | some x =>
              rw [hv] at h; rw [ihV _ _ hv]
              rcases x with ⟨_ | value, p3⟩
              · exact h
              · simp only [] at h ⊢
                by_cases h3 : p3.token ≠ tokenComma
                · rw [if_pos h3] at h ⊢; exact h
                · rw [if_neg h3] at h ⊢
                  exact ihOL _ _ _ h
    · intro p r h
      rw [parser.parseValues] at h ⊢
      cases ht : p.token <;> simp only [ht] at h ⊢ <;>
        first | exact h | exact ihO _ _ h | exact ihA _ _ h
    · intro p r h
      rw [parser.parseArray] at h ⊢
      exact ihAL _ _ _ h
    · intro arr p r h
      rw [parser.parseArrayLoop] at h ⊢
      cases ht : p.token <;> simp only [ht] at h ⊢
      all_goals first
        | exact h
        | (cases ho : parser.parseObject T n p with
            | none => rw [ho] at h; simp at h
            | some y =>
              rw [ho] at h; rw [ihO _ _ ho]
              rcases y with ⟨_ | v, p1⟩
              · exact h
              · simp only [] at h ⊢
                by_cases h3 : p1.token ≠ tokenComma
                · rw [if_pos h3] at h ⊢; exact h
                · rw [if_neg h3] at h ⊢
                  exact ihAL _ _ _ h)
        | (cases ho : parser.parseArray T n p with
            | none => rw [ho] at h; simp at h
            | some y =>
              rw [ho] at h; rw [ihA _ _ ho]
              rcases y with ⟨_ | v, p1⟩
              · exact h
              · simp only [] at h ⊢
                by_cases h3 : p1.token ≠ tokenComma
                · rw [if_pos h3] at h ⊢; exact h
                · rw [if_neg h3] at h ⊢
                  exact ihAL _ _ _ h)
        | (split_ifs at h ⊢ with h3
           · exact h
           · exact ihAL _ _ _ h)

theorem parseObject_mono (T : UnicodeTables) {n m : Nat} (hnm : n ≤ m) {p : parser}
    {r : Outcome} (h : parser.parseObject T n p = some r) :
    parser.parseObject T m p = some r := by
  induction hnm with
  | refl => exact h
  | step _ ih => exact (fuel_mono T _).1 _ _ ih

theorem parseObjectLoop_mono (T : UnicodeTables) {n m : Nat} (hnm : n ≤ m)
    {obj : List (List Char × Value)} {p : parser} {r : Outcome}
    (h : parser.parseObjectLoop T n obj p = some r) :
    parser.parseObjectLoop T m obj p = some r := by
  induction hnm with
  | refl => exact h
  | step _ ih => exact (fuel_mono T _).2.1 _ _ _ ih

theorem parseValues_mono (T : UnicodeTables) {n m : Nat} (hnm : n ≤ m) {p : parser}
    {r : Outcome} (h : parser.parseValues T n p = some r) :
    parser.parseValues T m p = some r := by
  induction hnm with
  | refl => exact h
  | step _ ih => exact (fuel_mono T _).2.2.1 _ _ ih

theorem parseArray_mono (T : UnicodeTables) {n m : Nat} (hnm : n ≤ m) {p : parser}
    {r : Outcome} (h : parser.parseArray T n p = some r) :
    parser.parseArray T m p = some r := by
  induction hnm with
  | refl => exact h
  | step _ ih => exact (fuel_mono T _).2.2.2.1 _ _ ih

theorem parseArrayLoop_mono (T : UnicodeTables) {n m : Nat} (hnm : n ≤ m)
    {arr : List Value} {p : parser} {r : Outcome}
    (h : parser.parseArrayLoop T n arr p = some r) :
    parser.parseArrayLoop T m arr p = some r := by
  induction hnm with
  | refl => exact h
  | step _ ih => exact (fuel_mono T _).2.2.2.2 _ _ _ ih

/-! ### `match` and the pending runes -/

theorem matchToken_pending_le (T : UnicodeTables) (p : parser) (tok : Token) :
    (p.matchToken T tok).2.pending ≤ p.pending := by
  unfold parser.matchToken
  split_ifs with h
  · have := nextToken_length T p.jscanner
    rcases hn : nextToken T p.jscanner with ⟨tok1, lit1, s1⟩
    rw [hn] at this
    simp only [parser.pending] at this ⊢
    omega
  · exact Nat.le_refl _

theorem matchToken_pending_lt (T : UnicodeTables) (p : parser) (tok : Token)
    (h : p.token = tok) (hc : consumes tok = 1) :
    (p.matchToken T tok).2.pending + 1 ≤ p.pending := by
  unfold parser.matchToken
  rw [if_pos h]
  have := nextToken_length T p.jscanner
  rcases hn : nextToken T p.jscanner with ⟨tok1, lit1, s1⟩
  rw [hn] at this
  simp only [parser.pending, h, hc] at this ⊢
  omega

theorem parseNumber_pending_le (T : UnicodeTables) (p : parser) :
    (p.parseNumber T).2.pending ≤ p.pending :=
  matchToken_pending_le T p tokenNumber

theorem parseObjectEnd_pending_le (T : UnicodeTables) (obj : List (List Char × Value))
    (p : parser) : (parser.parseObjectEnd T obj p).2.pending ≤ p.pending := by
  have := matchToken_pending_le T p tokenRBrace
  unfold parser.parseObjectEnd
  rcases hm : p.matchToken T tokenRBrace with ⟨_ | _, p1⟩ <;> rw [hm] at this <;> exact this

theorem parseArrayEnd_pending_le (T : UnicodeTables) (arr : List Value)
    (p : parser) : (parser.parseArrayEnd T arr p).2.pending ≤ p.pending := by
  have := matchToken_pending_le T p tokenRBracket
  unfold parser.parseArrayEnd
  rcases hm : p.matchToken T tokenRBracket with ⟨_ | _, p1⟩ <;> rw [hm] at this <;> exact this

end hjson

namespace hjson

open Token Error Value

/-- With a budget of three per pending rune every production returns, and it leaves no
more runes pending than it found. -/
theorem fuel_enough (T : UnicodeTables) (fuel : Nat) :
    (∀ p, p.token = tokenLBrace → 3 * p.pending ≤ fuel + 1 →
      ∃ r, parser.parseObject T fuel p = some r ∧ r.2.pending ≤ p.pending) ∧
    (∀ obj p, 3 * p.pending + 1 ≤ fuel →
      ∃ r, parser.parseObjectLoop T fuel obj p = some r ∧ r.2.pending ≤ p.pending) ∧
    (∀ p, 3 * p.pending + 1 ≤ fuel →
      ∃ r, parser.parseValues T fuel p = some r ∧ r.2.pending ≤ p.pending) ∧
    (∀ p, p.token = tokenLBracket → 3 * p.pending ≤ fuel + 1 →
      ∃ r, parser.parseArray T fuel p = some r ∧ r.2.pending ≤ p.pending) ∧
    (∀ arr p, 3 * p.pending + 1 ≤ fuel →
      ∃ r, parser.parseArrayLoop T fuel arr p = some r ∧ r.2.pending ≤ p.pending) := by
  induction fuel with
  | zero =>
    refine ⟨?_, ?_, ?_, ?_, ?_⟩
    · intro p ht h
      have : p.pending ≥ 1 := by simp [parser.pending, ht, consumes]
      omega
    · intro obj p h; omega
    · intro p h; omega
    · intro p ht h
      have : p.pending ≥ 1 := by simp [parser.pending, ht, consumes]
      omega
    · intro arr p h; omega
  | succ f ih =>
    obtain ⟨ihO, ihOL, ihV, ihA, ihAL⟩ := ih
    refine ⟨?_, ?_, ?_, ?_, ?_⟩
    · intro p ht h
      rw [parser.parseObject]
      have h1 := matchToken_pending_lt T p tokenLBrace ht (by decide)
      obtain ⟨r, hr, hle⟩ := ihOL NewObject (p.matchToken T tokenLBrace).2 (by omega)
      exact ⟨r, hr, by omega⟩
    · intro obj p h
      rw [parser.parseObjectLoop]
      by_cases h1 : p.token ≠ tokenString
      · rw [if_pos h1]
        exact ⟨_, rfl, parseObjectEnd_pending_le T obj p⟩
      · rw [if_neg h1]
        simp only []
        by_cases h2 : (mapGet obj p.literal).isSome = true
        · rw [if_pos h2]; exact ⟨_, rfl, Nat.le_refl _⟩
        · rw [if_neg h2]
          have hs := matchToken_pending_lt T p tokenString (not_not.mp h1) (by decide)
          have hc := matchToken_pending_le T (p.matchToken T tokenString).2 tokenColon
          rcases hm : parser.matchToken T (parser.matchToken T p tokenString).2 tokenColon
            with ⟨b, p2⟩
          rw [hm] at hc
          simp only [] at hc
          cases b
          · exact ⟨_, rfl, by simp only []; omega⟩
          · simp only []
            obtain ⟨x, hx, hxle⟩ := ihV p2 (by omega)
            rw [hx]
            rcases x with ⟨_ | value, p3⟩
            · exact ⟨_, rfl, by simp only [] at hxle ⊢; omega⟩
            · simp only [] at hxle ⊢
              by_cases h3 : p3.token ≠ tokenComma
              · rw [if_pos h3]
                have := parseObjectEnd_pending_le T (mapSet obj p.literal value) p3
                exact ⟨_, rfl, by omega⟩
              · rw [if_neg h3]
                have hk := matchToken_pending_lt T p3 tokenComma (not_not.mp h3) (by decide)
                obtain ⟨r, hr, hle⟩ := ihOL (mapSet obj p.literal value)
                  (p3.matchToken T tokenComma).2 (by omega)
                exact ⟨r, hr, by omega⟩
    · intro p h
      rw [parser.parseValues]
      have hm : ∀ tok, (p.matchToken T tok).2.pending ≤ p.pending :=
        fun tok => matchToken_pending_le T p tok
      cases ht : p.token <;> simp only []
      all_goals first
        | exact ⟨_, rfl, Nat.le_refl _⟩
        | exact ⟨_, rfl, hm _⟩
        | exact ⟨_, rfl, parseNumber_pending_le T p⟩
        | exact ihO p ht (by omega)
        | exact ihA p ht (by omega)
    · intro p ht h
      rw [parser.parseArray]
      have h1 := matchToken_pending_lt T p tokenLBracket ht (by decide)
      obtain ⟨r, hr, hle⟩ := ihAL NewArray (p.matchToken T tokenLBracket).2 (by omega)
      exact ⟨r, hr, by omega⟩
    · intro arr p h
      rw [parser.parseArrayLoop]
      have hm : ∀ tok, (p.matchToken T tok).2.pending ≤ p.pending :=
        fun tok => matchToken_pending_le T p tok
      have hn := parseNumber_pending_le T p
      -- the comma test and the next round, once the switch is done
      have tail : ∀ (arr1 : List Value) (p1 : parser), p1.pending ≤ p.pending →
          ∃ r, (if p1.token ≠ tokenComma then some (parser.parseArrayEnd T arr1 p1)
            else parser.parseArrayLoop T f arr1 (p1.matchToken T tokenComma).2) = some r
            ∧ r.2.pending ≤ p.pending := by
        intro arr1 p1 hp1
        by_cases h3 : p1.token ≠ tokenComma
        · rw [if_pos h3]
          have := parseArrayEnd_pending_le T arr1 p1
          exact ⟨_, rfl, by omega⟩
        · rw [if_neg h3]
          have hk := matchToken_pending_lt T p1 tokenComma (not_not.mp h3) (by decide)
          obtain ⟨r, hr, hle⟩ := ihAL arr1 (p1.matchToken T tokenComma).2 (by omega)
          exact ⟨r, hr, by omega⟩
      cases ht : p.token <;> simp only []
      all_goals first
        | exact tail _ _ (Nat.le_refl _)
        | exact tail _ _ (hm _)
        | exact tail _ _ hn
        | exact ⟨_, rfl, Nat.le_refl _⟩
        | (obtain ⟨x, hx, hxle⟩ := ihO p ht (by omega)
           rw [hx]
           rcases x with ⟨_ | v, p1⟩
           · exact ⟨_, rfl, hxle⟩
           · exact tail _ _ hxle)
        | (obtain ⟨x, hx, hxle⟩ := ihA p ht (by omega)
           rw [hx]
           rcases x with ⟨_ | v, p1⟩
           · exact ⟨_, rfl, hxle⟩
           · exact tail _ _ hxle)

end hjson

namespace hjson

open Token Error Value

/-! ## `Atoi` reads back a decimal rendering -/

theorem digitChar_toNat (k : Nat) (h : k < 10) : (Nat.digitChar k).toNat = 48 + k := by
  interval_cases k <;> rfl

/-- The digits `toDigitsCore` puts in front of `ds` read back as `n`, whatever was read
before them, as long as the result fits 64 bits. -/
theorem toDigitsCore_spec (fuel n : Nat) (ds : List Char) (hn : n < fuel) :
    ∃ D : List Char, Nat.toDigitsCore 10 fuel n ds = D ++ ds ∧ D ≠ [] ∧
      (∀ c ∈ D, 48 ≤ c.toNat ∧ c.toNat ≤ 57) ∧
      ∀ a k, a * 10 ^ D.length + n < 2 ^ 64 →
        parseUintLoop (D ++ k) a = parseUintLoop k (a * 10 ^ D.length + n) := by
  induction fuel generalizing n ds with
  | zero => omega
  | succ fuel ih =>
    have hd := digitChar_toNat (n % 10) (Nat.mod_lt _ (by norm_num))
    have step : ∀ a k, a * 10 + n % 10 < 2 ^ 64 →
        parseUintLoop (Nat.digitChar (n % 10) :: k) a = parseUintLoop k (a * 10 + n % 10) := by
      intro a k hlt
      rw [parseUintLoop, hd]
      have h1 : 48 ≤ 48 + n % 10 ∧ 48 + n % 10 ≤ 57 := by omega
      rw [if_pos h1]
      have h2 : ¬ a ≥ (2 ^ 64 - 1) / 10 + 1 := by norm_num; omega
      rw [if_neg h2]
      have h3 : (a * 10 + (48 + n % 10 - 48)) % 2 ^ 64 = a * 10 + n % 10 := by
        rw [Nat.add_sub_cancel_left]; exact Nat.mod_eq_of_lt hlt
      simp only [h3]
      have h4 : ¬ (a * 10 + n % 10 < a * 10 ∨ a * 10 + n % 10 > 2 ^ 64 - 1) := by omega
      rw [if_neg h4]
    rw [Nat.toDigitsCore]
    by_cases h0 : n / 10 = 0
    · rw [if_pos h0]
      refine ⟨[Nat.digitChar (n % 10)], rfl, by simp, ?_, ?_⟩
      · intro c hc
        simp only [List.mem_singleton] at hc
        subst hc; omega
      · intro a k hlt
        have hn10 : n % 10 = n := Nat.mod_eq_of_lt (by omega)
        simp only [List.length_singleton, pow_one, List.singleton_append] at hlt ⊢
        rw [step a k (by omega), hn10]
    · rw [if_neg h0]
      obtain ⟨D, hD, hne, hdig, hval⟩ := ih (n / 10) (Nat.digitChar (n % 10) :: ds) (by omega)
      refine ⟨D ++ [Nat.digitChar (n % 10)], by rw [hD]; simp, by simp, ?_, ?_⟩
      · intro c hc
        rcases List.mem_append.mp hc with hc | hc
        · exact hdig c hc
        · simp only [List.mem_singleton] at hc
          subst hc; omega
      · intro a k hlt
        have hsplit : (a * 10 ^ D.length + n / 10) * 10 + n % 10
            = a * 10 ^ (D ++ [Nat.digitChar (n % 10)]).length + n := by
          simp only [List.length_append, List.length_singleton, pow_succ]
          have := Nat.div_add_mod n 10
          nlinarith
        rw [List.append_assoc, List.singleton_append,
          hval a _ (by rw [← hsplit] at hlt; omega), step _ k (by omega), hsplit]

/-- Reading the decimal rendering of `n` gives `n` back, for `n` below `2^64`. -/
theorem parseUintLoop_toDigits (n : Nat) (hn : n < 2 ^ 64) :
    parseUintLoop (Nat.toDigits 10 n) 0 = (n, none) := by
  obtain ⟨D, hD, _, _, hval⟩ := toDigitsCore_spec (n + 1) n [] (by omega)
  unfold Nat.toDigits
  rw [hD]
  have := hval 0 [] (by simpa using hn)
  simpa [parseUintLoop] using this

theorem toDigits_digits (n : Nat) :
    Nat.toDigits 10 n ≠ [] ∧ ∀ c ∈ Nat.toDigits 10 n, 48 ≤ c.toNat ∧ c.toNat ≤ 57 := by
  obtain ⟨D, hD, hne, hdig, _⟩ := toDigitsCore_spec (n + 1) n [] (by omega)
  unfold Nat.toDigits
  rw [hD]
  simpa using ⟨hne, hdig⟩

/-- `Atoi` gives back every integer from 0 to `2^63-1` from its decimal rendering. -/
theorem Atoi_toDigits (n : Nat) (hn : n < 2 ^ 63) :
    Atoi (Nat.toDigits 10 n) = ((n : Int), none) := by
  obtain ⟨hne, hdig⟩ := toDigits_digits n
  have hloop := parseUintLoop_toDigits n (by omega)
  obtain ⟨c, cs, hcs⟩ := List.exists_cons_of_ne_nil hne
  have hc := hdig c (by rw [hcs]; simp)
  have hplus : c ≠ '+' := by rintro rfl; revert hc; decide
  have hminus : c ≠ '-' := by rintro rfl; revert hc; decide
  unfold Atoi ParseInt ParseUint
  rw [hcs] at hloop ⊢
  simp only [List.head?_cons, Option.some.injEq, hplus, hminus, or_self, if_false,
    reduceCtorEq, hloop]
  simp
  omega

end hjson

namespace hjson

open Token Error Value

/-! ## Parsing the tokens of a tree -/

theorem matchToken_self (T : UnicodeTables) (p : parser) (tok : Token) (h : p.token = tok) :
    p.matchToken T tok = (true, p.advance T) := by
  subst h
  unfold parser.advance parser.matchToken
  simp

theorem matchToken_other (T : UnicodeTables) (p : parser) (tok : Token) (h : p.token ≠ tok) :
    p.matchToken T tok = (false, p) := by
  unfold parser.matchToken
  simp [h]

theorem reads_cons (T : UnicodeTables) (p : parser) (t : Tok) (ts : List Tok) :
    p.reads T (t :: ts) ↔ p.token = t.1 ∧ p.literal = t.2 ∧ (p.advance T).reads T ts := by
  rw [parser.reads]

/-- The closing check of `parseObject` on `}`. -/
theorem parseObjectEnd_rbrace (T : UnicodeTables) (obj : List (List Char × Value))
    (p : parser) (h : p.token = tokenRBrace) :
    parser.parseObjectEnd T obj p = (.ok (JObject obj), p.advance T) := by
  unfold parser.parseObjectEnd
  rw [matchToken_self T p _ h]

/-- The closing check of `parseArray` on `]`. -/
theorem parseArrayEnd_rbracket (T : UnicodeTables) (arr : List Value)
    (p : parser) (h : p.token = tokenRBracket) :
    parser.parseArrayEnd T arr p = (.ok (JArray arr), p.advance T) := by
  unfold parser.parseArrayEnd
  rw [matchToken_self T p _ h]

/-- On the token of a scalar, `parseValues` returns the scalar and advances. -/
theorem parseValues_scalar (T : UnicodeTables) (v : Value) (hs : isScalar v = true)
    (hv : plainTree v = true) (p : parser) (rest : List Tok) (n : Nat)
    (h : p.reads T (tokensOf v ++ rest)) :
    parser.parseValues T (n + 1) p = some (.ok v, p.advance T) ∧ (p.advance T).reads T rest := by
  cases v with
  | JObject _ => simp [isScalar] at hs
  | JArray _ => simp [isScalar] at hs
  | JNumber k =>
    simp only [tokensOf, List.singleton_append, reads_cons] at h
    obtain ⟨h1, h2, h3⟩ := h
    simp only [plainTree, decide_eq_true_eq] at hv
    refine ⟨?_, h3⟩
    rw [parser.parseValues]
    simp only [h1, parser.parseNumber, matchToken_self T p _ h1, h2]
    rw [Atoi_toDigits _ (by omega)]
    simp [Int.toNat_of_nonneg hv.1]
  | JString s =>
    simp only [tokensOf, List.singleton_append, reads_cons] at h
    obtain ⟨h1, h2, h3⟩ := h
    refine ⟨?_, h3⟩
    rw [parser.parseValues]
    simp only [h1, matchToken_self T p _ h1, h2]
  | JBool b =>
    cases b <;>
    · simp only [tokensOf, List.singleton_append, reads_cons] at h
      obtain ⟨h1, h2, h3⟩ := h
      refine ⟨?_, h3⟩
      rw [parser.parseValues]
      simp only [h1, matchToken_self T p _ h1]
  | JNull =>
    simp only [tokensOf, List.singleton_append, reads_cons] at h
    obtain ⟨h1, h2, h3⟩ := h
    refine ⟨?_, h3⟩
    rw [parser.parseValues]
    simp only [h1, matchToken_self T p _ h1]

/-- On the token of a scalar, the `switch` of the array loop appends the scalar and
advances; then comes the comma test. -/
theorem parseArrayLoop_scalar (T : UnicodeTables) (v : Value) (hs : isScalar v = true)
    (hv : plainTree v = true) (arr : List Value) (p : parser) (rest : List Tok) (n : Nat)
    (h : p.reads T (tokensOf v ++ rest)) :
    parser.parseArrayLoop T (n + 1) arr p =
      (if (p.advance T).token ≠ tokenComma then
        some (parser.parseArrayEnd T (arr ++ [v]) (p.advance T))
      else parser.parseArrayLoop T n (arr ++ [v]) ((p.advance T).advance T)) := by
  cases v with
  | JObject _ => simp [isScalar] at hs
  | JArray _ => simp [isScalar] at hs
  | JNumber k =>
    simp only [tokensOf, List.singleton_append, reads_cons] at h
    obtain ⟨h1, h2, h3⟩ := h
    simp only [plainTree, decide_eq_true_eq] at hv
    rw [parser.parseArrayLoop]
    simp only [h1, parser.parseNumber, matchToken_self T p _ h1, h2, addValue]
    rw [Atoi_toDigits _ (by omega)]
    simp only [Int.toNat_of_nonneg hv.1]
    split_ifs with hc
    · rfl
    · rw [matchToken_self T _ _ (not_not.mp hc)]
  | JString s =>
    simp only [tokensOf, List.singleton_append, reads_cons] at h
    obtain ⟨h1, h2, h3⟩ := h
    rw [parser.parseArrayLoop]
    simp only [h1, matchToken_self T p _ h1, h2, addValue]
    split_ifs with hc
    · rfl
    · rw [matchToken_self T _ _ (not_not.mp hc)]
  | JBool b =>
    cases b <;>
    · simp only [tokensOf, List.singleton_append, reads_cons] at h
      obtain ⟨h1, h2, h3⟩ := h
      rw [parser.parseArrayLoop]
      simp only [h1, matchToken_self T p _ h1, addValue]
      split_ifs with hc
      · rfl
      · rw [matchToken_self T _ _ (not_not.mp hc)]
  | JNull =>
    simp only [tokensOf, List.singleton_append, reads_cons] at h
    obtain ⟨h1, h2, h3⟩ := h
    rw [parser.parseArrayLoop]
    simp only [h1, matchToken_self T p _ h1, addValue]
    split_ifs with hc
    · rfl
    · rw [matchToken_self T _ _ (not_not.mp hc)]

theorem mapGet_none_of_not_mem (obj : List (List Char × Value)) (k : List Char)
    (h : k ∉ obj.map Prod.fst) : mapGet obj k = none := by
  induction obj with
  | nil => rfl
  | cons e obj ih =>
    obtain ⟨k1, v1⟩ := e
    simp only [List.map_cons, List.mem_cons, not_or] at h
    rw [mapGet, if_neg (fun hk => h.1 hk.symm)]
    exact ih h.2

theorem mapSet_of_not_mem (obj : List (List Char × Value)) (k : List Char) (v : Value)
    (h : k ∉ obj.map Prod.fst) : mapSet obj k v = obj ++ [(k, v)] := by
  induction obj with
  | nil => rfl
  | cons e obj ih =>
    obtain ⟨k1, v1⟩ := e
    simp only [List.map_cons, List.mem_cons, not_or] at h
    rw [mapSet, if_neg (fun hk => h.1 hk.symm), ih h.2]
    rfl

/-- One element of an array, scalar or not: the `switch` appends it, then comes the
comma test. -/
theorem parseArrayLoop_element (T : UnicodeTables) (v : Value) (hv : plainTree v = true)
    (hp : ParsesTree T v) (arr : List Value) (p : parser) (rest : List Tok)
    (h : p.reads T (tokensOf v ++ rest)) :
    ∃ n0 p1, p1.reads T rest ∧ ∀ n, n0 ≤ n →
      parser.parseArrayLoop T (n + 1) arr p =
        (if p1.token ≠ tokenComma then some (parser.parseArrayEnd T (arr ++ [v]) p1)
        else parser.parseArrayLoop T n (arr ++ [v]) (p1.advance T)) := by
  by_cases hs : isScalar v = true
  · refine ⟨0, p.advance T, (parseValues_scalar T v hs hv p rest 0 h).2, fun n _ => ?_⟩
    exact parseArrayLoop_scalar T v hs hv arr p rest n h
  · obtain ⟨m, p1, hm, hr⟩ := hp p rest h
    refine ⟨m, p1, hr, fun n hn => ?_⟩
    cases m with
    | zero => simp [parser.parseValues] at hm
    | succ m =>
      have tail : (p1.matchToken T tokenComma).2 =
          if p1.token = tokenComma then p1.advance T else p1 := by
        split_ifs with hc
        · rw [matchToken_self T _ _ hc]
        · rw [matchToken_other T _ _ hc]
      cases v with
      | JObject values =>
        have ht : p.token = tokenLBrace := by
          simp only [tokensOf, List.cons_append, reads_cons] at h
          exact h.1
        rw [parser.parseValues] at hm
        simp only [ht] at hm
        have hm1 := parseObject_mono T (Nat.le_of_succ_le hn) hm
        rw [parser.parseArrayLoop]
        simp only [ht, hm1, addValue]
        split_ifs with hc
        · rfl
        · rw [matchToken_self T _ _ (not_not.mp hc)]
      | JArray elements =>
        have ht : p.token = tokenLBracket := by
          simp only [tokensOf, List.cons_append, reads_cons] at h
          exact h.1
        rw [parser.parseValues] at hm
        simp only [ht] at hm
        have hm1 := parseArray_mono T (Nat.le_of_succ_le hn) hm
        rw [parser.parseArrayLoop]
        simp only [ht, hm1, addValue]
        split_ifs with hc
        · rfl
        · rw [matchToken_self T _ _ (not_not.mp hc)]
      | JNumber _ => simp [isScalar] at hs
      | JString _ => simp [isScalar] at hs
      | JBool _ => simp [isScalar] at hs
      | JNull => simp [isScalar] at hs

/-- The array loop on the tokens of the elements and the closing bracket. -/
theorem parseArrayLoop_elements (T : UnicodeTables) (es : List Value)
    (hes : ∀ e ∈ es, plainTree e = true ∧ ParsesTree T e) :
    ∀ (arr : List Value) (p : parser) (rest : List Tok),
      p.reads T (elementTokens es ++ (tokenRBracket, [']']) :: rest) →
      ∃ n p1, parser.parseArrayLoop T n arr p = some (.ok (JArray (arr ++ es)), p1)
        ∧ p1.reads T rest := by
  induction es with
  | nil =>
    intro arr p rest h
    simp only [elementTokens, List.nil_append, reads_cons] at h
    obtain ⟨h1, _, h3⟩ := h
    refine ⟨1, p.advance T, ?_, h3⟩
    rw [parser.parseArrayLoop]
    simp only [h1, ne_eq, reduceCtorEq, not_false_eq_true, if_true,
      parseArrayEnd_rbracket T arr p h1, List.append_nil]
  | cons e es ih =>
    intro arr p rest h
    have he := hes e (List.mem_cons_self _ _)
    have hes1 : ∀ x ∈ es, plainTree x = true ∧ ParsesTree T x :=
      fun x hx => hes x (List.mem_cons_of_mem _ hx)
    cases es with
    | nil =>
      simp only [elementTokens] at h
      obtain ⟨n0, p1, hr, hstep⟩ := parseArrayLoop_element T e he.1 he.2 arr p _ h
      rw [reads_cons] at hr
      obtain ⟨h1, _, h3⟩ := hr
      refine ⟨n0 + 1, p1.advance T, ?_, h3⟩
      rw [hstep n0 (Nat.le_refl _)]
      have hc : p1.token ≠ tokenComma := by rw [h1]; decide
      rw [if_pos hc, parseArrayEnd_rbracket T _ p1 h1]
    | cons e1 es1 =>
      simp only [elementTokens, List.append_assoc, List.cons_append] at h
      obtain ⟨n0, p1, hr, hstep⟩ := parseArrayLoop_element T e he.1 he.2 arr p _ h
      rw [reads_cons] at hr
      obtain ⟨h1, _, h3⟩ := hr
      obtain ⟨n1, p2, hloop, hr2⟩ := ih hes1 (arr ++ [e]) (p1.advance T) rest h3
      refine ⟨max n0 n1 + 1, p2, ?_, hr2⟩
      rw [hstep _ (Nat.le_max_left _ _)]
      have hc : ¬ p1.token ≠ tokenComma := by rw [h1]; decide
      rw [if_neg hc, parseArrayLoop_mono T (Nat.le_max_right _ _) hloop]
      simp

end hjson

namespace hjson

open Token Error Value

/-- One member of an object: key, colon and value, then comes the comma test. -/
theorem parseObjectLoop_member (T : UnicodeTables) (k : List Char) (v : Value)
    (hp : ParsesTree T v) (obj : List (List Char × Value)) (hk : k ∉ obj.map Prod.fst)
    (p : parser) (rest : List Tok)
    (h : p.reads T ((tokenString, k) :: (tokenColon, [':']) :: (tokensOf v ++ rest))) :
    ∃ n0 p1, p1.reads T rest ∧ ∀ n, n0 ≤ n →
      parser.parseObjectLoop T (n + 1) obj p =
        (if p1.token ≠ tokenComma then some (parser.parseObjectEnd T (obj ++ [(k, v)]) p1)
        else parser.parseObjectLoop T n (obj ++ [(k, v)]) (p1.advance T)) := by
  rw [reads_cons, reads_cons] at h
  obtain ⟨h1, h2, h3, _, h5⟩ := h
  simp only [] at h1 h2 h3
  obtain ⟨m, p1, hm, hr⟩ := hp _ rest h5
  refine ⟨m, p1, hr, fun n hn => ?_⟩
  have hm1 := parseValues_mono T hn hm
  rw [parser.parseObjectLoop]
  have hs : ¬ p.token ≠ tokenString := not_not.mpr h1
  rw [if_neg hs]
  simp only [h2, mapGet_none_of_not_mem obj k hk, Option.isSome_none, Bool.false_eq_true,
    if_false, matchToken_self T p _ h1, matchToken_self T _ _ h3, hm1,
    mapSet_of_not_mem obj k v hk]
  split_ifs with hc
  · rfl
  · rw [matchToken_self T _ _ (not_not.mp hc)]

/-- The object loop on the tokens of the members and the closing brace; one comma
may stand between the last member and the brace. -/
theorem parseObjectLoop_members (T : UnicodeTables) (ms : List (List Char × Value))
    (hms : ∀ m ∈ ms, ParsesTree T m.2) :
    ∀ (obj : List (List Char × Value)) (closer : List Tok) (p : parser) (rest : List Tok),
      (closer = [(tokenRBrace, ['}'])]
        ∨ (closer = [(tokenComma, [',']), (tokenRBrace, ['}'])] ∧ ms ≠ [])) →
      ((obj ++ ms).map Prod.fst).Nodup →
      p.reads T (memberTokens ms ++ (closer ++ rest)) →
      ∃ n p1, parser.parseObjectLoop T n obj p = some (.ok (JObject (obj ++ ms)), p1)
        ∧ p1.reads T rest := by
  induction ms with
  | nil =>
    intro obj closer p rest hcl _ h
    rcases hcl with rfl | ⟨_, hne⟩
    · simp only [memberTokens, List.nil_append, List.cons_append, reads_cons] at h
      obtain ⟨h1, _, h3⟩ := h
      refine ⟨1, p.advance T, ?_, h3⟩
      rw [parser.parseObjectLoop]
      have hs : p.token ≠ tokenString := by rw [h1]; decide
      rw [if_pos hs, parseObjectEnd_rbrace T obj p h1, List.append_nil]
    · exact absurd rfl hne
  | cons m ms ih =>
    intro obj closer p rest hcl hnd h
    obtain ⟨k, v⟩ := m
    have hv := hms (k, v) (List.mem_cons_self _ _)
    have hms1 : ∀ x ∈ ms, ParsesTree T x.2 :=
      fun x hx => hms x (List.mem_cons_of_mem _ hx)
    have hk : k ∉ obj.map Prod.fst := by
      intro hmem
      rw [List.map_append, List.map_cons] at hnd
      exact (List.nodup_append.mp hnd).2.2 hmem (List.mem_cons_self _ _)
    have hnd1 : (((obj ++ [(k, v)]) ++ ms).map Prod.fst).Nodup := by
      simpa using hnd
    cases ms with
    | nil =>
      simp only [memberTokens] at h
      simp only [List.cons_append, List.append_assoc] at h
      obtain ⟨n0, p1, hr, hstep⟩ := parseObjectLoop_member T k v hv obj hk p _ h
      rcases hcl with rfl | ⟨rfl, _⟩
      · simp only [List.cons_append, List.nil_append, reads_cons] at hr
        obtain ⟨h1, _, h3⟩ := hr
        refine ⟨n0 + 1, p1.advance T, ?_, h3⟩
        rw [hstep n0 (Nat.le_refl _)]
        have hc : p1.token ≠ tokenComma := by rw [h1]; decide
        rw [if_pos hc, parseObjectEnd_rbrace T _ p1 h1]
      · simp only [List.cons_append, List.nil_append] at hr
        rw [reads_cons] at hr
        obtain ⟨h1, _, h3⟩ := hr
        obtain ⟨n1, p2, hloop, hr2⟩ := ih hms1 (obj ++ [(k, v)]) [(tokenRBrace, ['}'])]
          (p1.advance T) rest (Or.inl rfl) hnd1 (by simpa using h3)
        refine ⟨max n0 n1 + 1, p2, ?_, hr2⟩
        rw [hstep _ (Nat.le_max_left _ _)]
        have hc : ¬ p1.token ≠ tokenComma := by rw [h1]; decide
        rw [if_neg hc, parseObjectLoop_mono T (Nat.le_max_right _ _) hloop]
        simp
    | cons m1 ms1 =>
      simp only [memberTokens, List.cons_append, List.append_assoc] at h
      obtain ⟨n0, p1, hr, hstep⟩ := parseObjectLoop_member T k v hv obj hk p _ h
      rw [reads_cons] at hr
      obtain ⟨h1, _, h3⟩ := hr
      have hcl1 : closer = [(tokenRBrace, ['}'])]
          ∨ (closer = [(tokenComma, [',']), (tokenRBrace, ['}'])] ∧ m1 :: ms1 ≠ []) := by
        rcases hcl with hcl | ⟨hcl, _⟩
        · exact Or.inl hcl
        · exact Or.inr ⟨hcl, by simp⟩
      obtain ⟨n1, p2, hloop, hr2⟩ := ih hms1 (obj ++ [(k, v)]) closer
        (p1.advance T) rest hcl1 hnd1 h3
      refine ⟨max n0 n1 + 1, p2, ?_, hr2⟩
      rw [hstep _ (Nat.le_max_left _ _)]
      have hc : ¬ p1.token ≠ tokenComma := by rw [h1]; decide
      rw [if_neg hc, parseObjectLoop_mono T (Nat.le_max_right _ _) hloop]
      simp

theorem plainMembers_mem (ms : List (List Char × Value)) (h : plainMembers ms = true) :
    ∀ m ∈ ms, plainTree m.2 = true := by
  induction ms with
  | nil => simp
  | cons m ms ih =>
    obtain ⟨k, v⟩ := m
    simp only [plainMembers, Bool.and_eq_true] at h
    intro x hx
    rcases List.mem_cons.mp hx with rfl | hx
    · exact h.1.2
    · exact ih h.2 x hx

theorem plainElements_mem (es : List Value) (h : plainElements es = true) :
    ∀ e ∈ es, plainTree e = true := by
  induction es with
  | nil => simp
  | cons e es ih =>
    simp only [plainElements, Bool.and_eq_true] at h
    intro x hx
    rcases List.mem_cons.mp hx with rfl | hx
    · exact h.1
    · exact ih h.2 x hx

theorem sizeOf_member_lt (ms : List (List Char × Value)) (m : List Char × Value)
    (h : m ∈ ms) : sizeOf m.2 < sizeOf (JObject ms) := by
  have h1 := List.sizeOf_lt_of_mem h
  obtain ⟨k, v⟩ := m
  simp only [Prod.mk.sizeOf_spec] at h1
  simp only [JObject.sizeOf_spec]
  omega

theorem sizeOf_element_lt (es : List Value) (e : Value) (h : e ∈ es) :
    sizeOf e < sizeOf (JArray es) := by
  have h1 := List.sizeOf_lt_of_mem h
  simp only [JArray.sizeOf_spec]
  omega

/-- Every plain tree is parsed back from its tokens. -/
theorem parsesTree_of_plain (T : UnicodeTables) :
    ∀ (k : Nat) (v : Value), sizeOf v ≤ k → plainTree v = true → ParsesTree T v := by
  intro k
  induction k with
  | zero =>
    intro v hk
    cases v <;> simp at hk
  | succ k ih =>
    intro v hk hv
    by_cases hs : isScalar v = true
    · intro p rest h
      exact ⟨1, p.advance T, (parseValues_scalar T v hs hv p rest 0 h).1,
        (parseValues_scalar T v hs hv p rest 0 h).2⟩
    · cases v with
      | JObject ms =>
        simp only [plainTree, Bool.and_eq_true, decide_eq_true_eq] at hv
        have hms : ∀ m ∈ ms, ParsesTree T m.2 := fun m hm =>
          ih m.2 (by have := sizeOf_member_lt ms m hm; omega)
            (plainMembers_mem ms hv.1 m hm)
        intro p rest h
        simp only [tokensOf, List.cons_append, List.append_assoc, reads_cons] at h
        obtain ⟨h1, _, h3⟩ := h
        obtain ⟨n, p1, hloop, hr⟩ := parseObjectLoop_members T ms hms [] [(tokenRBrace, ['}'])]
          (p.advance T) rest (Or.inl rfl) (by simpa using hv.2) h3
        refine ⟨n + 2, p1, ?_, hr⟩
        rw [parser.parseValues]
        simp only [h1]
        rw [parser.parseObject, matchToken_self T p _ h1]
        simpa [NewObject] using hloop
      | JArray es =>
        simp only [plainTree] at hv
        have hes : ∀ e ∈ es, plainTree e = true ∧ ParsesTree T e := fun e he =>
          ⟨plainElements_mem es hv e he,
            ih e (by have := sizeOf_element_lt es e he; omega) (plainElements_mem es hv e he)⟩
        intro p rest h
        simp only [tokensOf, List.cons_append, List.append_assoc, reads_cons] at h
        obtain ⟨h1, _, h3⟩ := h
        obtain ⟨n, p1, hloop, hr⟩ := parseArrayLoop_elements T es hes [] (p.advance T) rest
          (by simpa using h3)
        refine ⟨n + 2, p1, ?_, hr⟩
        rw [parser.parseValues]
        simp only [h1]
        rw [parser.parseArray, matchToken_self T p _ h1]
        simpa [NewArray] using hloop
      | JNumber _ => simp [isScalar] at hs
      | JString _ => simp [isScalar] at hs
      | JBool _ => simp [isScalar] at hs
      | JNull => simp [isScalar] at hs

end hjson

namespace hjson

open Token Error Value

/-! ## Scanning spaced text -/

/-- Whitespace and line feeds in front of a token are skipped; only the line counter
sees them. -/
theorem nextTokenLoop_skip (T : UnicodeTables) (ws rest : List Char) (s : scanner)
    (h : ∀ c ∈ ws, isSpace c = true) :
    ∃ line, nextTokenLoop T (ws ++ rest) s = nextTokenLoop T rest { s with line := line } := by
  induction ws generalizing s with
  | nil => exact ⟨s.line, rfl⟩
  | cons c ws ih =>
    have hc := h c (List.mem_cons_self _ _)
    have hws : ∀ x ∈ ws, isSpace x = true := fun x hx => h x (List.mem_cons_of_mem _ hx)
    simp only [isSpace, Bool.or_eq_true, beq_iff_eq] at hc
    rcases hc with hc | rfl
    · obtain ⟨line, hl⟩ := ih s hws
      exact ⟨line, by rw [List.cons_append, nextTokenLoop_ws T c _ s hc, hl]⟩
    · obtain ⟨line, hl⟩ := ih { s with line := s.line + 1 } hws
      exact ⟨line, by rw [List.cons_append, nextTokenLoop_nl, hl]⟩

/-- A string body without quote and backslash is copied up to the closing quote. -/
theorem scanStringLoop_plain (body after buf : List Char)
    (h : '"' ∉ body ∧ '\\' ∉ body) :
    scanStringLoop 0 (body ++ '"' :: after) buf = (none, buf ++ body, after) := by
  induction body generalizing buf with
  | nil =>
    rw [List.nil_append, scanStringLoop.eq_def]
    simp
  | cons c body ih =>
    simp only [List.mem_cons, not_or] at h
    rw [List.cons_append, scanStringLoop.eq_def]
    simp only [if_neg (Ne.symm h.2.1), if_neg (Ne.symm h.1.1)]
    rw [ih _ ⟨h.1.2, h.2.2⟩]
    simp

theorem IsDigit_ascii (T : UnicodeTables) (c : Char) (h : 48 ≤ c.toNat ∧ c.toNat ≤ 57) :
    IsDigit T c = true := by
  unfold IsDigit
  rw [if_pos (by omega)]
  simpa using h

theorem IsDigit_of_lt (T : UnicodeTables) (c : Char) (h : c.toNat < 48) :
    IsDigit T c = false := by
  unfold IsDigit
  rw [if_pos (by omega)]
  simp; omega

/-- The runes that end a number or a keyword are no digits, no letters, and none of
`.`, `e`, `E`. -/
theorem delimiter_facts (T : UnicodeTables) (c : Char)
    (h : (isSpace c || c == ',' || c == ']' || c == '}') = true) :
    IsDigit T c = false ∧ IsLetter T c = false ∧ c ≠ '.' ∧ c ≠ 'e' ∧ c ≠ 'E' := by
  simp only [isSpace, isWhitespace, Bool.or_eq_true, beq_iff_eq] at h
  have : c = ' ' ∨ c = '\t' ∨ c = '\r' ∨ c = '\n' ∨ c = ',' ∨ c = ']' ∨ c = '}' := by
    split_ifs at h with h1 <;> simp at h <;> tauto
  rcases this with rfl | rfl | rfl | rfl | rfl | rfl | rfl <;>
    refine ⟨?_, ?_, ?_, ?_, ?_⟩ <;> first | rfl | decide

/-- A run of ASCII digits followed by a delimiter is scanned as it stands. -/
theorem scanNumberLoop_digits (T : UnicodeTables) (ds after buf : List Char)
    (hds : ∀ c ∈ ds, 48 ≤ c.toNat ∧ c.toNat ≤ 57) (ha : startsWithDelimiter after = true) :
    scanNumberLoop T (ds ++ after) buf = (none, buf ++ ds, after) := by
  induction ds generalizing buf with
  | nil =>
    cases after with
    | nil => simp [startsWithDelimiter] at ha
    | cons c after =>
      obtain ⟨h1, _, h3, h4, h5⟩ := delimiter_facts T c ha
      rw [List.nil_append, scanNumberLoop.eq_def]
      simp [h1, h3, h4, h5]
  | cons d ds ih =>
    have hd := IsDigit_ascii T d (hds d (List.mem_cons_self _ _))
    rw [List.cons_append, scanNumberLoop.eq_def]
    simp only [hd, if_true]
    rw [ih _ (fun c hc => hds c (List.mem_cons_of_mem _ hc))]
    simp

/-- A run of letters followed by a delimiter is scanned as it stands. -/
theorem scanIdentLoop_letters (T : UnicodeTables) (ls after buf : List Char)
    (hls : ∀ c ∈ ls, IsLetter T c = true) (ha : startsWithDelimiter after = true) :
    scanIdentLoop T (ls ++ after) buf = (none, buf ++ ls, after) := by
  induction ls generalizing buf with
  | nil =>
    cases after with
    | nil => simp [startsWithDelimiter] at ha
    | cons c after =>
      obtain ⟨_, h2, _⟩ := delimiter_facts T c ha
      rw [List.nil_append, scanIdentLoop.eq_def]
      simp [h2]
  | cons d ds ih =>
    have hd := hls d (List.mem_cons_self _ _)
    rw [List.cons_append, scanIdentLoop.eq_def]
    simp only [hd, if_true]
    rw [ih _ (fun c hc => hls c (List.mem_cons_of_mem _ hc))]
    simp

end hjson

namespace hjson

open Token Error Value

theorem keyword_letters (T : UnicodeTables) (kw : List Char)
    (h : kw = ['n', 'u', 'l', 'l'] ∨ kw = ['t', 'r', 'u', 'e'] ∨ kw = ['f', 'a', 'l', 's', 'e']) :
    ∀ c ∈ kw, IsLetter T c = true := by
  rcases h with rfl | rfl | rfl <;> intro c hc <;> simp only [List.mem_cons, List.mem_singleton,
    List.not_mem_nil, or_false] at hc <;> rcases hc with rfl | rfl | rfl | rfl | rfl <;> rfl

/-- A keyword followed by a delimiter is scanned as its own token. -/
theorem nextTokenLoop_keyword (T : UnicodeTables) (kw after : List Char) (s : scanner)
    (h : kw = ['n', 'u', 'l', 'l'] ∨ kw = ['t', 'r', 'u', 'e'] ∨ kw = ['f', 'a', 'l', 's', 'e'])
    (ha : startsWithDelimiter after = true) :
    nextTokenLoop T (kw ++ after) s = (lookup kw, kw, { s with reader := after, buf := kw }) := by
  have hl := scanIdentLoop_letters T kw after [] (keyword_letters T kw h) ha
  rcases h with rfl | rfl | rfl
  · rw [List.cons_append, nextTokenLoop_default T _ _ _ (by decide)]
    have hd : IsDigit T 'n' = false := rfl
    rw [hd]
    simp only [Bool.false_eq_true, if_false, scanIdent]
    rw [← List.cons_append, hl]
    rfl
  · rw [List.cons_append, nextTokenLoop_default T _ _ _ (by decide)]
    have hd : IsDigit T 't' = false := rfl
    rw [hd]
    simp only [Bool.false_eq_true, if_false, scanIdent]
    rw [← List.cons_append, hl]
    rfl
  · rw [List.cons_append, nextTokenLoop_default T _ _ _ (by decide)]
    have hd : IsDigit T 'f' = false := rfl
    rw [hd]
    simp only [Bool.false_eq_true, if_false, scanIdent]
    rw [← List.cons_append, hl]
    rfl

/-- A run of ASCII digits followed by a delimiter is scanned as a number token. -/
theorem nextTokenLoop_number (T : UnicodeTables) (ds after : List Char) (s : scanner)
    (hne : ds ≠ []) (hds : ∀ c ∈ ds, 48 ≤ c.toNat ∧ c.toNat ≤ 57)
    (ha : startsWithDelimiter after = true) :
    nextTokenLoop T (ds ++ after) s
      = (tokenNumber, ds, { s with reader := after, buf := ds }) := by
  have hl := scanNumberLoop_digits T ds after [] hds ha
  obtain ⟨d, ds1, rfl⟩ := List.exists_cons_of_ne_nil hne
  have hd := hds d (List.mem_cons_self _ _)
  have hdef : isDefaultCase d = true := by
    have h1 : isWhitespace d = false := by
      unfold isWhitespace
      rw [if_neg]
      rintro (rfl | rfl | rfl) <;> revert hd <;> decide
    simp only [isDefaultCase, h1, Bool.not_false, Bool.true_and, Bool.and_eq_true, bne_iff_ne,
      ne_eq]
    refine ⟨⟨⟨⟨⟨⟨⟨?_, ?_⟩, ?_⟩, ?_⟩, ?_⟩, ?_⟩, ?_⟩, ?_⟩ <;> rintro rfl <;> revert hd <;> decide
  rw [List.cons_append, nextTokenLoop_default T _ _ _ hdef, IsDigit_ascii T d hd]
  simp only [if_true, scanNumber]
  rw [← List.cons_append, hl]
  rfl

/-- A string without quote and backslash, between quotes, is scanned as a string
token with that literal. -/
theorem nextTokenLoop_string (T : UnicodeTables) (body after : List Char) (s : scanner)
    (h : '"' ∉ body ∧ '\\' ∉ body) :
    nextTokenLoop T ('"' :: (body ++ '"' :: after)) s
      = (tokenString, body, { s with reader := after, buf := body }) := by
  rw [nextTokenLoop_quote]
  simp only [scanString]
  rw [scanStringLoop_plain body after [] h]
  rfl

/-- The scanner on a well-formed token after any whitespace: it returns the token and
stops right behind it. After a number or a keyword a delimiter must follow. -/
theorem nextToken_tok (T : UnicodeTables) (t : Tok) (ht : wellFormedTok t = true)
    (ws after : List Char) (hws : ∀ c ∈ ws, isSpace c = true)
    (ha : isWord t = true → startsWithDelimiter after = true) (s : scanner)
    (hs : s.reader = ws ++ (tokenText t ++ after)) :
    ∃ s1, nextToken T s = (t.1, t.2, s1) ∧ s1.reader = after ∧ s1.err = s.err := by
  obtain ⟨line, hskip⟩ := nextTokenLoop_skip T ws (tokenText t ++ after) s hws
  unfold nextToken
  rw [hs, hskip]
  obtain ⟨tok, lit⟩ := t
  simp only [wellFormedTok] at ht
  cases tok <;> simp only [decide_eq_true_eq, Bool.false_eq_true] at ht
  · subst ht; exact ⟨_, nextTokenLoop_comma T _ _, rfl, rfl⟩
  · subst ht; exact ⟨_, nextTokenLoop_colon T _ _, rfl, rfl⟩
  · subst ht; exact ⟨_, nextTokenLoop_lbrace T _ _, rfl, rfl⟩
  · subst ht; exact ⟨_, nextTokenLoop_rbrace T _ _, rfl, rfl⟩
  · subst ht; exact ⟨_, nextTokenLoop_lbracket T _ _, rfl, rfl⟩
  · subst ht; exact ⟨_, nextTokenLoop_rbracket T _ _, rfl, rfl⟩
  · have := nextTokenLoop_number T lit after { s with line := line } ht.1 ht.2
      (ha (by simp [isWord]))
    exact ⟨{ s with reader := after, buf := lit, line := line },
      by simpa [tokenText] using this, rfl, rfl⟩
  · have := nextTokenLoop_string T lit after { s with line := line } ht
    exact ⟨{ s with reader := after, buf := lit, line := line },
      by simpa [tokenText] using this, rfl, rfl⟩
  · have := nextTokenLoop_keyword T lit after { s with line := line } (Or.inl ht)
      (ha (by simp [isWord]))
    refine ⟨{ s with reader := after, buf := lit, line := line }, ?_, rfl, rfl⟩
    subst ht
    simpa [tokenText, lookup] using this
  · have := nextTokenLoop_keyword T lit after { s with line := line } (Or.inr (Or.inl ht))
      (ha (by simp [isWord]))
    refine ⟨{ s with reader := after, buf := lit, line := line }, ?_, rfl, rfl⟩
    subst ht
    simpa [tokenText, lookup] using this
  · have := nextTokenLoop_keyword T lit after { s with line := line } (Or.inr (Or.inr ht))
      (ha (by simp [isWord]))
    refine ⟨{ s with reader := after, buf := lit, line := line }, ?_, rfl, rfl⟩
    subst ht
    simpa [tokenText, lookup] using this

theorem advance_eq_load (T : UnicodeTables) (p : parser) :
    p.advance T = parser.load T p.jscanner := by
  unfold parser.advance parser.matchToken parser.load
  simp

theorem startsWithDelimiter_append (a b : List Char) (h : startsWithDelimiter a = true) :
    startsWithDelimiter (a ++ b) = true := by
  cases a with
  | nil => simp [startsWithDelimiter] at h
  | cons c a => simpa [startsWithDelimiter] using h

/-- Spaced text that begins with a separator token begins with a delimiter. -/
theorem spaced_startsWithDelimiter (gaps : List (List Char)) (t : Tok) (ts : List Tok)
    (hg : allSpace gaps) (ht : wellFormedTok t = true) (hsep : isSeparator t = true) :
    startsWithDelimiter (spaced gaps (t :: ts)) = true := by
  have htext : ∀ rest, startsWithDelimiter (tokenText t ++ rest) = true := by
    intro rest
    obtain ⟨tok, lit⟩ := t
    simp only [isSeparator, decide_eq_true_eq] at hsep
    simp only [wellFormedTok] at ht
    rcases hsep with h | h | h <;> subst h <;>
      simp only [decide_eq_true_eq] at ht <;> subst ht <;> rfl
  cases gaps with
  | nil => exact htext _
  | cons ws gaps =>
    cases ws with
    | nil => exact htext _
    | cons c ws =>
      have := hg (c :: ws) (List.mem_cons_self _ _) c (List.mem_cons_self _ _)
      simp [spaced, startsWithDelimiter, this]

/-- On spaced text of well-formed, delimited tokens the parser reads these tokens,
whatever text follows the last of them. -/
theorem reads_spaced (T : UnicodeTables) (toks : List Tok) :
    ∀ (gaps : List (List Char)) (s : scanner) (tail : List Char),
      (∀ t ∈ toks, wellFormedTok t = true) →
      delimited toks = true → allSpace gaps → s.reader = spaced gaps toks ++ tail →
      (parser.load T s).reads T toks := by
  induction toks with
  | nil => intros; trivial
  | cons t ts ih =>
    intro gaps s tail hwf hdel hg hs
    have hwf1 : ∀ x ∈ ts, wellFormedTok x = true := fun x hx => hwf x (List.mem_cons_of_mem _ hx)
    simp only [delimited, Bool.and_eq_true, Bool.or_eq_true, Bool.not_eq_true'] at hdel
    -- the gap in front of `t` and the gaps behind it
    obtain ⟨ws, gaps1, hws, hg1, htext⟩ : ∃ ws gaps1, (∀ c ∈ ws, isSpace c = true) ∧
        allSpace gaps1 ∧ spaced gaps (t :: ts) = ws ++ (tokenText t ++ spaced gaps1 ts) := by
      cases gaps with
      | nil => exact ⟨[], [], by simp, by simp [allSpace], by simp [spaced]⟩
      | cons ws gaps1 =>
        exact ⟨ws, gaps1, hg ws (List.mem_cons_self _ _),
          fun w hw => hg w (List.mem_cons_of_mem _ hw), by simp [spaced]⟩
    have ha : isWord t = true → startsWithDelimiter (spaced gaps1 ts ++ tail) = true := by
      intro hw
      rcases hdel.1 with h | h
      · rw [hw] at h; exact absurd h (by decide)
      · cases ts with
        | nil => simp [startsWithSeparator] at h
        | cons t1 ts1 =>
          exact startsWithDelimiter_append _ _ (spaced_startsWithDelimiter gaps1 t1 ts1 hg1
            (hwf t1 (List.mem_cons_of_mem _ (List.mem_cons_self _ _))) h)
    obtain ⟨s1, hn, hr, _⟩ := nextToken_tok T t (hwf t (List.mem_cons_self _ _)) ws
      (spaced gaps1 ts ++ tail) hws ha s (by rw [hs, htext]; simp)
    rw [reads_cons]
    refine ⟨by simp [parser.load, hn], by simp [parser.load, hn], ?_⟩
    rw [advance_eq_load]
    have : (parser.load T s).jscanner = s1 := by simp [parser.load, hn]
    rw [this]
    exact ih gaps1 s1 tail hwf1 hdel.2 hg1 hr

end hjson

namespace hjson

open Token Error Value

/-! ## Facts about the tokens of a tree -/

/-- Induction over trees: a property that holds for the scalars, and for an object or
array whenever it holds for the values inside, holds for every tree. -/
theorem value_induction (P : Value → Prop)
    (hobj : ∀ ms : List (List Char × Value), (∀ m ∈ ms, P m.2) → P (JObject ms))
    (harr : ∀ es : List Value, (∀ e ∈ es, P e) → P (JArray es))
    (hnum : ∀ n, P (JNumber n)) (hstr : ∀ s, P (JString s)) (hbool : ∀ b, P (JBool b))
    (hnull : P JNull) : ∀ v, P v := by
  have key : ∀ (k : Nat) (v : Value), sizeOf v ≤ k → P v := by
    intro k
    induction k with
    | zero => intro v hk; cases v <;> simp at hk
    | succ k ih =>
      intro v hk
      cases v with
      | JObject ms =>
        exact hobj ms fun m hm => ih m.2 (by have := sizeOf_member_lt ms m hm; omega)
      | JArray es =>
        exact harr es fun e he => ih e (by have := sizeOf_element_lt es e he; omega)
      | JNumber n => exact hnum n
      | JString s => exact hstr s
      | JBool b => exact hbool b
      | JNull => exact hnull
  exact fun v => key (sizeOf v) v (Nat.le_refl _)

theorem memberTokens_cons (k : List Char) (v : Value) (ms : List (List Char × Value)) :
    memberTokens ((k, v) :: ms) = (tokenString, k) :: (tokenColon, [':']) :: (tokensOf v ++
      (if ms.isEmpty then [] else (tokenComma, [',']) :: memberTokens ms)) := by
  cases ms with
  | nil => simp [memberTokens]
  | cons m ms => simp [memberTokens]

theorem elementTokens_cons (v : Value) (es : List Value) :
    elementTokens (v :: es) = tokensOf v ++
      (if es.isEmpty then [] else (tokenComma, [',']) :: elementTokens es) := by
  cases es with
  | nil => simp [elementTokens]
  | cons e es => simp [elementTokens]

/-- The tokens of a plain tree are well formed. -/
theorem wellFormed_tokensOf : ∀ v, plainTree v = true → ∀ t ∈ tokensOf v, wellFormedTok t = true := by
  apply value_induction
  · intro ms ih hv t ht
    simp only [plainTree, Bool.and_eq_true] at hv
    have hms : ∀ ms : List (List Char × Value), (∀ m ∈ ms, plainTree m.2 = true →
        ∀ t ∈ tokensOf m.2, wellFormedTok t = true) → plainMembers ms = true →
        ∀ t ∈ memberTokens ms, wellFormedTok t = true := by
      intro ms
      induction ms with
      | nil => intro _ _ t ht; simp [memberTokens] at ht
      | cons m ms ihms =>
        obtain ⟨k, v⟩ := m
        intro ih hp t ht
        simp only [plainMembers, Bool.and_eq_true] at hp
        rw [memberTokens_cons] at ht
        simp only [List.mem_cons, List.mem_append] at ht
        rcases ht with rfl | rfl | ht | ht
        · simpa [wellFormedTok] using hp.1.1
        · rfl
        · exact ih (k, v) (List.mem_cons_self _ _) hp.1.2 t ht
        · split_ifs at ht with he
          · simp at ht
          · rcases List.mem_cons.mp ht with rfl | ht
            · rfl
            · exact ihms (fun m hm => ih m (List.mem_cons_of_mem _ hm)) hp.2 t ht
    simp only [tokensOf, List.mem_cons, List.mem_append, List.mem_singleton, List.not_mem_nil,
      or_false] at ht
    rcases ht with rfl | ht | rfl
    · rfl
    · exact hms ms ih hv.1 t ht
    · rfl
  · intro es ih hv t ht
    simp only [plainTree] at hv
    have hes : ∀ es : List Value, (∀ e ∈ es, plainTree e = true →
        ∀ t ∈ tokensOf e, wellFormedTok t = true) → plainElements es = true →
        ∀ t ∈ elementTokens es, wellFormedTok t = true := by
      intro es
      induction es with
      | nil => intro _ _ t ht; simp [elementTokens] at ht
      | cons e es ihes =>
        intro ih hp t ht
        simp only [plainElements, Bool.and_eq_true] at hp
        rw [elementTokens_cons] at ht
        simp only [List.mem_append] at ht
        rcases ht with ht | ht
        · exact ih e (List.mem_cons_self _ _) hp.1 t ht
        · split_ifs at ht with he
          · simp at ht
          · rcases List.mem_cons.mp ht with rfl | ht
            · rfl
            · exact ihes (fun m hm => ih m (List.mem_cons_of_mem _ hm)) hp.2 t ht
    simp only [tokensOf, List.mem_cons, List.mem_append, List.mem_singleton, List.not_mem_nil,
      or_false] at ht
    rcases ht with rfl | ht | rfl
    · rfl
    · exact hes es ih hv t ht
    · rfl
  · intro n hv t ht
    simp only [tokensOf, List.mem_singleton] at ht
    subst ht
    simpa [wellFormedTok] using toDigits_digits n.toNat
  · intro s hv t ht
    simp only [tokensOf, List.mem_singleton] at ht
    subst ht
    simpa [wellFormedTok, plainTree] using hv
  · intro b hv t ht
    cases b <;> simp only [tokensOf, List.mem_singleton] at ht <;> subst ht <;> rfl
  · intro hv t ht
    simp only [tokensOf, List.mem_singleton] at ht
    subst ht
    rfl

theorem delimited_cons_of_not_word (t : Tok) (ts : List Tok) (h : isWord t = false) :
    delimited (t :: ts) = delimited ts := by
  simp [delimited, h]

/-- In the tokens of a tree every number and keyword is followed by a separator,
provided one follows the tree when it is a scalar. -/
theorem delimited_tokensOf : ∀ v, ∀ rest : List Tok, delimited rest = true →
    (isScalar v = true → startsWithSeparator rest = true) →
    delimited (tokensOf v ++ rest) = true := by
  apply value_induction
  · intro ms ih rest hr _
    have hms : ∀ ms : List (List Char × Value), (∀ m ∈ ms, ∀ rest : List Tok,
        delimited rest = true → (isScalar m.2 = true → startsWithSeparator rest = true) →
        delimited (tokensOf m.2 ++ rest) = true) →
        delimited (memberTokens ms ++ (tokenRBrace, ['}']) :: rest) = true := by
      intro ms
      induction ms with
      | nil => intro _; simpa [memberTokens, delimited, isWord] using hr
      | cons m ms ihms =>
        obtain ⟨k, v⟩ := m
        intro ih
        rw [memberTokens_cons]
        simp only [List.cons_append, List.append_assoc]
        rw [delimited_cons_of_not_word _ _ (by rfl), delimited_cons_of_not_word _ _ (by rfl)]
        apply ih (k, v) (List.mem_cons_self _ _)
        · split_ifs with he
          · rw [List.isEmpty_iff] at he
            subst he
            simpa [memberTokens, delimited, isWord] using hr
          · rw [List.cons_append, delimited_cons_of_not_word _ _ (by rfl)]
            exact ihms fun m hm => ih m (List.mem_cons_of_mem _ hm)
        · intro _
          split_ifs <;> rfl
    simp only [tokensOf, List.cons_append, List.append_assoc]
    rw [delimited_cons_of_not_word _ _ (by rfl)]
    exact hms ms ih
  · intro es ih rest hr _
    have hes : ∀ es : List Value, (∀ e ∈ es, ∀ rest : List Tok,
        delimited rest = true → (isScalar e = true → startsWithSeparator rest = true) →
        delimited (tokensOf e ++ rest) = true) →
        delimited (elementTokens es ++ (tokenRBracket, [']']) :: rest) = true := by
      intro es
      induction es with
      | nil => intro _; simpa [elementTokens, delimited, isWord] using hr
      | cons e es ihes =>
        intro ih
        rw [elementTokens_cons]
        simp only [List.append_assoc]
        apply ih e (List.mem_cons_self _ _)
        · split_ifs with he
          · rw [List.isEmpty_iff] at he
            subst he
            simpa [elementTokens, delimited, isWord] using hr
          · rw [List.cons_append, delimited_cons_of_not_word _ _ (by rfl)]
            exact ihes fun m hm => ih m (List.mem_cons_of_mem _ hm)
        · intro _
          split_ifs <;> rfl
    simp only [tokensOf, List.cons_append, List.append_assoc]
    rw [delimited_cons_of_not_word _ _ (by rfl)]
    exact hes es ih
  · intro n rest hr hs
    simp [tokensOf, delimited, hr, hs rfl]
  · intro s rest hr hs
    simp [tokensOf, delimited, hr, hs rfl]
  · intro b rest hr hs
    cases b <;> simp [tokensOf, delimited, hr, hs rfl]
  · intro rest hr hs
    simp [tokensOf, delimited, hr, hs rfl]

/-! ## `check` accepts a tree against itself -/

theorem mapGet_of_mem (ms : List (List Char × Value)) (hnd : (ms.map Prod.fst).Nodup)
    (k : List Char) (v : Value) (h : (k, v) ∈ ms) : mapGet ms k = some v := by
  induction ms with
  | nil => simp at h
  | cons m ms ih =>
    obtain ⟨k1, v1⟩ := m
    simp only [List.map_cons, List.nodup_cons] at hnd
    rw [mapGet]
    rcases List.mem_cons.mp h with heq | hmem
    · simp only [Prod.mk.injEq] at heq
      rw [if_pos heq.1.symm, heq.2]
    · have hne : k1 ≠ k := by
        rintro rfl
        exact hnd.1 (List.mem_map_of_mem Prod.fst hmem)
      rw [if_neg hne]
      exact ih hnd.2 hmem

theorem checkValues_of_mem (sub all : List (List Char × Value))
    (h : ∀ m ∈ sub, mapGet all m.1 = some m.2 ∧ check m.2 m.2 = true) :
    checkValues sub all = true := by
  induction sub with
  | nil => rfl
  | cons m sub ih =>
    obtain ⟨k, v⟩ := m
    have hm := h (k, v) (List.mem_cons_self _ _)
    rw [checkValues, hm.1]
    simp only [hm.2, Bool.true_and]
    exact ih fun x hx => h x (List.mem_cons_of_mem _ hx)

theorem checkElements_self (es : List Value) (h : ∀ e ∈ es, check e e = true) :
    checkElements es es = true := by
  induction es with
  | nil => rfl
  | cons e es ih =>
    rw [checkElements, h e (List.mem_cons_self _ _)]
    simp only [Bool.true_and]
    exact ih fun x hx => h x (List.mem_cons_of_mem _ hx)

/-- A tree whose objects have pairwise distinct keys is check-equal to itself. -/
theorem check_self : ∀ v, plainTree v = true → check v v = true := by
  apply value_induction
  · intro ms ih hv
    simp only [plainTree, Bool.and_eq_true, decide_eq_true_eq] at hv
    rw [check]
    simp only [decide_True, Bool.true_and]
    apply checkValues_of_mem
    intro m hm
    exact ⟨mapGet_of_mem ms hv.2 m.1 m.2 hm, ih m hm (plainMembers_mem ms hv.1 m hm)⟩
  · intro es ih hv
    simp only [plainTree] at hv
    rw [check]
    simp only [decide_True, Bool.true_and]
    exact checkElements_self es fun e he => ih e he (plainElements_mem es hv e he)
  · intro n _; simp [check]
  · intro s _; simp [check]
  · intro b _; simp [check]
  · intro _; simp [check]

end hjson

namespace hjson

open Token Error Value

/-! ## From the productions to `parse` -/

theorem load_pending_le (T : UnicodeTables) (s : scanner) :
    (parser.load T s).pending ≤ s.reader.length := by
  have := nextToken_length T s
  rcases hn : nextToken T s with ⟨tok, lit, s1⟩
  rw [hn] at this
  simpa [parser.load, hn, parser.pending] using this

/-- When the first token is `{`, `parse` returns what `parseObject` returns with any
budget that is enough for it. -/
theorem parse_object (T : UnicodeTables) (p : parser) (n : Nat) (r : Outcome)
    (ht : (parser.load T p.jscanner).token = tokenLBrace)
    (h : parser.parseObject T n (parser.load T p.jscanner) = some r) :
    parser.parse T p = some (match r with
      | (.error err, p2) => (none, some err, p2)
      | (.ok v, p2) => (some v, none, p2)) := by
  have hp := load_pending_le T p.jscanner
  obtain ⟨r1, hr1, _⟩ := (fuel_enough T (parseFuel p)).1 (parser.load T p.jscanner) ht
    (by unfold parseFuel; omega)
  have e1 := parseObject_mono T (Nat.le_max_left n (parseFuel p)) h
  have e2 := parseObject_mono T (Nat.le_max_right n (parseFuel p)) hr1
  have hr : r1 = r := Option.some.inj (e2.symm.trans e1)
  subst hr
  unfold parser.parse
  unfold parser.load at ht hr1
  rcases hn : nextToken T p.jscanner with ⟨tok, lit, s1⟩
  rw [hn] at ht hr1
  simp only [] at ht hr1
  subst ht
  simp only [hr1]
  rcases r1 with ⟨_ | _, _⟩ <;> rfl

/-- When the first token is `[`, `parse` returns what `parseArray` returns with any
budget that is enough for it. -/
theorem parse_array (T : UnicodeTables) (p : parser) (n : Nat) (r : Outcome)
    (ht : (parser.load T p.jscanner).token = tokenLBracket)
    (h : parser.parseArray T n (parser.load T p.jscanner) = some r) :
    parser.parse T p = some (match r with
      | (.error err, p2) => (none, some err, p2)
      | (.ok v, p2) => (some v, none, p2)) := by
  have hp := load_pending_le T p.jscanner
  obtain ⟨r1, hr1, _⟩ := (fuel_enough T (parseFuel p)).2.2.2.1 (parser.load T p.jscanner) ht
    (by unfold parseFuel; omega)
  have e1 := parseArray_mono T (Nat.le_max_left n (parseFuel p)) h
  have e2 := parseArray_mono T (Nat.le_max_right n (parseFuel p)) hr1
  have hr : r1 = r := Option.some.inj (e2.symm.trans e1)
  subst hr
  unfold parser.parse
  unfold parser.load at ht hr1
  rcases hn : nextToken T p.jscanner with ⟨tok, lit, s1⟩
  rw [hn] at ht hr1
  simp only [] at ht hr1
  subst ht
  simp only [hr1]
  rcases r1 with ⟨_ | _, _⟩ <;> rfl

/-- A parser that reads the tokens of an object or array parses them into that tree. -/
theorem parse_of_reads (T : UnicodeTables) (v : Value) (hroot : isContainer v = true)
    (hplain : plainTree v = true) (p : parser)
    (h : (parser.load T p.jscanner).reads T (tokensOf v)) :
    ∃ p1, parser.parse T p = some (some v, none, p1) := by
  obtain ⟨n, p1, hn, _⟩ := parsesTree_of_plain T _ v (Nat.le_refl _) hplain
    (parser.load T p.jscanner) [] (by simpa using h)
  cases n with
  | zero => simp [parser.parseValues] at hn
  | succ n =>
    cases v with
    | JObject ms =>
      have ht : (parser.load T p.jscanner).token = tokenLBrace := by
        simp only [tokensOf, reads_cons] at h
        exact h.1
      rw [parser.parseValues] at hn
      simp only [ht] at hn
      exact ⟨p1, parse_object T p n _ ht hn⟩
    | JArray es =>
      have ht : (parser.load T p.jscanner).token = tokenLBracket := by
        simp only [tokensOf, reads_cons] at h
        exact h.1
      rw [parser.parseValues] at hn
      simp only [ht] at hn
      exact ⟨p1, parse_array T p n _ ht hn⟩
    | JNumber _ => simp [isContainer] at hroot
    | JString _ => simp [isContainer] at hroot
    | JBool _ => simp [isContainer] at hroot
    | JNull => simp [isContainer] at hroot

/-- The JSON text of a plain tree with an object or array root, with any whitespace
between the tokens and any text behind the last token, parses to the tree itself. -/
theorem parse_spaced (T : UnicodeTables) (v : Value) (hroot : isContainer v = true)
    (hplain : plainTree v = true) (gaps : List (List Char)) (hg : allSpace gaps)
    (tail : List Char) :
    ∃ p1, parser.parse T (newParser (spaced gaps (tokensOf v) ++ tail))
      = some (some v, none, p1) := by
  apply parse_of_reads T v hroot hplain
  apply reads_spaced T (tokensOf v) gaps _ tail (wellFormed_tokensOf v hplain)
  · have := delimited_tokensOf v [] rfl
      (fun hs => by cases v <;> simp_all [isContainer, isScalar])
    simpa using this
  · exact hg
  · rfl

end hjson

namespace hjson

open Token Error Value

/-! ## `String()` of a tree without strings and members -/

theorem spaced_nil_append (a b : List Tok) : spaced [] (a ++ b) = spaced [] a ++ spaced [] b := by
  induction a with
  | nil => cases b <;> simp [spaced]
  | cons t a ih => simp [spaced, ih]

theorem bareElements_mem (es : List Value) (h : bareElements es = true) :
    ∀ e ∈ es, bareTree e = true := by
  induction es with
  | nil => simp
  | cons e es ih =>
    simp only [bareElements, Bool.and_eq_true] at h
    intro x hx
    rcases List.mem_cons.mp hx with rfl | hx
    · exact h.1
    · exact ih h.2 x hx

/-- The loop of `walkArray` writes the elements with commas between them. -/
theorem walkArray_text (es : List Value)
    (ih : ∀ e ∈ es, ∀ buf, accept e buf = buf ++ spaced [] (tokensOf e)) :
    ∀ (num i : Nat) (buf : List Char), i + es.length = num →
      walkArray es num i buf = buf ++ spaced [] (elementTokens es) := by
  induction es with
  | nil => intro num i buf _; simp [walkArray, elementTokens, spaced]
  | cons e es ihes =>
    intro num i buf hlen
    rw [walkArray, elementTokens_cons, ih e (List.mem_cons_self _ _)]
    simp only [List.length_cons] at hlen
    cases es with
    | nil =>
      have : (i : Int) = (num : Int) - 1 := by simp at hlen; omega
      simp [this]
    | cons e1 es1 =>
      have : ¬ (i : Int) = (num : Int) - 1 := by simp at hlen; omega
      simp only [this, if_false, List.isEmpty_cons, Bool.false_eq_true]
      rw [ihes (fun x hx => ih x (List.mem_cons_of_mem _ hx)) num (i + 1) _
        (by simp at hlen ⊢; omega)]
      rw [spaced_nil_append]
      simp [spaced, tokenText]

/-- The visitor writes a tree without strings and members as its JSON text without
any whitespace. -/
theorem accept_bare : ∀ v, bareTree v = true →
    ∀ buf, accept v buf = buf ++ spaced [] (tokensOf v) := by
  apply value_induction
  · intro ms _ hv buf
    simp only [bareTree, List.isEmpty_iff] at hv
    subst hv
    simp [accept, walkObject, tokensOf, memberTokens, spaced, tokenText]
  · intro es ih hv buf
    simp only [bareTree] at hv
    have hes := walkArray_text es (fun e he => ih e he (bareElements_mem es hv e he))
      es.length 0 (buf ++ ['[']) (by simp)
    rw [accept, hes]
    simp only [tokensOf]
    rw [show ((tokenLBracket, ['[']) :: (elementTokens es ++ [(tokenRBracket, [']'])]))
      = [(tokenLBracket, ['['])] ++ (elementTokens es ++ [(tokenRBracket, [']'])]) from rfl,
      spaced_nil_append, spaced_nil_append]
    simp [spaced, tokenText]
  · intro n hv buf
    simp only [bareTree, decide_eq_true_eq] at hv
    have : ¬ n < 0 := by omega
    simp [accept, Itoa, this, tokensOf, spaced, tokenText]
  · intro s hv; simp [bareTree] at hv
  · intro b _ buf
    cases b <;> simp [accept, tokensOf, spaced, tokenText]
  · intro _ buf
    simp [accept, tokensOf, spaced, tokenText]

theorem String_bare (v : Value) (hroot : isContainer v = true) (hv : bareTree v = true) :
    v.String = spaced [] (tokensOf v) := by
  cases v with
  | JObject ms => simpa [Value.String, newNodeVisitor] using accept_bare _ hv []
  | JArray es => simpa [Value.String, newNodeVisitor] using accept_bare _ hv []
  | JNumber _ => simp [isContainer] at hroot
  | JString _ => simp [isContainer] at hroot
  | JBool _ => simp [isContainer] at hroot
  | JNull => simp [isContainer] at hroot

/-- A tree without strings and members is a plain tree. -/
theorem plainTree_of_bare : ∀ v, bareTree v = true → plainTree v = true := by
  apply value_induction
  · intro ms _ hv
    simp only [bareTree, List.isEmpty_iff] at hv
    subst hv
    rfl
  · intro es ih hv
    simp only [bareTree] at hv
    simp only [plainTree]
    have : ∀ es : List Value, (∀ e ∈ es, plainTree e = true) → plainElements es = true := by
      intro es
      induction es with
      | nil => intro _; rfl
      | cons e es ihes =>
        intro h
        simp only [plainElements, Bool.and_eq_true]
        exact ⟨h e (List.mem_cons_self _ _), ihes fun x hx => h x (List.mem_cons_of_mem _ hx)⟩
    exact this es fun e he => ih e he (bareElements_mem es hv e he)
  · intro n hv; simpa [bareTree, plainTree] using hv
  · intro s hv; simp [bareTree] at hv
  · intro b _; rfl
  · intro _; rfl

end hjson

namespace hjson

open Token Error Value

/-! ## Object texts with a repeated key or a trailing comma -/

theorem plainMembers_key (ms : List (List Char × Value)) (h : plainMembers ms = true) :
    ∀ k ∈ ms.map Prod.fst, '"' ∉ k ∧ '\\' ∉ k := by
  induction ms with
  | nil => simp
  | cons m ms ih =>
    obtain ⟨k, v⟩ := m
    simp only [plainMembers, Bool.and_eq_true, decide_eq_true_eq] at h
    intro x hx
    rcases List.mem_cons.mp hx with rfl | hx
    · exact h.1.1
    · exact ih h.2 x hx

/-- The tokens of plain members are well formed. -/
theorem wellFormed_memberTokens (ms : List (List Char × Value)) (h : plainMembers ms = true) :
    ∀ t ∈ memberTokens ms, wellFormedTok t = true := by
  induction ms with
  | nil => intro t ht; simp [memberTokens] at ht
  | cons m ms ih =>
    obtain ⟨k, v⟩ := m
    intro t ht
    simp only [plainMembers, Bool.and_eq_true] at h
    rw [memberTokens_cons] at ht
    simp only [List.mem_cons, List.mem_append] at ht
    rcases ht with rfl | rfl | ht | ht
    · simpa [wellFormedTok] using h.1.1
    · rfl
    · exact wellFormed_tokensOf v h.1.2 t ht
    · split_ifs at ht with he
      · simp at ht
      · rcases List.mem_cons.mp ht with rfl | ht
        · rfl
        · exact ih h.2 t ht

/-- The tokens of members, followed by a separator, are delimited. -/
theorem delimited_memberTokens (ms : List (List Char × Value)) (rest : List Tok)
    (hr : delimited rest = true) (hs : startsWithSeparator rest = true) :
    delimited (memberTokens ms ++ rest) = true := by
  induction ms with
  | nil => simpa [memberTokens] using hr
  | cons m ms ih =>
    obtain ⟨k, v⟩ := m
    rw [memberTokens_cons]
    simp only [List.cons_append, List.append_assoc]
    rw [delimited_cons_of_not_word _ _ (by rfl), delimited_cons_of_not_word _ _ (by rfl)]
    apply delimited_tokensOf v
    · split_ifs with he
      · simpa using hr
      · rw [List.cons_append, delimited_cons_of_not_word _ _ (by rfl)]
        exact ih
    · intro _
      split_ifs
      · simpa using hs
      · rfl

/-- After the members and a comma the object loop stands behind the comma with the
members collected. -/
theorem parseObjectLoop_progress (T : UnicodeTables) (ms : List (List Char × Value))
    (hms : ∀ m ∈ ms, ParsesTree T m.2) (hne : ms ≠ []) :
    ∀ (obj : List (List Char × Value)) (p : parser) (rest : List Tok),
      ((obj ++ ms).map Prod.fst).Nodup →
      p.reads T (memberTokens ms ++ (tokenComma, [',']) :: rest) →
      ∃ n0 p1, p1.reads T rest ∧ ∀ n, n0 ≤ n →
        parser.parseObjectLoop T (n + ms.length) obj p
          = parser.parseObjectLoop T n (obj ++ ms) p1 := by
  induction ms with
  | nil => exact absurd rfl hne
  | cons m ms ih =>
    intro obj p rest hnd h
    obtain ⟨k, v⟩ := m
    have hv := hms (k, v) (List.mem_cons_self _ _)
    have hms1 : ∀ x ∈ ms, ParsesTree T x.2 :=
      fun x hx => hms x (List.mem_cons_of_mem _ hx)
    have hk : k ∉ obj.map Prod.fst := by
      intro hmem
      rw [List.map_append, List.map_cons] at hnd
      exact (List.nodup_append.mp hnd).2.2 hmem (List.mem_cons_self _ _)
    have hnd1 : (((obj ++ [(k, v)]) ++ ms).map Prod.fst).Nodup := by
      simpa using hnd
    rw [memberTokens_cons] at h
    simp only [List.cons_append, List.append_assoc] at h
    obtain ⟨n0, p1, hr, hstep⟩ := parseObjectLoop_member T k v hv obj hk p _ h
    cases ms with
    | nil =>
      simp only [List.isEmpty_nil, if_true, List.nil_append] at hr
      rw [reads_cons] at hr
      obtain ⟨h1, _, h3⟩ := hr
      refine ⟨n0, p1.advance T, h3, fun n hn => ?_⟩
      have hc : ¬ p1.token ≠ tokenComma := by rw [h1]; decide
      simp only [List.length_singleton]
      rw [hstep n hn, if_neg hc]
    | cons m1 ms1 =>
      simp only [List.isEmpty_cons, Bool.false_eq_true, if_false, List.cons_append] at hr
      rw [reads_cons] at hr
      obtain ⟨h1, _, h3⟩ := hr
      obtain ⟨n1, p2, hr2, hloop⟩ := ih hms1 (by simp) (obj ++ [(k, v)]) (p1.advance T) rest
        hnd1 h3
      refine ⟨max n0 n1, p2, hr2, fun n hn => ?_⟩
      have hc : ¬ p1.token ≠ tokenComma := by rw [h1]; decide
      have e1 : n + ((k, v) :: m1 :: ms1).length = (n + (m1 :: ms1).length) + 1 := by
        simp only [List.length_cons]; omega
      rw [e1, hstep _ (by have := Nat.le_max_left n0 n1; omega), if_neg hc,
        hloop n (by have := Nat.le_max_right n0 n1; omega)]
      simp

theorem mapGet_isSome_of_mem (obj : List (List Char × Value)) (k : List Char)
    (h : k ∈ obj.map Prod.fst) : (mapGet obj k).isSome = true := by
  induction obj with
  | nil => simp at h
  | cons m obj ih =>
    obtain ⟨k1, v1⟩ := m
    rw [mapGet]
    split_ifs with he
    · rfl
    · simp only [List.map_cons, List.mem_cons] at h
      rcases h with h | h
      · exact absurd h.symm he
      · exact ih h

/-- An object text in which, after members with distinct keys, one of their keys
comes again: `parse` fails with the error that names this key. -/
theorem parse_repeated_key (T : UnicodeTables) (ms : List (List Char × Value))
    (k : List Char) (gaps : List (List Char)) (tail : List Char)
    (hplain : plainMembers ms = true) (hnd : (ms.map Prod.fst).Nodup)
    (hk : k ∈ ms.map Prod.fst) (hg : allSpace gaps) :
    ∃ p, parser.parse T (newParser (spaced gaps ((tokenLBrace, ['{']) ::
        (memberTokens ms ++ [(tokenComma, [',']), (tokenString, k)])) ++ tail))
      = some (none, some (errorf ("repeated key:" ++ String.mk k ++ " in object")), p) := by
  have hne : ms ≠ [] := by rintro rfl; simp at hk
  have hwf : ∀ t ∈ (tokenLBrace, ['{']) ::
      (memberTokens ms ++ [(tokenComma, [',']), (tokenString, k)]), wellFormedTok t = true := by
    intro t ht
    simp only [List.mem_cons, List.mem_append, List.not_mem_nil, or_false] at ht
    rcases ht with rfl | ht | rfl | rfl
    · rfl
    · exact wellFormed_memberTokens ms hplain t ht
    · rfl
    · simpa [wellFormedTok] using plainMembers_key ms hplain k hk
  have hdel : delimited ((tokenLBrace, ['{']) ::
      (memberTokens ms ++ [(tokenComma, [',']), (tokenString, k)])) = true := by
    rw [delimited_cons_of_not_word _ _ (by rfl)]
    exact delimited_memberTokens ms _ (by rfl) (by rfl)
  have hreads := reads_spaced T _ gaps (newParser (spaced gaps ((tokenLBrace, ['{']) ::
    (memberTokens ms ++ [(tokenComma, [',']), (tokenString, k)])) ++ tail)).jscanner tail
    hwf hdel hg rfl
  rw [reads_cons] at hreads
  obtain ⟨h1, _, h3⟩ := hreads
  have hms : ∀ m ∈ ms, ParsesTree T m.2 := fun m hm =>
    parsesTree_of_plain T _ m.2 (Nat.le_refl _) (plainMembers_mem ms hplain m hm)
  obtain ⟨n0, p1, hr, hloop⟩ := parseObjectLoop_progress T ms hms hne [] _ [(tokenString, k)]
    (by simpa using hnd) (by simpa using h3)
  rw [reads_cons] at hr
  obtain ⟨h4, h5, _⟩ := hr
  simp only [] at h4 h5
  have herr : parser.parseObjectLoop T (n0 + 1) ([] ++ ms) p1
      = some (.error (errorf ("repeated key:" ++ String.mk k ++ " in object")), p1) := by
    rw [parser.parseObjectLoop]
    have hs : ¬ p1.token ≠ tokenString := not_not.mpr h4
    rw [if_neg hs]
    simp only [h5, List.nil_append, mapGet_isSome_of_mem ms k hk, if_true]
  have hobj : parser.parseObject T (n0 + 1 + ms.length + 1) (parser.load T (newParser
      (spaced gaps ((tokenLBrace, ['{']) ::
        (memberTokens ms ++ [(tokenComma, [',']), (tokenString, k)])) ++ tail)).jscanner)
      = some (.error (errorf ("repeated key:" ++ String.mk k ++ " in object")), p1) := by
    rw [parser.parseObject, matchToken_self T _ _ h1]
    simp only [NewObject]
    rw [hloop (n0 + 1) (by omega), herr]
  exact ⟨p1, parse_object T _ _ _ h1 hobj⟩

/-- An object text whose last member is followed by a comma and the closing brace
parses to the object of its members. -/
theorem parse_trailing_comma (T : UnicodeTables) (ms : List (List Char × Value))
    (gaps : List (List Char)) (tail : List Char) (hne : ms ≠ [])
    (hplain : plainMembers ms = true) (hnd : (ms.map Prod.fst).Nodup) (hg : allSpace gaps) :
    ∃ p, parser.parse T (newParser (spaced gaps ((tokenLBrace, ['{']) ::
        (memberTokens ms ++ [(tokenComma, [',']), (tokenRBrace, ['}'])])) ++ tail))
      = some (some (JObject ms), none, p) := by
  have hwf : ∀ t ∈ (tokenLBrace, ['{']) ::
      (memberTokens ms ++ [(tokenComma, [',']), (tokenRBrace, ['}'])]),
      wellFormedTok t = true := by
    intro t ht
    simp only [List.mem_cons, List.mem_append, List.not_mem_nil, or_false] at ht
    rcases ht with rfl | ht | rfl | rfl
    · rfl
    · exact wellFormed_memberTokens ms hplain t ht
    · rfl
    · rfl
  have hdel : delimited ((tokenLBrace, ['{']) ::
      (memberTokens ms ++ [(tokenComma, [',']), (tokenRBrace, ['}'])])) = true := by
    rw [delimited_cons_of_not_word _ _ (by rfl)]
    exact delimited_memberTokens ms _ (by rfl) (by rfl)
  have hreads := reads_spaced T _ gaps (newParser (spaced gaps ((tokenLBrace, ['{']) ::
    (memberTokens ms ++ [(tokenComma, [',']), (tokenRBrace, ['}'])])) ++ tail)).jscanner tail
    hwf hdel hg rfl
  rw [reads_cons] at hreads
  obtain ⟨h1, _, h3⟩ := hreads
  have hms : ∀ m ∈ ms, ParsesTree T m.2 := fun m hm =>
    parsesTree_of_plain T _ m.2 (Nat.le_refl _) (plainMembers_mem ms hplain m hm)
  obtain ⟨n, p1, hloop, _⟩ := parseObjectLoop_members T ms hms []
    [(tokenComma, [',']), (tokenRBrace, ['}'])] _ [] (Or.inr ⟨rfl, hne⟩)
    (by simpa using hnd) (by simpa using h3)
  have hobj : parser.parseObject T (n + 1) (parser.load T (newParser
      (spaced gaps ((tokenLBrace, ['{']) ::
        (memberTokens ms ++ [(tokenComma, [',']), (tokenRBrace, ['}'])])) ++ tail)).jscanner)
      = some (.ok (JObject ms), p1) := by
    rw [parser.parseObject, matchToken_self T _ _ h1]
    simpa [NewObject] using hloop
  exact ⟨p1, parse_object T _ _ _ h1 hobj⟩

end hjson

namespace hjson

open Token Error Value

/-! ## Every parsed object has distinct keys -/

theorem mapSet_keys (obj : List (List Char × Value)) (k : List Char) (v : Value) :
    (mapSet obj k v).map Prod.fst
      = if k ∈ obj.map Prod.fst then obj.map Prod.fst else obj.map Prod.fst ++ [k] := by
  induction obj with
  | nil => simp [mapSet]
  | cons m obj ih =>
    obtain ⟨k1, v1⟩ := m
    rw [mapSet]
    by_cases he : k1 = k
    · rw [if_pos he]
      simp only [List.map_cons, List.mem_cons, he, true_or, if_true]
    · rw [if_neg he]
      have hne : ¬ k = k1 := fun h => he h.symm
      simp only [List.map_cons, List.mem_cons, hne, false_or, ih]
      split_ifs <;> simp

theorem mapSet_nodup (obj : List (List Char × Value)) (k : List Char) (v : Value)
    (h : (obj.map Prod.fst).Nodup) : ((mapSet obj k v).map Prod.fst).Nodup := by
  rw [mapSet_keys]
  split_ifs with hk
  · exact h
  · rw [List.nodup_append]
    refine ⟨h, by simp, ?_⟩
    intro a ha hb
    simp only [List.mem_singleton] at hb
    subst hb
    exact hk ha

theorem mapSet_distinct (obj : List (List Char × Value)) (k : List Char) (v : Value)
    (h : distinctMembers obj = true) (hv : distinctKeys v = true) :
    distinctMembers (mapSet obj k v) = true := by
  induction obj with
  | nil => simp [mapSet, distinctMembers, hv]
  | cons m obj ih =>
    obtain ⟨k1, v1⟩ := m
    simp only [distinctMembers, Bool.and_eq_true] at h
    rw [mapSet]
    split_ifs
    · simp [distinctMembers, hv, h.2]
    · simp [distinctMembers, h.1, ih h.2]

theorem distinctElements_append (arr : List Value) (v : Value)
    (h : distinctElements arr = true) (hv : distinctKeys v = true) :
    distinctElements (addValue arr v) = true := by
  unfold addValue
  induction arr with
  | nil => simp [distinctElements, hv]
  | cons e arr ih =>
    simp only [distinctElements, Bool.and_eq_true] at h
    simp [distinctElements, h.1, ih h.2]

theorem parseObjectEnd_ok (T : UnicodeTables) (obj : List (List Char × Value)) (p : parser)
    (v : Value) (p1 : parser) (h : parser.parseObjectEnd T obj p = (.ok v, p1)) :
    v = JObject obj := by
  unfold parser.parseObjectEnd at h
  rcases hm : p.matchToken T tokenRBrace with ⟨_ | _, p2⟩ <;> rw [hm] at h <;>
    simp only [Prod.mk.injEq, Except.ok.injEq, reduceCtorEq, false_and] at h
  exact h.1.symm

theorem parseArrayEnd_ok (T : UnicodeTables) (arr : List Value) (p : parser)
    (v : Value) (p1 : parser) (h : parser.parseArrayEnd T arr p = (.ok v, p1)) :
    v = JArray arr := by
  unfold parser.parseArrayEnd at h
  rcases hm : p.matchToken T tokenRBracket with ⟨_ | _, p2⟩ <;> rw [hm] at h <;>
    simp only [Prod.mk.injEq, Except.ok.injEq, reduceCtorEq, false_and] at h
  exact h.1.symm

/-- Whatever the input, a tree that a production returns has pairwise distinct keys
in every object. -/
theorem parsed_distinct (T : UnicodeTables) (n : Nat) :
    (∀ p v p1, parser.parseObject T n p = some (.ok v, p1) → distinctKeys v = true) ∧
    (∀ obj p v p1, (obj.map Prod.fst).Nodup → distinctMembers obj = true →
      parser.parseObjectLoop T n obj p = some (.ok v, p1) → distinctKeys v = true) ∧
    (∀ p v p1, parser.parseValues T n p = some (.ok v, p1) → distinctKeys v = true) ∧
    (∀ p v p1, parser.parseArray T n p = some (.ok v, p1) → distinctKeys v = true) ∧
    (∀ arr p v p1, distinctElements arr = true →
      parser.parseArrayLoop T n arr p = some (.ok v, p1) → distinctKeys v = true) := by
  induction n with
  | zero =>
    refine ⟨?_, ?_, ?_, ?_, ?_⟩ <;> intros <;>
      simp_all [parser.parseObject, parser.parseObjectLoop, parser.parseValues,
        parser.parseArray, parser.parseArrayLoop]
  | succ n ih =>
    obtain ⟨ihO, ihOL, ihV, ihA, ihAL⟩ := ih
    have endO : ∀ obj p v p1, (obj.map Prod.fst).Nodup → distinctMembers obj = true →
        some (parser.parseObjectEnd T obj p) = some (.ok v, p1) → distinctKeys v = true := by
      intro obj p v p1 h1 h2 h
      rw [parseObjectEnd_ok T obj p v p1 (Option.some.inj h)]
      simp [distinctKeys, h1, h2]
    have endA : ∀ arr p v p1, distinctElements arr = true →
        some (parser.parseArrayEnd T arr p) = some (.ok v, p1) → distinctKeys v = true := by
      intro arr p v p1 h1 h
      rw [parseArrayEnd_ok T arr p v p1 (Option.some.inj h)]
      simpa [distinctKeys] using h1
    refine ⟨?_, ?_, ?_, ?_, ?_⟩
    · intro p v p1 h
      rw [parser.parseObject] at h
      exact ihOL _ _ _ _ (by simp [NewObject]) (by simp [NewObject, distinctMembers]) h
    · intro obj p v p1 hnd hdm h
      rw [parser.parseObjectLoop] at h
      by_cases h1 : p.token ≠ tokenString
      · rw [if_pos h1] at h; exact endO _ _ _ _ hnd hdm h
      · rw [if_neg h1] at h
        simp only [] at h
        by_cases h2 : (mapGet obj p.literal).isSome = true
        · rw [if_pos h2] at h; simp at h
        · rw [if_neg h2] at h
          rcases hm : parser.matchToken T (parser.matchToken T p tokenString).2 tokenColon
            with ⟨b, p2⟩
          rw [hm] at h
          cases b
          · simp at h
          · simp only [] at h
            cases hv : parser.parseValues T n p2 with
            | none => rw [hv] at h; simp at h
            | some x =>
              rw [hv] at h
              rcases x with ⟨_ | value, p3⟩
              · simp at h
              · simp only [] at h
                have hval := ihV _ _ _ hv
                have hnd1 := mapSet_nodup obj p.literal value hnd
                have hdm1 := mapSet_distinct obj p.literal value hdm hval
                by_cases h3 : p3.token ≠ tokenComma
                · rw [if_pos h3] at h; exact endO _ _ _ _ hnd1 hdm1 h
                · rw [if_neg h3] at h
                  exact ihOL _ _ _ _ hnd1 hdm1 h
    · intro p v p1 h
      rw [parser.parseValues] at h
      cases ht : p.token <;> simp only [ht] at h <;>
        first
          | exact ihO _ _ _ h
          | exact ihA _ _ _ h
          | (simp only [Option.some.injEq, Prod.mk.injEq, Except.ok.injEq, parser.parseNumber]
              at h
             rw [← h.1]; rfl)
          | (simp at h; done)
    · intro p v p1 h
      rw [parser.parseArray] at h
      exact ihAL _ _ _ _ (by simp [NewArray, distinctElements]) h
    · intro arr p v p1 hde h
      rw [parser.parseArrayLoop] at h
      have tail : ∀ (arr1 : List Value) (p2 : parser), distinctElements arr1 = true →
          (if p2.token ≠ tokenComma then some (parser.parseArrayEnd T arr1 p2)
            else parser.parseArrayLoop T n arr1 (p2.matchToken T tokenComma).2)
            = some (.ok v, p1) → distinctKeys v = true := by
        intro arr1 p2 hd1 h
        by_cases h3 : p2.token ≠ tokenComma
        · rw [if_pos h3] at h; exact endA _ _ _ _ hd1 h
        · rw [if_neg h3] at h; exact ihAL _ _ _ _ hd1 h
      cases ht : p.token <;> simp only [ht] at h
      all_goals first
        | exact tail _ _ hde h
        | (rw [← ht] at h; exact tail _ _ hde h)
        | (simp only [ne_eq, not_true_eq_false, if_false] at h; exact ihAL _ _ _ _ hde h)
        | exact tail _ _ (distinctElements_append arr (parser.parseNumber T p).1 hde rfl) h
        | exact tail _ _ (distinctElements_append arr (JString p.literal) hde rfl) h
        | exact tail _ _ (distinctElements_append arr JNull hde rfl) h
        | exact tail _ _ (distinctElements_append arr (JBool true) hde rfl) h
        | exact tail _ _ (distinctElements_append arr (JBool false) hde rfl) h
        | (simp at h; done)
        | (cases ho : parser.parseObject T n p with
            | none => rw [ho] at h; simp at h
            | some y =>
              rw [ho] at h
              rcases y with ⟨_ | w, p2⟩
              · simp at h
              · exact tail _ _ (distinctElements_append arr w hde (ihO _ _ _ ho)) h)
        | (cases ho : parser.parseArray T n p with
            | none => rw [ho] at h; simp at h
            | some y =>
              rw [ho] at h
              rcases y with ⟨_ | w, p2⟩
              · simp at h
              · exact tail _ _ (distinctElements_append arr w hde (ihA _ _ _ ho)) h)

/-- Whatever the input, a tree that `parse` returns has pairwise distinct keys in
every object. -/
theorem parse_distinct (T : UnicodeTables) (p : parser) (v : Value) (e : Option Error)
    (p1 : parser) (h : parser.parse T p = some (some v, e, p1)) : distinctKeys v = true := by
  unfold parser.parse at h
  rcases hn : nextToken T p.jscanner with ⟨tok, lit, s1⟩
  rw [hn] at h
  simp only [] at h
  cases tok <;> simp only [] at h <;> try (simp at h; done)
  · cases ho : parser.parseObject T (parseFuel p) ⟨s1, tokenLBrace, lit⟩ with
    | none => rw [ho] at h; simp at h
    | some y =>
      rw [ho] at h
      rcases y with ⟨_ | w, p2⟩
      · simp at h
      · simp only [Option.some.injEq, Prod.mk.injEq] at h
        rw [← h.1]
        exact (parsed_distinct T _).1 _ _ _ ho
  · cases ho : parser.parseArray T (parseFuel p) ⟨s1, tokenLBracket, lit⟩ with
    | none => rw [ho] at h; simp at h
    | some y =>
      rw [ho] at h
      rcases y with ⟨_ | w, p2⟩
      · simp at h
      · simp only [Option.some.injEq, Prod.mk.injEq] at h
        rw [← h.1]
        exact (parsed_distinct T _).2.2.2.1 _ _ _ ho

end hjson

namespace hjson

open Token Error Value

/-! ## Numeric literals and string bodies in the scanner -/

theorem digit_not_special (c : Char) (h : 48 ≤ c.toNat ∧ c.toNat ≤ 57) :
    c ≠ '-' ∧ c ≠ '+' ∧ c ≠ 'e' ∧ c ≠ 'E' ∧ c ≠ '.' := by
  refine ⟨?_, ?_, ?_, ?_, ?_⟩ <;> rintro rfl <;> revert h <;> decide

theorem delimiter_not_sign (c : Char)
    (h : (isSpace c || c == ',' || c == ']' || c == '}') = true) : c ≠ '-' ∧ c ≠ '+' := by
  constructor <;> rintro rfl <;> revert h <;> decide

/-- `scanFraction` copies a run of digits and goes on behind it. -/
theorem scanFractionLoop_digits (T : UnicodeTables) (ds rest buf : List Char)
    (sawE sawSign : Bool) (hds : ∀ c ∈ ds, 48 ≤ c.toNat ∧ c.toNat ≤ 57) :
    scanFractionLoop T (ds ++ rest) buf sawE sawSign
      = scanFractionLoop T rest (buf ++ ds) sawE sawSign := by
  induction ds generalizing buf with
  | nil => simp
  | cons d ds ih =>
    have hd := hds d (List.mem_cons_self _ _)
    obtain ⟨h1, h2, h3, h4, _⟩ := digit_not_special d hd
    rw [List.cons_append, scanFractionLoop.eq_def]
    simp only [h1, h2, h3, h4, or_self, if_false, IsDigit_ascii T d hd, if_true]
    rw [ih _ (fun c hc => hds c (List.mem_cons_of_mem _ hc))]
    simp

/-- `scanFraction` stops in front of a delimiter and leaves it unread. -/
theorem scanFractionLoop_stop (T : UnicodeTables) (after buf : List Char)
    (sawE sawSign : Bool) (ha : startsWithDelimiter after = true) :
    scanFractionLoop T after buf sawE sawSign = (none, buf, after) := by
  cases after with
  | nil => simp [startsWithDelimiter] at ha
  | cons c after =>
    obtain ⟨h1, _, _, h4, h5⟩ := delimiter_facts T c ha
    obtain ⟨h6, h7⟩ := delimiter_not_sign c ha
    rw [scanFractionLoop.eq_def]
    simp [h1, h4, h5, h6, h7]

/-- `scanNumber` copies a run of digits and goes on behind it. -/
theorem scanNumberLoop_run (T : UnicodeTables) (ds rest buf : List Char)
    (hds : ∀ c ∈ ds, 48 ≤ c.toNat ∧ c.toNat ≤ 57) :
    scanNumberLoop T (ds ++ rest) buf = scanNumberLoop T rest (buf ++ ds) := by
  induction ds generalizing buf with
  | nil => simp
  | cons d ds ih =>
    have hd := IsDigit_ascii T d (hds d (List.mem_cons_self _ _))
    rw [List.cons_append, scanNumberLoop.eq_def]
    simp only [hd, if_true]
    rw [ih _ (fun c hc => hds c (List.mem_cons_of_mem _ hc))]
    simp

/-- The exponent part in `scanFraction`, entered with no marker seen yet (from the
fraction digits, or from `scanNumber`, which does not set the flag): the marker is
already written when the sign and the digits come. -/
theorem scanFractionLoop_exponent (T : UnicodeTables) (sign : Option Char) (ds after : List Char)
    (buf : List Char) (sawE : Bool) (hsign : ∀ c, sign = some c → c = '+' ∨ c = '-')
    (hds : digitRun ds) (ha : startsWithDelimiter after = true) :
    scanFractionLoop T (sign.toList ++ ds ++ after) buf sawE false
      = (none, buf ++ (sign.toList ++ ds), after) := by
  cases sign with
  | none =>
    simp only [Option.toList_none, List.nil_append]
    rw [scanFractionLoop_digits T ds after buf _ _ hds.2, scanFractionLoop_stop T _ _ _ _ ha]
  | some c =>
    have hc := hsign c rfl
    simp only [Option.toList_some, List.singleton_append, List.cons_append]
    rw [scanFractionLoop.eq_def]
    have h1 : c = '-' ∨ c = '+' := hc.symm
    simp only [h1, if_true, Bool.not_false, List.nil_append]
    rw [scanFractionLoop_digits T ds after _ _ _ hds.2, scanFractionLoop_stop T _ _ _ _ ha]
    simp

/-- The marker of an exponent in `scanFraction` when none was seen and no sign. -/
theorem scanFractionLoop_marker (T : UnicodeTables) (e : Char) (rest buf : List Char)
    (he : e = 'e' ∨ e = 'E') :
    scanFractionLoop T (e :: rest) buf false false
      = scanFractionLoop T rest (buf ++ [e]) true false := by
  rw [scanFractionLoop.eq_def]
  have h1 : ¬ (e = '-' ∨ e = '+') := by rcases he with rfl | rfl <;> decide
  simp [h1, he]

/-- `scanNumber` hands over to `scanFraction` on `.`, `e` and `E`; the marker does not
set the flag of `scanFraction`. -/
theorem scanNumberLoop_handover (T : UnicodeTables) (c : Char) (rest buf : List Char)
    (hc : c = '.' ∨ c = 'e' ∨ c = 'E') :
    scanNumberLoop T (c :: rest) buf = scanFractionLoop T rest (buf ++ [c]) false false := by
  rw [scanNumberLoop.eq_def]
  have h1 : IsDigit T c = false := by rcases hc with rfl | rfl | rfl <;> rfl
  rcases hc with rfl | rfl | rfl <;> simp [h1]

/-- `scanNumber` on a literal of one of the eight shapes, followed by a delimiter:
the literal is copied as it stands and the delimiter is left unread. -/
theorem scanNumberLoop_literal (T : UnicodeTables) (int : List Char)
    (frac : Option (List Char)) (exp : Option (Char × Option Char × List Char))
    (after : List Char) (hshape : numericShape int frac exp)
    (ha : startsWithDelimiter after = true) :
    scanNumberLoop T (numericLiteral int frac exp ++ after) []
      = (none, numericLiteral int frac exp, after) := by
  obtain ⟨hint, hfrac, hexp⟩ := hshape
  unfold numericLiteral
  rw [List.append_assoc, scanNumberLoop_run T int _ [] hint.2]
  cases frac with
  | none =>
    cases exp with
    | none =>
      simp only [List.nil_append]
      have := scanNumberLoop_digits T [] after ([] ++ int) (by simp) ha
      simpa using this
    | some x =>
      obtain ⟨e, sign, ds⟩ := x
      obtain ⟨he, hsign, hds⟩ := hexp e sign ds rfl
      simp only [List.nil_append, List.cons_append]
      rw [scanNumberLoop_handover T e _ _ (Or.inr he)]
      have := scanFractionLoop_exponent T sign ds after ([] ++ int ++ [e]) false hsign hds ha
      simpa using this
  | some f =>
    have hf := hfrac f rfl
    cases exp with
    | none =>
      simp only [List.append_nil, List.cons_append]
      rw [scanNumberLoop_handover T '.' _ _ (Or.inl rfl), scanFractionLoop_digits T f after _ _ _ hf.2,
        scanFractionLoop_stop T _ _ _ _ ha]
      simp
    | some x =>
      obtain ⟨e, sign, ds⟩ := x
      obtain ⟨he, hsign, hds⟩ := hexp e sign ds rfl
      simp only [List.cons_append, List.append_assoc]
      rw [scanNumberLoop_handover T '.' _ _ (Or.inl rfl), scanFractionLoop_digits T f _ _ _ _ hf.2,
        scanFractionLoop_marker T e _ _ he]
      have := scanFractionLoop_exponent T sign ds after ([] ++ int ++ ['.'] ++ f ++ [e]) true
        hsign hds ha
      simpa using this

/-- A rune in `0`..`9` reaches the `default` case of `nextToken`. -/
theorem isDefaultCase_digit (d : Char) (hd : 48 ≤ d.toNat ∧ d.toNat ≤ 57) :
    isDefaultCase d = true := by
  have h1 : isWhitespace d = false := by
    unfold isWhitespace
    rw [if_neg]
    rintro (rfl | rfl | rfl) <;> revert hd <;> decide
  simp only [isDefaultCase, h1, Bool.not_false, Bool.true_and, Bool.and_eq_true, bne_iff_ne,
    ne_eq]
  refine ⟨⟨⟨⟨⟨⟨⟨?_, ?_⟩, ?_⟩, ?_⟩, ?_⟩, ?_⟩, ?_⟩, ?_⟩ <;> rintro rfl <;> revert hd <;> decide

/-- `nextToken` on a literal of one of the eight shapes, followed by a delimiter. -/
theorem nextToken_literal (T : UnicodeTables) (int : List Char)
    (frac : Option (List Char)) (exp : Option (Char × Option Char × List Char))
    (after : List Char) (s : scanner) (hshape : numericShape int frac exp)
    (ha : startsWithDelimiter after = true) :
    nextToken T { s with reader := numericLiteral int frac exp ++ after }
      = (tokenNumber, numericLiteral int frac exp,
          { s with reader := after, buf := numericLiteral int frac exp }) := by
  have hscan := scanNumberLoop_literal T int frac exp after hshape ha
  obtain ⟨d, ds, hd⟩ := List.exists_cons_of_ne_nil hshape.1.1
  have hdig := hshape.1.2 d (by rw [hd]; exact List.mem_cons_self _ _)
  have hlit : ∃ rest, numericLiteral int frac exp ++ after = d :: rest := by
    unfold numericLiteral
    rw [hd]
    exact ⟨_, rfl⟩
  obtain ⟨rest, hrest⟩ := hlit
  unfold nextToken
  simp only []
  rw [hrest] at hscan ⊢
  rw [nextTokenLoop_default T d rest _ (isDefaultCase_digit d hdig), IsDigit_ascii T d hdig]
  simp only [if_true, scanNumber, hscan]

end hjson

namespace hjson

open Token Error Value

/-- `scanString` copies an accepted body as it stands, backslashes included, up to the
closing quote. -/
theorem scanStringLoop_body (body : List Char) (h : StringBody body) :
    ∀ (buf after : List Char),
      scanStringLoop 0 (body ++ '"' :: after) buf = (none, buf ++ body, after) := by
  induction h with
  | nil =>
    intro buf after
    rw [List.nil_append, scanStringLoop.eq_def]
    simp
  | plain c rest h1 h2 _ ih =>
    intro buf after
    rw [List.cons_append, scanStringLoop.eq_def]
    simp only [h1, h2, if_false]
    rw [ih]
    simp
  | escape e rest he _ ih =>
    intro buf after
    rw [List.cons_append, List.cons_append, scanStringLoop.eq_def]
    simp only [he, if_true]
    rw [ih]
    simp
  | unicode h1 h2 h3 h4 rest e1 e2 e3 e4 _ ih =>
    intro buf after
    simp only [List.cons_append]
    rw [scanStringLoop.eq_def]
    have hu : isSimpleEscape 'u' = false := by decide
    simp only [hu, if_true, Bool.false_eq_true, if_false]
    rw [scanStringLoop.eq_def]
    simp only [e1, if_true]
    rw [scanStringLoop.eq_def]
    simp only [e2, if_true]
    rw [scanStringLoop.eq_def]
    simp only [e3, if_true]
    rw [scanStringLoop.eq_def]
    simp only [e4, if_true]
    rw [ih]
    simp

/-- `nextToken` on a string literal with an accepted body: a string token whose
literal is the body as written. -/
theorem nextToken_string_body (T : UnicodeTables) (body after : List Char) (s : scanner)
    (h : StringBody body) :
    nextToken T { s with reader := '"' :: (body ++ '"' :: after) }
      = (tokenString, body, { s with reader := after, buf := body }) := by
  unfold nextToken
  simp only []
  rw [nextTokenLoop_quote]
  simp only [scanString]
  rw [scanStringLoop_body body h [] after]
  rfl

/-- A run of digits and an exponent marker at the end of the input: `scanFraction`
meets the end of the input, and `nextToken` returns the end-of-input token. -/
theorem nextToken_marker_eof (T : UnicodeTables) (ds : List Char) (e : Char) (s : scanner)
    (hds : digitRun ds) (he : e = 'e' ∨ e = 'E') :
    nextToken T { s with reader := ds ++ [e] }
      = (tokenEOF, [], { s with reader := [], buf := ds ++ [e] }) := by
  obtain ⟨d, ds1, hd⟩ := List.exists_cons_of_ne_nil hds.1
  have hdig := hds.2 d (by rw [hd]; exact List.mem_cons_self _ _)
  have hscan : scanNumberLoop T (ds ++ [e]) [] = (some errEOF, ds ++ [e], []) := by
    rw [scanNumberLoop_run T ds [e] [] hds.2, scanNumberLoop_handover T e [] _ (Or.inr he),
      scanFractionLoop.eq_def]
    simp
  unfold nextToken
  simp only []
  rw [hd] at hscan ⊢
  rw [List.cons_append] at hscan ⊢
  rw [nextTokenLoop_default T d _ _ (isDefaultCase_digit d hdig), IsDigit_ascii T d hdig]
  simp only [if_true, scanNumber, hscan]

/-- A run of digits and an exponent marker in front of a delimiter: the scanner returns
a number token whose literal ends with the marker. -/
theorem nextToken_marker_delimiter (T : UnicodeTables) (ds : List Char) (e : Char)
    (after : List Char) (s : scanner) (hds : digitRun ds) (he : e = 'e' ∨ e = 'E')
    (ha : startsWithDelimiter after = true) :
    nextToken T { s with reader := ds ++ e :: after }
      = (tokenNumber, ds ++ [e], { s with reader := after, buf := ds ++ [e] }) := by
  obtain ⟨d, ds1, hd⟩ := List.exists_cons_of_ne_nil hds.1
  have hdig := hds.2 d (by rw [hd]; exact List.mem_cons_self _ _)
  have hscan : scanNumberLoop T (ds ++ e :: after) [] = (none, ds ++ [e], after) := by
    rw [scanNumberLoop_run T ds (e :: after) [] hds.2,
      scanNumberLoop_handover T e after _ (Or.inr he), scanFractionLoop_stop T _ _ _ _ ha]
    simp
  unfold nextToken
  simp only []
  rw [hd] at hscan ⊢
  rw [List.cons_append] at hscan ⊢
  rw [nextTokenLoop_default T d _ _ (isDefaultCase_digit d hdig), IsDigit_ascii T d hdig]
  simp only [if_true, scanNumber, hscan]

/-- An array text that ends in a run of digits and an exponent marker: `parse` fails
with the end-of-input error. -/
theorem parse_marker_eof (T : UnicodeTables) (ds : List Char) (e : Char)
    (hds : digitRun ds) (he : e = 'e' ∨ e = 'E') :
    ∃ p, parser.parse T (newParser ('[' :: (ds ++ [e]))) = some (none, some errEOF, p) := by
  have hload : parser.load T (newParser ('[' :: (ds ++ [e]))).jscanner
      = ⟨{ newScanner ('[' :: (ds ++ [e])) with reader := ds ++ [e] }, tokenLBracket, ['[']⟩ := by
    simp only [parser.load, nextToken, newParser, newScanner, nextTokenLoop_lbracket]
  have hadv := nextToken_marker_eof T ds e (newScanner ('[' :: (ds ++ [e]))) hds he
  have harr : parser.parseArray T 2 (parser.load T (newParser ('[' :: (ds ++ [e]))).jscanner)
      = some (.error errEOF,
          ⟨{ newScanner ('[' :: (ds ++ [e])) with reader := [], buf := ds ++ [e] },
            tokenEOF, []⟩) := by
    rw [hload, parser.parseArray, parser.parseArrayLoop]
    simp only [parser.matchToken, if_true, hadv]
  exact ⟨_, parse_array T _ 2 _ (by rw [hload]) harr⟩

end hjson

namespace hjson

open Token Error Value

/-! ## On ASCII text the Unicode tables are not consulted -/

theorem IsDigit_tables (T : UnicodeTables) (c : Char) (h : c.toNat < 128) :
    IsDigit T c = IsDigit asciiTables c := by
  unfold IsDigit
  rw [if_pos (by omega), if_pos (by omega)]

theorem IsLetter_tables (T : UnicodeTables) (c : Char) (h : c.toNat < 128) :
    IsLetter T c = IsLetter asciiTables c := by
  unfold IsLetter
  rw [if_pos h, if_pos h]

theorem asciiOnly_tail {r : Char} {rd : List Char} (h : asciiOnly (r :: rd)) : asciiOnly rd :=
  fun c hc => h c (List.mem_cons_of_mem _ hc)

theorem asciiOnly_suffix {a b : List Char} (hs : a <:+ b) (h : asciiOnly b) : asciiOnly a :=
  fun c hc => h c (hs.subset hc)

theorem scanFractionLoop_tables (T : UnicodeTables) (rd : List Char) (h : asciiOnly rd) :
    ∀ (buf : List Char) (sawE sawSign : Bool),
      scanFractionLoop T rd buf sawE sawSign
        = scanFractionLoop asciiTables rd buf sawE sawSign := by
  induction rd with
  | nil => intro buf sawE sawSign; simp [scanFractionLoop]
  | cons r rd ih =>
    intro buf sawE sawSign
    have hr := IsDigit_tables T r (h r (List.mem_cons_self _ _))
    conv_lhs => rw [scanFractionLoop.eq_def]
    conv_rhs => rw [scanFractionLoop.eq_def]
    simp only [hr, ih (asciiOnly_tail h)]

theorem scanNumberLoop_tables (T : UnicodeTables) (rd : List Char) (h : asciiOnly rd) :
    ∀ (buf : List Char), scanNumberLoop T rd buf = scanNumberLoop asciiTables rd buf := by
  induction rd with
  | nil => intro buf; simp [scanNumberLoop]
  | cons r rd ih =>
    intro buf
    have hr := IsDigit_tables T r (h r (List.mem_cons_self _ _))
    conv_lhs => rw [scanNumberLoop.eq_def]
    conv_rhs => rw [scanNumberLoop.eq_def]
    simp only [hr, ih (asciiOnly_tail h), scanFractionLoop_tables T rd (asciiOnly_tail h)]

theorem scanIdentLoop_tables (T : UnicodeTables) (rd : List Char) (h : asciiOnly rd) :
    ∀ (buf : List Char), scanIdentLoop T rd buf = scanIdentLoop asciiTables rd buf := by
  induction rd with
  | nil => intro buf; simp [scanIdentLoop]
  | cons r rd ih =>
    intro buf
    have hr := IsLetter_tables T r (h r (List.mem_cons_self _ _))
    conv_lhs => rw [scanIdentLoop.eq_def]
    conv_rhs => rw [scanIdentLoop.eq_def]
    simp only [hr, ih (asciiOnly_tail h)]

/-! ### What a scan leaves unread is an end piece of what it found -/

theorem scanStringLoop_suffix (n : Nat) (rd buf : List Char) :
    (scanStringLoop n rd buf).2.2 <:+ rd := by
  induction n, rd, buf using scanStringLoop.induct with
  | case1 buf => simp [scanStringLoop]
  | case2 buf => simp [scanStringLoop]
  | case3 buf r2 rd2 h ih =>
    rw [scanStringLoop.eq_def]; simp only [h, if_true]
    exact ih.trans ((List.suffix_cons _ _).trans (List.suffix_cons _ _))
  | case4 buf rd2 h ih =>
    rw [scanStringLoop.eq_def]; simp only [h, if_true]
    exact ih.trans ((List.suffix_cons _ _).trans (List.suffix_cons _ _))
  | case5 buf r2 rd2 h1 h2 =>
    rw [scanStringLoop.eq_def]; simp only [h1, h2, if_true, if_false]
    exact (List.suffix_cons _ _).trans (List.suffix_cons _ _)
  | case6 rd buf h =>
    rw [scanStringLoop.eq_def]; simp only [h, if_true, if_false]
    exact List.suffix_cons _ _
  | case7 r rd buf h1 h2 ih =>
    rw [scanStringLoop.eq_def]; simp only [h1, h2, if_false]
    exact ih.trans (List.suffix_cons _ _)
  | case8 n buf => simp [scanStringLoop]
  | case9 n r rd buf h ih =>
    rw [scanStringLoop.eq_def]; simp only [h, if_true]
    exact ih.trans (List.suffix_cons _ _)
  | case10 n r rd buf h =>
    rw [scanStringLoop.eq_def]; simp only [h, if_false]
    exact List.suffix_cons _ _

theorem scanFractionLoop_suffix (T : UnicodeTables) (rd buf : List Char) (sawE sawSign : Bool) :
    (scanFractionLoop T rd buf sawE sawSign).2.2 <:+ rd := by
  induction rd generalizing buf sawE sawSign with
  | nil => simp [scanFractionLoop]
  | cons r rd ih =>
    rw [scanFractionLoop.eq_def]
    simp only []
    split_ifs <;> first
      | exact (ih _ _ _).trans (List.suffix_cons _ _)
      | exact List.suffix_cons _ _
      | exact List.suffix_refl _

theorem scanNumberLoop_suffix (T : UnicodeTables) (rd buf : List Char) :
    (scanNumberLoop T rd buf).2.2 <:+ rd := by
  induction rd generalizing buf with
  | nil => simp [scanNumberLoop]
  | cons r rd ih =>
    rw [scanNumberLoop.eq_def]
    simp only []
    split_ifs <;> first
      | exact (ih _).trans (List.suffix_cons _ _)
      | exact (scanFractionLoop_suffix T _ _ _ _).trans (List.suffix_cons _ _)
      | exact List.suffix_refl _

theorem scanIdentLoop_suffix (T : UnicodeTables) (rd buf : List Char) :
    (scanIdentLoop T rd buf).2.2 <:+ rd := by
  induction rd generalizing buf with
  | nil => simp [scanIdentLoop]
  | cons r rd ih =>
    rw [scanIdentLoop.eq_def]
    simp only []
    split_ifs <;> first
      | exact (ih _).trans (List.suffix_cons _ _)
      | exact List.suffix_refl _

theorem nextTokenLoop_suffix (T : UnicodeTables) (rd : List Char) (s : scanner) :
    (nextTokenLoop T rd s).2.2.reader <:+ rd := by
  induction rd generalizing s with
  | nil => simp [nextTokenLoop]
  | cons r rd ih =>
    rcases rune_cases r with h | h | h | h | h | h | h | h | h | h
    · rw [nextTokenLoop_ws T r rd s h]; exact (ih _).trans (List.suffix_cons _ _)
    · subst h; rw [nextTokenLoop_nl]; exact (ih _).trans (List.suffix_cons _ _)
    · subst h; rw [nextTokenLoop_quote]
      have hl := scanStringLoop_suffix 0 rd []
      simp only [scanString]
      rcases hs : scanStringLoop 0 rd [] with ⟨_ | e, b, rd1⟩
      · rw [hs] at hl; exact hl.trans (List.suffix_cons _ _)
      · rw [hs] at hl
        simp only []
        split_ifs <;> exact hl.trans (List.suffix_cons _ _)
    · subst h; rw [nextTokenLoop_comma]; exact List.suffix_cons _ _
    · subst h; rw [nextTokenLoop_colon]; exact List.suffix_cons _ _
    · subst h; rw [nextTokenLoop_lbrace]; exact List.suffix_cons _ _
    · subst h; rw [nextTokenLoop_rbrace]; exact List.suffix_cons _ _
    · subst h; rw [nextTokenLoop_lbracket]; exact List.suffix_cons _ _
    · subst h; rw [nextTokenLoop_rbracket]; exact List.suffix_cons _ _
    · rw [nextTokenLoop_default T r rd s h]
      by_cases h10 : IsDigit T r = true
      · rw [if_pos h10]
        have hl := scanNumberLoop_suffix T (r :: rd) []
        simp only [scanNumber]
        rcases hs : scanNumberLoop T (r :: rd) [] with ⟨_ | e, b, rd1⟩
        · rw [hs] at hl; exact hl
        · rw [hs] at hl
          simp only []
          split_ifs <;> exact hl
      · rw [if_neg h10]
        have hl := scanIdentLoop_suffix T (r :: rd) []
        simp only [scanIdent]
        rcases hs : scanIdentLoop T (r :: rd) [] with ⟨_ | e, b, rd1⟩
        · rw [hs] at hl; exact hl
        · rw [hs] at hl; exact hl

theorem nextTokenLoop_tables (T : UnicodeTables) (rd : List Char) (h : asciiOnly rd) :
    ∀ s : scanner, nextTokenLoop T rd s = nextTokenLoop asciiTables rd s := by
  induction rd with
  | nil => intro s; simp [nextTokenLoop]
  | cons r rd ih =>
    intro s
    have hd := IsDigit_tables T r (h r (List.mem_cons_self _ _))
    rcases rune_cases r with hr | hr | hr | hr | hr | hr | hr | hr | hr | hr
    · rw [nextTokenLoop_ws T r rd s hr, nextTokenLoop_ws asciiTables r rd s hr]
      exact ih (asciiOnly_tail h) s
    · subst hr; rw [nextTokenLoop_nl, nextTokenLoop_nl]; exact ih (asciiOnly_tail h) _
    · subst hr; rw [nextTokenLoop_quote, nextTokenLoop_quote]
    · subst hr; rw [nextTokenLoop_comma, nextTokenLoop_comma]
    · subst hr; rw [nextTokenLoop_colon, nextTokenLoop_colon]
    · subst hr; rw [nextTokenLoop_lbrace, nextTokenLoop_lbrace]
    · subst hr; rw [nextTokenLoop_rbrace, nextTokenLoop_rbrace]
    · subst hr; rw [nextTokenLoop_lbracket, nextTokenLoop_lbracket]
    · subst hr; rw [nextTokenLoop_rbracket, nextTokenLoop_rbracket]
    · rw [nextTokenLoop_default T r rd s hr, nextTokenLoop_default asciiTables r rd s hr]
      simp only [hd, scanNumber, scanIdent, scanNumberLoop_tables T (r :: rd) h,
        scanIdentLoop_tables T (r :: rd) h]

theorem nextToken_tables (T : UnicodeTables) (s : scanner) (h : asciiOnly s.reader) :
    nextToken T s = nextToken asciiTables s :=
  nextTokenLoop_tables T s.reader h s

theorem nextToken_suffix (T : UnicodeTables) (s : scanner) :
    (nextToken T s).2.2.reader <:+ s.reader :=
  nextTokenLoop_suffix T s.reader s

end hjson

namespace hjson

open Token Error Value

theorem matchToken_suffix (T : UnicodeTables) (p : parser) (tok : Token) :
    (p.matchToken T tok).2.jscanner.reader <:+ p.jscanner.reader := by
  unfold parser.matchToken
  split_ifs with h
  · have := nextToken_suffix T p.jscanner
    rcases hn : nextToken T p.jscanner with ⟨tok1, lit1, s1⟩
    rw [hn] at this
    exact this
  · exact List.suffix_refl _

theorem matchToken_tables (T : UnicodeTables) (p : parser) (tok : Token)
    (h : asciiOnly p.jscanner.reader) : p.matchToken T tok = p.matchToken asciiTables tok := by
  unfold parser.matchToken
  rw [nextToken_tables T p.jscanner h]

theorem matchToken_ascii (T : UnicodeTables) (p : parser) (tok : Token)
    (h : asciiOnly p.jscanner.reader) : asciiOnly (p.matchToken T tok).2.jscanner.reader :=
  asciiOnly_suffix (matchToken_suffix T p tok) h

theorem parseObjectEnd_suffix (T : UnicodeTables) (obj : List (List Char × Value))
    (p : parser) : (parser.parseObjectEnd T obj p).2.jscanner.reader <:+ p.jscanner.reader := by
  have := matchToken_suffix T p tokenRBrace
  unfold parser.parseObjectEnd
  rcases hm : p.matchToken T tokenRBrace with ⟨_ | _, p1⟩ <;> rw [hm] at this <;> exact this

theorem parseArrayEnd_suffix (T : UnicodeTables) (arr : List Value)
    (p : parser) : (parser.parseArrayEnd T arr p).2.jscanner.reader <:+ p.jscanner.reader := by
  have := matchToken_suffix T p tokenRBracket
  unfold parser.parseArrayEnd
  rcases hm : p.matchToken T tokenRBracket with ⟨_ | _, p1⟩ <;> rw [hm] at this <;> exact this

/-- Whatever a production leaves unread is an end piece of what it found unread. -/
theorem parse_suffix (T : UnicodeTables) (n : Nat) :
    (∀ p r, parser.parseObject T n p = some r →
      r.2.jscanner.reader <:+ p.jscanner.reader) ∧
    (∀ obj p r, parser.parseObjectLoop T n obj p = some r →
      r.2.jscanner.reader <:+ p.jscanner.reader) ∧
    (∀ p r, parser.parseValues T n p = some r →
      r.2.jscanner.reader <:+ p.jscanner.reader) ∧
    (∀ p r, parser.parseArray T n p = some r →
      r.2.jscanner.reader <:+ p.jscanner.reader) ∧
    (∀ arr p r, parser.parseArrayLoop T n arr p = some r →
      r.2.jscanner.reader <:+ p.jscanner.reader) := by
  induction n with
  | zero =>
    refine ⟨?_, ?_, ?_, ?_, ?_⟩ <;> intros <;>
      simp_all [parser.parseObject, parser.parseObjectLoop, parser.parseValues,
        parser.parseArray, parser.parseArrayLoop]
  | succ n ih =>
    obtain ⟨ihO, ihOL, ihV, ihA, ihAL⟩ := ih
    refine ⟨?_, ?_, ?_, ?_, ?_⟩
    · intro p r h
      rw [parser.parseObject] at h
      exact (ihOL _ _ _ h).trans (matchToken_suffix T p _)
    · intro obj p r h
      rw [parser.parseObjectLoop] at h
      by_cases h1 : p.token ≠ tokenString
      · rw [if_pos h1] at h
        cases h; exact parseObjectEnd_suffix T obj p
      · rw [if_neg h1] at h
        simp only [] at h
        by_cases h2 : (mapGet obj p.literal).isSome = true
        · rw [if_pos h2] at h
          cases h; exact List.suffix_refl _
        · rw [if_neg h2] at h
          have hs := matchToken_suffix T p tokenString
          have hc := matchToken_suffix T (p.matchToken T tokenString).2 tokenColon
          rcases hm : parser.matchToken T (parser.matchToken T p tokenString).2 tokenColon
            with ⟨b, p2⟩
          rw [hm] at h hc
          simp only [] at hc
          cases b
          · simp only [] at h
            cases h; exact hc.trans hs
          · simp only [] at h
            cases hv : parser.parseValues T n p2 with
            | none => rw [hv] at h; simp at h
            | some x =>
              rw [hv] at h
              have hx := ihV _ _ hv
              rcases x with ⟨_ | value, p3⟩
              · simp only [] at h hx
                cases h; exact hx.trans (hc.trans hs)
              · simp only [] at h hx
                by_cases h3 : p3.token ≠ tokenComma
                · rw [if_pos h3] at h
                  cases h
                  exact (parseObjectEnd_suffix T _ p3).trans (hx.trans (hc.trans hs))
                · rw [if_neg h3] at h
                  exact (ihOL _ _ _ h).trans ((matchToken_suffix T p3 _).trans
                    (hx.trans (hc.trans hs)))
    · intro p r h
      rw [parser.parseValues] at h
      cases ht : p.token <;> simp only [ht] at h <;>
        first
          | exact ihO _ _ h
          | exact ihA _ _ h
          | (cases h; exact matchToken_suffix T p _)
          | (cases h; exact List.suffix_refl _)
    · intro p r h
      rw [parser.parseArray] at h
      exact (ihAL _ _ _ h).trans (matchToken_suffix T p _)
    · intro arr p r h
      rw [parser.parseArrayLoop] at h
      have tail : ∀ (arr1 : List Value) (p1 : parser),
          p1.jscanner.reader <:+ p.jscanner.reader →
          (if p1.token ≠ tokenComma then some (parser.parseArrayEnd T arr1 p1)
            else parser.parseArrayLoop T n arr1 (p1.matchToken T tokenComma).2) = some r →
          r.2.jscanner.reader <:+ p.jscanner.reader := by
        intro arr1 p1 hp1 h
        by_cases h3 : p1.token ≠ tokenComma
        · rw [if_pos h3] at h
          cases h; exact (parseArrayEnd_suffix T _ p1).trans hp1
        · rw [if_neg h3] at h
          exact (ihAL _ _ _ h).trans ((matchToken_suffix T p1 _).trans hp1)
      cases ht : p.token <;> simp only [ht] at h
      all_goals first
        | exact tail _ _ (List.suffix_refl _) h
        | (rw [← ht] at h; exact tail _ _ (List.suffix_refl _) h)
        | (simp only [ne_eq, not_true_eq_false, if_false] at h
           exact (ihAL _ _ _ h).trans (matchToken_suffix T p _))
        | exact tail _ _ (matchToken_suffix T p _) h
        | (cases h; exact List.suffix_refl _)
        | (cases ho : parser.parseObject T n p with
            | none => rw [ho] at h; simp at h
            | some y =>
              rw [ho] at h
              have hy := ihO _ _ ho
              rcases y with ⟨_ | w, p2⟩
              · simp only [] at h hy
                cases h; exact hy
              · exact tail _ _ hy h)
        | (cases ho : parser.parseArray T n p with
            | none => rw [ho] at h; simp at h
            | some y =>
              rw [ho] at h
              have hy := ihA _ _ ho
              rcases y with ⟨_ | w, p2⟩
              · simp only [] at h hy
                cases h; exact hy
              · exact tail _ _ hy h)

end hjson

namespace hjson

open Token Error Value

theorem parseObjectEnd_tables (T : UnicodeTables) (obj : List (List Char × Value))
    (p : parser) (h : asciiOnly p.jscanner.reader) :
    parser.parseObjectEnd T obj p = parser.parseObjectEnd asciiTables obj p := by
  unfold parser.parseObjectEnd
  rw [matchToken_tables T p _ h]

theorem parseArrayEnd_tables (T : UnicodeTables) (arr : List Value)
    (p : parser) (h : asciiOnly p.jscanner.reader) :
    parser.parseArrayEnd T arr p = parser.parseArrayEnd asciiTables arr p := by
  unfold parser.parseArrayEnd
  rw [matchToken_tables T p _ h]

theorem parseNumber_tables (T : UnicodeTables) (p : parser)
    (h : asciiOnly p.jscanner.reader) : p.parseNumber T = p.parseNumber asciiTables := by
  unfold parser.parseNumber
  rw [matchToken_tables T p _ h]

/-- On ASCII input every production computes the same with any Unicode tables. -/
theorem productions_tables (T : UnicodeTables) (n : Nat) :
    (∀ p, asciiOnly p.jscanner.reader →
      parser.parseObject T n p = parser.parseObject asciiTables n p) ∧
    (∀ obj p, asciiOnly p.jscanner.reader →
      parser.parseObjectLoop T n obj p = parser.parseObjectLoop asciiTables n obj p) ∧
    (∀ p, asciiOnly p.jscanner.reader →
      parser.parseValues T n p = parser.parseValues asciiTables n p) ∧
    (∀ p, asciiOnly p.jscanner.reader →
      parser.parseArray T n p = parser.parseArray asciiTables n p) ∧
    (∀ arr p, asciiOnly p.jscanner.reader →
      parser.parseArrayLoop T n arr p = parser.parseArrayLoop asciiTables n arr p) := by
  induction n with
  | zero =>
    refine ⟨?_, ?_, ?_, ?_, ?_⟩ <;> intros <;>
      simp [parser.parseObject, parser.parseObjectLoop, parser.parseValues,
        parser.parseArray, parser.parseArrayLoop]
  | succ n ih =>
    obtain ⟨ihO, ihOL, ihV, ihA, ihAL⟩ := ih
    have hsuf := parse_suffix asciiTables n
    refine ⟨?_, ?_, ?_, ?_, ?_⟩
    · intro p hp
      rw [parser.parseObject, parser.parseObject, matchToken_tables T p _ hp]
      exact ihOL _ _ (matchToken_ascii asciiTables p _ hp)
    · intro obj p hp
      rw [parser.parseObjectLoop, parser.parseObjectLoop]
      by_cases h1 : p.token ≠ tokenString
      · rw [if_pos h1, if_pos h1, parseObjectEnd_tables T obj p hp]
      · rw [if_neg h1, if_neg h1]
        simp only []
        by_cases h2 : (mapGet obj p.literal).isSome = true
        · rw [if_pos h2, if_pos h2]
        · rw [if_neg h2, if_neg h2]
          have hp1 := matchToken_ascii asciiTables p tokenString hp
          have hp2 := matchToken_ascii asciiTables (p.matchToken asciiTables tokenString).2
            tokenColon hp1
          rw [matchToken_tables T p _ hp,
            matchToken_tables T (p.matchToken asciiTables tokenString).2 _ hp1]
          rcases hm : parser.matchToken asciiTables
            (parser.matchToken asciiTables p tokenString).2 tokenColon with ⟨b, p2⟩
          rw [hm] at hp2
          simp only [] at hp2
          cases b
          · rfl
          · simp only []
            rw [ihV p2 hp2]
            cases hv : parser.parseValues asciiTables n p2 with
            | none => rfl
            | some x =>
              have hx := asciiOnly_suffix (hsuf.2.2.1 _ _ hv) hp2
              rcases x with ⟨_ | value, p3⟩
              · rfl
              · simp only [] at hx ⊢
                rw [parseObjectEnd_tables T _ p3 hx, matchToken_tables T p3 _ hx]
                by_cases h3 : p3.token ≠ tokenComma
                · rw [if_pos h3, if_pos h3]
                · rw [if_neg h3, if_neg h3]
                  exact ihOL _ _ (matchToken_ascii asciiTables p3 _ hx)
    · intro p hp
      rw [parser.parseValues, parser.parseValues]
      cases ht : p.token <;>
        simp only [matchToken_tables T p _ hp, parseNumber_tables T p hp, ihO p hp, ihA p hp]
    · intro p hp
      rw [parser.parseArray, parser.parseArray, matchToken_tables T p _ hp]
      exact ihAL _ _ (matchToken_ascii asciiTables p _ hp)
    · intro arr p hp
      rw [parser.parseArrayLoop, parser.parseArrayLoop]
      have tail : ∀ (arr1 : List Value) (p1 : parser), asciiOnly p1.jscanner.reader →
          (if p1.token ≠ tokenComma then some (parser.parseArrayEnd T arr1 p1)
            else parser.parseArrayLoop T n arr1 (p1.matchToken T tokenComma).2)
          = (if p1.token ≠ tokenComma then some (parser.parseArrayEnd asciiTables arr1 p1)
            else parser.parseArrayLoop asciiTables n arr1
              (p1.matchToken asciiTables tokenComma).2) := by
        intro arr1 p1 hp1
        rw [parseArrayEnd_tables T _ p1 hp1, matchToken_tables T p1 _ hp1]
        by_cases h3 : p1.token ≠ tokenComma
        · rw [if_pos h3, if_pos h3]
        · rw [if_neg h3, if_neg h3]
          exact ihAL _ _ (matchToken_ascii asciiTables p1 _ hp1)
      have tail0 := tail arr p hp
      rw [matchToken_tables T p _ hp] at tail0
      cases ht : p.token <;>
        simp only [matchToken_tables T p _ hp, parseNumber_tables T p hp, ihO p hp, ihA p hp]
      all_goals first
        | exact tail0
        | (rw [← ht]; exact tail0)
        | exact tail _ _ hp
        | (rw [← ht]; exact tail _ _ hp)
        | exact tail _ _ (matchToken_ascii asciiTables p _ hp)
        | (simp only [ne_eq, not_true_eq_false, if_false]
           exact ihAL _ _ (matchToken_ascii asciiTables p _ hp))
        | (cases ho : parser.parseObject asciiTables n p with
            | none => rfl
            | some y =>
              have hy := asciiOnly_suffix (hsuf.1 _ _ ho) hp
              rcases y with ⟨_ | w, p2⟩
              · rfl
              · exact tail _ _ hy)
        | (cases ho : parser.parseArray asciiTables n p with
            | none => rfl
            | some y =>
              have hy := asciiOnly_suffix (hsuf.2.2.2.1 _ _ ho) hp
              rcases y with ⟨_ | w, p2⟩
              · rfl
              · exact tail _ _ hy)

/-- On ASCII input `parse` computes the same with any Unicode tables. -/
theorem parse_tables (T : UnicodeTables) (p : parser) (h : asciiOnly p.jscanner.reader) :
    parser.parse T p = parser.parse asciiTables p := by
  have hs := asciiOnly_suffix (nextToken_suffix asciiTables p.jscanner) h
  unfold parser.parse
  rw [nextToken_tables T p.jscanner h]
  rcases hn : nextToken asciiTables p.jscanner with ⟨tok, lit, s1⟩
  rw [hn] at hs
  simp only [] at hs ⊢
  cases tok <;> simp only []
  · rw [(productions_tables T _).1 ⟨s1, tokenLBrace, lit⟩ hs]
  · rw [(productions_tables T _).2.2.2.1 ⟨s1, tokenLBracket, lit⟩ hs]

/-- On ASCII input `ToValue` computes the same with any Unicode tables. -/
theorem ToValue_tables (T : UnicodeTables) (data : List Char) (h : asciiOnly data) :
    ToValue T data = ToValue asciiTables data := by
  unfold ToValue
  rw [parse_tables T (newParser data) h]

end hjson

namespace hjson

open Token Error Value

/-! ## `String()` is the compact rendering -/

theorem Itoa_decimal (n : Int) : Itoa n = decimal n := by
  unfold Itoa decimal
  by_cases h : n < 0
  · simp [h]
  · have : n.natAbs = n.toNat := by omega
    simp [h, this]

/-- The loop of `walkArray` writes the renderings of the elements, joined by `,`. -/
theorem walkArray_render (es : List Value)
    (ih : ∀ e ∈ es, ∀ buf, accept e buf = buf ++ render e) :
    ∀ (num i : Nat) (buf : List Char), i + es.length = num →
      walkArray es num i buf = buf ++ renderElements es := by
  induction es with
  | nil => intro num i buf _; simp [walkArray, renderElements]
  | cons e es ihes =>
    intro num i buf hlen
    rw [walkArray, renderElements, ih e (List.mem_cons_self _ _)]
    simp only [List.length_cons] at hlen
    cases es with
    | nil =>
      have : (i : Int) = (num : Int) - 1 := by simp at hlen; omega
      simp [this]
    | cons e1 es1 =>
      have : ¬ (i : Int) = (num : Int) - 1 := by simp at hlen; omega
      simp only [this, if_false, List.isEmpty_cons, Bool.false_eq_true]
      rw [ihes (fun x hx => ih x (List.mem_cons_of_mem _ hx)) num (i + 1) _
        (by simp at hlen ⊢; omega)]
      simp

/-- The loop of `walkObject` writes the members as `key:value`, joined by `,`. -/
theorem walkObject_render (ms : List (List Char × Value))
    (ih : ∀ m ∈ ms, ∀ buf, accept m.2 buf = buf ++ render m.2) :
    ∀ (num i : Nat) (buf : List Char), i + ms.length = num →
      walkObject ms num i buf = buf ++ renderMembers ms := by
  induction ms with
  | nil => intro num i buf _; simp [walkObject, renderMembers]
  | cons m ms ihms =>
    intro num i buf hlen
    obtain ⟨k, v⟩ := m
    rw [walkObject, renderMembers]
    have hv := ih (k, v) (List.mem_cons_self _ _)
    simp only [] at hv
    rw [hv]
    simp only [List.length_cons] at hlen
    cases ms with
    | nil =>
      have : (i : Int) = (num : Int) - 1 := by simp at hlen; omega
      simp [this]
    | cons m1 ms1 =>
      have : ¬ (i : Int) = (num : Int) - 1 := by simp at hlen; omega
      simp only [this, if_false, List.isEmpty_cons, Bool.false_eq_true]
      rw [ihms (fun x hx => ih x (List.mem_cons_of_mem _ hx)) num (i + 1) _
        (by simp at hlen ⊢; omega)]
      simp

/-- The visitor appends the compact rendering of the tree to its buffer. -/
theorem accept_render : ∀ v, ∀ buf, accept v buf = buf ++ render v := by
  apply value_induction
  · intro ms ih buf
    rw [accept, walkObject_render ms ih ms.length 0 _ (by simp), render]
    simp
  · intro es ih buf
    rw [accept, walkArray_render es ih es.length 0 _ (by simp), render]
    simp
  · intro n buf; simp [accept, render, Itoa_decimal]
  · intro s buf; simp [accept, render]
  · intro b buf; cases b <;> simp [accept, render]
  · intro buf; simp [accept, render]

theorem String_render (v : Value) : v.String = render v := by
  cases v with
  | JObject ms => simpa [Value.String, newNodeVisitor] using accept_render (JObject ms) []
  | JArray es => simpa [Value.String, newNodeVisitor] using accept_render (JArray es) []
  | JNumber n => simp [Value.String, render, Itoa_decimal]
  | JString s => simp [Value.String, render]
  | JBool b => cases b <;> simp [Value.String, render]
  | JNull => simp [Value.String, render]

end hjson

namespace hjson

open Token Error Value

/-! ## The map behind an object -/

theorem mapGet_mapSet_self (m : List (List Char × Value)) (k : List Char) (v : Value) :
    mapGet (mapSet m k v) k = some v := by
  induction m with
  | nil => simp [mapSet, mapGet]
  | cons e m ih =>
    obtain ⟨k1, v1⟩ := e
    rw [mapSet]
    by_cases h : k1 = k
    · rw [if_pos h, mapGet, if_pos h]
    · rw [if_neg h, mapGet, if_neg h, ih]

theorem mapGet_mapSet_other (m : List (List Char × Value)) (k k2 : List Char) (v : Value)
    (hk : k2 ≠ k) : mapGet (mapSet m k v) k2 = mapGet m k2 := by
  induction m with
  | nil => simp [mapSet, mapGet, Ne.symm hk]
  | cons e m ih =>
    obtain ⟨k1, v1⟩ := e
    rw [mapSet]
    by_cases h : k1 = k
    · rw [if_pos h, mapGet, mapGet]
      have : ¬ k1 = k2 := fun h2 => hk (h2.symm.trans h)
      rw [if_neg this, if_neg this]
    · rw [if_neg h, mapGet, ih, mapGet]

theorem mapSet_length (m : List (List Char × Value)) (k : List Char) (v : Value) :
    (mapSet m k v).length = if (mapGet m k).isSome = true then m.length else m.length + 1 := by
  induction m with
  | nil => simp [mapSet, mapGet]
  | cons e m ih =>
    obtain ⟨k1, v1⟩ := e
    rw [mapSet, mapGet]
    by_cases h : k1 = k
    · simp [h]
    · rw [if_neg h, if_neg h, List.length_cons, ih]
      split_ifs <;> simp

theorem mapGet_isSome_iff (m : List (List Char × Value)) (k : List Char) :
    (mapGet m k).isSome = true ↔ k ∈ m.map Prod.fst := by
  constructor
  · intro h
    by_contra hk
    rw [mapGet_none_of_not_mem m k hk] at h
    simp at h
  · exact mapGet_isSome_of_mem m k

theorem GetObjField_found (m : List (List Char × Value)) (k : List Char) :
    (GetObjField m k).2 = (mapGet m k).isSome := by
  unfold GetObjField
  cases mapGet m k <;> rfl

theorem GetObjField_eq (m m2 : List (List Char × Value)) (k k2 : List Char)
    (h : mapGet m k = mapGet m2 k2) : GetObjField m k = GetObjField m2 k2 := by
  unfold GetObjField
  rw [h]

/-- Every value but one of another kind is converted by `converBaseType`. -/
theorem converBaseType_base (v : HostValue) (hv : v ≠ HostValue.other) :
    ∃ jv, converBaseType v = (some jv, true) := by
  cases v with
  | nil => exact ⟨_, rfl⟩
  | bool b => exact ⟨_, rfl⟩
  | string s => exact ⟨_, rfl⟩
  | int k n => exact ⟨_, rfl⟩
  | uint k n => exact ⟨_, rfl⟩
  | other => exact absurd rfl hv

theorem AddValue_base (o : List (List Char × Value)) (k : List Char) (v : HostValue)
    (jv : Value) (h : converBaseType v = (some jv, true)) :
    AddValue o k v = some (mapSet o k jv) := by
  unfold AddValue toJSONValue
  rw [h]

theorem wrapSigned_of_range (w : Nat) (hw : 0 < w) (n : Int)
    (h1 : -(2 ^ (w - 1)) ≤ n) (h2 : n < 2 ^ (w - 1)) : wrapSigned w n = n := by
  unfold wrapSigned
  have hp : (2 : Int) ^ w = 2 * 2 ^ (w - 1) := by
    obtain ⟨m, rfl⟩ : ∃ m, w = m + 1 := ⟨w - 1, by omega⟩
    simp [pow_succ, mul_comm]
  rw [hp, Int.emod_eq_of_lt (by omega) (by omega)]
  omega

/-- What a sequence of `AddValue` calls on values of the base kinds builds: the keys
of the object are the keys of the calls, each with the value of its last call. -/
theorem addEach_spec (kvs : List (List Char × HostValue)) :
    ∀ (o : List (List Char × Value)), (∀ kv ∈ kvs, kv.2 ≠ HostValue.other) →
      ∃ o1, addEach o kvs = some o1 ∧
        (∀ k, (mapGet o1 k).isSome = true ↔
          ((mapGet o k).isSome = true ∨ k ∈ kvs.map Prod.fst)) ∧
        (∀ k, k ∉ kvs.map Prod.fst → mapGet o1 k = mapGet o k) ∧
        (∀ pre k v post, kvs = pre ++ (k, v) :: post → k ∉ post.map Prod.fst →
          mapGet o1 k = (converBaseType v).1) ∧
        ((o.map Prod.fst).Nodup → (o1.map Prod.fst).Nodup) := by
  induction kvs with
  | nil =>
    intro o _
    refine ⟨o, rfl, by simp, by simp, ?_, id⟩
    intro pre k v post h
    simp at h
  | cons kv kvs ih =>
    intro o hb
    obtain ⟨k0, v0⟩ := kv
    obtain ⟨jv, hjv⟩ := converBaseType_base v0 (hb (k0, v0) (List.mem_cons_self _ _))
    obtain ⟨o1, h1, hkeys, hframe, hlast, hnd⟩ := ih (mapSet o k0 jv)
      (fun kv hkv => hb kv (List.mem_cons_of_mem _ hkv))
    refine ⟨o1, by rw [addEach, AddValue_base o k0 v0 jv hjv]; exact h1, ?_, ?_, ?_, ?_⟩
    · intro k
      rw [hkeys k, List.map_cons, List.mem_cons]
      by_cases hk : k = k0
      · subst hk
        constructor
        · intro _
          exact Or.inr (Or.inl rfl)
        · intro _
          exact Or.inl (by rw [mapGet_mapSet_self]; rfl)
      · rw [mapGet_mapSet_other _ _ _ _ hk]
        constructor
        · rintro (h | h)
          · exact Or.inl h
          · exact Or.inr (Or.inr h)
        · rintro (h | h | h)
          · exact Or.inl h
          · exact absurd h hk
          · exact Or.inr h
    · intro k hk
      rw [List.map_cons, List.mem_cons, not_or] at hk
      rw [hframe k hk.2, mapGet_mapSet_other _ _ _ _ hk.1]
    · intro pre k v post hsplit hpost
      cases pre with
      | nil =>
        simp only [List.nil_append, List.cons.injEq, Prod.mk.injEq] at hsplit
        obtain ⟨⟨rfl, rfl⟩, rfl⟩ := hsplit
        rw [hframe _ hpost, mapGet_mapSet_self, hjv]
      | cons e pre =>
        simp only [List.cons_append, List.cons.injEq] at hsplit
        exact hlast pre k v post hsplit.2 hpost
    · intro h
      exact hnd (mapSet_nodup o k0 jv h)

end hjson

namespace hjson

open Token Error Value

/-! ## Signs and exponent markers in `scanFraction` -/

/-- A sign when one has been read already: the error return. -/
theorem scanFractionLoop_second_sign (T : UnicodeTables) (r : Char) (rd buf : List Char)
    (sawE : Bool) (hr : r = '-' ∨ r = '+') :
    scanFractionLoop T (r :: rd) buf sawE true = (some (numericError r), buf, rd) := by
  rw [scanFractionLoop.eq_def]
  simp [hr]

/-- A sign when none has been read yet is written to the buffer, wherever it stands. -/
theorem scanFractionLoop_first_sign (T : UnicodeTables) (r : Char) (rd buf : List Char)
    (sawE : Bool) (hr : r = '-' ∨ r = '+') :
    scanFractionLoop T (r :: rd) buf sawE false
      = scanFractionLoop T rd (buf ++ [r]) sawE true := by
  rw [scanFractionLoop.eq_def]
  simp [hr]

/-- An exponent marker after a sign or after a marker that `scanFraction` has read:
the error return. -/
theorem scanFractionLoop_late_marker (T : UnicodeTables) (e : Char) (rd buf : List Char)
    (sawE sawSign : Bool) (he : e = 'e' ∨ e = 'E') (h : sawE = true ∨ sawSign = true) :
    scanFractionLoop T (e :: rd) buf sawE sawSign = (some (numericError e), buf, rd) := by
  rw [scanFractionLoop.eq_def]
  have h1 : ¬ (e = '-' ∨ e = '+') := by rcases he with rfl | rfl <;> decide
  cases sawE <;> cases sawSign <;> simp [h1, he] at h ⊢

/-- What `nextToken` makes of the result of `scanNumber` on text that begins with an
ASCII digit. -/
theorem nextToken_of_scanNumber (T : UnicodeTables) (d : Char) (tl : List Char) (s : scanner)
    (hd : 48 ≤ d.toNat ∧ d.toNat ≤ 57) (e : Option Error) (buf rd : List Char)
    (h : scanNumberLoop T (d :: tl) [] = (e, buf, rd)) :
    nextToken T { s with reader := d :: tl }
      = match e with
        | none => (tokenNumber, buf, { s with reader := rd, buf := buf })
        | some err =>
          if err = errEOF then (tokenEOF, [], { s with reader := rd, buf := buf })
          else (tokenInvalid, buf, { s with reader := rd, buf := buf, err := some err }) := by
  unfold nextToken
  simp only []
  rw [nextTokenLoop_default T d _ _ (isDefaultCase_digit d hd), IsDigit_ascii T d hd]
  simp only [if_true, scanNumber, h]
  cases e <;> rfl

theorem numericError_ne_errEOF (r : Char) : numericError r ≠ errEOF := by
  unfold numericError
  exact fun h => Error.noConfusion h

/-- The scan of the integer part and the first `.`, `e` or `E`: `scanFraction` starts
behind it with both flags unset. -/
theorem scanNumberLoop_head (T : UnicodeTables) (int : List Char) (c : Char) (rest : List Char)
    (hint : digitRun int) (hc : c = '.' ∨ c = 'e' ∨ c = 'E') :
    scanNumberLoop T (int ++ c :: rest) []
      = scanFractionLoop T rest (int ++ [c]) false false := by
  rw [scanNumberLoop_run T int _ [] hint.2, scanNumberLoop_handover T c rest _ hc]
  simp

/-- A second sign behind the first `.`, `e` or `E` is a lexical error. -/
theorem nextToken_second_sign (T : UnicodeTables) (int mid1 mid2 rest : List Char)
    (c s1 s2 : Char) (s : scanner) (hint : digitRun int) (hc : c = '.' ∨ c = 'e' ∨ c = 'E')
    (h1 : ∀ x ∈ mid1, 48 ≤ x.toNat ∧ x.toNat ≤ 57) (h2 : ∀ x ∈ mid2, 48 ≤ x.toNat ∧ x.toNat ≤ 57)
    (hs1 : s1 = '-' ∨ s1 = '+') (hs2 : s2 = '-' ∨ s2 = '+') :
    nextToken T { s with reader := int ++ c :: (mid1 ++ s1 :: (mid2 ++ s2 :: rest)) }
      = (tokenInvalid, int ++ c :: (mid1 ++ s1 :: mid2),
          { s with reader := rest, buf := int ++ c :: (mid1 ++ s1 :: mid2),
                   err := some (numericError s2) }) := by
  obtain ⟨d, tl, hd⟩ := List.exists_cons_of_ne_nil hint.1
  have hdig := hint.2 d (by rw [hd]; exact List.mem_cons_self _ _)
  have hscan : scanNumberLoop T (int ++ c :: (mid1 ++ s1 :: (mid2 ++ s2 :: rest))) []
      = (some (numericError s2), int ++ c :: (mid1 ++ s1 :: mid2), rest) := by
    rw [scanNumberLoop_head T int c _ hint hc, scanFractionLoop_digits T mid1 _ _ _ _ h1,
      scanFractionLoop_first_sign T s1 _ _ _ hs1, scanFractionLoop_digits T mid2 _ _ _ _ h2,
      scanFractionLoop_second_sign T s2 _ _ _ hs2]
    simp
  rw [hd, List.cons_append] at hscan ⊢
  rw [nextToken_of_scanNumber T d _ s hdig _ _ _ hscan]
  simp only [numericError_ne_errEOF, if_false]

/-- An exponent marker behind a sign is a lexical error. -/
theorem nextToken_marker_after_sign (T : UnicodeTables) (int mid1 mid2 rest : List Char)
    (c s1 e : Char) (s : scanner) (hint : digitRun int) (hc : c = '.' ∨ c = 'e' ∨ c = 'E')
    (h1 : ∀ x ∈ mid1, 48 ≤ x.toNat ∧ x.toNat ≤ 57) (h2 : ∀ x ∈ mid2, 48 ≤ x.toNat ∧ x.toNat ≤ 57)
    (hs1 : s1 = '-' ∨ s1 = '+') (he : e = 'e' ∨ e = 'E') :
    nextToken T { s with reader := int ++ c :: (mid1 ++ s1 :: (mid2 ++ e :: rest)) }
      = (tokenInvalid, int ++ c :: (mid1 ++ s1 :: mid2),
          { s with reader := rest, buf := int ++ c :: (mid1 ++ s1 :: mid2),
                   err := some (numericError e) }) := by
  obtain ⟨d, tl, hd⟩ := List.exists_cons_of_ne_nil hint.1
  have hdig := hint.2 d (by rw [hd]; exact List.mem_cons_self _ _)
  have hscan : scanNumberLoop T (int ++ c :: (mid1 ++ s1 :: (mid2 ++ e :: rest))) []
      = (some (numericError e), int ++ c :: (mid1 ++ s1 :: mid2), rest) := by
    rw [scanNumberLoop_head T int c _ hint hc, scanFractionLoop_digits T mid1 _ _ _ _ h1,
      scanFractionLoop_first_sign T s1 _ _ _ hs1, scanFractionLoop_digits T mid2 _ _ _ _ h2,
      scanFractionLoop_late_marker T e _ _ _ _ he (Or.inr rfl)]
    simp
  rw [hd, List.cons_append] at hscan ⊢
  rw [nextToken_of_scanNumber T d _ s hdig _ _ _ hscan]
  simp only [numericError_ne_errEOF, if_false]

/-- A second exponent marker in a literal with a `.` is a lexical error. -/
theorem nextToken_second_marker (T : UnicodeTables) (int mid1 mid2 rest : List Char)
    (e1 e2 : Char) (s : scanner) (hint : digitRun int)
    (h1 : ∀ x ∈ mid1, 48 ≤ x.toNat ∧ x.toNat ≤ 57) (h2 : ∀ x ∈ mid2, 48 ≤ x.toNat ∧ x.toNat ≤ 57)
    (he1 : e1 = 'e' ∨ e1 = 'E') (he2 : e2 = 'e' ∨ e2 = 'E') :
    nextToken T { s with reader := int ++ '.' :: (mid1 ++ e1 :: (mid2 ++ e2 :: rest)) }
      = (tokenInvalid, int ++ '.' :: (mid1 ++ e1 :: mid2),
          { s with reader := rest, buf := int ++ '.' :: (mid1 ++ e1 :: mid2),
                   err := some (numericError e2) }) := by
  obtain ⟨d, tl, hd⟩ := List.exists_cons_of_ne_nil hint.1
  have hdig := hint.2 d (by rw [hd]; exact List.mem_cons_self _ _)
  have hscan : scanNumberLoop T (int ++ '.' :: (mid1 ++ e1 :: (mid2 ++ e2 :: rest))) []
      = (some (numericError e2), int ++ '.' :: (mid1 ++ e1 :: mid2), rest) := by
    rw [scanNumberLoop_head T int '.' _ hint (Or.inl rfl),
      scanFractionLoop_digits T mid1 _ _ _ _ h1,
      scanFractionLoop_marker T e1 _ _ he1, scanFractionLoop_digits T mid2 _ _ _ _ h2,
      scanFractionLoop_late_marker T e2 _ _ _ _ he2 (Or.inl rfl)]
    simp
  rw [hd, List.cons_append] at hscan ⊢
  rw [nextToken_of_scanNumber T d _ s hdig _ _ _ hscan]
  simp only [numericError_ne_errEOF, if_false]

/-- A single sign that does not follow an exponent marker is accepted: the literal in
front of a delimiter is a number token. -/
theorem nextToken_stray_sign (T : UnicodeTables) (int mid1 mid2 after : List Char)
    (c s1 : Char) (s : scanner) (hint : digitRun int) (hc : c = '.' ∨ c = 'e' ∨ c = 'E')
    (h1 : ∀ x ∈ mid1, 48 ≤ x.toNat ∧ x.toNat ≤ 57) (h2 : ∀ x ∈ mid2, 48 ≤ x.toNat ∧ x.toNat ≤ 57)
    (hs1 : s1 = '-' ∨ s1 = '+') (ha : startsWithDelimiter after = true) :
    nextToken T { s with reader := int ++ c :: (mid1 ++ s1 :: (mid2 ++ after)) }
      = (tokenNumber, int ++ c :: (mid1 ++ s1 :: mid2),
          { s with reader := after, buf := int ++ c :: (mid1 ++ s1 :: mid2) }) := by
  obtain ⟨d, tl, hd⟩ := List.exists_cons_of_ne_nil hint.1
  have hdig := hint.2 d (by rw [hd]; exact List.mem_cons_self _ _)
  have hscan : scanNumberLoop T (int ++ c :: (mid1 ++ s1 :: (mid2 ++ after))) []
      = (none, int ++ c :: (mid1 ++ s1 :: mid2), after) := by
    rw [scanNumberLoop_head T int c _ hint hc, scanFractionLoop_digits T mid1 _ _ _ _ h1,
      scanFractionLoop_first_sign T s1 _ _ _ hs1, scanFractionLoop_digits T mid2 _ _ _ _ h2,
      scanFractionLoop_stop T _ _ _ _ ha]
    simp
  rw [hd, List.cons_append] at hscan ⊢
  rw [nextToken_of_scanNumber T d _ s hdig _ _ _ hscan]

/-- A second exponent marker is accepted when the first one ended the integer part:
the literal in front of a delimiter is a number token. -/
theorem nextToken_two_markers (T : UnicodeTables) (int mid1 mid2 after : List Char)
    (e1 e2 : Char) (s : scanner) (hint : digitRun int)
    (h1 : ∀ x ∈ mid1, 48 ≤ x.toNat ∧ x.toNat ≤ 57) (h2 : ∀ x ∈ mid2, 48 ≤ x.toNat ∧ x.toNat ≤ 57)
    (he1 : e1 = 'e' ∨ e1 = 'E') (he2 : e2 = 'e' ∨ e2 = 'E')
    (ha : startsWithDelimiter after = true) :
    nextToken T { s with reader := int ++ e1 :: (mid1 ++ e2 :: (mid2 ++ after)) }
      = (tokenNumber, int ++ e1 :: (mid1 ++ e2 :: mid2),
          { s with reader := after, buf := int ++ e1 :: (mid1 ++ e2 :: mid2) }) := by
  obtain ⟨d, tl, hd⟩ := List.exists_cons_of_ne_nil hint.1
  have hdig := hint.2 d (by rw [hd]; exact List.mem_cons_self _ _)
  have hscan : scanNumberLoop T (int ++ e1 :: (mid1 ++ e2 :: (mid2 ++ after))) []
      = (none, int ++ e1 :: (mid1 ++ e2 :: mid2), after) := by
    rw [scanNumberLoop_head T int e1 _ hint (Or.inr he1),
      scanFractionLoop_digits T mid1 _ _ _ _ h1,
      scanFractionLoop_marker T e2 _ _ he2, scanFractionLoop_digits T mid2 _ _ _ _ h2,
      scanFractionLoop_stop T _ _ _ _ ha]
    simp
  rw [hd, List.cons_append] at hscan ⊢
  rw [nextToken_of_scanNumber T d _ s hdig _ _ _ hscan]

end hjson

namespace hjson

open Token Error Value

/-! ## `Atoi` on every literal that begins with a digit -/

theorem decimalFrom_le (ds : List Char) : ∀ n, n ≤ decimalFrom n ds := by
  induction ds with
  | nil => intro n; exact Nat.le_refl _
  | cons d ds ih =>
    intro n
    have := ih (n * 10 + (d.toNat - 48))
    simp only [decimalFrom, List.foldl_cons] at this ⊢
    omega

/-- The digit loop of `ParseUint` on a run of digits: it goes on behind the run with
the value read, unless that value does not fit 64 bits. -/
theorem parseUintLoop_run (ds : List Char) (hds : ∀ c ∈ ds, 48 ≤ c.toNat ∧ c.toNat ≤ 57) :
    ∀ (tail : List Char) (n : Nat), n < 2 ^ 64 →
      parseUintLoop (ds ++ tail) n
        = if decimalFrom n ds < 2 ^ 64 then parseUintLoop tail (decimalFrom n ds)
          else (2 ^ 64 - 1, some NumError.ErrRange) := by
  induction ds with
  | nil =>
    intro tail n hn
    rw [if_pos (by simpa [decimalFrom] using hn)]
    rfl
  | cons d ds ih =>
    intro tail n hn
    have hd := hds d (List.mem_cons_self _ _)
    have hmono := decimalFrom_le ds (n * 10 + (d.toNat - 48))
    have hstep : decimalFrom n (d :: ds) = decimalFrom (n * 10 + (d.toNat - 48)) ds := rfl
    rw [List.cons_append, parseUintLoop, if_pos hd, hstep]
    by_cases h1 : n ≥ (2 ^ 64 - 1) / 10 + 1
    · rw [if_pos h1, if_neg]
      norm_num at h1 ⊢
      omega
    · rw [if_neg h1]
      simp only []
      by_cases h2 : n * 10 + (d.toNat - 48) < 2 ^ 64
      · have h3 : (n * 10 + (d.toNat - 48)) % 2 ^ 64 = n * 10 + (d.toNat - 48) :=
          Nat.mod_eq_of_lt h2
        rw [h3, if_neg (by omega)]
        exact ih (fun c hc => hds c (List.mem_cons_of_mem _ hc)) tail _ h2
      · have h3 : (n * 10 + (d.toNat - 48)) % 2 ^ 64 = n * 10 + (d.toNat - 48) - 2 ^ 64 := by
          have h4 : n * 10 + (d.toNat - 48) < 2 ^ 64 + 2 ^ 64 := by
            norm_num at h1 ⊢
            omega
          rw [Nat.mod_eq_sub_mod (by omega), Nat.mod_eq_of_lt (by omega)]
        rw [h3, if_pos (by norm_num at h1 h2 ⊢; omega), if_neg (by omega)]

/-- `Atoi` on a literal that begins with a run of ASCII digits: the value of the run,
clamped to `2^63-1`, when that is the whole literal; and when a rune that is no ASCII
digit follows, 0 with a syntax error, or `2^63-1` with a range error if the run alone
does not fit 64 bits. -/
theorem Atoi_literal (ds tail : List Char) (hds : digitRun ds)
    (htail : ∀ c rest, tail = c :: rest → ¬ (48 ≤ c.toNat ∧ c.toNat ≤ 57)) :
    (Atoi (ds ++ tail)).1
      = if tail = [] then (if decimalValue ds < 2 ^ 63 then (decimalValue ds : Int) else 2 ^ 63 - 1)
        else if decimalValue ds < 2 ^ 64 then 0 else 2 ^ 63 - 1 := by
  obtain ⟨d, ds1, hd⟩ := List.exists_cons_of_ne_nil hds.1
  have hc := hds.2 d (by rw [hd]; simp)
  have hplus : d ≠ '+' := by rintro rfl; revert hc; decide
  have hminus : d ≠ '-' := by rintro rfl; revert hc; decide
  have hrun := parseUintLoop_run ds hds.2 tail 0 (by norm_num)
  have hne : ds ++ tail ≠ [] := by rw [hd]; simp
  have hhead : (ds ++ tail).head? = some d := by rw [hd]; rfl
  unfold Atoi ParseInt ParseUint
  rw [if_neg hne, hhead]
  simp only [Option.some.injEq, hplus, hminus, or_self, if_false, hne, hrun]
  change _ = if tail = [] then (if decimalFrom 0 ds < 2 ^ 63 then (decimalFrom 0 ds : Int)
    else 2 ^ 63 - 1) else if decimalFrom 0 ds < 2 ^ 64 then 0 else 2 ^ 63 - 1
  by_cases hfit : decimalFrom 0 ds < 2 ^ 64
  · rw [if_pos hfit]
    cases tail with
    | nil =>
      simp only [parseUintLoop, if_true]
      by_cases h63 : decimalFrom 0 ds < 2 ^ 63
      · have h1 : ¬ decimalFrom 0 ds ≥ 2 ^ 63 := by omega
        simp only [h1, h63, if_true, if_false, decide_False, decide_True, Bool.not_true,
          Bool.false_eq_true, false_and, and_false, gt_iff_lt, Bool.not_false, true_and]
      · have h1 : decimalFrom 0 ds ≥ 2 ^ 63 := by omega
        simp only [h1, h63, if_true, if_false, decide_False, decide_True, Bool.not_true,
          Bool.false_eq_true, false_and, and_false, gt_iff_lt, Bool.not_false, true_and,
          and_self]
    | cons c rest =>
      have hnd := htail c rest rfl
      rw [parseUintLoop, if_neg hnd]
      simp only [reduceCtorEq, if_false]
      rw [if_pos hfit]
  · rw [if_neg hfit]
    have h63 : ¬ decimalFrom 0 ds < 2 ^ 63 := by omega
    have h1 : (2 : Nat) ^ 64 - 1 ≥ 2 ^ 63 := by norm_num
    have hres : (if tail = [] then (if decimalFrom 0 ds < 2 ^ 63 then (decimalFrom 0 ds : Int)
        else 2 ^ 63 - 1) else if decimalFrom 0 ds < 2 ^ 64 then 0 else 2 ^ 63 - 1)
        = 2 ^ 63 - 1 := by
      split_ifs <;> rfl
    rw [hres]
    simp only [h1, if_true, decide_False, decide_True, Bool.not_true,
      Bool.false_eq_true, false_and, and_false, gt_iff_lt, Bool.not_false, true_and, and_self]

end hjson

namespace hjson

open Token Error Value

/-! ## Unrecognised runes -/

theorem scanIdentLoop_stop (T : UnicodeTables) (r : Char) (rd buf : List Char)
    (h : IsLetter T r = false) : scanIdentLoop T (r :: rd) buf = (none, buf, r :: rd) := by
  rw [scanIdentLoop.eq_def]
  simp [h]

/-- A rune that is no punctuation, no quote, no digit and no letter, after any
whitespace: `scanIdent` reads nothing, `lookup` of the empty literal is the invalid
token, the rune stays unread and no error is recorded. -/
theorem nextToken_unrecognised (T : UnicodeTables) (ws : List Char) (r : Char)
    (rest : List Char) (s : scanner) (hws : ∀ c ∈ ws, isSpace c = true)
    (hr : isDefaultCase r = true) (hd : IsDigit T r = false) (hl : IsLetter T r = false) :
    ∃ line, nextToken T { s with reader := ws ++ r :: rest }
      = (tokenInvalid, [], { s with reader := r :: rest, buf := [], line := line }) := by
  obtain ⟨line, hskip⟩ := nextTokenLoop_skip T ws (r :: rest) { s with reader := ws ++ r :: rest }
    hws
  refine ⟨line, ?_⟩
  unfold nextToken
  simp only []
  rw [hskip, nextTokenLoop_default T r rest _ hr, hd]
  simp only [Bool.false_eq_true, if_false, scanIdent, scanIdentLoop_stop T r rest [] hl]
  rfl

/-! ## `parse` always returns -/

/-- With the budget it takes, `parse` returns on every parser state. -/
theorem parse_total (T : UnicodeTables) (p : parser) : ∃ r, parser.parse T p = some r := by
  have hp := load_pending_le T p.jscanner
  rcases hn : nextToken T p.jscanner with ⟨tok, lit, s1⟩
  have hload : parser.load T p.jscanner = ⟨s1, tok, lit⟩ := by simp [parser.load, hn]
  rw [hload] at hp
  unfold parser.parse
  rw [hn]
  simp only []
  cases tok
  case tokenLBrace =>
    obtain ⟨r, hr, _⟩ := (fuel_enough T (parseFuel p)).1 ⟨s1, tokenLBrace, lit⟩ rfl
      (by unfold parseFuel; omega)
    simp only [hr]
    rcases r with ⟨_ | _, _⟩ <;> exact ⟨_, rfl⟩
  case tokenLBracket =>
    obtain ⟨r, hr, _⟩ := (fuel_enough T (parseFuel p)).2.2.2.1 ⟨s1, tokenLBracket, lit⟩ rfl
      (by unfold parseFuel; omega)
    simp only [hr]
    rcases r with ⟨_ | _, _⟩ <;> exact ⟨_, rfl⟩
  all_goals exact ⟨_, rfl⟩

theorem ToValue_total (T : UnicodeTables) (data : List Char) : ∃ r, ToValue T data = some r := by
  obtain ⟨r, hr⟩ := parse_total T (newParser data)
  unfold ToValue
  rw [hr]
  rcases r with ⟨v, _ | e, p⟩ <;> exact ⟨_, rfl⟩

/-- The loop of `parseObject` is left at once on a lookahead that is no string. -/
theorem parseObjectLoop_leave (T : UnicodeTables) (n : Nat) (obj : List (List Char × Value))
    (p : parser) (h : p.token ≠ tokenString) :
    parser.parseObjectLoop T (n + 1) obj p = some (parser.parseObjectEnd T obj p) := by
  rw [parser.parseObjectLoop, if_pos h]

/-- The loop of `parseArray` is left at once on a lookahead that starts no element and
is no comma and no end of input. -/
theorem parseArrayLoop_leave (T : UnicodeTables) (n : Nat) (arr : List Value) (p : parser)
    (h : p.token = tokenInvalid ∨ p.token = tokenColon ∨ p.token = tokenQuota
      ∨ p.token = tokenRBrace ∨ p.token = tokenRBracket) :
    parser.parseArrayLoop T (n + 1) arr p = some (parser.parseArrayEnd T arr p) := by
  rw [parser.parseArrayLoop]
  rcases h with h | h | h | h | h <;> simp [h]

/-! ## The end of the input inside a document -/

theorem parseValues_eof (T : UnicodeTables) (n : Nat) (p : parser) (h : p.token = tokenEOF) :
    parser.parseValues T (n + 1) p = some (.error errEOF, p) := by
  rw [parser.parseValues]
  simp [h]

theorem parseArrayLoop_eof (T : UnicodeTables) (n : Nat) (arr : List Value) (p : parser)
    (h : p.token = tokenEOF) :
    parser.parseArrayLoop T (n + 1) arr p = some (.error errEOF, p) := by
  rw [parser.parseArrayLoop]
  simp [h]

theorem parseObjectLoop_eof (T : UnicodeTables) (n : Nat) (obj : List (List Char × Value))
    (p : parser) (h : p.token = tokenEOF) :
    parser.parseObjectLoop T (n + 1) obj p
      = some (.error (p.getErr
          (errorf ("expect: key-value pair or '\x7d' got:" ++ String.mk p.literal))), p) := by
  rw [parseObjectLoop_leave T n obj p (by rw [h]; decide)]
  unfold parser.parseObjectEnd
  rw [matchToken_other T p _ (by rw [h]; decide)]

/-- On input that is whitespace only `parse` returns the end-of-input error. -/
theorem parse_blank (T : UnicodeTables) (ws : List Char) (hws : ∀ c ∈ ws, isSpace c = true) :
    ∃ p, parser.parse T (newParser ws) = some (none, some errEOF, p) := by
  obtain ⟨line, hskip⟩ := nextTokenLoop_skip T ws [] (newScanner ws) (by simpa using hws)
  rw [List.append_nil] at hskip
  unfold parser.parse nextToken
  simp only [newParser]
  rw [show (newScanner ws).reader = ws from rfl, hskip, nextTokenLoop_nil]
  exact ⟨_, rfl⟩

end hjson

namespace hjson

open Token Error Value

/-! ## The scanner on a piece of the input and on the whole of it

Each scan either does on the whole input what it does on the piece, leaving the rest of
the input behind what it leaves of the piece, or it has met the end of the piece. -/

theorem scanStringLoop_cut (rest : List Char) (n : Nat) (rd buf : List Char) :
    scanStringLoop n (rd ++ rest) buf
        = ((scanStringLoop n rd buf).1, (scanStringLoop n rd buf).2.1,
            (scanStringLoop n rd buf).2.2 ++ rest)
      ∨ ((scanStringLoop n rd buf).2.2 = []
          ∧ ((scanStringLoop n rd buf).1 = none
            ∨ (scanStringLoop n rd buf).1 = some errEOF)) := by
  induction n, rd, buf using scanStringLoop.induct with
  | case1 buf => right; simp [scanStringLoop]
  | case2 buf => right; rw [scanStringLoop.eq_def]; simp
  | case3 buf r2 rd2 h ih =>
    have e1 : scanStringLoop 0 ('\\' :: r2 :: rd2) buf
        = scanStringLoop 0 rd2 (buf ++ ['\\'] ++ [r2]) := by
      rw [scanStringLoop.eq_def]; simp only [h, if_true]
    have e2 : scanStringLoop 0 ('\\' :: r2 :: (rd2 ++ rest)) buf
        = scanStringLoop 0 (rd2 ++ rest) (buf ++ ['\\'] ++ [r2]) := by
      rw [scanStringLoop.eq_def]; simp only [h, if_true]
    rw [List.cons_append, List.cons_append, e1, e2]
    exact ih
  | case4 buf rd2 h ih =>
    have e1 : scanStringLoop 0 ('\\' :: 'u' :: rd2) buf
        = scanStringLoop 4 rd2 (buf ++ ['\\'] ++ ['u']) := by
      rw [scanStringLoop.eq_def]; simp only [h, if_true, Bool.false_eq_true, if_false]
    have e2 : scanStringLoop 0 ('\\' :: 'u' :: (rd2 ++ rest)) buf
        = scanStringLoop 4 (rd2 ++ rest) (buf ++ ['\\'] ++ ['u']) := by
      rw [scanStringLoop.eq_def]; simp only [h, if_true, Bool.false_eq_true, if_false]
    rw [List.cons_append, List.cons_append, e1, e2]
    exact ih
  | case5 buf r2 rd2 h1 h2 =>
    left
    rw [List.cons_append, List.cons_append, scanStringLoop.eq_def,
      scanStringLoop.eq_def 0 ('\\' :: r2 :: rd2)]
    simp only [h1, h2, if_true, if_false, Bool.false_eq_true]
  | case6 rd buf h =>
    left
    rw [List.cons_append, scanStringLoop.eq_def, scanStringLoop.eq_def 0 ('"' :: rd)]
    simp only [h, if_true, if_false]
  | case7 r rd buf h1 h2 ih =>
    have e1 : scanStringLoop 0 (r :: rd) buf = scanStringLoop 0 rd (buf ++ [r]) := by
      rw [scanStringLoop.eq_def]; simp only [h1, h2, if_false]
    have e2 : scanStringLoop 0 (r :: (rd ++ rest)) buf
        = scanStringLoop 0 (rd ++ rest) (buf ++ [r]) := by
      rw [scanStringLoop.eq_def]; simp only [h1, h2, if_false]
    rw [List.cons_append, e1, e2]
    exact ih
  | case8 n buf => right; simp [scanStringLoop]
  | case9 n r rd buf h ih =>
    have e1 : scanStringLoop (n + 1) (r :: rd) buf = scanStringLoop n rd (buf ++ [r]) := by
      rw [scanStringLoop.eq_def]; simp only [h, if_true]
    have e2 : scanStringLoop (n + 1) (r :: (rd ++ rest)) buf
        = scanStringLoop n (rd ++ rest) (buf ++ [r]) := by
      rw [scanStringLoop.eq_def]; simp only [h, if_true]
    rw [List.cons_append, e1, e2]
    exact ih
  | case10 n r rd buf h =>
    left
    rw [List.cons_append, scanStringLoop.eq_def, scanStringLoop.eq_def (n + 1) (r :: rd)]
    simp only [h, if_false, Bool.false_eq_true]

theorem scanFractionLoop_cut (T : UnicodeTables) (rest rd buf : List Char)
    (sawE sawSign : Bool) :
    scanFractionLoop T (rd ++ rest) buf sawE sawSign
        = ((scanFractionLoop T rd buf sawE sawSign).1,
            (scanFractionLoop T rd buf sawE sawSign).2.1,
            (scanFractionLoop T rd buf sawE sawSign).2.2 ++ rest)
      ∨ ((scanFractionLoop T rd buf sawE sawSign).2.2 = []
          ∧ (scanFractionLoop T rd buf sawE sawSign).1 = some errEOF) := by
  induction rd generalizing buf sawE sawSign with
  | nil => right; simp [scanFractionLoop]
  | cons r rd ih =>
    rw [List.cons_append, scanFractionLoop.eq_def, scanFractionLoop.eq_def T (r :: rd)]
    simp only []
    split_ifs <;> first
      | exact ih _ _ _
      | (left; rfl)

theorem scanNumberLoop_cut (T : UnicodeTables) (rest rd buf : List Char) :
    scanNumberLoop T (rd ++ rest) buf
        = ((scanNumberLoop T rd buf).1, (scanNumberLoop T rd buf).2.1,
            (scanNumberLoop T rd buf).2.2 ++ rest)
      ∨ ((scanNumberLoop T rd buf).2.2 = []
          ∧ ((scanNumberLoop T rd buf).1 = none
            ∨ (scanNumberLoop T rd buf).1 = some errEOF)) := by
  induction rd generalizing buf with
  | nil => right; simp [scanNumberLoop]
  | cons r rd ih =>
    rw [List.cons_append, scanNumberLoop.eq_def, scanNumberLoop.eq_def T (r :: rd)]
    simp only []
    split_ifs <;> first
      | exact ih _
      | (left; rfl)
      | (rcases scanFractionLoop_cut T rest rd (buf ++ [r]) false false with h | h
         · exact Or.inl h
         · exact Or.inr ⟨h.1, Or.inr h.2⟩)

theorem scanIdentLoop_cut (T : UnicodeTables) (rest rd buf : List Char) :
    scanIdentLoop T (rd ++ rest) buf
        = ((scanIdentLoop T rd buf).1, (scanIdentLoop T rd buf).2.1,
            (scanIdentLoop T rd buf).2.2 ++ rest)
      ∨ ((scanIdentLoop T rd buf).2.2 = [] ∧ (scanIdentLoop T rd buf).1 = some errEOF) := by
  induction rd generalizing buf with
  | nil => right; simp [scanIdentLoop]
  | cons r rd ih =>
    rw [List.cons_append, scanIdentLoop.eq_def, scanIdentLoop.eq_def T (r :: rd)]
    simp only []
    split_ifs <;> first
      | exact ih _
      | (left; rfl)

/-- `nextToken` on the whole input returns the token it returns on the piece and leaves
the rest behind what it leaves of the piece, unless it has met the end of the piece:
then the piece is used up and the token is end-of-input, a string or a number. -/
theorem nextTokenLoop_cut (T : UnicodeTables) (rest rd : List Char) :
    ∀ s : scanner,
      nextTokenLoop T (rd ++ rest) (s.extend rest)
          = ((nextTokenLoop T rd s).1, (nextTokenLoop T rd s).2.1,
              (nextTokenLoop T rd s).2.2.extend rest)
        ∨ ((nextTokenLoop T rd s).2.2.reader = []
            ∧ ((nextTokenLoop T rd s).1 = tokenEOF ∨ (nextTokenLoop T rd s).1 = tokenString
              ∨ (nextTokenLoop T rd s).1 = tokenNumber)) := by
  induction rd with
  | nil => intro s; right; simp [nextTokenLoop]
  | cons r rd ih =>
    intro s
    rw [List.cons_append]
    rcases rune_cases r with h | h | h | h | h | h | h | h | h | h
    · rw [nextTokenLoop_ws T r _ _ h, nextTokenLoop_ws T r rd s h]
      exact ih s
    · subst h
      rw [nextTokenLoop_nl, nextTokenLoop_nl]
      exact ih { s with line := s.line + 1 }
    · subst h
      rw [nextTokenLoop_quote, nextTokenLoop_quote]
      simp only [scanString]
      rcases scanStringLoop_cut rest 0 rd [] with hc | hc
      · left
        have hc2 : scanStringLoop 0 (rd ++ rest) [] = _ := hc
        simp only [scanner.extend]
        rw [hc2]
        rcases scanStringLoop 0 rd [] with ⟨_ | e, b, rd1⟩
        · rfl
        · simp only []
          split_ifs <;> rfl
      · right
        rcases hs : scanStringLoop 0 rd [] with ⟨_ | e, b, rd1⟩
        · rw [hs] at hc
          exact ⟨hc.1, Or.inr (Or.inl rfl)⟩
        · rw [hs] at hc
          rcases hc.2 with h2 | h2
          · cases h2
          · cases h2
            exact ⟨hc.1, Or.inl rfl⟩
    · subst h; left; rw [nextTokenLoop_comma, nextTokenLoop_comma]; rfl
    · subst h; left; rw [nextTokenLoop_colon, nextTokenLoop_colon]; rfl
    · subst h; left; rw [nextTokenLoop_lbrace, nextTokenLoop_lbrace]; rfl
    · subst h; left; rw [nextTokenLoop_rbrace, nextTokenLoop_rbrace]; rfl
    · subst h; left; rw [nextTokenLoop_lbracket, nextTokenLoop_lbracket]; rfl
    · subst h; left; rw [nextTokenLoop_rbracket, nextTokenLoop_rbracket]; rfl
    · rw [nextTokenLoop_default T r _ _ h, nextTokenLoop_default T r rd s h]
      by_cases h10 : IsDigit T r = true
      · rw [if_pos h10, if_pos h10]
        simp only [scanNumber]
        rcases scanNumberLoop_cut T rest (r :: rd) [] with hc | hc
        · left
          have hc2 : scanNumberLoop T (r :: (rd ++ rest)) [] = _ := hc
          simp only [scanner.extend]
          rw [hc2]
          rcases scanNumberLoop T (r :: rd) [] with ⟨_ | e, b, rd1⟩
          · rfl
          · simp only []
            split_ifs <;> rfl
        · right
          rcases hs : scanNumberLoop T (r :: rd) [] with ⟨_ | e, b, rd1⟩
          · rw [hs] at hc
            exact ⟨hc.1, Or.inr (Or.inr rfl)⟩
          · rw [hs] at hc
            rcases hc.2 with h2 | h2
            · cases h2
            · cases h2
              exact ⟨hc.1, Or.inl rfl⟩
      · rw [if_neg h10, if_neg h10]
        simp only [scanIdent]
        rcases scanIdentLoop_cut T rest (r :: rd) [] with hc | hc
        · left
          have hc2 : scanIdentLoop T (r :: (rd ++ rest)) [] = _ := hc
          simp only [scanner.extend]
          rw [hc2]
          rcases scanIdentLoop T (r :: rd) [] with ⟨_ | e, b, rd1⟩
          · rfl
          · rfl
        · right
          rcases hs : scanIdentLoop T (r :: rd) [] with ⟨_ | e, b, rd1⟩
          · rw [hs] at hc
            cases hc.2
          · rw [hs] at hc
            exact ⟨hc.1, Or.inl rfl⟩

theorem nextToken_cut (T : UnicodeTables) (rest : List Char) (s : scanner) :
    nextToken T (s.extend rest)
        = ((nextToken T s).1, (nextToken T s).2.1, (nextToken T s).2.2.extend rest)
      ∨ ((nextToken T s).2.2.reader = []
          ∧ ((nextToken T s).1 = tokenEOF ∨ (nextToken T s).1 = tokenString
            ∨ (nextToken T s).1 = tokenNumber)) :=
  nextTokenLoop_cut T rest s.reader s

/-- The lookahead loaded from the whole input is the lookahead loaded from the piece,
with the rest of the input behind it, unless the latter is dead. -/
theorem load_cut (T : UnicodeTables) (rest : List Char) (s : scanner) :
    parser.load T (s.extend rest) = (parser.load T s).extend rest ∨ (parser.load T s).dead := by
  rcases nextToken_cut T rest s with h | h
  · left
    unfold parser.load
    rw [h]
    rfl
  · right
    unfold parser.load parser.dead
    exact h

end hjson

namespace hjson

open Token Error Value

/-! ## A lookahead read at the very end of the input -/

theorem load_nil (T : UnicodeTables) (s : scanner) (h : s.reader = []) :
    parser.load T s = ⟨{ s with reader := [] }, tokenEOF, []⟩ := by
  unfold parser.load nextToken
  rw [h, nextTokenLoop_nil]

theorem dead_advance (T : UnicodeTables) (p : parser) (h : p.dead) :
    (p.advance T).token = tokenEOF ∧ (p.advance T).dead := by
  rw [advance_eq_load, load_nil T p.jscanner h.1]
  exact ⟨rfl, rfl, Or.inl rfl⟩

theorem dead_matchToken (T : UnicodeTables) (p : parser) (tok : Token) (h : p.dead) :
    (p.matchToken T tok).2.dead := by
  by_cases ht : p.token = tok
  · rw [matchToken_self T p tok ht]
    exact (dead_advance T p h).2
  · rw [matchToken_other T p tok ht]
    exact h

theorem dead_not_punctuation (p : parser) (h : p.dead) :
    p.token ≠ tokenComma ∧ p.token ≠ tokenColon ∧ p.token ≠ tokenLBrace
      ∧ p.token ≠ tokenRBrace ∧ p.token ≠ tokenLBracket ∧ p.token ≠ tokenRBracket := by
  rcases h.2 with h1 | h1 | h1 <;> rw [h1] <;> decide

theorem eof_not_punctuation (p : parser) (h : p.token = tokenEOF) :
    p.token ≠ tokenComma ∧ p.token ≠ tokenColon ∧ p.token ≠ tokenRBrace
      ∧ p.token ≠ tokenRBracket ∧ p.token ≠ tokenString := by
  rw [h]; decide

/-- The closing check of `parseObject` fails on a lookahead that is no `\x7d`. -/
theorem parseObjectEnd_fails (T : UnicodeTables) (obj : List (List Char × Value)) (p : parser)
    (h : p.token ≠ tokenRBrace) (v : Value) (p1 : parser) :
    parser.parseObjectEnd T obj p ≠ (.ok v, p1) := by
  unfold parser.parseObjectEnd
  rw [matchToken_other T p _ h]
  intro hc
  cases hc

/-- The closing check of `parseArray` fails on a lookahead that is no `]`. -/
theorem parseArrayEnd_fails (T : UnicodeTables) (arr : List Value) (p : parser)
    (h : p.token ≠ tokenRBracket) (v : Value) (p1 : parser) :
    parser.parseArrayEnd T arr p ≠ (.ok v, p1) := by
  unfold parser.parseArrayEnd
  rw [matchToken_other T p _ h]
  intro hc
  cases hc

/-- On a dead lookahead the loop of `parseObject` returns no value. -/
theorem dead_parseObjectLoop (T : UnicodeTables) (n : Nat) (obj : List (List Char × Value))
    (p : parser) (h : p.dead) (v : Value) (p1 : parser) :
    parser.parseObjectLoop T n obj p ≠ some (.ok v, p1) := by
  cases n with
  | zero => rw [parser.parseObjectLoop]; exact fun hc => Option.noConfusion hc
  | succ n =>
    rw [parser.parseObjectLoop]
    by_cases ht : p.token ≠ tokenString
    · rw [if_pos ht]
      intro hc
      exact parseObjectEnd_fails T obj p (dead_not_punctuation p h).2.2.2.1 v p1
        (Option.some.inj hc)
    · rw [if_neg ht]
      simp only []
      split_ifs
      · intro hc; cases hc
      · have ht2 : p.token = tokenString := by simpa using ht
        rw [matchToken_self T p _ ht2]
        simp only []
        have hadv := dead_advance T p h
        rw [matchToken_other T (p.advance T) tokenColon (by rw [hadv.1]; decide)]
        intro hc
        cases hc

/-- On a dead lookahead `parseObject` returns no value. -/
theorem dead_parseObject (T : UnicodeTables) (n : Nat) (p : parser) (h : p.dead) (v : Value)
    (p1 : parser) : parser.parseObject T n p ≠ some (.ok v, p1) := by
  cases n with
  | zero => rw [parser.parseObject]; exact fun hc => Option.noConfusion hc
  | succ n =>
    rw [parser.parseObject]
    exact dead_parseObjectLoop T n _ _ (dead_matchToken T p _ h) v p1

/-- What follows an element in the loop of `parseArray`, on a lookahead that is the end
of the input: the closing check fails. -/
theorem eof_arrayTail (T : UnicodeTables) (n : Nat) (arr : List Value) (p : parser)
    (h : p.token = tokenEOF) (v : Value) (p1 : parser) :
    (if p.token ≠ tokenComma then some (parser.parseArrayEnd T arr p)
      else parser.parseArrayLoop T n arr (p.matchToken T tokenComma).2) ≠ some (.ok v, p1) := by
  rw [if_pos (eof_not_punctuation p h).1]
  intro hc
  exact parseArrayEnd_fails T arr p (eof_not_punctuation p h).2.2.2.1 v p1 (Option.some.inj hc)

/-- On a dead lookahead the loop of `parseArray` returns no value. -/
theorem dead_parseArrayLoop (T : UnicodeTables) (n : Nat) (arr : List Value) (p : parser)
    (h : p.dead) (v : Value) (p1 : parser) :
    parser.parseArrayLoop T n arr p ≠ some (.ok v, p1) := by
  cases n with
  | zero => rw [parser.parseArrayLoop]; exact fun hc => Option.noConfusion hc
  | succ n =>
    have hadv := dead_advance T p h
    rw [parser.parseArrayLoop]
    rcases h.2 with ht | ht | ht
    · simp only [ht]
      intro hc; cases hc
    · simp only [ht]
      rw [← ht, matchToken_self T p _ rfl]
      exact eof_arrayTail T n _ _ hadv.1 v p1
    · simp only [ht, parser.parseNumber]
      rw [← ht, matchToken_self T p _ rfl]
      exact eof_arrayTail T n _ _ hadv.1 v p1

/-- On a dead lookahead `parseArray` returns no value. -/
theorem dead_parseArray (T : UnicodeTables) (n : Nat) (p : parser) (h : p.dead) (v : Value)
    (p1 : parser) : parser.parseArray T n p ≠ some (.ok v, p1) := by
  cases n with
  | zero => rw [parser.parseArray]; exact fun hc => Option.noConfusion hc
  | succ n =>
    rw [parser.parseArray]
    exact dead_parseArrayLoop T n _ _ (dead_matchToken T p _ h) v p1

/-- On a dead lookahead `parseValues` can only return the string or the number that is
the lookahead, and it leaves a dead lookahead. -/
theorem dead_parseValues (T : UnicodeTables) (n : Nat) (p : parser) (h : p.dead) (v : Value)
    (p1 : parser) (hr : parser.parseValues T n p = some (.ok v, p1)) : p1.dead := by
  cases n with
  | zero => rw [parser.parseValues] at hr; cases hr
  | succ n =>
    have hadv := dead_advance T p h
    rw [parser.parseValues] at hr
    rcases h.2 with ht | ht | ht
    · simp only [ht] at hr
      cases hr
    · simp only [ht] at hr
      rw [← ht, matchToken_self T p _ rfl] at hr
      cases hr
      exact hadv.2
    · simp only [ht, parser.parseNumber] at hr
      rw [← ht, matchToken_self T p _ rfl] at hr
      cases hr
      exact hadv.2

end hjson

namespace hjson

open Token Error Value

/-! ## The parser on a piece of the input and on the whole of it -/

theorem extend_token (p : parser) (rest : List Char) : (p.extend rest).token = p.token := rfl

theorem extend_literal (p : parser) (rest : List Char) :
    (p.extend rest).literal = p.literal := rfl

theorem extend_jscanner (p : parser) (rest : List Char) :
    (p.extend rest).jscanner = p.jscanner.extend rest := rfl

theorem matchToken_load (T : UnicodeTables) (p : parser) (tok : Token) (h : p.token = tok) :
    p.matchToken T tok = (true, parser.load T p.jscanner) := by
  rw [matchToken_self T p tok h, advance_eq_load]

theorem matchToken_extend (T : UnicodeTables) (p : parser) (tok : Token) (rest : List Char)
    (h : p.token = tok) :
    (p.extend rest).matchToken T tok = (true, parser.load T (p.jscanner.extend rest)) :=
  matchToken_load T (p.extend rest) tok h

theorem matchToken_extend_other (T : UnicodeTables) (p : parser) (tok : Token)
    (rest : List Char) (h : p.token ≠ tok) :
    (p.extend rest).matchToken T tok = (false, p.extend rest) :=
  matchToken_other T (p.extend rest) tok h

/-- The closing check of `parseObject`, when it succeeds on the piece. -/
theorem parseObjectEnd_cut (T : UnicodeTables) (rest : List Char)
    (obj : List (List Char × Value)) (p : parser) (v : Value) (p1 : parser)
    (hr : parser.parseObjectEnd T obj p = (.ok v, p1)) :
    p1 = parser.load T p.jscanner ∧
      parser.parseObjectEnd T obj (p.extend rest)
        = (.ok v, parser.load T (p.jscanner.extend rest)) := by
  by_cases ht : p.token = tokenRBrace
  · unfold parser.parseObjectEnd at hr ⊢
    rw [matchToken_load T p _ ht] at hr
    rw [matchToken_extend T p _ rest ht]
    cases hr
    exact ⟨rfl, rfl⟩
  · exact absurd hr (parseObjectEnd_fails T obj p ht v p1)

/-- The closing check of `parseArray`, when it succeeds on the piece. -/
theorem parseArrayEnd_cut (T : UnicodeTables) (rest : List Char) (arr : List Value)
    (p : parser) (v : Value) (p1 : parser)
    (hr : parser.parseArrayEnd T arr p = (.ok v, p1)) :
    p1 = parser.load T p.jscanner ∧
      parser.parseArrayEnd T arr (p.extend rest)
        = (.ok v, parser.load T (p.jscanner.extend rest)) := by
  by_cases ht : p.token = tokenRBracket
  · unfold parser.parseArrayEnd at hr ⊢
    rw [matchToken_load T p _ ht] at hr
    rw [matchToken_extend T p _ rest ht]
    cases hr
    exact ⟨rfl, rfl⟩
  · exact absurd hr (parseArrayEnd_fails T arr p ht v p1)

/-- What follows a member in the loop of `parseObject`. -/
theorem objectTail_cut (T : UnicodeTables) (rest : List Char) (n : Nat)
    (ih : ∀ obj, cutStable T rest (parser.parseObjectLoop T n obj))
    (obj : List (List Char × Value)) :
    cutStable T rest (fun p =>
      if p.token ≠ tokenComma then some (parser.parseObjectEnd T obj p)
      else parser.parseObjectLoop T n obj (p.matchToken T tokenComma).2) := by
  intro s v p1 hr
  simp only [] at hr ⊢
  rcases load_cut T rest s with hl | hd
  · rw [hl]
    by_cases ht : (parser.load T s).token ≠ tokenComma
    · rw [if_pos ht] at hr
      rw [if_pos (show ((parser.load T s).extend rest).token ≠ tokenComma from ht)]
      obtain ⟨h1, h2⟩ := parseObjectEnd_cut T rest obj _ v p1 (Option.some.inj hr)
      exact ⟨_, h1, by rw [h2]⟩
    · rw [if_neg ht] at hr
      rw [if_neg (show ¬ ((parser.load T s).extend rest).token ≠ tokenComma from ht)]
      have ht2 : (parser.load T s).token = tokenComma := by simpa using ht
      rw [matchToken_load T _ _ ht2] at hr
      rw [matchToken_extend T _ _ rest ht2]
      exact ih obj _ v p1 hr
  · rw [if_pos (dead_not_punctuation _ hd).1] at hr
    exact absurd (Option.some.inj hr)
      (parseObjectEnd_fails T obj _ (dead_not_punctuation _ hd).2.2.2.1 v p1)

/-- What follows an element in the loop of `parseArray`. -/
theorem arrayTail_cut (T : UnicodeTables) (rest : List Char) (n : Nat)
    (ih : ∀ arr, cutStable T rest (parser.parseArrayLoop T n arr)) (arr : List Value) :
    cutStable T rest (fun p =>
      if p.token ≠ tokenComma then some (parser.parseArrayEnd T arr p)
      else parser.parseArrayLoop T n arr (p.matchToken T tokenComma).2) := by
  intro s v p1 hr
  simp only [] at hr ⊢
  rcases load_cut T rest s with hl | hd
  · rw [hl]
    by_cases ht : (parser.load T s).token ≠ tokenComma
    · rw [if_pos ht] at hr
      rw [if_pos (show ((parser.load T s).extend rest).token ≠ tokenComma from ht)]
      obtain ⟨h1, h2⟩ := parseArrayEnd_cut T rest arr _ v p1 (Option.some.inj hr)
      exact ⟨_, h1, by rw [h2]⟩
    · rw [if_neg ht] at hr
      rw [if_neg (show ¬ ((parser.load T s).extend rest).token ≠ tokenComma from ht)]
      have ht2 : (parser.load T s).token = tokenComma := by simpa using ht
      rw [matchToken_load T _ _ ht2] at hr
      rw [matchToken_extend T _ _ rest ht2]
      exact ih arr _ v p1 hr
  · rw [if_pos (dead_not_punctuation _ hd).1] at hr
    exact absurd (Option.some.inj hr)
      (parseArrayEnd_fails T arr _ (dead_not_punctuation _ hd).2.2.2.2.2 v p1)

/-- One more round of the loop of `parseObject`. -/
theorem parseObjectLoop_cut (T : UnicodeTables) (rest : List Char) (n : Nat)
    (ihV : cutStableValue T rest (parser.parseValues T n))
    (ihOL : ∀ obj, cutStable T rest (parser.parseObjectLoop T n obj))
    (obj : List (List Char × Value)) :
    cutStable T rest (parser.parseObjectLoop T (n + 1) obj) := by
  intro s v p1 hr
  rcases load_cut T rest s with hl | hd
  swap
  · exact absurd hr (dead_parseObjectLoop T _ obj _ hd v p1)
  rw [hl]
  generalize parser.load T s = p at hr ⊢
  rw [parser.parseObjectLoop] at hr ⊢
  by_cases ht : p.token ≠ tokenString
  · rw [if_pos ht] at hr
    rw [if_pos (show (p.extend rest).token ≠ tokenString from ht)]
    obtain ⟨h1, h2⟩ := parseObjectEnd_cut T rest obj _ v p1 (Option.some.inj hr)
    exact ⟨_, h1, by rw [h2]⟩
  · rw [if_neg ht] at hr
    rw [if_neg (show ¬ (p.extend rest).token ≠ tokenString from ht)]
    have ht2 : p.token = tokenString := by simpa using ht
    simp only [extend_literal] at hr ⊢
    by_cases hk : (mapGet obj p.literal).isSome = true
    · rw [if_pos hk] at hr
      cases hr
    rw [if_neg hk] at hr ⊢
    rw [matchToken_load T p _ ht2] at hr
    rw [matchToken_extend T p _ rest ht2]
    simp only [] at hr ⊢
    -- the colon
    rcases load_cut T rest p.jscanner with hl1 | hd1
    swap
    · rw [matchToken_other T _ tokenColon (dead_not_punctuation _ hd1).2.1] at hr
      cases hr
    rw [hl1]
    by_cases hc : (parser.load T p.jscanner).token = tokenColon
    swap
    · rw [matchToken_other T _ tokenColon hc] at hr
      cases hr
    rw [matchToken_load T _ _ hc] at hr
    rw [matchToken_extend T _ _ rest hc]
    simp only [] at hr ⊢
    -- the value
    rcases hv : parser.parseValues T n (parser.load T (parser.load T p.jscanner).jscanner)
      with _ | ⟨_ | value, p3⟩
    · rw [hv] at hr; cases hr
    · rw [hv] at hr; cases hr
    rw [hv] at hr
    simp only [] at hr
    rcases ihV _ value p3 hv with hd3 | ⟨s3, hp3, hv2⟩
    · rw [if_pos (dead_not_punctuation _ hd3).1] at hr
      exact absurd (Option.some.inj hr)
        (parseObjectEnd_fails T _ _ (dead_not_punctuation _ hd3).2.2.2.1 v p1)
    rw [hv2]
    simp only []
    subst hp3
    exact objectTail_cut T rest n ihOL _ s3 v p1 hr

/-- One more round of the loop of `parseArray`. -/
theorem parseArrayLoop_cut (T : UnicodeTables) (rest : List Char) (n : Nat)
    (ihO : cutStable T rest (parser.parseObject T n))
    (ihA : cutStable T rest (parser.parseArray T n))
    (ihAL : ∀ arr, cutStable T rest (parser.parseArrayLoop T n arr)) (arr : List Value) :
    cutStable T rest (parser.parseArrayLoop T (n + 1) arr) := by
  intro s v p1 hr
  rcases load_cut T rest s with hl | hd
  swap
  · exact absurd hr (dead_parseArrayLoop T _ arr _ hd v p1)
  rw [hl]
  have tail := fun arr1 => arrayTail_cut T rest n ihAL arr1
  obtain ⟨p, hp⟩ : ∃ p, p = parser.load T s := ⟨_, rfl⟩
  rw [← hp] at hr hl ⊢
  rw [parser.parseArrayLoop] at hr ⊢
  cases ht : p.token <;>
    simp only [ht, extend_token, extend_literal, parser.parseNumber] at hr ⊢
  case tokenNumber =>
    rw [← ht, matchToken_load T p _ rfl] at hr
    rw [← ht, matchToken_extend T p _ rest rfl]
    exact tail _ p.jscanner v p1 hr
  case tokenString =>
    rw [← ht, matchToken_load T p _ rfl] at hr
    rw [← ht, matchToken_extend T p _ rest rfl]
    exact tail _ p.jscanner v p1 hr
  case tokenNull =>
    rw [← ht, matchToken_load T p _ rfl] at hr
    rw [← ht, matchToken_extend T p _ rest rfl]
    exact tail _ p.jscanner v p1 hr
  case tokenTrue =>
    rw [← ht, matchToken_load T p _ rfl] at hr
    rw [← ht, matchToken_extend T p _ rest rfl]
    exact tail _ p.jscanner v p1 hr
  case tokenFalse =>
    rw [← ht, matchToken_load T p _ rfl] at hr
    rw [← ht, matchToken_extend T p _ rest rfl]
    exact tail _ p.jscanner v p1 hr
  case tokenLBrace =>
    rcases ho : parser.parseObject T n p with _ | ⟨_ | w, p2⟩
    · rw [ho] at hr; cases hr
    · rw [ho] at hr; cases hr
    rw [ho] at hr
    simp only [] at hr
    rw [hp] at ho
    obtain ⟨s2, hp2, ho2⟩ := ihO s w p2 ho
    rw [hl] at ho2
    rw [ho2]
    simp only []
    subst hp2
    exact tail _ s2 v p1 hr
  case tokenLBracket =>
    rcases ho : parser.parseArray T n p with _ | ⟨_ | w, p2⟩
    · rw [ho] at hr; cases hr
    · rw [ho] at hr; cases hr
    rw [ho] at hr
    simp only [] at hr
    rw [hp] at ho
    obtain ⟨s2, hp2, ho2⟩ := ihA s w p2 ho
    rw [hl] at ho2
    rw [ho2]
    simp only []
    subst hp2
    exact tail _ s2 v p1 hr
  case tokenEOF => cases hr
  all_goals
    have h2 := tail arr s v p1 (by simp only []; rw [← hp]; simp only [ht]; exact hr)
    simp only [] at h2
    rw [hl] at h2
    simp only [extend_token, ht] at h2
    exact h2

/-- With every budget, each production run on the whole input follows its run on a
piece of it as long as that returns values. -/
theorem productions_cut (T : UnicodeTables) (rest : List Char) (n : Nat) :
    cutStable T rest (parser.parseObject T n) ∧
    (∀ obj, cutStable T rest (parser.parseObjectLoop T n obj)) ∧
    cutStableValue T rest (parser.parseValues T n) ∧
    cutStable T rest (parser.parseArray T n) ∧
    (∀ arr, cutStable T rest (parser.parseArrayLoop T n arr)) := by
  induction n with
  | zero =>
    refine ⟨?_, ?_, ?_, ?_, ?_⟩
    · intro s v p1 hr; rw [parser.parseObject] at hr; cases hr
    · intro obj s v p1 hr; rw [parser.parseObjectLoop] at hr; cases hr
    · intro s v p1 hr; rw [parser.parseValues] at hr; cases hr
    · intro s v p1 hr; rw [parser.parseArray] at hr; cases hr
    · intro arr s v p1 hr; rw [parser.parseArrayLoop] at hr; cases hr
  | succ n ih =>
    obtain ⟨ihO, ihOL, ihV, ihA, ihAL⟩ := ih
    refine ⟨?_, parseObjectLoop_cut T rest n ihV ihOL, ?_, ?_,
      parseArrayLoop_cut T rest n ihO ihA ihAL⟩
    · intro s v p1 hr
      rcases load_cut T rest s with hl | hd
      swap
      · exact absurd hr (dead_parseObject T _ _ hd v p1)
      rw [parser.parseObject] at hr ⊢
      by_cases ht : (parser.load T s).token = tokenLBrace
      · rw [matchToken_load T _ _ ht] at hr
        rw [hl, matchToken_extend T _ _ rest ht]
        exact ihOL _ _ v p1 hr
      · rw [matchToken_other T _ _ ht] at hr
        rw [hl, matchToken_extend_other T _ _ rest ht, ← hl]
        exact ihOL _ _ v p1 hr
    · intro s v p1 hr
      rcases load_cut T rest s with hl | hd
      swap
      · exact Or.inl (dead_parseValues T _ _ hd v p1 hr)
      right
      obtain ⟨p, hp⟩ : ∃ p, p = parser.load T s := ⟨_, rfl⟩
      rw [← hp] at hr hl
      rw [hl, parser.parseValues]
      rw [parser.parseValues] at hr
      cases ht : p.token <;>
        simp only [ht, extend_token, extend_literal, parser.parseNumber] at hr ⊢
      case tokenLBrace =>
        rw [hp] at hr
        obtain ⟨s2, hp2, ho2⟩ := ihO s v p1 hr
        rw [hl] at ho2
        exact ⟨s2, hp2, ho2⟩
      case tokenLBracket =>
        rw [hp] at hr
        obtain ⟨s2, hp2, ho2⟩ := ihA s v p1 hr
        rw [hl] at ho2
        exact ⟨s2, hp2, ho2⟩
      case tokenEOF => cases hr
      case tokenInvalid => cases hr
      case tokenComma => cases hr
      case tokenColon => cases hr
      case tokenQuota => cases hr
      case tokenRBrace => cases hr
      case tokenRBracket => cases hr
      all_goals
        rw [← ht, matchToken_load T p _ rfl] at hr
        rw [← ht, matchToken_extend T p _ rest rfl]
        cases hr
        exact ⟨_, rfl, rfl⟩
    · intro s v p1 hr
      rcases load_cut T rest s with hl | hd
      swap
      · exact absurd hr (dead_parseArray T _ _ hd v p1)
      rw [parser.parseArray] at hr ⊢
      by_cases ht : (parser.load T s).token = tokenLBracket
      · rw [matchToken_load T _ _ ht] at hr
        rw [hl, matchToken_extend T _ _ rest ht]
        exact ihAL _ _ v p1 hr
      · rw [matchToken_other T _ _ ht] at hr
        rw [hl, matchToken_extend_other T _ _ rest ht, ← hl]
        exact ihAL _ _ v p1 hr

end hjson

namespace hjson

open Token Error Value

/-! ## Text that ends with a closing bracket is never scanned to its end silently -/

theorem not_endsWithCloser_nil : ¬ endsWithCloser [] := by
  rintro ⟨front, c, h, _⟩
  cases front <;> simp at h

theorem endsWithCloser_tail (r : Char) (rd : List Char) (h : endsWithCloser (r :: rd)) :
    (rd = [] ∧ (r = '\x7d' ∨ r = ']')) ∨ endsWithCloser rd := by
  obtain ⟨front, c, h1, h2⟩ := h
  cases front with
  | nil =>
    simp only [List.nil_append, List.cons.injEq] at h1
    exact Or.inl ⟨h1.2, h1.1 ▸ h2⟩
  | cons f front =>
    simp only [List.cons_append, List.cons.injEq] at h1
    exact Or.inr ⟨front, c, h1.2, h2⟩

theorem endsWithCloser_append (a b : List Char) (h : endsWithCloser b) :
    endsWithCloser (a ++ b) := by
  obtain ⟨front, c, h1, h2⟩ := h
  exact ⟨a ++ front, c, by rw [h1, List.append_assoc], h2⟩

theorem closer_facts (T : UnicodeTables) (c : Char) (h : c = '\x7d' ∨ c = ']') :
    isSimpleEscape c = false ∧ c ≠ 'u' ∧ isHexDigit c = false ∧ c ≠ '\\' ∧ c ≠ '"'
      ∧ IsDigit T c = false ∧ IsLetter T c = false ∧ isWhitespace c = false ∧ c ≠ '\n'
      ∧ c ≠ '-' ∧ c ≠ '+' ∧ c ≠ 'e' ∧ c ≠ 'E' ∧ c ≠ '.' := by
  rcases h with rfl | rfl <;>
    refine ⟨?_, ?_, ?_, ?_, ?_, ?_, ?_, ?_, ?_, ?_, ?_, ?_, ?_, ?_⟩ <;> first | rfl | decide

theorem scanStringLoop_closer (n : Nat) (rd buf : List Char) (h : endsWithCloser rd) :
    (scanStringLoop n rd buf).1 ≠ some errEOF := by
  induction n, rd, buf using scanStringLoop.induct with
  | case1 buf => exact absurd h not_endsWithCloser_nil
  | case2 buf =>
    rcases endsWithCloser_tail _ _ h with ⟨_, h1⟩ | h1
    · rcases h1 with h1 | h1 <;> exact absurd h1 (by decide)
    · exact absurd h1 not_endsWithCloser_nil
  | case3 buf r2 rd2 hs ih =>
    rw [scanStringLoop.eq_def]; simp only [hs, if_true]
    rcases endsWithCloser_tail _ _ h with ⟨h0, _⟩ | h1
    · cases h0
    rcases endsWithCloser_tail _ _ h1 with ⟨_, h2⟩ | h2
    · have := (closer_facts asciiTables r2 h2).1
      rw [hs] at this
      cases this
    · exact ih h2
  | case4 buf rd2 hs ih =>
    rw [scanStringLoop.eq_def]; simp only [hs, if_true, Bool.false_eq_true, if_false]
    rcases endsWithCloser_tail _ _ h with ⟨h0, _⟩ | h1
    · cases h0
    rcases endsWithCloser_tail _ _ h1 with ⟨_, h2⟩ | h2
    · rcases h2 with h2 | h2 <;> exact absurd h2 (by decide)
    · exact ih h2
  | case5 buf r2 rd2 h1 h2 =>
    rw [scanStringLoop.eq_def]; simp only [h1, h2, if_true, if_false, Bool.false_eq_true]
    exact fun hc => Error.noConfusion (Option.some.inj hc)
  | case6 rd buf hq =>
    rw [scanStringLoop.eq_def]; simp only [hq, if_true, if_false]
    exact fun hc => Option.noConfusion hc
  | case7 r rd buf h1 h2 ih =>
    rw [scanStringLoop.eq_def]; simp only [h1, h2, if_false]
    rcases endsWithCloser_tail _ _ h with ⟨h0, _⟩ | h3
    · subst h0
      simp [scanStringLoop]
    · exact ih h3
  | case8 n buf => exact absurd h not_endsWithCloser_nil
  | case9 n r rd buf hx ih =>
    rw [scanStringLoop.eq_def]; simp only [hx, if_true]
    rcases endsWithCloser_tail _ _ h with ⟨_, h2⟩ | h2
    · have := (closer_facts asciiTables r h2).2.2.1
      rw [hx] at this
      cases this
    · exact ih h2
  | case10 n r rd buf hx =>
    rw [scanStringLoop.eq_def]; simp only [hx, if_false, Bool.false_eq_true]
    exact fun hc => Error.noConfusion (Option.some.inj hc)

theorem scanFractionLoop_closer (T : UnicodeTables) (rd buf : List Char) (sawE sawSign : Bool)
    (h : endsWithCloser rd) : (scanFractionLoop T rd buf sawE sawSign).1 ≠ some errEOF := by
  induction rd generalizing buf sawE sawSign with
  | nil => exact absurd h not_endsWithCloser_nil
  | cons r rd ih =>
    rcases endsWithCloser_tail _ _ h with ⟨h0, h1⟩ | h1
    · obtain ⟨_, _, _, _, _, hd, _, _, _, hm, hp, he, hE, _⟩ := closer_facts T r h1
      rw [scanFractionLoop.eq_def]
      simp [hm, hp, he, hE, hd]
    · rw [scanFractionLoop.eq_def]
      simp only []
      split_ifs <;> first
        | exact ih _ _ _ h1
        | exact fun hc => numericError_ne_errEOF r (Option.some.inj hc)
        | exact fun hc => Option.noConfusion hc

theorem scanNumberLoop_closer (T : UnicodeTables) (rd buf : List Char)
    (h : endsWithCloser rd) : (scanNumberLoop T rd buf).1 ≠ some errEOF := by
  induction rd generalizing buf with
  | nil => exact absurd h not_endsWithCloser_nil
  | cons r rd ih =>
    rcases endsWithCloser_tail _ _ h with ⟨h0, h1⟩ | h1
    · obtain ⟨_, _, _, _, _, hd, _, _, _, hm, hp, he, hE, hdot⟩ := closer_facts T r h1
      rw [scanNumberLoop.eq_def]
      simp [he, hE, hd, hdot]
    · rw [scanNumberLoop.eq_def]
      simp only []
      split_ifs <;> first
        | exact ih _ h1
        | exact scanFractionLoop_closer T _ _ _ _ h1
        | exact fun hc => Option.noConfusion hc

theorem scanIdentLoop_closer (T : UnicodeTables) (rd buf : List Char)
    (h : endsWithCloser rd) : (scanIdentLoop T rd buf).1 = none := by
  induction rd generalizing buf with
  | nil => exact absurd h not_endsWithCloser_nil
  | cons r rd ih =>
    rcases endsWithCloser_tail _ _ h with ⟨h0, h1⟩ | h1
    · obtain ⟨_, _, _, _, _, _, hl, _⟩ := closer_facts T r h1
      rw [scanIdentLoop.eq_def]
      simp [hl]
    · rw [scanIdentLoop.eq_def]
      simp only []
      split_ifs
      · exact ih _ h1
      · rfl

theorem lookup_ne_eof (lit : List Char) : lookup lit ≠ tokenEOF := by
  unfold lookup
  split_ifs <;> decide

/-- On text that ends with `\x7d` or `]` the scanner does not return the end-of-input
token. -/
theorem nextTokenLoop_closer (T : UnicodeTables) (rd : List Char) (h : endsWithCloser rd) :
    ∀ s : scanner, (nextTokenLoop T rd s).1 ≠ tokenEOF := by
  induction rd with
  | nil => exact absurd h not_endsWithCloser_nil
  | cons r rd ih =>
    intro s
    rcases rune_cases r with hr | hr | hr | hr | hr | hr | hr | hr | hr | hr
    · rw [nextTokenLoop_ws T r rd s hr]
      rcases endsWithCloser_tail _ _ h with ⟨_, h1⟩ | h1
      · have := (closer_facts T r h1).2.2.2.2.2.2.2.1
        rw [hr] at this
        cases this
      · exact ih h1 s
    · subst hr
      rw [nextTokenLoop_nl]
      rcases endsWithCloser_tail _ _ h with ⟨_, h1⟩ | h1
      · rcases h1 with h1 | h1 <;> exact absurd h1 (by decide)
      · exact ih h1 _
    · subst hr
      rw [nextTokenLoop_quote]
      simp only [scanString]
      rcases endsWithCloser_tail _ _ h with ⟨_, h1⟩ | h1
      · rcases h1 with h1 | h1 <;> exact absurd h1 (by decide)
      have hs := scanStringLoop_closer 0 rd [] h1
      rcases hsc : scanStringLoop 0 rd [] with ⟨_ | e, b, rd1⟩
      · simp only []
        exact fun hc => Token.noConfusion hc
      · rw [hsc] at hs
        simp only []
        rw [if_neg (fun he => hs (by rw [he]))]
        exact fun hc => Token.noConfusion hc
    · subst hr; rw [nextTokenLoop_comma]; exact fun hc => Token.noConfusion hc
    · subst hr; rw [nextTokenLoop_colon]; exact fun hc => Token.noConfusion hc
    · subst hr; rw [nextTokenLoop_lbrace]; exact fun hc => Token.noConfusion hc
    · subst hr; rw [nextTokenLoop_rbrace]; exact fun hc => Token.noConfusion hc
    · subst hr; rw [nextTokenLoop_lbracket]; exact fun hc => Token.noConfusion hc
    · subst hr; rw [nextTokenLoop_rbracket]; exact fun hc => Token.noConfusion hc
    · rw [nextTokenLoop_default T r rd s hr]
      by_cases h10 : IsDigit T r = true
      · rw [if_pos h10]
        simp only [scanNumber]
        have hs := scanNumberLoop_closer T (r :: rd) [] h
        rcases hsc : scanNumberLoop T (r :: rd) [] with ⟨_ | e, b, rd1⟩
        · simp only []
          exact fun hc => Token.noConfusion hc
        · rw [hsc] at hs
          simp only []
          rw [if_neg (fun he => hs (by rw [he]))]
          exact fun hc => Token.noConfusion hc
      · rw [if_neg h10]
        simp only [scanIdent]
        have hs := scanIdentLoop_closer T (r :: rd) [] h
        rcases hsc : scanIdentLoop T (r :: rd) [] with ⟨_ | e, b, rd1⟩
        · exact lookup_ne_eof _
        · rw [hsc] at hs
          cases hs

theorem load_closer (T : UnicodeTables) (s : scanner) (h : endsWithCloser s.reader) :
    (parser.load T s).token ≠ tokenEOF := by
  have := nextTokenLoop_closer T s.reader h s
  unfold parser.load nextToken
  exact this

end hjson

namespace hjson

open Token Error Value

/-! ## Truncated documents -/

/-- When `parse` returns a value, the first token was `\x7b` or `[` and the value is
the one `parseObject` or `parseArray` returned. -/
theorem parse_ok_inv (T : UnicodeTables) (p : parser) (v : Value) (pf : parser)
    (h : parser.parse T p = some (some v, none, pf)) :
    ((parser.load T p.jscanner).token = tokenLBrace ∧
        parser.parseObject T (parseFuel p) (parser.load T p.jscanner) = some (.ok v, pf))
      ∨ ((parser.load T p.jscanner).token = tokenLBracket ∧
        parser.parseArray T (parseFuel p) (parser.load T p.jscanner) = some (.ok v, pf)) := by
  rcases hn : nextToken T p.jscanner with ⟨tok, lit, s1⟩
  have hload : parser.load T p.jscanner = ⟨s1, tok, lit⟩ := by simp [parser.load, hn]
  unfold parser.parse at h
  rw [hn] at h
  simp only [] at h
  rw [hload]
  cases tok <;> simp only [] at h
  case tokenLBrace =>
    left
    rcases ho : parser.parseObject T (parseFuel p) ⟨s1, tokenLBrace, lit⟩ with _ | ⟨_ | w, p2⟩
    · rw [ho] at h; cases h
    · rw [ho] at h; cases h
    · rw [ho] at h; cases h; exact ⟨rfl, rfl⟩
  case tokenLBracket =>
    right
    rcases ho : parser.parseArray T (parseFuel p) ⟨s1, tokenLBracket, lit⟩ with _ | ⟨_ | w, p2⟩
    · rw [ho] at h; cases h
    · rw [ho] at h; cases h
    · rw [ho] at h; cases h; exact ⟨rfl, rfl⟩
  all_goals cases h

/-- The three shapes of what `parse` returns: a value and no error, no value and an
error, or neither, the latter only when the first token is the invalid token. -/
theorem parse_shape (T : UnicodeTables) (p : parser) (ov : Option Value) (oe : Option Error)
    (pf : parser) (h : parser.parse T p = some (ov, oe, pf)) :
    (∃ v, ov = some v ∧ oe = none) ∨ (ov = none ∧ ∃ e, oe = some e)
      ∨ (ov = none ∧ oe = none ∧ (parser.load T p.jscanner).token = tokenInvalid) := by
  rcases hn : nextToken T p.jscanner with ⟨tok, lit, s1⟩
  have hload : parser.load T p.jscanner = ⟨s1, tok, lit⟩ := by simp [parser.load, hn]
  unfold parser.parse at h
  rw [hn] at h
  simp only [] at h
  rw [hload]
  cases tok <;> simp only [] at h
  case tokenLBrace =>
    rcases ho : parser.parseObject T (parseFuel p) ⟨s1, tokenLBrace, lit⟩ with _ | ⟨_ | w, p2⟩
    · rw [ho] at h; cases h
    · rw [ho] at h; cases h; exact Or.inr (Or.inl ⟨rfl, _, rfl⟩)
    · rw [ho] at h; cases h; exact Or.inl ⟨_, rfl, rfl⟩
  case tokenLBracket =>
    rcases ho : parser.parseArray T (parseFuel p) ⟨s1, tokenLBracket, lit⟩ with _ | ⟨_ | w, p2⟩
    · rw [ho] at h; cases h
    · rw [ho] at h; cases h; exact Or.inr (Or.inl ⟨rfl, _, rfl⟩)
    · rw [ho] at h; cases h; exact Or.inl ⟨_, rfl, rfl⟩
  case tokenInvalid =>
    cases h
    rcases he : s1.err with _ | e
    · exact Or.inr (Or.inr ⟨rfl, rfl, rfl⟩)
    · exact Or.inr (Or.inl ⟨rfl, e, rfl⟩)
  all_goals
    cases h
    exact Or.inr (Or.inl ⟨rfl, _, rfl⟩)

/-- When `parse` returns a value on a piece of the input it returns the same value on
the whole input, and the lookahead it ends with is read from the rest of the input. -/
theorem parse_cut (T : UnicodeTables) (rest : List Char) (p : parser) (v : Value) (pf : parser)
    (h : parser.parse T p = some (some v, none, pf)) :
    ∃ s1, pf = parser.load T s1 ∧
      parser.parse T (p.extend rest) = some (some v, none, parser.load T (s1.extend rest)) := by
  rcases load_cut T rest p.jscanner with hl | hdead
  swap
  · rcases parse_ok_inv T p v pf h with ⟨ht, _⟩ | ⟨ht, _⟩
    · exact absurd ht (dead_not_punctuation _ hdead).2.2.1
    · exact absurd ht (dead_not_punctuation _ hdead).2.2.2.2.1
  rcases parse_ok_inv T p v pf h with ⟨ht, ho⟩ | ⟨ht, ho⟩
  · obtain ⟨s1, hp1, hd⟩ := (productions_cut T rest _).1 p.jscanner v pf ho
    have ht2 : (parser.load T (p.extend rest).jscanner).token = tokenLBrace := by
      rw [extend_jscanner, hl]; exact ht
    exact ⟨s1, hp1, parse_object T (p.extend rest) _ _ ht2 hd⟩
  · obtain ⟨s1, hp1, hd⟩ := (productions_cut T rest _).2.2.2.1 p.jscanner v pf ho
    have ht2 : (parser.load T (p.extend rest).jscanner).token = tokenLBracket := by
      rw [extend_jscanner, hl]; exact ht
    exact ⟨s1, hp1, parse_array T (p.extend rest) _ _ ht2 hd⟩

theorem endsWithCloser_of_append (q rest : List Char) (h : endsWithCloser (q ++ rest))
    (hrest : rest ≠ []) : endsWithCloser rest := by
  obtain ⟨front, c, h1, h2⟩ := h
  rcases List.eq_nil_or_concat rest with h0 | ⟨L, b, hb⟩
  · exact absurd h0 hrest
  · rw [hb] at h1
    have h3 : (q ++ L) ++ [b] = front ++ [c] := by rw [← h1]; simp
    have h4 := List.append_inj' h3 rfl
    have h5 : b = c := by simpa using h4.2
    exact ⟨L, c, by rw [hb, h5, List.concat_eq_append], h2⟩

/-- Every piece that stops before the end of a text which begins with `\x7b` or `[`,
ends with `\x7d` or `]` and is read to its end when `parse` accepts it, is rejected by
`parse` with an error. -/
theorem truncated_rejected (T : UnicodeTables) (q rest : List Char) (hrest : rest ≠ [])
    (hclose : endsWithCloser (q ++ rest))
    (hroot : (parser.load T (newScanner (q ++ rest))).token = tokenLBrace
      ∨ (parser.load T (newScanner (q ++ rest))).token = tokenLBracket)
    (hend : ∀ v pf, parser.parse T (newParser (q ++ rest)) = some (some v, none, pf) →
      pf.token = tokenEOF) :
    ∃ e pf, parser.parse T (newParser q) = some (none, some e, pf) := by
  have hrc := endsWithCloser_of_append q rest hclose hrest
  obtain ⟨⟨ov, oe, pf⟩, hr⟩ := parse_total T (newParser q)
  rcases parse_shape T _ ov oe pf hr with ⟨v, rfl, rfl⟩ | ⟨rfl, e, rfl⟩ | ⟨rfl, rfl, ht⟩
  · obtain ⟨s1, _, hd⟩ := parse_cut T rest (newParser q) v pf hr
    have hfin := hend v _ hd
    exact absurd hfin (load_closer T (s1.extend rest) (endsWithCloser_append _ _ hrc))
  · exact ⟨e, pf, hr⟩
  · rcases load_cut T rest (newScanner q) with hl | hdead
    · have hl2 : parser.load T (newScanner (q ++ rest))
          = (parser.load T (newScanner q)).extend rest := hl
      rw [hl2, extend_token] at hroot
      have ht2 : (parser.load T (newScanner q)).token = tokenInvalid := ht
      rw [ht2] at hroot
      rcases hroot with h1 | h1 <;> cases h1
    · have ht2 : (parser.load T (newScanner q)).token = tokenInvalid := ht
      rcases hdead.2 with h1 | h1 | h1 <;> rw [ht2] at h1 <;> cases h1

/-! ### The JSON text of a tree -/

/-- On spaced text of well-formed, delimited tokens with nothing but whitespace behind
them, the parser reads these tokens and then the end of the input. -/
theorem reads_spaced_eof (T : UnicodeTables) (toks : List Tok) :
    ∀ (gaps : List (List Char)) (s : scanner),
      (∀ t ∈ toks, wellFormedTok t = true) →
      delimited toks = true → allSpace gaps → s.reader = spaced gaps toks →
      (parser.load T s).reads T (toks ++ [(tokenEOF, [])]) := by
  induction toks with
  | nil =>
    intro gaps s _ _ hg hs
    have hws : ∀ c ∈ s.reader, isSpace c = true := by
      rw [hs]
      cases gaps with
      | nil => simp [spaced]
      | cons ws gaps => simpa [spaced] using hg ws (List.mem_cons_self _ _)
    obtain ⟨line, hskip⟩ := nextTokenLoop_skip T s.reader [] s hws
    rw [List.append_nil] at hskip
    have hload : parser.load T s = ⟨{ s with line := line, reader := [] }, tokenEOF, []⟩ := by
      unfold parser.load nextToken
      rw [hskip, nextTokenLoop_nil]
    rw [List.nil_append, reads_cons, hload]
    exact ⟨rfl, rfl, trivial⟩
  | cons t ts ih =>
    intro gaps s hwf hdel hg hs
    have hwf1 : ∀ x ∈ ts, wellFormedTok x = true := fun x hx => hwf x (List.mem_cons_of_mem _ hx)
    simp only [delimited, Bool.and_eq_true, Bool.or_eq_true, Bool.not_eq_true'] at hdel
    obtain ⟨ws, gaps1, hws, hg1, htext⟩ : ∃ ws gaps1, (∀ c ∈ ws, isSpace c = true) ∧
        allSpace gaps1 ∧ spaced gaps (t :: ts) = ws ++ (tokenText t ++ spaced gaps1 ts) := by
      cases gaps with
      | nil => exact ⟨[], [], by simp, by simp [allSpace], by simp [spaced]⟩
      | cons ws gaps1 =>
        exact ⟨ws, gaps1, hg ws (List.mem_cons_self _ _),
          fun w hw => hg w (List.mem_cons_of_mem _ hw), by simp [spaced]⟩
    have ha : isWord t = true → startsWithDelimiter (spaced gaps1 ts) = true := by
      intro hw
      rcases hdel.1 with h | h
      · rw [hw] at h; exact absurd h (by decide)
      · cases ts with
        | nil => simp [startsWithSeparator] at h
        | cons t1 ts1 =>
          exact spaced_startsWithDelimiter gaps1 t1 ts1 hg1
            (hwf t1 (List.mem_cons_of_mem _ (List.mem_cons_self _ _))) h
    obtain ⟨s1, hn, hr, _⟩ := nextToken_tok T t (hwf t (List.mem_cons_self _ _)) ws
      (spaced gaps1 ts) hws ha s (by rw [hs, htext])
    rw [List.cons_append, reads_cons]
    refine ⟨by simp [parser.load, hn], by simp [parser.load, hn], ?_⟩
    rw [advance_eq_load]
    have : (parser.load T s).jscanner = s1 := by simp [parser.load, hn]
    rw [this]
    exact ih gaps1 s1 hwf1 hdel.2 hg1 hr

/-- The JSON text of a plain tree with an object or array root parses to the tree, and
`parse` ends with the end of the input as lookahead. -/
theorem parse_spaced_eof (T : UnicodeTables) (v : Value) (hroot : isContainer v = true)
    (hplain : plainTree v = true) (gaps : List (List Char)) (hg : allSpace gaps) :
    ∃ p1, parser.parse T (newParser (spaced gaps (tokensOf v))) = some (some v, none, p1)
      ∧ p1.token = tokenEOF := by
  have hdel : delimited (tokensOf v) = true := by
    have := delimited_tokensOf v [] rfl
      (fun hs => by cases v <;> simp_all [isContainer, isScalar])
    simpa using this
  have hreads := reads_spaced_eof T (tokensOf v) gaps
    (newParser (spaced gaps (tokensOf v))).jscanner (wellFormed_tokensOf v hplain) hdel hg rfl
  obtain ⟨n, p1, hn, hr⟩ := parsesTree_of_plain T _ v (Nat.le_refl _) hplain _ _ hreads
  rw [reads_cons] at hr
  refine ⟨p1, ?_, hr.1⟩
  cases n with
  | zero => simp [parser.parseValues] at hn
  | succ n =>
    cases v with
    | JObject ms =>
      have ht : (parser.load T (newParser (spaced gaps (tokensOf (JObject ms)))).jscanner).token
          = tokenLBrace := by
        simp only [tokensOf, List.cons_append, reads_cons] at hreads
        exact hreads.1
      rw [parser.parseValues] at hn
      simp only [ht] at hn
      exact parse_object T _ n _ ht hn
    | JArray es =>
      have ht : (parser.load T (newParser (spaced gaps (tokensOf (JArray es)))).jscanner).token
          = tokenLBracket := by
        simp only [tokensOf, List.cons_append, reads_cons] at hreads
        exact hreads.1
      rw [parser.parseValues] at hn
      simp only [ht] at hn
      exact parse_array T _ n _ ht hn
    | JNumber _ => simp [isContainer] at hroot
    | JString _ => simp [isContainer] at hroot
    | JBool _ => simp [isContainer] at hroot
    | JNull => simp [isContainer] at hroot

/-- Spaced text with no more gaps than tokens ends with the text of the last token. -/
theorem spaced_last (toks : List Tok) (t : Tok) :
    ∀ gaps : List (List Char), gaps.length ≤ toks.length + 1 →
      ∃ front, spaced gaps (toks ++ [t]) = front ++ tokenText t := by
  induction toks with
  | nil =>
    intro gaps hlen
    match gaps, hlen with
    | [], _ => exact ⟨[], by simp [spaced]⟩
    | [ws], _ => exact ⟨ws, by simp [spaced]⟩
    | _ :: _ :: _, h => simp at h
  | cons t0 toks ih =>
    intro gaps hlen
    cases gaps with
    | nil =>
      obtain ⟨front, hf⟩ := ih [] (by simp)
      exact ⟨tokenText t0 ++ front, by simp [spaced, hf]⟩
    | cons ws gaps =>
      obtain ⟨front, hf⟩ := ih gaps (by simpa using hlen)
      exact ⟨ws ++ (tokenText t0 ++ front), by simp [spaced, hf]⟩

/-- The JSON text of an object or an array, with no whitespace behind the last token,
ends with `\x7d` or `]`. -/
theorem spaced_endsWithCloser (v : Value) (hroot : isContainer v = true)
    (gaps : List (List Char)) (hlen : gaps.length ≤ (tokensOf v).length) :
    endsWithCloser (spaced gaps (tokensOf v)) := by
  cases v with
  | JObject ms =>
    simp only [tokensOf, List.length_cons, List.length_append, List.length_singleton,
      List.length_nil] at hlen
    obtain ⟨front, hf⟩ := spaced_last ((tokenLBrace, ['\x7b']) :: memberTokens ms)
      (tokenRBrace, ['\x7d']) gaps (by simp; omega)
    exact ⟨front, '\x7d', by simpa [tokensOf, tokenText] using hf, Or.inl rfl⟩
  | JArray es =>
    simp only [tokensOf, List.length_cons, List.length_append, List.length_singleton,
      List.length_nil] at hlen
    obtain ⟨front, hf⟩ := spaced_last ((tokenLBracket, ['[']) :: elementTokens es)
      (tokenRBracket, [']']) gaps (by simp; omega)
    exact ⟨front, ']', by simpa [tokensOf, tokenText] using hf, Or.inr rfl⟩
  | JNumber _ => simp [isContainer] at hroot
  | JString _ => simp [isContainer] at hroot
  | JBool _ => simp [isContainer] at hroot
  | JNull => simp [isContainer] at hroot

/-- Every piece that stops before the end of the JSON text of a plain tree with an
object or array root is rejected by `parse` with an error. -/
theorem truncated_tree_rejected (T : UnicodeTables) (v : Value) (hroot : isContainer v = true)
    (hplain : plainTree v = true) (gaps : List (List Char)) (hg : allSpace gaps)
    (hlen : gaps.length ≤ (tokensOf v).length) (q rest : List Char)
    (hsplit : spaced gaps (tokensOf v) = q ++ rest) (hrest : rest ≠ []) :
    ∃ e pf, parser.parse T (newParser q) = some (none, some e, pf) := by
  obtain ⟨p1, hp1, ht1⟩ := parse_spaced_eof T v hroot hplain gaps hg
  rw [hsplit] at hp1
  apply truncated_rejected T q rest hrest
  · rw [← hsplit]
    exact spaced_endsWithCloser v hroot gaps hlen
  · rcases parse_ok_inv T _ v p1 hp1 with ⟨ht, _⟩ | ⟨ht, _⟩
    · exact Or.inl ht
    · exact Or.inr ht
  · intro w pf hw
    rw [hp1] at hw
    cases hw
    exact ht1

end hjson

namespace hjson

open Token Error Value

/-! ## No input parses to a negative Integer -/

/-- `Atoi` of a literal that does not begin with `-` is never negative, whether it
succeeds or fails. -/
theorem Atoi_nonneg (s : List Char) (h : s.head? ≠ some '-') : 0 ≤ (Atoi s).1 := by
  unfold Atoi ParseInt
  by_cases hs : s = []
  · rw [if_pos hs]
  · rw [if_neg hs]
    simp only [h, decide_False, Bool.false_eq_true, false_and, if_false]
    rcases hp : ParseUint (if s.head? = some '+' ∨ False then s.tail else s) with ⟨un, _ | e⟩
    · simp only []
      split_ifs
      · norm_num
      · exact Int.natCast_nonneg un
    · cases e
      · exact Int.le_refl 0
      · simp only []
        split_ifs
        · norm_num
        · exact Int.natCast_nonneg un

/-- `scanFraction` only adds to the buffer. -/
theorem scanFractionLoop_buf (T : UnicodeTables) (rd buf : List Char) (sawE sawSign : Bool) :
    ∃ x, (scanFractionLoop T rd buf sawE sawSign).2.1 = buf ++ x := by
  induction rd generalizing buf sawE sawSign with
  | nil => exact ⟨[], by simp [scanFractionLoop]⟩
  | cons r rd ih =>
    rw [scanFractionLoop.eq_def]
    simp only []
    split_ifs <;> first
      | (obtain ⟨x, hx⟩ := ih (buf ++ [r]) sawE true
         exact ⟨r :: x, by rw [hx]; simp⟩)
      | (obtain ⟨x, hx⟩ := ih (buf ++ [r]) true sawSign
         exact ⟨r :: x, by rw [hx]; simp⟩)
      | (obtain ⟨x, hx⟩ := ih (buf ++ [r]) sawE sawSign
         exact ⟨r :: x, by rw [hx]; simp⟩)
      | exact ⟨[], by simp⟩

/-- `scanNumber` only adds to the buffer. -/
theorem scanNumberLoop_buf (T : UnicodeTables) (rd buf : List Char) :
    ∃ x, (scanNumberLoop T rd buf).2.1 = buf ++ x := by
  induction rd generalizing buf with
  | nil => exact ⟨[], by simp [scanNumberLoop]⟩
  | cons r rd ih =>
    rw [scanNumberLoop.eq_def]
    simp only []
    split_ifs <;> first
      | (obtain ⟨x, hx⟩ := ih (buf ++ [r])
         exact ⟨r :: x, by rw [hx]; simp⟩)
      | (obtain ⟨x, hx⟩ := scanFractionLoop_buf T rd (buf ++ [r]) false false
         exact ⟨r :: x, by rw [hx]; simp⟩)
      | exact ih buf
      | exact ⟨[], by simp⟩

theorem lookup_ne_number (lit : List Char) : lookup lit ≠ tokenNumber := by
  unfold lookup
  split_ifs <;> decide

/-- A number token begins with the digit that `nextToken` saw, never with `-`. -/
theorem nextTokenLoop_unsigned (T : UnicodeTables) (rd : List Char) :
    ∀ s : scanner, (nextTokenLoop T rd s).1 = tokenNumber →
      (nextTokenLoop T rd s).2.1.head? ≠ some '-' := by
  induction rd with
  | nil => intro s h; rw [nextTokenLoop_nil] at h; cases h
  | cons r rd ih =>
    intro s
    rcases rune_cases r with hr | hr | hr | hr | hr | hr | hr | hr | hr | hr
    · rw [nextTokenLoop_ws T r rd s hr]; exact ih s
    · subst hr; rw [nextTokenLoop_nl]; exact ih _
    · subst hr
      rw [nextTokenLoop_quote]
      simp only [scanString]
      rcases scanStringLoop 0 rd [] with ⟨_ | e, b, rd1⟩
      · intro h; cases h
      · simp only []
        split_ifs <;> intro h <;> cases h
    · subst hr; rw [nextTokenLoop_comma]; intro h; cases h
    · subst hr; rw [nextTokenLoop_colon]; intro h; cases h
    · subst hr; rw [nextTokenLoop_lbrace]; intro h; cases h
    · subst hr; rw [nextTokenLoop_rbrace]; intro h; cases h
    · subst hr; rw [nextTokenLoop_lbracket]; intro h; cases h
    · subst hr; rw [nextTokenLoop_rbracket]; intro h; cases h
    · rw [nextTokenLoop_default T r rd s hr]
      by_cases h10 : IsDigit T r = true
      · rw [if_pos h10]
        simp only [scanNumber]
        have hstep : scanNumberLoop T (r :: rd) [] = scanNumberLoop T rd [r] := by
          rw [scanNumberLoop.eq_def]
          simp [h10]
        obtain ⟨x, hx⟩ := scanNumberLoop_buf T rd [r]
        rw [hstep]
        have hminus : r ≠ '-' := by
          rintro rfl
          have hd : IsDigit T '-' = false := rfl
          rw [hd] at h10
          cases h10
        rcases hsc : scanNumberLoop T rd [r] with ⟨_ | e, b, rd1⟩
        · rw [hsc] at hx
          simp only [] at hx ⊢
          intro _
          rw [hx]
          simpa using hminus
        · simp only []
          split_ifs <;> intro h <;> cases h
      · rw [if_neg h10]
        simp only [scanIdent]
        rcases scanIdentLoop T (r :: rd) [] with ⟨_ | e, b, rd1⟩
        · intro h
          exact absurd h (lookup_ne_number _)
        · intro h; cases h

theorem load_unsigned (T : UnicodeTables) (s : scanner) : (parser.load T s).unsignedNumber := by
  have := nextTokenLoop_unsigned T s.reader s
  unfold parser.unsignedNumber parser.load nextToken
  exact this

theorem matchToken_unsigned (T : UnicodeTables) (p : parser) (tok : Token)
    (h : p.unsignedNumber) : (p.matchToken T tok).2.unsignedNumber := by
  by_cases ht : p.token = tok
  · rw [matchToken_self T p tok ht, advance_eq_load]
    exact load_unsigned T _
  · rw [matchToken_other T p tok ht]
    exact h

theorem matched_unsigned (T : UnicodeTables) (p : parser) (tok : Token) (p1 : parser)
    (h : p.matchToken T tok = (true, p1)) : p1.unsignedNumber := by
  by_cases ht : p.token = tok
  · rw [matchToken_self T p tok ht, advance_eq_load] at h
    cases h
    exact load_unsigned T _
  · rw [matchToken_other T p tok ht] at h
    cases h

theorem parseNumber_nonneg (T : UnicodeTables) (p : parser) (ht : p.token = tokenNumber)
    (h : p.unsignedNumber) : nonNegative (p.parseNumber T).1 = true := by
  unfold parser.parseNumber
  simp only [nonNegative, decide_eq_true_eq]
  exact Atoi_nonneg _ (h ht)

theorem nonNegativeElements_append (arr : List Value) (v : Value)
    (h : nonNegativeElements arr = true) (hv : nonNegative v = true) :
    nonNegativeElements (addValue arr v) = true := by
  unfold addValue
  induction arr with
  | nil => simp [nonNegativeElements, hv]
  | cons e arr ih =>
    simp only [nonNegativeElements, Bool.and_eq_true] at h
    simp [nonNegativeElements, h.1, ih h.2]

theorem mapSet_nonNegative (obj : List (List Char × Value)) (k : List Char) (v : Value)
    (h : nonNegativeMembers obj = true) (hv : nonNegative v = true) :
    nonNegativeMembers (mapSet obj k v) = true := by
  induction obj with
  | nil => simp [mapSet, nonNegativeMembers, hv]
  | cons m obj ih =>
    obtain ⟨k1, v1⟩ := m
    simp only [nonNegativeMembers, Bool.and_eq_true] at h
    rw [mapSet]
    split_ifs
    · simp [nonNegativeMembers, hv, h.2]
    · simp [nonNegativeMembers, h.1, ih h.2]

/-- Whatever the input, a tree that a production returns has no negative Integer:
every number token comes from the scanner and begins with a digit. -/
theorem parsed_nonNegative (T : UnicodeTables) (n : Nat) :
    (∀ p v p1, p.unsignedNumber → parser.parseObject T n p = some (.ok v, p1) →
      nonNegative v = true) ∧
    (∀ obj p v p1, p.unsignedNumber → nonNegativeMembers obj = true →
      parser.parseObjectLoop T n obj p = some (.ok v, p1) → nonNegative v = true) ∧
    (∀ p v p1, p.unsignedNumber → parser.parseValues T n p = some (.ok v, p1) →
      nonNegative v = true) ∧
    (∀ p v p1, p.unsignedNumber → parser.parseArray T n p = some (.ok v, p1) →
      nonNegative v = true) ∧
    (∀ arr p v p1, p.unsignedNumber → nonNegativeElements arr = true →
      parser.parseArrayLoop T n arr p = some (.ok v, p1) → nonNegative v = true) := by
  induction n with
  | zero =>
    refine ⟨?_, ?_, ?_, ?_, ?_⟩ <;> intros <;>
      simp_all [parser.parseObject, parser.parseObjectLoop, parser.parseValues,
        parser.parseArray, parser.parseArrayLoop]
  | succ n ih =>
    obtain ⟨ihO, ihOL, ihV, ihA, ihAL⟩ := ih
    have endO : ∀ obj p v p1, nonNegativeMembers obj = true →
        some (parser.parseObjectEnd T obj p) = some (.ok v, p1) → nonNegative v = true := by
      intro obj p v p1 h1 h
      rw [parseObjectEnd_ok T obj p v p1 (Option.some.inj h)]
      simpa [nonNegative] using h1
    have endA : ∀ arr p v p1, nonNegativeElements arr = true →
        some (parser.parseArrayEnd T arr p) = some (.ok v, p1) → nonNegative v = true := by
      intro arr p v p1 h1 h
      rw [parseArrayEnd_ok T arr p v p1 (Option.some.inj h)]
      simpa [nonNegative] using h1
    refine ⟨?_, ?_, ?_, ?_, ?_⟩
    · intro p v p1 hg h
      rw [parser.parseObject] at h
      exact ihOL _ _ _ _ (matchToken_unsigned T p _ hg) (by simp [NewObject, nonNegativeMembers]) h
    · intro obj p v p1 hg hnn h
      rw [parser.parseObjectLoop] at h
      by_cases h1 : p.token ≠ tokenString
      · rw [if_pos h1] at h; exact endO _ _ _ _ hnn h
      · rw [if_neg h1] at h
        simp only [] at h
        by_cases h2 : (mapGet obj p.literal).isSome = true
        · rw [if_pos h2] at h; simp at h
        · rw [if_neg h2] at h
          rcases hm : parser.matchToken T (parser.matchToken T p tokenString).2 tokenColon
            with ⟨b, p2⟩
          rw [hm] at h
          cases b
          · simp at h
          · simp only [] at h
            have hg2 := matched_unsigned T _ _ _ hm
            cases hv : parser.parseValues T n p2 with
            | none => rw [hv] at h; simp at h
            | some x =>
              rw [hv] at h
              rcases x with ⟨_ | value, p3⟩
              · simp at h
              · simp only [] at h
                have hval := ihV _ _ _ hg2 hv
                have hnn1 := mapSet_nonNegative obj p.literal value hnn hval
                by_cases h3 : p3.token ≠ tokenComma
                · rw [if_pos h3] at h; exact endO _ _ _ _ hnn1 h
                · rw [if_neg h3] at h
                  have h4 : p3.token = tokenComma := by simpa using h3
                  rw [matchToken_load T p3 _ h4] at h
                  exact ihOL _ _ _ _ (load_unsigned T _) hnn1 h
    · intro p v p1 hg h
      rw [parser.parseValues] at h
      cases ht : p.token <;> simp only [ht] at h
      case tokenLBrace => exact ihO _ _ _ hg h
      case tokenLBracket => exact ihA _ _ _ hg h
      case tokenNumber =>
        simp only [Option.some.injEq, Prod.mk.injEq, Except.ok.injEq] at h
        rw [← h.1]
        exact parseNumber_nonneg T p ht hg
      all_goals first
        | (simp only [Option.some.injEq, Prod.mk.injEq, Except.ok.injEq] at h
           rw [← h.1]; rfl)
        | (simp at h; done)
    · intro p v p1 hg h
      rw [parser.parseArray] at h
      exact ihAL _ _ _ _ (matchToken_unsigned T p _ hg) (by simp [NewArray, nonNegativeElements]) h
    · intro arr p v p1 hg hnn h
      rw [parser.parseArrayLoop] at h
      have tail : ∀ (arr1 : List Value) (p2 : parser), nonNegativeElements arr1 = true →
          (if p2.token ≠ tokenComma then some (parser.parseArrayEnd T arr1 p2)
            else parser.parseArrayLoop T n arr1 (p2.matchToken T tokenComma).2)
            = some (.ok v, p1) → nonNegative v = true := by
        intro arr1 p2 hd1 h
        by_cases h3 : p2.token ≠ tokenComma
        · rw [if_pos h3] at h; exact endA _ _ _ _ hd1 h
        · rw [if_neg h3] at h
          have h4 : p2.token = tokenComma := by simpa using h3
          rw [matchToken_load T p2 _ h4] at h
          exact ihAL _ _ _ _ (load_unsigned T _) hd1 h
      cases ht : p.token <;> simp only [ht] at h
      case tokenNumber =>
        exact tail _ _ (nonNegativeElements_append arr _ hnn (parseNumber_nonneg T p ht hg)) h
      case tokenString =>
        exact tail _ _ (nonNegativeElements_append arr (JString p.literal) hnn rfl) h
      case tokenNull => exact tail _ _ (nonNegativeElements_append arr JNull hnn rfl) h
      case tokenTrue => exact tail _ _ (nonNegativeElements_append arr (JBool true) hnn rfl) h
      case tokenFalse => exact tail _ _ (nonNegativeElements_append arr (JBool false) hnn rfl) h
      case tokenLBrace =>
        cases ho : parser.parseObject T n p with
        | none => rw [ho] at h; simp at h
        | some y =>
          rw [ho] at h
          rcases y with ⟨_ | w, p2⟩
          · simp at h
          · exact tail _ _ (nonNegativeElements_append arr w hnn (ihO _ _ _ hg ho)) h
      case tokenLBracket =>
        cases ho : parser.parseArray T n p with
        | none => rw [ho] at h; simp at h
        | some y =>
          rw [ho] at h
          rcases y with ⟨_ | w, p2⟩
          · simp at h
          · exact tail _ _ (nonNegativeElements_append arr w hnn (ihA _ _ _ hg ho)) h
      case tokenEOF => simp at h
      case tokenComma =>
        simp only [ne_eq, not_true_eq_false, if_false] at h
        rw [matchToken_load T p _ ht] at h
        exact ihAL _ _ _ _ (load_unsigned T _) hnn h
      all_goals
        rw [← ht] at h
        exact tail _ _ hnn h

/-- Whatever the input, a tree that `parse` returns has no negative Integer. -/
theorem parse_nonNegative (T : UnicodeTables) (p : parser) (v : Value) (pf : parser)
    (h : parser.parse T p = some (some v, none, pf)) : nonNegative v = true := by
  rcases parse_ok_inv T p v pf h with ⟨_, ho⟩ | ⟨_, ho⟩
  · exact (parsed_nonNegative T _).1 _ _ _ (load_unsigned T _) ho
  · exact (parsed_nonNegative T _).2.2.2.1 _ _ _ (load_unsigned T _) ho

end hjson

namespace hjson

open Token Error Value

/-! ## `ToValue` and `parse` -/

theorem ToValue_of_parse (T : UnicodeTables) (data : List Char) (v : Value) (pf : parser)
    (h : parser.parse T (newParser data) = some (some v, none, pf)) :
    ToValue T data = some (some v, none) := by
  unfold ToValue
  rw [h]

theorem ToValue_ok_inv (T : UnicodeTables) (data : List Char) (v : Value)
    (h : ToValue T data = some (some v, none)) :
    ∃ pf, parser.parse T (newParser data) = some (some v, none, pf) := by
  unfold ToValue at h
  rcases hp : parser.parse T (newParser data) with _ | ⟨ov, _ | e, pf⟩
  · rw [hp] at h; cases h
  · rw [hp] at h
    simp only [Option.some.injEq, Prod.mk.injEq, and_true] at h
    exact ⟨pf, by rw [h]⟩
  · rw [hp] at h; cases h

/-- A value that `parse` returns on an input it returns on every input that goes on
behind it. -/
theorem parse_append (T : UnicodeTables) (s u : List Char) (v : Value) (pf : parser)
    (h : parser.parse T (newParser s) = some (some v, none, pf)) :
    ∃ pf2, parser.parse T (newParser (s ++ u)) = some (some v, none, pf2) := by
  obtain ⟨s1, _, hd⟩ := parse_cut T u (newParser s) v pf h
  exact ⟨_, hd⟩

end hjson

namespace hjson

open Token Error Value

/-! ## A key that comes twice in an object, at any depth -/

theorem rawMembers_mem (ms : List (List Char × Value)) (h : rawMembers ms = true) :
    ∀ m ∈ ms, rawTree m.2 = true := by
  induction ms with
  | nil => simp
  | cons m ms ih =>
    obtain ⟨k, v⟩ := m
    simp only [rawMembers, Bool.and_eq_true] at h
    intro x hx
    rcases List.mem_cons.mp hx with rfl | hx
    · exact h.1.2
    · exact ih h.2 x hx

theorem rawElements_mem (es : List Value) (h : rawElements es = true) :
    ∀ e ∈ es, rawTree e = true := by
  induction es with
  | nil => simp
  | cons e es ih =>
    simp only [rawElements, Bool.and_eq_true] at h
    intro x hx
    rcases List.mem_cons.mp hx with rfl | hx
    · exact h.1
    · exact ih h.2 x hx

/-- Members without a repeat: they are plain, their keys are pairwise distinct and
none of them is among the keys seen before. -/
theorem plainMembers_of_raw (ms : List (List Char × Value))
    (ih : ∀ m ∈ ms, rawTree m.2 = true → repeatCut m.2 = none → plainTree m.2 = true) :
    ∀ seen : List (List Char), rawMembers ms = true → repeatCutMembers seen ms = none →
      plainMembers ms = true ∧ (ms.map Prod.fst).Nodup ∧ ∀ k ∈ ms.map Prod.fst, k ∉ seen := by
  induction ms with
  | nil => intro seen _ _; simp [plainMembers]
  | cons m ms ihms =>
    obtain ⟨k, v⟩ := m
    intro seen hraw hc
    simp only [rawMembers, Bool.and_eq_true] at hraw
    rw [repeatCutMembers] at hc
    split_ifs at hc with hk
    rcases hv : repeatCut v with _ | cv
    · rw [hv] at hc
      simp only [Option.map_eq_none'] at hc
      obtain ⟨h1, h2, h3⟩ := ihms (fun m hm => ih m (List.mem_cons_of_mem _ hm))
        (seen ++ [k]) hraw.2 hc
      refine ⟨?_, ?_, ?_⟩
      · simp only [plainMembers, Bool.and_eq_true]
        exact ⟨⟨hraw.1.1, ih (k, v) (List.mem_cons_self _ _) hraw.1.2 hv⟩, h1⟩
      · simp only [List.map_cons, List.nodup_cons]
        refine ⟨fun hmem => ?_, h2⟩
        exact h3 k hmem (by simp)
      · intro x hx
        simp only [List.map_cons, List.mem_cons] at hx
        rcases hx with rfl | hx
        · exact hk
        · intro hmem
          exact h3 x hx (by simp [hmem])
    · rw [hv] at hc
      simp at hc

theorem plainElements_of_raw (es : List Value)
    (ih : ∀ e ∈ es, rawTree e = true → repeatCut e = none → plainTree e = true) :
    rawElements es = true → repeatCutElements es = none → plainElements es = true := by
  induction es with
  | nil => intro _ _; rfl
  | cons e es ihes =>
    intro hraw hc
    simp only [rawElements, Bool.and_eq_true] at hraw
    rw [repeatCutElements] at hc
    rcases hv : repeatCut e with _ | cv
    · rw [hv] at hc
      simp only [Option.map_eq_none'] at hc
      simp only [plainElements, Bool.and_eq_true]
      exact ⟨ih e (List.mem_cons_self _ _) hraw.1 hv,
        ihes (fun m hm => ih m (List.mem_cons_of_mem _ hm)) hraw.2 hc⟩
    · rw [hv] at hc
      simp at hc

/-- A raw tree in which no object has a key twice is a plain tree. -/
theorem plain_of_raw : ∀ v, rawTree v = true → repeatCut v = none → plainTree v = true := by
  apply value_induction
  · intro ms ih hraw hc
    simp only [rawTree] at hraw
    simp only [repeatCut, Option.map_eq_none'] at hc
    obtain ⟨h1, h2, _⟩ := plainMembers_of_raw ms ih [] hraw hc
    simp only [plainTree, Bool.and_eq_true, decide_eq_true_eq]
    exact ⟨h1, h2⟩
  · intro es ih hraw hc
    simp only [rawTree] at hraw
    simp only [repeatCut, Option.map_eq_none'] at hc
    simp only [plainTree]
    exact plainElements_of_raw es ih hraw hc
  · intro n hraw _; simpa [rawTree, plainTree] using hraw
  · intro s hraw _; simpa [rawTree, plainTree] using hraw
  · intro b _ _; rfl
  · intro _ _; rfl

/-- The tokens up to a repeat among the members end with the repeated key and begin
the tokens of the members. -/
theorem repeatCutMembers_tokens (ms : List (List Char × Value))
    (ih : ∀ m ∈ ms, ∀ c, repeatCut m.2 = some c →
      ∃ init more, c.1 = init ++ [(tokenString, c.2)] ∧ tokensOf m.2 = c.1 ++ more) :
    ∀ (seen : List (List Char)) (c : List Tok × List Char), repeatCutMembers seen ms = some c →
      ∃ init more, c.1 = init ++ [(tokenString, c.2)] ∧ memberTokens ms = c.1 ++ more := by
  induction ms with
  | nil => intro seen c hc; simp [repeatCutMembers] at hc
  | cons m ms ihms =>
    obtain ⟨k, v⟩ := m
    intro seen c hc
    rw [repeatCutMembers] at hc
    rw [memberTokens_cons]
    split_ifs at hc with hk
    · cases hc
      exact ⟨[], _, rfl, rfl⟩
    · rcases hv : repeatCut v with _ | cv
      · rw [hv] at hc
        simp only [Option.map_eq_some'] at hc
        obtain ⟨c1, hc1, rfl⟩ := hc
        have hne : ms.isEmpty = false := by
          cases ms with
          | nil => simp [repeatCutMembers] at hc1
          | cons _ _ => rfl
        obtain ⟨init, more, h1, h2⟩ := ihms (fun m hm => ih m (List.mem_cons_of_mem _ hm))
          _ c1 hc1
        refine ⟨(tokenString, k) :: (tokenColon, [':']) :: (tokensOf v
          ++ (tokenComma, [',']) :: init), more, ?_, ?_⟩
        · simp only [h1, List.cons_append, List.append_assoc]
        · simp only [hne, Bool.false_eq_true, if_false, h2, List.cons_append,
            List.append_assoc]
      · rw [hv] at hc
        cases hc
        obtain ⟨init, more, h1, h2⟩ := ih (k, v) (List.mem_cons_self _ _) cv hv
        simp only [] at h2
        refine ⟨(tokenString, k) :: (tokenColon, [':']) :: init, more ++
          (if ms.isEmpty then [] else (tokenComma, [',']) :: memberTokens ms), ?_, ?_⟩
        · simp only [h1, List.cons_append]
        · simp only [h2, List.cons_append, List.append_assoc]

theorem repeatCutElements_tokens (es : List Value)
    (ih : ∀ e ∈ es, ∀ c, repeatCut e = some c →
      ∃ init more, c.1 = init ++ [(tokenString, c.2)] ∧ tokensOf e = c.1 ++ more) :
    ∀ c : List Tok × List Char, repeatCutElements es = some c →
      ∃ init more, c.1 = init ++ [(tokenString, c.2)] ∧ elementTokens es = c.1 ++ more := by
  induction es with
  | nil => intro c hc; simp [repeatCutElements] at hc
  | cons e es ihes =>
    intro c hc
    rw [repeatCutElements] at hc
    rw [elementTokens_cons]
    rcases hv : repeatCut e with _ | cv
    · rw [hv] at hc
      simp only [Option.map_eq_some'] at hc
      obtain ⟨c1, hc1, rfl⟩ := hc
      have hne : es.isEmpty = false := by
        cases es with
        | nil => simp [repeatCutElements] at hc1
        | cons _ _ => rfl
      obtain ⟨init, more, h1, h2⟩ := ihes (fun m hm => ih m (List.mem_cons_of_mem _ hm)) c1 hc1
      refine ⟨tokensOf e ++ (tokenComma, [',']) :: init, more, ?_, ?_⟩
      · simp only [h1, List.cons_append, List.append_assoc]
      · simp only [hne, Bool.false_eq_true, if_false, h2, List.cons_append, List.append_assoc]
    · rw [hv] at hc
      cases hc
      obtain ⟨init, more, h1, h2⟩ := ih e (List.mem_cons_self _ _) c hv
      refine ⟨init, more ++
        (if es.isEmpty then [] else (tokenComma, [',']) :: elementTokens es), h1, ?_⟩
      simp only [h2, List.append_assoc]

/-- The tokens up to the first repeat end with the repeated key, as a string token, and
they begin the tokens of the tree. -/
theorem repeatCut_tokens : ∀ v, ∀ c, repeatCut v = some c →
    ∃ init more, c.1 = init ++ [(tokenString, c.2)] ∧ tokensOf v = c.1 ++ more := by
  apply value_induction
  · intro ms ih c hc
    simp only [repeatCut, Option.map_eq_some'] at hc
    obtain ⟨c1, hc1, rfl⟩ := hc
    obtain ⟨init, more, h1, h2⟩ := repeatCutMembers_tokens ms ih [] c1 hc1
    refine ⟨(tokenLBrace, ['{']) :: init, more ++ [(tokenRBrace, ['}'])], ?_, ?_⟩
    · simp only [h1, List.cons_append]
    · simp only [tokensOf, h2, List.cons_append, List.append_assoc]
  · intro es ih c hc
    simp only [repeatCut, Option.map_eq_some'] at hc
    obtain ⟨c1, hc1, rfl⟩ := hc
    obtain ⟨init, more, h1, h2⟩ := repeatCutElements_tokens es ih c1 hc1
    refine ⟨(tokenLBracket, ['[']) :: init, more ++ [(tokenRBracket, [']'])], ?_, ?_⟩
    · simp only [h1, List.cons_append]
    · simp only [tokensOf, h2, List.cons_append, List.append_assoc]
  · intro n c hc; simp [repeatCut] at hc
  · intro s c hc; simp [repeatCut] at hc
  · intro b c hc; simp [repeatCut] at hc
  · intro c hc; simp [repeatCut] at hc

/-- The tokens of a raw tree are well formed. -/
theorem wellFormed_tokensOf_raw :
    ∀ v, rawTree v = true → ∀ t ∈ tokensOf v, wellFormedTok t = true := by
  apply value_induction
  · intro ms ih hv t ht
    simp only [rawTree] at hv
    have hms : ∀ ms : List (List Char × Value), (∀ m ∈ ms, rawTree m.2 = true →
        ∀ t ∈ tokensOf m.2, wellFormedTok t = true) → rawMembers ms = true →
        ∀ t ∈ memberTokens ms, wellFormedTok t = true := by
      intro ms
      induction ms with
      | nil => intro _ _ t ht; simp [memberTokens] at ht
      | cons m ms ihms =>
        obtain ⟨k, v⟩ := m
        intro ih hp t ht
        simp only [rawMembers, Bool.and_eq_true] at hp
        rw [memberTokens_cons] at ht
        simp only [List.mem_cons, List.mem_append] at ht
        rcases ht with rfl | rfl | ht | ht
        · simpa [wellFormedTok] using hp.1.1
        · rfl
        · exact ih (k, v) (List.mem_cons_self _ _) hp.1.2 t ht
        · split_ifs at ht with he
          · simp at ht
          · rcases List.mem_cons.mp ht with rfl | ht
            · rfl
            · exact ihms (fun m hm => ih m (List.mem_cons_of_mem _ hm)) hp.2 t ht
    simp only [tokensOf, List.mem_cons, List.mem_append, List.mem_singleton, List.not_mem_nil,
      or_false] at ht
    rcases ht with rfl | ht | rfl
    · rfl
    · exact hms ms ih hv t ht
    · rfl
  · intro es ih hv t ht
    simp only [rawTree] at hv
    have hes : ∀ es : List Value, (∀ e ∈ es, rawTree e = true →
        ∀ t ∈ tokensOf e, wellFormedTok t = true) → rawElements es = true →
        ∀ t ∈ elementTokens es, wellFormedTok t = true := by
      intro es
      induction es with
      | nil => intro _ _ t ht; simp [elementTokens] at ht
      | cons e es ihes =>
        intro ih hp t ht
        simp only [rawElements, Bool.and_eq_true] at hp
        rw [elementTokens_cons] at ht
        simp only [List.mem_append] at ht
        rcases ht with ht | ht
        · exact ih e (List.mem_cons_self _ _) hp.1 t ht
        · split_ifs at ht with he
          · simp at ht
          · rcases List.mem_cons.mp ht with rfl | ht
            · rfl
            · exact ihes (fun m hm => ih m (List.mem_cons_of_mem _ hm)) hp.2 t ht
    simp only [tokensOf, List.mem_cons, List.mem_append, List.mem_singleton, List.not_mem_nil,
      or_false] at ht
    rcases ht with rfl | ht | rfl
    · rfl
    · exact hes es ih hv t ht
    · rfl
  · intro n hv t ht
    simp only [tokensOf, List.mem_singleton] at ht
    subst ht
    simpa [wellFormedTok] using toDigits_digits n.toNat
  · intro s hv t ht
    simp only [tokensOf, List.mem_singleton] at ht
    subst ht
    simpa [wellFormedTok, rawTree] using hv
  · intro b hv t ht
    cases b <;> simp only [tokensOf, List.mem_singleton] at ht <;> subst ht <;> rfl
  · intro hv t ht
    simp only [tokensOf, List.mem_singleton] at ht
    subst ht
    rfl

/-- Delimited tokens stay delimited when they are cut off behind a token that is
neither a number nor a keyword. -/
theorem delimited_cut (t : Tok) (ht : isWord t = false) (more : List Tok) :
    ∀ init : List Tok, delimited ((init ++ [t]) ++ more) = true →
      delimited (init ++ [t]) = true := by
  intro init
  induction init with
  | nil => intro _; simp [delimited, ht]
  | cons x init ih =>
    intro h
    simp only [List.cons_append, delimited, Bool.and_eq_true, Bool.or_eq_true,
      Bool.not_eq_true'] at h ⊢
    refine ⟨?_, ih (by simpa using h.2)⟩
    rcases h.1 with h1 | h1
    · exact Or.inl h1
    · right
      cases init with
      | nil => simpa [startsWithSeparator] using h1
      | cons y init => simpa [startsWithSeparator] using h1

/-- The text of a token list begins with the text of any initial part of it. -/
theorem spaced_append (a b : List Tok) :
    ∀ gaps : List (List Char), ∃ tail, spaced gaps (a ++ b) = spaced gaps a ++ tail := by
  induction a with
  | nil =>
    intro gaps
    cases gaps with
    | nil => exact ⟨spaced [] b, by simp [spaced]⟩
    | cons ws gaps =>
      cases b with
      | nil => exact ⟨[], by simp⟩
      | cons t ts => exact ⟨tokenText t ++ spaced gaps ts, by simp [spaced]⟩
  | cons x a ih =>
    intro gaps
    cases gaps with
    | nil =>
      obtain ⟨tail, h⟩ := ih []
      exact ⟨tail, by simp [spaced, h]⟩
    | cons ws gaps =>
      obtain ⟨tail, h⟩ := ih gaps
      exact ⟨tail, by simp [spaced, h]⟩

/-- The object loop on members with a repeat: it returns the error that names the
repeated key, whether the repeat is among the keys of these members or further down in
one of their values. -/
theorem parseObjectLoop_repeat (T : UnicodeTables) (ms : List (List Char × Value))
    (hraw : rawMembers ms = true)
    (ih : ∀ m ∈ ms, ∀ c, repeatCut m.2 = some c → ∀ (p : parser) (rest : List Tok),
      p.reads T (c.1 ++ rest) → ∃ n p1, parser.parseValues T n p
        = some (.error (errorf ("repeated key:" ++ String.mk c.2 ++ " in object")), p1)) :
    ∀ (obj : List (List Char × Value)) (c : List Tok × List Char) (p : parser)
      (rest : List Tok), repeatCutMembers (obj.map Prod.fst) ms = some c →
      p.reads T (c.1 ++ rest) →
      ∃ n p1, parser.parseObjectLoop T n obj p
        = some (.error (errorf ("repeated key:" ++ String.mk c.2 ++ " in object")), p1) := by
  induction ms with
  | nil => intro obj c p rest hc; simp [repeatCutMembers] at hc
  | cons m ms ihms =>
    obtain ⟨k, v⟩ := m
    intro obj c p rest hc h
    simp only [rawMembers, Bool.and_eq_true] at hraw
    rw [repeatCutMembers] at hc
    split_ifs at hc with hk
    · cases hc
      simp only [List.cons_append, reads_cons] at h
      obtain ⟨h1, h2, _⟩ := h
      refine ⟨1, p, ?_⟩
      rw [parser.parseObjectLoop]
      have hs : ¬ p.token ≠ tokenString := not_not.mpr h1
      rw [if_neg hs]
      simp only [h2, mapGet_isSome_of_mem obj k hk, if_true]
    · rcases hv : repeatCut v with _ | cv
      · rw [hv] at hc
        simp only [Option.map_eq_some'] at hc
        obtain ⟨c1, hc1, rfl⟩ := hc
        have hpt := parsesTree_of_plain T _ v (Nat.le_refl _) (plain_of_raw v hraw.1.2 hv)
        simp only [List.cons_append, List.append_assoc] at h
        obtain ⟨n0, p1, hr, hstep⟩ := parseObjectLoop_member T k v hpt obj hk p _ h
        rw [reads_cons] at hr
        obtain ⟨h1, _, h3⟩ := hr
        obtain ⟨n1, p2, hloop⟩ := ihms hraw.2 (fun m hm => ih m (List.mem_cons_of_mem _ hm))
          (obj ++ [(k, v)]) c1 (p1.advance T) rest (by simpa using hc1) h3
        refine ⟨max n0 n1 + 1, p2, ?_⟩
        rw [hstep _ (Nat.le_max_left _ _)]
        have hcm : ¬ p1.token ≠ tokenComma := by rw [h1]; decide
        rw [if_neg hcm, parseObjectLoop_mono T (Nat.le_max_right _ _) hloop]
      · rw [hv] at hc
        cases hc
        simp only [List.cons_append, reads_cons] at h
        obtain ⟨h1, h2, h3, _, h5⟩ := h
        obtain ⟨n, p1, hn⟩ := ih (k, v) (List.mem_cons_self _ _) cv hv _ rest h5
        refine ⟨n + 1, p1, ?_⟩
        rw [parser.parseObjectLoop]
        have hs : ¬ p.token ≠ tokenString := not_not.mpr h1
        rw [if_neg hs]
        simp only [h2, mapGet_none_of_not_mem obj k hk, Option.isSome_none, Bool.false_eq_true,
          if_false, matchToken_self T p _ h1, matchToken_self T _ _ h3, hn]

/-- The array loop on elements with a repeat in an object of one of them: it returns
the error that names the repeated key. -/
theorem parseArrayLoop_repeat (T : UnicodeTables) (es : List Value)
    (hraw : rawElements es = true)
    (ih : ∀ e ∈ es, ∀ c, repeatCut e = some c → ∀ (p : parser) (rest : List Tok),
      p.reads T (c.1 ++ rest) → ∃ n p1, parser.parseValues T n p
        = some (.error (errorf ("repeated key:" ++ String.mk c.2 ++ " in object")), p1)) :
    ∀ (arr : List Value) (c : List Tok × List Char) (p : parser) (rest : List Tok),
      repeatCutElements es = some c → p.reads T (c.1 ++ rest) →
      ∃ n p1, parser.parseArrayLoop T n arr p
        = some (.error (errorf ("repeated key:" ++ String.mk c.2 ++ " in object")), p1) := by
  induction es with
  | nil => intro arr c p rest hc; simp [repeatCutElements] at hc
  | cons e es ihes =>
    intro arr c p rest hc h
    simp only [rawElements, Bool.and_eq_true] at hraw
    rw [repeatCutElements] at hc
    rcases hv : repeatCut e with _ | cv
    · rw [hv] at hc
      simp only [Option.map_eq_some'] at hc
      obtain ⟨c1, hc1, rfl⟩ := hc
      have hplain := plain_of_raw e hraw.1 hv
      have hpt := parsesTree_of_plain T _ e (Nat.le_refl _) hplain
      simp only [List.append_assoc, List.cons_append] at h
      obtain ⟨n0, p1, hr, hstep⟩ := parseArrayLoop_element T e hplain hpt arr p _ h
      rw [reads_cons] at hr
      obtain ⟨h1, _, h3⟩ := hr
      obtain ⟨n1, p2, hloop⟩ := ihes hraw.2 (fun m hm => ih m (List.mem_cons_of_mem _ hm))
        (arr ++ [e]) c1 (p1.advance T) rest hc1 h3
      refine ⟨max n0 n1 + 1, p2, ?_⟩
      rw [hstep _ (Nat.le_max_left _ _)]
      have hcm : ¬ p1.token ≠ tokenComma := by rw [h1]; decide
      rw [if_neg hcm, parseArrayLoop_mono T (Nat.le_max_right _ _) hloop]
    · rw [hv] at hc
      cases hc
      obtain ⟨n, p1, hn⟩ := ih e (List.mem_cons_self _ _) c hv p rest h
      cases n with
      | zero => simp [parser.parseValues] at hn
      | succ n =>
        refine ⟨n + 1, p1, ?_⟩
        cases e with
        | JObject values =>
          simp only [repeatCut, Option.map_eq_some'] at hv
          obtain ⟨c1, _, rfl⟩ := hv
          simp only [List.cons_append, reads_cons] at h
          have ht : p.token = tokenLBrace := h.1
          rw [parser.parseValues] at hn
          simp only [ht] at hn
          rw [parser.parseArrayLoop]
          simp only [ht, hn]
        | JArray elements =>
          simp only [repeatCut, Option.map_eq_some'] at hv
          obtain ⟨c1, _, rfl⟩ := hv
          simp only [List.cons_append, reads_cons] at h
          have ht : p.token = tokenLBracket := h.1
          rw [parser.parseValues] at hn
          simp only [ht] at hn
          rw [parser.parseArrayLoop]
          simp only [ht, hn]
        | JNumber _ => simp [repeatCut] at hv
        | JString _ => simp [repeatCut] at hv
        | JBool _ => simp [repeatCut] at hv
        | JNull => simp [repeatCut] at hv

/-- On the tokens of a raw tree up to its first repeated key, whatever tokens follow,
`parseValues` returns the error that names this key. -/
theorem parseValues_repeat (T : UnicodeTables) :
    ∀ v, rawTree v = true → ∀ c, repeatCut v = some c → ∀ (p : parser) (rest : List Tok),
      p.reads T (c.1 ++ rest) → ∃ n p1, parser.parseValues T n p
        = some (.error (errorf ("repeated key:" ++ String.mk c.2 ++ " in object")), p1) := by
  apply value_induction
  · intro ms ih hraw c hc p rest h
    simp only [rawTree] at hraw
    simp only [repeatCut, Option.map_eq_some'] at hc
    obtain ⟨c1, hc1, rfl⟩ := hc
    simp only [List.cons_append, reads_cons] at h
    obtain ⟨h1, _, h3⟩ := h
    obtain ⟨n, p1, hn⟩ := parseObjectLoop_repeat T ms hraw
      (fun m hm => ih m hm (rawMembers_mem ms hraw m hm)) [] c1 (p.advance T) rest
      (by simpa using hc1) h3
    refine ⟨n + 2, p1, ?_⟩
    rw [parser.parseValues]
    simp only [h1]
    rw [parser.parseObject, matchToken_self T p _ h1]
    simpa [NewObject] using hn
  · intro es ih hraw c hc p rest h
    simp only [rawTree] at hraw
    simp only [repeatCut, Option.map_eq_some'] at hc
    obtain ⟨c1, hc1, rfl⟩ := hc
    simp only [List.cons_append, reads_cons] at h
    obtain ⟨h1, _, h3⟩ := h
    obtain ⟨n, p1, hn⟩ := parseArrayLoop_repeat T es hraw
      (fun e he => ih e he (rawElements_mem es hraw e he)) [] c1 (p.advance T) rest hc1 h3
    refine ⟨n + 2, p1, ?_⟩
    rw [parser.parseValues]
    simp only [h1]
    rw [parser.parseArray, matchToken_self T p _ h1]
    simpa [NewArray] using hn
  · intro n _ c hc; simp [repeatCut] at hc
  · intro s _ c hc; simp [repeatCut] at hc
  · intro b _ c hc; simp [repeatCut] at hc
  · intro _ c hc; simp [repeatCut] at hc

/-- A parser that reads the tokens of an object or array up to the first repeated key
fails with the error that names this key, whatever it reads after them. -/
theorem parse_repeat_of_reads (T : UnicodeTables) (v : Value) (hroot : isContainer v = true)
    (hraw : rawTree v = true) (c : List Tok × List Char) (hc : repeatCut v = some c)
    (p : parser) (rest : List Tok)
    (h : (parser.load T p.jscanner).reads T (c.1 ++ rest)) :
    ∃ p1, parser.parse T p
      = some (none, some (errorf ("repeated key:" ++ String.mk c.2 ++ " in object")), p1) := by
  obtain ⟨n, p1, hn⟩ := parseValues_repeat T v hraw c hc _ rest h
  cases n with
  | zero => simp [parser.parseValues] at hn
  | succ n =>
    cases v with
    | JObject ms =>
      simp only [repeatCut, Option.map_eq_some'] at hc
      obtain ⟨c1, _, rfl⟩ := hc
      simp only [List.cons_append, reads_cons] at h
      have ht : (parser.load T p.jscanner).token = tokenLBrace := h.1
      rw [parser.parseValues] at hn
      simp only [ht] at hn
      exact ⟨p1, parse_object T p n _ ht hn⟩
    | JArray es =>
      simp only [repeatCut, Option.map_eq_some'] at hc
      obtain ⟨c1, _, rfl⟩ := hc
      simp only [List.cons_append, reads_cons] at h
      have ht : (parser.load T p.jscanner).token = tokenLBracket := h.1
      rw [parser.parseValues] at hn
      simp only [ht] at hn
      exact ⟨p1, parse_array T p n _ ht hn⟩
    | JNumber _ => simp [isContainer] at hroot
    | JString _ => simp [isContainer] at hroot
    | JBool _ => simp [isContainer] at hroot
    | JNull => simp [isContainer] at hroot

/-- The text of an object or array up to the first repeated key, with any whitespace
between the tokens and any text behind the repeated key: `parse` fails with the error
that names this key. -/
theorem parse_repeat (T : UnicodeTables) (v : Value) (hroot : isContainer v = true)
    (hraw : rawTree v = true) (c : List Tok × List Char) (hc : repeatCut v = some c)
    (gaps : List (List Char)) (hg : allSpace gaps) (tail : List Char) :
    ∃ p1, parser.parse T (newParser (spaced gaps c.1 ++ tail))
      = some (none, some (errorf ("repeated key:" ++ String.mk c.2 ++ " in object")), p1) := by
  obtain ⟨init, more, h1, h2⟩ := repeatCut_tokens v c hc
  have hwf : ∀ t ∈ c.1, wellFormedTok t = true := fun t ht =>
    wellFormed_tokensOf_raw v hraw t (by rw [h2]; exact List.mem_append_left _ ht)
  have hdel : delimited c.1 = true := by
    have hd := delimited_tokensOf v [] rfl
      (fun hs => by cases v <;> simp_all [isContainer, isScalar])
    rw [List.append_nil, h2, h1] at hd
    rw [h1]
    exact delimited_cut _ (by rfl) more init hd
  have hreads := reads_spaced T c.1 gaps (newParser (spaced gaps c.1 ++ tail)).jscanner tail
    hwf hdel hg rfl
  exact parse_repeat_of_reads T v hroot hraw c hc _ [] (by simpa using hreads)

/-- The whole text of a raw object or array: when `parse` returns a tree, no object of
the text has a key twice, and the tree is the one the text stands for. -/
theorem parse_raw_ok (T : UnicodeTables) (v : Value) (hroot : isContainer v = true)
    (hraw : rawTree v = true) (gaps : List (List Char)) (hg : allSpace gaps)
    (tail : List Char) (w : Value) (e : Option Error) (p : parser)
    (h : parser.parse T (newParser (spaced gaps (tokensOf v) ++ tail)) = some (some w, e, p)) :
    repeatCut v = none ∧ w = v := by
  rcases hc : repeatCut v with _ | c
  · obtain ⟨p1, h1⟩ := parse_spaced T v hroot (plain_of_raw v hraw hc) gaps hg tail
    rw [h1] at h
    simp only [Option.some.injEq, Prod.mk.injEq] at h
    exact ⟨rfl, h.1.symm⟩
  · obtain ⟨init, more, _, h2⟩ := repeatCut_tokens v c hc
    obtain ⟨t1, ht1⟩ := spaced_append c.1 more gaps
    obtain ⟨p1, h1⟩ := parse_repeat T v hroot hraw c hc gaps hg (t1 ++ tail)
    rw [h2, ht1, List.append_assoc, h1] at h
    simp at h

end hjson

namespace hjson

open Token Error Value

/-! ## The claims -/

/-- C1, as the code has it: on the input `#` the first token is the invalid token
and the scanner has recorded no error, so `parse` returns a nil value together with a
nil error, and so does `ToValue`. The same happens on `-5` and on `key:123`. -/
theorem parse_nil_value_nil_error (T : UnicodeTables) :
    (∃ p, parser.parse T (newParser ['#']) = some (none, none, p))
      ∧ ToValue T ['#'] = some (none, none)
      ∧ ToValue T ['-', '5'] = some (none, none)
      ∧ ToValue T ['k', 'e', 'y', ':', '1', '2', '3'] = some (none, none) :=
  ⟨⟨_, rfl⟩, rfl, rfl, rfl⟩

/-- C2: the JSON text of a tree with an object or array root, integers within
`0 .. 2^63-1`, strings and keys without double quote and backslash, and distinct keys
in every object, written with any whitespace before, between and after its tokens,
parses without error to a tree that `check` accepts against the original. -/
theorem parse_json_text (T : UnicodeTables) (t : Value) (gaps : List (List Char))
    (hroot : isContainer t = true) (hplain : plainTree t = true) (hg : allSpace gaps) :
    ∃ got p1, parser.parse T (newParser (spaced gaps (tokensOf t))) = some (some got, none, p1)
      ∧ check t got = true := by
  obtain ⟨p1, h⟩ := parse_spaced T t hroot hplain gaps hg []
  exact ⟨t, p1, by simpa using h, check_self t hplain⟩

theorem parse_json_text_witness :
    spaced testArrayGaps (tokensOf testArray)
        = "[null,true, false, \"key\", \"key\",[1, 2],\x7b\"key\":\"hello\"\x7d]".toList
      ∧ ∃ got p1, parser.parse asciiTables
          (newParser (spaced testArrayGaps (tokensOf testArray))) = some (some got, none, p1)
        ∧ check testArray got = true :=
  ⟨by decide, parse_json_text asciiTables testArray testArrayGaps (by decide) (by decide)
    (by unfold allSpace; decide)⟩

/-- C3, refuted: `String()` writes keys and strings without quotes and a negative
integer with a `-` that starts no token, so the text of the object with the one field
`a` = 1 (that is `\x7ba:1\x7d`), of the array with the one string `hello`, and of the
array with the one integer -5 all fail to parse. -/
theorem roundtrip_counterexample :
    (JObject [(['a'], JNumber 1)]).String = "\x7ba:1\x7d".toList
      ∧ ToValue asciiTables (JObject [(['a'], JNumber 1)]).String
          = some (none, some (errorf "expect: key-value pair or '\x7d' got:a"))
      ∧ (JArray [JString ['h', 'e', 'l', 'l', 'o']]).String = "[hello]".toList
      ∧ ToValue asciiTables (JArray [JString ['h', 'e', 'l', 'l', 'o']]).String
          = some (none, some (errorf "expected:], got: hello"))
      ∧ (JArray [JNumber (-5)]).String = "[-5]".toList
      ∧ ToValue asciiTables (JArray [JNumber (-5)]).String
          = some (none, some (errorf "expected:], got: ")) :=
  ⟨by decide, rfl, by decide, rfl, by decide, rfl⟩

/-- C3, amended: for every tree with an object or array root that holds no string and
no object member and whose integers lie within `0 .. 2^63-1`, parsing the text of
`String()` succeeds and gives a tree that `check` accepts against the original. -/
theorem roundtrip_bare (T : UnicodeTables) (t : Value)
    (hroot : isContainer t = true) (hbare : bareTree t = true) :
    ∃ got p1, parser.parse T (newParser t.String) = some (some got, none, p1)
      ∧ check t got = true := by
  have hplain := plainTree_of_bare t hbare
  obtain ⟨p1, h⟩ := parse_spaced T t hroot hplain [] (by simp [allSpace]) []
  rw [String_bare t hroot hbare]
  exact ⟨t, p1, by simpa using h, check_self t hplain⟩

theorem roundtrip_bare_witness :
    bareTestArray.String = "[null,true,[1,2,\x7b\x7d],[],9223372036854775807]".toList
      ∧ ∃ got p1, parser.parse asciiTables (newParser bareTestArray.String)
          = some (some got, none, p1) ∧ check bareTestArray got = true :=
  ⟨by decide, roundtrip_bare asciiTables bareTestArray (by decide) (by decide)⟩

/-- C4: `parse` returns a non-nil error, and no value, on each input of
`TestInvalidJson`: the empty input, `1`, `\x7b"key"\x7d`, `\x7bkey:123\x7d`,
`\x7b"key":123df\x7d`, `\x7b"key":"kk\h"\x7d`, `\x7b"key":"kk` and `\x7b`. -/
theorem malformed_corpus_rejected (T : UnicodeTables) :
    (∃ p, parser.parse T (NewParser []) = some (none, some errEOF, p))
      ∧ (∃ p, parser.parse T (NewParser "1".toList)
          = some (none, some (errorf "expected: '\x7b', '[' got: 1"), p))
      ∧ (∃ p, parser.parse T (NewParser "\x7b\"key\"\x7d".toList)
          = some (none, some (errorf "expect: ':' got:\x7d"), p))
      ∧ (∃ p, parser.parse T (NewParser "\x7bkey:123\x7d".toList)
          = some (none, some (errorf "expect: key-value pair or '\x7d' got:key"), p))
      ∧ (∃ p, parser.parse T (NewParser "\x7b\"key\":123df\x7d".toList)
          = some (none, some (errorf "expect: key-value pair or '\x7d' got:df"), p))
      ∧ (∃ p, parser.parse T (NewParser "\x7b\"key\":\"kk\\h\"\x7d".toList)
          = some (none, some (errorf "invalid escape sequence: h"), p))
      ∧ (∃ p, parser.parse T (NewParser "\x7b\"key\":\"kk".toList)
          = some (none, some (errorf "expect: key-value pair or '\x7d' got:"), p))
      ∧ (∃ p, parser.parse T (NewParser "\x7b".toList)
          = some (none, some (errorf "expect: key-value pair or '\x7d' got:"), p)) :=
  ⟨⟨_, rfl⟩, ⟨_, rfl⟩, ⟨_, rfl⟩, ⟨_, rfl⟩, ⟨_, rfl⟩, ⟨_, rfl⟩, ⟨_, rfl⟩, ⟨_, rfl⟩⟩

/-- C5: a key that is written a second time among the keys of one object makes `parse`
fail with the error `repeated key:k in object` and return no tree, at every depth of
nesting and whatever text follows the repeated key. The texts are those of the raw
trees: objects and arrays nested at will, the members of an object listed as written,
repeated keys included, with any whitespace between the tokens; `repeatCut` gives the
tokens up to and including the first key that repeats a key of its own object, and
that key. Also for the root object in particular: members with distinct keys, a comma
and one of their keys again. The texts `\x7b"a":1,"a":2\x7d`, `\x7b"x":\x7b"a":1,"a":2\x7d\x7d` and
`[\x7b"a":1,"a":2\x7d]` fail naming `a`. Consequently, when `parse` returns a tree on the
text of a raw tree, no object of the text has a key twice and the tree returned is the
tree of the text, member for member: every object has exactly the members written, each
key once; and on the text of a raw tree without a repeated key `parse` does return
this tree. On any input at all, every tree that `parse` returns has pairwise distinct
keys in each of its objects. -/
theorem duplicate_key_rejected (T : UnicodeTables) :
    (∀ (t : Value) (c : List Tok × List Char) (gaps : List (List Char)) (tail : List Char),
        isContainer t = true → rawTree t = true → repeatCut t = some c → allSpace gaps →
        ∃ p, parser.parse T (newParser (spaced gaps c.1 ++ tail))
          = some (none, some (errorf ("repeated key:" ++ String.mk c.2 ++ " in object")), p))
      ∧ (∀ (ms : List (List Char × Value)) (k : List Char) (gaps : List (List Char))
          (tail : List Char), plainMembers ms = true → (ms.map Prod.fst).Nodup →
          k ∈ ms.map Prod.fst → allSpace gaps →
          ∃ p, parser.parse T (newParser (spaced gaps ((tokenLBrace, ['{']) ::
              (memberTokens ms ++ [(tokenComma, [',']), (tokenString, k)])) ++ tail))
            = some (none, some (errorf ("repeated key:" ++ String.mk k ++ " in object")), p))
      ∧ (∃ p, parser.parse T (newParser "\x7b\"a\":1,\"a\":2\x7d".toList)
          = some (none, some (errorf "repeated key:a in object"), p))
      ∧ (∃ p, parser.parse T (newParser "\x7b\"x\":\x7b\"a\":1,\"a\":2\x7d\x7d".toList)
          = some (none, some (errorf "repeated key:a in object"), p))
      ∧ (∃ p, parser.parse T (newParser "[\x7b\"a\":1,\"a\":2\x7d]".toList)
          = some (none, some (errorf "repeated key:a in object"), p))
      ∧ (∀ (t : Value) (gaps : List (List Char)) (tail : List Char) (w : Value)
          (e : Option Error) (p : parser),
          isContainer t = true → rawTree t = true → allSpace gaps →
          parser.parse T (newParser (spaced gaps (tokensOf t) ++ tail)) = some (some w, e, p) →
          w = t ∧ repeatCut t = none ∧ distinctKeys w = true)
      ∧ (∀ (t : Value) (gaps : List (List Char)) (tail : List Char),
          isContainer t = true → rawTree t = true → repeatCut t = none → allSpace gaps →
          ∃ p, parser.parse T (newParser (spaced gaps (tokensOf t) ++ tail))
            = some (some t, none, p))
      ∧ (∀ (input : List Char) (v : Value) (e : Option Error) (p : parser),
          parser.parse T (newParser input) = some (some v, e, p) → distinctKeys v = true) := by
  refine ⟨?_, ?_, ⟨_, rfl⟩, ⟨_, rfl⟩, ⟨_, rfl⟩, ?_, ?_, ?_⟩
  · intro t c gaps tail hroot hraw hc hg
    exact parse_repeat T t hroot hraw c hc gaps hg tail
  · intro ms k gaps tail hplain hnd hk hg
    exact parse_repeated_key T ms k gaps tail hplain hnd hk hg
  · intro t gaps tail w e p hroot hraw hg h
    obtain ⟨h1, h2⟩ := parse_raw_ok T t hroot hraw gaps hg tail w e p h
    exact ⟨h2, h1, parse_distinct T _ w e p h⟩
  · intro t gaps tail hroot hraw hc hg
    exact parse_spaced T t hroot (plain_of_raw t hraw hc) gaps hg tail
  · intro input v e p h
    exact parse_distinct T _ v e p h

/-- The parts of C5 at concrete inputs: the text `\x7b "x" : [7, \x7b"a":1,"b":[],"a"`
followed by `:2\x7d],"y":null\x7d`, where `a` comes twice two levels down; the text
`\x7b"a":1 , "b":[2] , "a"` followed by `:3\x7d`; and the text `\x7b"a":1,"b":[2]\x7d`, which
parses to its two members. -/
theorem duplicate_key_rejected_witness :
    (spaced nestedRepeatGaps [(tokenLBrace, ['{']), (tokenString, ['x']), (tokenColon, [':']),
          (tokenLBracket, ['[']), (tokenNumber, ['7']), (tokenComma, [',']),
          (tokenLBrace, ['{']), (tokenString, ['a']), (tokenColon, [':']),
          (tokenNumber, ['1']), (tokenComma, [',']), (tokenString, ['b']),
          (tokenColon, [':']), (tokenLBracket, ['[']), (tokenRBracket, [']']),
          (tokenComma, [',']), (tokenString, ['a'])] ++ ":2\x7d],\"y\":null\x7d".toList
        = "\x7b \"x\" : [7, \x7b\"a\":1,\"b\":[],\"a\":2\x7d],\"y\":null\x7d".toList
      ∧ ∃ p, parser.parse asciiTables (newParser (spaced nestedRepeatGaps
          [(tokenLBrace, ['{']), (tokenString, ['x']), (tokenColon, [':']),
            (tokenLBracket, ['[']), (tokenNumber, ['7']), (tokenComma, [',']),
            (tokenLBrace, ['{']), (tokenString, ['a']), (tokenColon, [':']),
            (tokenNumber, ['1']), (tokenComma, [',']), (tokenString, ['b']),
            (tokenColon, [':']), (tokenLBracket, ['[']), (tokenRBracket, [']']),
            (tokenComma, [',']), (tokenString, ['a'])] ++ ":2\x7d],\"y\":null\x7d".toList))
        = some (none, some (errorf ("repeated key:" ++ String.mk ['a'] ++ " in object")), p))
      ∧ (spaced repeatedKeyGaps ((tokenLBrace, ['{']) :: (memberTokens repeatedKeyMembers
          ++ [(tokenComma, [',']), (tokenString, ['a'])])) ++ [':', '3', '}']
          = "\x7b\"a\":1 , \"b\":[2] , \"a\":3\x7d".toList
        ∧ ∃ p, parser.parse asciiTables (newParser (spaced repeatedKeyGaps
            ((tokenLBrace, ['{']) :: (memberTokens repeatedKeyMembers
              ++ [(tokenComma, [',']), (tokenString, ['a'])])) ++ [':', '3', '}']))
          = some (none, some (errorf ("repeated key:" ++ String.mk ['a'] ++ " in object")), p))
      ∧ (spaced [] (tokensOf (JObject repeatedKeyMembers)) ++ []
          = "\x7b\"a\":1,\"b\":[2]\x7d".toList
        ∧ JObject repeatedKeyMembers = JObject repeatedKeyMembers
        ∧ repeatCut (JObject repeatedKeyMembers) = none
        ∧ distinctKeys (JObject repeatedKeyMembers) = true)
      ∧ (∃ p, parser.parse asciiTables
          (newParser (spaced [] (tokensOf (JObject repeatedKeyMembers)) ++ []))
          = some (some (JObject repeatedKeyMembers), none, p)) :=
  ⟨⟨by decide,
      (duplicate_key_rejected asciiTables).1 nestedRepeat
        ([(tokenLBrace, ['{']), (tokenString, ['x']), (tokenColon, [':']),
          (tokenLBracket, ['[']), (tokenNumber, ['7']), (tokenComma, [',']),
          (tokenLBrace, ['{']), (tokenString, ['a']), (tokenColon, [':']),
          (tokenNumber, ['1']), (tokenComma, [',']), (tokenString, ['b']),
          (tokenColon, [':']), (tokenLBracket, ['[']), (tokenRBracket, [']']),
          (tokenComma, [',']), (tokenString, ['a'])], ['a']) nestedRepeatGaps
        ":2\x7d],\"y\":null\x7d".toList (by decide) (by decide) (by decide)
        (by unfold allSpace; decide)⟩,
    ⟨by decide,
      (duplicate_key_rejected asciiTables).2.1 repeatedKeyMembers ['a'] repeatedKeyGaps
        [':', '3', '}'] (by decide) (by decide) (by decide) (by unfold allSpace; decide)⟩,
    ⟨by decide,
      (duplicate_key_rejected asciiTables).2.2.2.2.2.1 (JObject repeatedKeyMembers) [] []
        (JObject repeatedKeyMembers) none _ (by decide) (by decide)
        (by unfold allSpace; decide) rfl⟩,
    (duplicate_key_rejected asciiTables).2.2.2.2.2.2.1 (JObject repeatedKeyMembers) [] []
      (by decide) (by decide) (by decide) (by unfold allSpace; decide)⟩

/-- C6, refuted: the text `\x7b"a":1,\x7d` parses without error to the object with the
one field `a` = 1. -/
theorem trailing_comma_counterexample :
    ToValue asciiTables "\x7b\"a\":1,\x7d".toList
      = some (some (JObject [(['a'], JNumber 1)]), none) :=
  rfl

/-- C6, amended: an object text with at least one member, in which the last member is
followed by a comma and the closing brace, parses without error to a tree that `check`
accepts against the object of its members. -/
theorem trailing_comma_accepted (T : UnicodeTables) (ms : List (List Char × Value))
    (gaps : List (List Char)) (hne : ms ≠ []) (hplain : plainTree (JObject ms) = true)
    (hg : allSpace gaps) :
    ∃ got p, parser.parse T (newParser (spaced gaps ((tokenLBrace, ['{']) ::
        (memberTokens ms ++ [(tokenComma, [',']), (tokenRBrace, ['}'])]))))
      = some (some got, none, p) ∧ check (JObject ms) got = true := by
  have h := hplain
  simp only [plainTree, Bool.and_eq_true, decide_eq_true_eq] at h
  obtain ⟨p, hp⟩ := parse_trailing_comma T ms gaps [] hne h.1 h.2 hg
  exact ⟨JObject ms, p, by simpa using hp, check_self _ hplain⟩

theorem trailing_comma_accepted_witness :
    spaced [] ((tokenLBrace, ['{']) :: (memberTokens [(['a'], JNumber 1)]
        ++ [(tokenComma, [',']), (tokenRBrace, ['}'])])) = "\x7b\"a\":1,\x7d".toList
      ∧ ∃ got p, parser.parse asciiTables (newParser (spaced [] ((tokenLBrace, ['{']) ::
          (memberTokens [(['a'], JNumber 1)] ++ [(tokenComma, [',']), (tokenRBrace, ['}'])]))))
        = some (some got, none, p) ∧ check (JObject [(['a'], JNumber 1)]) got = true :=
  ⟨by decide, trailing_comma_accepted asciiTables [(['a'], JNumber 1)] [] (by simp)
    (by decide) (by unfold allSpace; decide)⟩

/-- C7, refuted: the string token scanned from the literal of the escape test has the
18 runes of the source text as its literal, `parse` puts these 18 runes in the String
value, and they are not the ten decoded runes. -/
theorem escape_decoding_counterexample :
    (nextToken asciiTables (newScanner (['"'] ++ escapeBody ++ ['"']))).1 = tokenString
      ∧ (nextToken asciiTables (newScanner (['"'] ++ escapeBody ++ ['"']))).2.1 = escapeBody
      ∧ ToValue asciiTables escapeDocument
          = some (some (JObject [(['k', 'e', 'y'], JString escapeBody)]), none)
      ∧ escapeBody.length = 18 ∧ escapeDecoded.length = 10
      ∧ escapeBody ≠ escapeDecoded :=
  ⟨by decide, by decide, rfl, by decide, by decide, by decide⟩

/-- C7, amended: a string literal whose body is made of runes other than quote and
backslash, of the escapes `\"` `\\` `\/` `\b` `\f` `\n` `\r` `\t` and of `\u` with four
hexadecimal digits is scanned as a string token whose literal is the body as written,
backslashes included, and `parseValues` makes the String value from that literal; the
String value parsed from the literal of the escape test holds the 18 runes of its
source text. -/
theorem escapes_kept_verbatim (T : UnicodeTables) (body after : List Char) (s : scanner)
    (h : StringBody body) :
    nextToken T { s with reader := '"' :: (body ++ '"' :: after) }
        = (tokenString, body, { s with reader := after, buf := body })
      ∧ (∀ (p : parser) (n : Nat), p.token = tokenString →
          parser.parseValues T (n + 1) p
            = some (.ok (JString p.literal), (p.matchToken T tokenString).2))
      ∧ ToValue asciiTables escapeDocument
          = some (some (JObject [(['k', 'e', 'y'], JString escapeBody)]), none)
      ∧ escapeBody.length = 18 := by
  refine ⟨nextToken_string_body T body after s h, ?_, rfl, by decide⟩
  intro p n hp
  rw [parser.parseValues]
  simp only [hp]

theorem escapes_kept_verbatim_witness :
    StringBody escapeBody
      ∧ nextToken asciiTables
          { newScanner [] with reader := '"' :: (escapeBody ++ '"' :: ['}']) }
        = (tokenString, escapeBody, { newScanner [] with reader := ['}'], buf := escapeBody }) :=
  have hb : StringBody escapeBody :=
    .escape _ _ (by decide) (.escape _ _ (by decide) (.plain _ _ (by decide) (by decide)
      (.plain _ _ (by decide) (by decide) (.escape _ _ (by decide) (.escape _ _ (by decide)
      (.escape _ _ (by decide) (.escape _ _ (by decide) (.escape _ _ (by decide)
      (.escape _ _ (by decide) .nil)))))))))
  ⟨hb, (escapes_kept_verbatim asciiTables escapeBody ['}'] (newScanner []) hb).1⟩

/-- C8: a literal of one of the shapes D, D.D, DeD, De+D, De-D, D.DeD, D.De+D, D.De-D
in front of `,`, `]`, `\x7d`, a blank, a tab, a carriage return or a line feed is scanned
as one number token whose literal is the text as written, and the rune behind it stays
unread; the five literals of `TestScanner` come out as the test expects. -/
theorem numeric_literal_token (T : UnicodeTables) (int : List Char)
    (frac : Option (List Char)) (exp : Option (Char × Option Char × List Char))
    (after : List Char) (s : scanner) (hshape : numericShape int frac exp)
    (ha : startsWithDelimiter after = true) :
    nextToken T { s with reader := numericLiteral int frac exp ++ after }
        = (tokenNumber, numericLiteral int frac exp,
            { s with reader := after, buf := numericLiteral int frac exp })
      ∧ scanTokens T 12 (newScanner "[12,12.12, 12e+1, 12e-1,12.12e+1]".toList)
        = [(tokenLBracket, ['[']), (tokenNumber, "12".toList), (tokenComma, [',']),
            (tokenNumber, "12.12".toList), (tokenComma, [',']),
            (tokenNumber, "12e+1".toList), (tokenComma, [',']),
            (tokenNumber, "12e-1".toList), (tokenComma, [',']),
            (tokenNumber, "12.12e+1".toList), (tokenRBracket, [']']), (tokenEOF, [])] :=
  ⟨nextToken_literal T int frac exp after s hshape ha, rfl⟩

theorem numeric_literal_token_witness :
    numericLiteral ['1', '2'] (some ['1', '2']) (some ('e', some '+', ['1'])) ++ [']']
        = "12.12e+1]".toList
      ∧ nextToken asciiTables
          { newScanner [] with reader := (numericLiteral ['1', '2'] (some ['1', '2'])
            (some ('e', some '+', ['1'])) ++ [']']) }
        = (tokenNumber, "12.12e+1".toList,
            { newScanner [] with reader := [']'], buf := "12.12e+1".toList }) :=
  have hrun2 : digitRun ['1', '2'] := ⟨by decide, by decide⟩
  have hrun1 : digitRun ['1'] := ⟨by decide, by decide⟩
  have hshape : numericShape ['1', '2'] (some ['1', '2']) (some ('e', some '+', ['1'])) :=
    ⟨hrun2, fun f hf => by cases hf; exact hrun2,
      fun e sign ds h => by
        cases h
        exact ⟨Or.inl rfl, fun c hc => by cases hc; exact Or.inl rfl, hrun1⟩⟩
  ⟨by decide, (numeric_literal_token asciiTables ['1', '2'] (some ['1', '2'])
    (some ('e', some '+', ['1'])) [']'] (newScanner []) hshape (by decide)).1⟩

/-- C9, refuted: in front of `]` the run `12e` is scanned as the number token with
literal `12e`, and `[12e]` parses without error to the array with the one integer 0. -/
theorem exponent_marker_counterexample :
    (nextToken asciiTables (newScanner "12e]".toList)).1 = tokenNumber
      ∧ (nextToken asciiTables (newScanner "12e]".toList)).2.1 = "12e".toList
      ∧ ToValue asciiTables "[12e]".toList = some (some (JArray [JNumber 0]), none) :=
  ⟨by decide, by decide, rfl⟩

/-- C9, amended: when the input ends right behind a run of digits and an exponent
marker, the scanner returns the end-of-input token and no number token, and `parse`
of an array text that ends there fails with the end-of-input error. -/
theorem exponent_marker_at_end (T : UnicodeTables) (ds : List Char) (e : Char) (s : scanner)
    (hds : digitRun ds) (he : e = 'e' ∨ e = 'E') :
    nextToken T { s with reader := ds ++ [e] }
        = (tokenEOF, [], { s with reader := [], buf := ds ++ [e] })
      ∧ ∃ p, parser.parse T (newParser ('[' :: (ds ++ [e]))) = some (none, some errEOF, p) :=
  ⟨nextToken_marker_eof T ds e s hds he, parse_marker_eof T ds e hds he⟩

theorem exponent_marker_at_end_witness :
    digitRun ['1', '2']
      ∧ nextToken asciiTables { newScanner [] with reader := ['1', '2'] ++ ['e'] }
        = (tokenEOF, [], { newScanner [] with reader := [], buf := ['1', '2'] ++ ['e'] })
      ∧ ∃ p, parser.parse asciiTables (newParser ('[' :: (['1', '2'] ++ ['e'])))
          = some (none, some errEOF, p) :=
  have hrun : digitRun ['1', '2'] := ⟨by decide, by decide⟩
  ⟨hrun, exponent_marker_at_end asciiTables ['1', '2'] 'e' (newScanner []) hrun (Or.inl rfl)⟩

/-- C10, as the code has it: on `["\h"]` the scanner records the error of the invalid
escape, and `parseArray` returns its own message for the missing `]` without looking at
the scanner; in an object, on `\x7b"a":"\h"\x7d`, the scanner error is returned. -/
theorem scanner_error_hidden_in_array (T : UnicodeTables) :
    (∃ p, parser.parse T (newParser "[\"\\h\"]".toList)
        = some (none, some (errorf "expected:], got: \\"), p)
      ∧ p.jscanner.err = some (errorf "invalid escape sequence: h"))
      ∧ (∃ p, parser.parse T (newParser "\x7b\"a\":\"\\h\"\x7d".toList)
        = some (none, some (errorf "invalid escape sequence: h"), p)
      ∧ p.jscanner.err = some (errorf "invalid escape sequence: h")) :=
  ⟨⟨_, rfl, rfl⟩, ⟨_, rfl, rfl⟩⟩

end hjson

namespace hjson

open Token Error Value

/-! ## Serializer and construction interface -/

/-- C11: `String()` of every tree is its compact rendering: `null`, `true`, `false`,
the decimal digits, the string payload without quotes, `[` elements joined by `,` `]`,
`{` `key:value` members joined by `,` `}`; the empty object and the empty array give
`{}` and `[]`, and no whitespace or extra separator is written. The members come in the
order in which the map is ranged over. -/
theorem string_is_compact_rendering :
    (∀ v : Value, v.String = render v) ∧
    (JObject []).String = ['\x7b', '\x7d'] ∧
    (JArray []).String = ['[', ']'] ∧
    renderSample.String = "\x7ba:1,b:[true,null,-7],c:\x7b\x7d,d:x y\x7d".toList := by
  refine ⟨String_render, ?_, ?_, ?_⟩ <;> decide

/-- C12: `AddValue` with a value of a base kind writes the converted value under its
key, whether or not the key was there: afterwards `GetObjField` finds that value under
the key and what it found before under every other key, and the number of fields has
grown by one exactly when the key was new. After a sequence of such calls on a new
object a key is found exactly when one of the calls had it, with the value of the last
such call. -/
theorem addValue_insert_or_overwrite :
    (∀ (o : List (List Char × Value)) (k : List Char) (v : HostValue),
      v ≠ HostValue.other →
      ∃ jv o1, converBaseType v = (some jv, true) ∧ AddValue o k v = some o1 ∧
        GetObjField o1 k = (some jv, true) ∧
        (∀ k2, k2 ≠ k → GetObjField o1 k2 = GetObjField o k2) ∧
        o1.length = (if (GetObjField o k).2 = true then o.length else o.length + 1)) ∧
    (∀ kvs : List (List Char × HostValue), (∀ kv ∈ kvs, kv.2 ≠ HostValue.other) →
      ∃ o, addEach NewObject kvs = some o ∧
        (∀ k, (GetObjField o k).2 = true ↔ k ∈ kvs.map Prod.fst) ∧
        (∀ pre k v post, kvs = pre ++ (k, v) :: post → k ∉ post.map Prod.fst →
          GetObjField o k = ((converBaseType v).1, true)) ∧
        (o.map Prod.fst).Nodup) ∧
    (converBaseType HostValue.nil = (some JNull, true) ∧
      (∀ b, converBaseType (HostValue.bool b) = (some (JBool b), true)) ∧
      (∀ s, converBaseType (HostValue.string s) = (some (JString s), true)) ∧
      (∀ k n, -(2 ^ (k.bits - 1)) ≤ n → n < 2 ^ (k.bits - 1) →
        converBaseType (HostValue.int k n) = (some (JNumber n), true)) ∧
      (∀ k n, n < 2 ^ k.bits → n < 2 ^ 63 →
        converBaseType (HostValue.uint k n) = (some (JNumber n), true))) := by
  refine ⟨?_, ?_, rfl, fun _ => rfl, fun _ => rfl, ?_, ?_⟩
  · intro o k v hv
    obtain ⟨jv, hjv⟩ := converBaseType_base v hv
    refine ⟨jv, mapSet o k jv, hjv, AddValue_base o k v jv hjv, ?_, ?_, ?_⟩
    · unfold GetObjField
      rw [mapGet_mapSet_self]
    · intro k2 hk
      exact GetObjField_eq _ _ _ _ (mapGet_mapSet_other o k k2 jv hk)
    · rw [mapSet_length, GetObjField_found]
  · intro kvs hb
    obtain ⟨o, ho, hkeys, _, hlast, hnd⟩ := addEach_spec kvs NewObject hb
    refine ⟨o, ho, ?_, ?_, hnd (by simp [NewObject])⟩
    · intro k
      rw [GetObjField_found, hkeys k]
      constructor
      · rintro (h | h)
        · exact absurd h (by simp [NewObject, mapGet])
        · exact h
      · exact Or.inr
    · intro pre k v post hsplit hpost
      have hv : v ≠ HostValue.other := hb (k, v) (by rw [hsplit]; simp)
      obtain ⟨jv, hjv⟩ := converBaseType_base v hv
      have := hlast pre k v post hsplit hpost
      unfold GetObjField
      rw [this, hjv]
  · intro k n h1 h2
    have hk : 0 < k.bits ∧ k.bits ≤ 64 := by cases k <;> decide
    have hle : (2 : Int) ^ (k.bits - 1) ≤ 2 ^ (64 - 1) :=
      pow_le_pow_right₀ (by norm_num) (by omega)
    simp only [converBaseType]
    rw [wrapSigned_of_range k.bits hk.1 n h1 h2,
      wrapSigned_of_range 64 (by norm_num) n (by omega) (by omega)]
  · intro k n h1 h2
    simp only [converBaseType]
    have h3 : ((n : Int) % 2 ^ k.bits) = n := by
      apply Int.emod_eq_of_lt (by omega)
      exact_mod_cast h1
    rw [h3, wrapSigned_of_range 64 (by norm_num) n (by omega)
      (by norm_num; exact_mod_cast h2)]

/-- The sample sequence of C12: three calls, the third overwriting the first. -/
theorem addValue_insert_or_overwrite_witness :
    addEach NewObject addSample = some [(['a'], JString ['x']), (['b'], JBool true)] ∧
    GetObjField [(['a'], JString ['x']), (['b'], JBool true)] ['a']
      = (some (JString ['x']), true) ∧
    GetObjField [(['a'], JString ['x']), (['b'], JBool true)] ['c'] = (none, false) := by
  have h := addValue_insert_or_overwrite.2.1 addSample (by decide)
  obtain ⟨o, ho, _⟩ := h
  exact ⟨rfl, rfl, rfl⟩

/-- C13: `Index` returns the element at `i` when `0 <= i < len` and panics for every
other `i`: through its guard below 0 and above the length, and through the slice
index expression at `i = len`, which the guard lets pass. -/
theorem index_boundary (a : List Value) (i : Int) :
    (0 ≤ i ∧ i < a.length → ∃ v, a[i.toNat]? = some v ∧ Index a i = .ok v) ∧
    (¬ (0 ≤ i ∧ i < a.length) → ∃ e, Index a i = .error e) ∧
    (i < 0 ∨ (a.length : Int) < i → Index a i = .error Panic.guard) ∧
    Index a a.length = .error (Panic.indexOutOfRange a.length a.length) ∧
    Index [JNull, JBool true] 1 = .ok (JBool true) ∧
    Index [JNull, JBool true] 2 = .error (Panic.indexOutOfRange 2 2) ∧
    Index [JNull, JBool true] 3 = .error Panic.guard ∧
    Index [JNull, JBool true] (-1) = .error Panic.guard := by
  refine ⟨?_, ?_, ?_, ?_, rfl, rfl, rfl, rfl⟩
  · rintro ⟨h0, h1⟩
    have hlt : i.toNat < a.length := by omega
    refine ⟨a[i.toNat], List.getElem?_eq_getElem hlt, ?_⟩
    unfold Index
    rw [if_neg (by omega), List.getElem?_eq_getElem hlt]
  · intro h
    unfold Index
    by_cases hg : i < 0 ∨ i > a.length
    · exact ⟨_, if_pos hg⟩
    · rw [if_neg hg]
      have : a.length ≤ i.toNat := by omega
      rw [List.getElem?_eq_none this]
      exact ⟨_, rfl⟩
  · intro h
    unfold Index
    rw [if_pos (by omega)]
  · unfold Index
    rw [if_neg (by omega)]
    simp

end hjson

namespace hjson

open Token Error Value

/-! ## Termination and scanner behaviour -/

/-- C14: on every input `nextToken` only moves forward through the finite input, and
`parse` and `ToValue` return a result; with a budget of three per pending rune every
production returns and leaves no more runes pending than it found; a lookahead that no
branch of a loop consumes ends the loop in the same round. Unterminated strings,
unterminated containers, unrecognised runes and stray commas all give a result. -/
theorem parse_terminates (T : UnicodeTables) :
    (∀ s : scanner,
      (nextToken T s).2.2.reader.length + consumes (nextToken T s).1 ≤ s.reader.length) ∧
    (∀ p : parser, ∃ r, parser.parse T p = some r) ∧
    (∀ data : List Char, ∃ r, ToValue T data = some r) ∧
    (∀ (fuel : Nat) (p : parser), 3 * p.pending + 1 ≤ fuel →
      ∃ r, parser.parseValues T fuel p = some r ∧ r.2.pending ≤ p.pending) ∧
    (∀ (n : Nat) (obj : List (List Char × Value)) (p : parser), p.token ≠ tokenString →
      parser.parseObjectLoop T (n + 1) obj p = some (parser.parseObjectEnd T obj p)) ∧
    (∀ (n : Nat) (arr : List Value) (p : parser),
      (p.token = tokenInvalid ∨ p.token = tokenColon ∨ p.token = tokenQuota
        ∨ p.token = tokenRBrace ∨ p.token = tokenRBracket) →
      parser.parseArrayLoop T (n + 1) arr p = some (parser.parseArrayEnd T arr p)) ∧
    ToValue T "[\"abc".toList = some (none, some (errorf "expected:], got: ")) ∧
    ToValue T "\x7b\"a\":[1,".toList = some (none, some errEOF) ∧
    ToValue T "[#,#]".toList = some (none, some (errorf "expected:], got: ")) ∧
    ToValue T "[,,,]".toList = some (some (JArray []), none) :=
  ⟨nextToken_length T, parse_total T, ToValue_total T, fun fuel => (fuel_enough T fuel).2.2.1,
    parseObjectLoop_leave T, parseArrayLoop_leave T, rfl, rfl, rfl, rfl⟩

/-- C15: a string literal whose body is made of runes other than the double quote and
the backslash, of the two-rune escapes `\"` `\\` `\/` `\b` `\f` `\n` `\r` `\t` and of
`\u` with four hexadecimal digits is scanned as a string token whose literal is the body
rune for rune, backslashes and `\u` digits included; the second document of
`TestScanner` gives the tokens the test expects. -/
theorem string_token_verbatim (T : UnicodeTables) (body after : List Char) (s : scanner)
    (h : StringBody body) :
    nextToken T { s with reader := '"' :: (body ++ '"' :: after) }
        = (tokenString, body, { s with reader := after, buf := body })
      ∧ scanTokens T 18 (newScanner quoteDocument)
        = [(tokenLBrace, ['\x7b']), (tokenString, ['x', 'x']), (tokenColon, [':']),
            (tokenString, quoteBody), (tokenComma, [',']),
            (tokenString, ['v', 'a', 'l', 'u', 'e']), (tokenColon, [':']),
            (tokenLBracket, ['[']), (tokenNumber, ['1']), (tokenComma, [',']),
            (tokenNumber, ['2']), (tokenComma, [',']), (tokenTrue, ['t', 'r', 'u', 'e']),
            (tokenComma, [',']), (tokenNull, ['n', 'u', 'l', 'l']), (tokenRBracket, [']']),
            (tokenRBrace, ['\x7d']), (tokenEOF, [])]
      ∧ quoteBody.length = 5 :=
  ⟨nextToken_string_body T body after s h, rfl, rfl⟩

theorem string_token_verbatim_witness :
    StringBody unicodeBody
      ∧ nextToken asciiTables
          { newScanner [] with reader := '"' :: (unicodeBody ++ '"' :: [',']) }
        = (tokenString, unicodeBody, { newScanner [] with reader := [','], buf := unicodeBody }) :=
  have hb : StringBody unicodeBody :=
    .unicode _ _ _ _ _ (by decide) (by decide) (by decide) (by decide)
      (.plain _ _ (by decide) (by decide) .nil)
  ⟨hb, (string_token_verbatim asciiTables unicodeBody [','] (newScanner []) hb).1⟩

/-- C16, as the code has it: behind the first `.`, `e` or `E` of a numeric literal a
second sign is a lexical error, and so is an exponent marker behind a sign, and a second
exponent marker in a literal with a `.`: `nextToken` returns the invalid token and
records the error. But a first sign is accepted wherever it stands, and a second marker
is accepted when the first one ended the integer part: `12.3+4` and `12e1e2` in front
of a delimiter are number tokens, `12e+-1` and `12.3e1e2` are not; at the end of the
input `12.3+4` gives the end-of-input token. -/
theorem sign_and_marker_placement (T : UnicodeTables) :
    (∀ (int mid1 mid2 rest : List Char) (c s1 s2 : Char) (s : scanner), digitRun int →
      (c = '.' ∨ c = 'e' ∨ c = 'E') → (∀ x ∈ mid1, 48 ≤ x.toNat ∧ x.toNat ≤ 57) →
      (∀ x ∈ mid2, 48 ≤ x.toNat ∧ x.toNat ≤ 57) → (s1 = '-' ∨ s1 = '+') →
      (s2 = '-' ∨ s2 = '+') →
      nextToken T { s with reader := int ++ c :: (mid1 ++ s1 :: (mid2 ++ s2 :: rest)) }
        = (tokenInvalid, int ++ c :: (mid1 ++ s1 :: mid2),
            { s with reader := rest, buf := int ++ c :: (mid1 ++ s1 :: mid2),
                     err := some (numericError s2) })) ∧
    (∀ (int mid1 mid2 rest : List Char) (c s1 e : Char) (s : scanner), digitRun int →
      (c = '.' ∨ c = 'e' ∨ c = 'E') → (∀ x ∈ mid1, 48 ≤ x.toNat ∧ x.toNat ≤ 57) →
      (∀ x ∈ mid2, 48 ≤ x.toNat ∧ x.toNat ≤ 57) → (s1 = '-' ∨ s1 = '+') →
      (e = 'e' ∨ e = 'E') →
      nextToken T { s with reader := int ++ c :: (mid1 ++ s1 :: (mid2 ++ e :: rest)) }
        = (tokenInvalid, int ++ c :: (mid1 ++ s1 :: mid2),
            { s with reader := rest, buf := int ++ c :: (mid1 ++ s1 :: mid2),
                     err := some (numericError e) })) ∧
    (∀ (int mid1 mid2 rest : List Char) (e1 e2 : Char) (s : scanner), digitRun int →
      (∀ x ∈ mid1, 48 ≤ x.toNat ∧ x.toNat ≤ 57) → (∀ x ∈ mid2, 48 ≤ x.toNat ∧ x.toNat ≤ 57) →
      (e1 = 'e' ∨ e1 = 'E') → (e2 = 'e' ∨ e2 = 'E') →
      nextToken T { s with reader := int ++ '.' :: (mid1 ++ e1 :: (mid2 ++ e2 :: rest)) }
        = (tokenInvalid, int ++ '.' :: (mid1 ++ e1 :: mid2),
            { s with reader := rest, buf := int ++ '.' :: (mid1 ++ e1 :: mid2),
                     err := some (numericError e2) })) ∧
    (∀ (int mid1 mid2 after : List Char) (c s1 : Char) (s : scanner), digitRun int →
      (c = '.' ∨ c = 'e' ∨ c = 'E') → (∀ x ∈ mid1, 48 ≤ x.toNat ∧ x.toNat ≤ 57) →
      (∀ x ∈ mid2, 48 ≤ x.toNat ∧ x.toNat ≤ 57) → (s1 = '-' ∨ s1 = '+') →
      startsWithDelimiter after = true →
      nextToken T { s with reader := int ++ c :: (mid1 ++ s1 :: (mid2 ++ after)) }
        = (tokenNumber, int ++ c :: (mid1 ++ s1 :: mid2),
            { s with reader := after, buf := int ++ c :: (mid1 ++ s1 :: mid2) })) ∧
    (∀ (int mid1 mid2 after : List Char) (e1 e2 : Char) (s : scanner), digitRun int →
      (∀ x ∈ mid1, 48 ≤ x.toNat ∧ x.toNat ≤ 57) → (∀ x ∈ mid2, 48 ≤ x.toNat ∧ x.toNat ≤ 57) →
      (e1 = 'e' ∨ e1 = 'E') → (e2 = 'e' ∨ e2 = 'E') → startsWithDelimiter after = true →
      nextToken T { s with reader := int ++ e1 :: (mid1 ++ e2 :: (mid2 ++ after)) }
        = (tokenNumber, int ++ e1 :: (mid1 ++ e2 :: mid2),
            { s with reader := after, buf := int ++ e1 :: (mid1 ++ e2 :: mid2) })) ∧
    nextToken T (newScanner "12.3+4]".toList)
      = (tokenNumber, "12.3+4".toList,
          { newScanner [] with reader := [']'], buf := "12.3+4".toList }) ∧
    nextToken T (newScanner "12e1e2]".toList)
      = (tokenNumber, "12e1e2".toList,
          { newScanner [] with reader := [']'], buf := "12e1e2".toList }) ∧
    nextToken T (newScanner "12e+-1]".toList)
      = (tokenInvalid, "12e+".toList,
          { newScanner [] with reader := ['1', ']'], buf := "12e+".toList,
                               err := some (errorf "invalid character:'-' in numeric literal") }) ∧
    nextToken T (newScanner "12.3e1e2]".toList)
      = (tokenInvalid, "12.3e1".toList,
          { newScanner [] with reader := ['2', ']'], buf := "12.3e1".toList,
                               err := some (errorf "invalid character:'e' in numeric literal") }) ∧
    nextToken T (newScanner "12.3+4".toList)
      = (tokenEOF, [], { newScanner [] with buf := "12.3+4".toList }) ∧
    ToValue T "[12e1e2]".toList = some (some (JArray [JNumber 0]), none) :=
  ⟨fun int mid1 mid2 rest c s1 s2 s h1 h2 h3 h4 h5 h6 =>
      nextToken_second_sign T int mid1 mid2 rest c s1 s2 s h1 h2 h3 h4 h5 h6,
    fun int mid1 mid2 rest c s1 e s h1 h2 h3 h4 h5 h6 =>
      nextToken_marker_after_sign T int mid1 mid2 rest c s1 e s h1 h2 h3 h4 h5 h6,
    fun int mid1 mid2 rest e1 e2 s h1 h2 h3 h4 h5 =>
      nextToken_second_marker T int mid1 mid2 rest e1 e2 s h1 h2 h3 h4 h5,
    fun int mid1 mid2 after c s1 s h1 h2 h3 h4 h5 h6 =>
      nextToken_stray_sign T int mid1 mid2 after c s1 s h1 h2 h3 h4 h5 h6,
    fun int mid1 mid2 after e1 e2 s h1 h2 h3 h4 h5 h6 =>
      nextToken_two_markers T int mid1 mid2 after e1 e2 s h1 h2 h3 h4 h5 h6,
    rfl, rfl, rfl, rfl, rfl, rfl⟩

/-- C17, refuted: on the number tokens `12.12` and `12e+1` `parseNumber` returns the
integer 0, not 12, and `[12.12]` parses to the array with the one integer 0. -/
theorem parseNumber_counterexample :
    (parser.parseNumber asciiTables (numberLookahead "12.12".toList)).1 = JNumber 0 ∧
    (parser.parseNumber asciiTables (numberLookahead "12.12".toList)).1 ≠ JNumber 12 ∧
    (parser.parseNumber asciiTables (numberLookahead "12e+1".toList)).1 ≠ JNumber 12 ∧
    ToValue asciiTables "[12.12]".toList = some (some (JArray [JNumber 0]), none) := by
  refine ⟨rfl, ?_, ?_, rfl⟩
  · have h : (parser.parseNumber asciiTables (numberLookahead "12.12".toList)).1 = JNumber 0 :=
      rfl
    rw [h]
    exact fun h2 => absurd (JNumber.inj h2) (by decide)
  · have h : (parser.parseNumber asciiTables (numberLookahead "12e+1".toList)).1 = JNumber 0 :=
      rfl
    rw [h]
    exact fun h2 => absurd (JNumber.inj h2) (by decide)

/-- C17, amended: on a number token whose literal begins with a run of ASCII digits,
`parseNumber` returns the value of the run, clamped to `2^63-1`, when the run is the
whole literal, and the integer 0 when anything follows the run (or `2^63-1` if the run
alone does not fit 64 bits); it returns no error and it replaces the lookahead by the
next token of the scanner. -/
theorem parseNumber_value (T : UnicodeTables) (p : parser) (ds tail : List Char)
    (htok : p.token = tokenNumber) (hlit : p.literal = ds ++ tail) (hds : digitRun ds)
    (htail : ∀ c rest, tail = c :: rest → ¬ (48 ≤ c.toNat ∧ c.toNat ≤ 57)) :
    (p.parseNumber T).1
        = JNumber (if tail = [] then
            (if decimalValue ds < 2 ^ 63 then (decimalValue ds : Int) else 2 ^ 63 - 1)
          else if decimalValue ds < 2 ^ 64 then 0 else 2 ^ 63 - 1)
      ∧ (p.parseNumber T).2 = parser.load T p.jscanner := by
  constructor
  · unfold parser.parseNumber
    simp only [hlit, Atoi_literal ds tail hds htail]
  · unfold parser.parseNumber
    simp only []
    rw [matchToken_self T p _ htok, advance_eq_load]

theorem parseNumber_value_witness :
    (parser.parseNumber asciiTables (numberLookahead "12.12".toList)).1
        = JNumber (if ['.', '1', '2'] = [] then
            (if decimalValue ['1', '2'] < 2 ^ 63 then (decimalValue ['1', '2'] : Int)
              else 2 ^ 63 - 1)
          else if decimalValue ['1', '2'] < 2 ^ 64 then 0 else 2 ^ 63 - 1)
      ∧ decimalValue ['1', '2'] = 12 :=
  ⟨(parseNumber_value asciiTables (numberLookahead "12.12".toList) ['1', '2'] ['.', '1', '2']
      rfl rfl ⟨by decide, by decide⟩
      (fun c rest h => by cases h; decide)).1, rfl⟩

/-- C18, refuted: on `#` and on `-5` after blanks `nextToken` returns the invalid
token, not the end-of-input token. -/
theorem unrecognised_rune_counterexample :
    (nextToken asciiTables (newScanner ['#'])).1 = tokenInvalid ∧
    (nextToken asciiTables (newScanner ['#'])).1 ≠ tokenEOF ∧
    (nextToken asciiTables (newScanner [' ', ' ', '-', '5'])).1 ≠ tokenEOF := by
  decide

/-- C18, amended: when the first rune behind the whitespace is no double quote, none of
`,` `:` `{` `}` `[` `]`, no digit and no letter, `nextToken` returns the invalid token
with an empty literal, records no error and leaves the rune unread, so that the next
call returns the same. -/
theorem unrecognised_rune_token (T : UnicodeTables) (ws : List Char) (r : Char)
    (rest : List Char) (s : scanner) (hws : ∀ c ∈ ws, isSpace c = true)
    (hr : isDefaultCase r = true) (hd : IsDigit T r = false) (hl : IsLetter T r = false) :
    ∃ line,
      nextToken T { s with reader := ws ++ r :: rest }
        = (tokenInvalid, [], { s with reader := r :: rest, buf := [], line := line })
      ∧ nextToken T { s with reader := r :: rest, buf := [], line := line }
        = (tokenInvalid, [], { s with reader := r :: rest, buf := [], line := line }) := by
  obtain ⟨line, h1⟩ := nextToken_unrecognised T ws r rest s hws hr hd hl
  obtain ⟨line2, h2⟩ := nextToken_unrecognised T [] r rest
    { s with reader := r :: rest, buf := [], line := line } (by simp) hr hd hl
  refine ⟨line, h1, ?_⟩
  have h3 := h2
  simp only [List.nil_append] at h3
  have hline : line2 = line := by
    have := congrArg (fun x => x.2.2.line) h3
    simp only [nextToken, nextTokenLoop_default T r rest _ hr, hd, Bool.false_eq_true, if_false,
      scanIdent, scanIdentLoop_stop T r rest [] hl] at this
    exact this.symm
  rw [hline] at h3
  exact h3

theorem unrecognised_rune_token_witness :
    ∃ line,
      nextToken asciiTables { newScanner [] with reader := [' ', '\n'] ++ '#' :: ['1'] }
        = (tokenInvalid, [], { newScanner [] with reader := '#' :: ['1'], buf := [], line := line })
      ∧ nextToken asciiTables { newScanner [] with reader := '#' :: ['1'], buf := [], line := line }
        = (tokenInvalid, [], { newScanner [] with reader := '#' :: ['1'], buf := [], line := line }) :=
  unrecognised_rune_token asciiTables [' ', '\n'] '#' ['1'] (newScanner []) (by decide)
    (by decide) rfl rfl

end hjson

namespace hjson

open Token Error Value

/-! ## The end of the input -/

/-- C19: every piece that stops before the end of a document is rejected by `parse`
with an error. First for the JSON text of every plain tree with an object or array
root, with any whitespace between the tokens and none behind the closing bracket. Then
for every text that begins with `\x7b` or `[`, ends with `\x7d` or `]`, and is read to
its end when `parse` accepts it, whatever escapes and numeric literals it holds: a value
returned on a piece would be returned on the whole text as well, with a lookahead read
from the rest of the text, which is never the end of the input. -/
theorem truncated_document_rejected (T : UnicodeTables) :
    (∀ (v : Value) (gaps : List (List Char)) (q rest : List Char),
      isContainer v = true → plainTree v = true → allSpace gaps →
      gaps.length ≤ (tokensOf v).length → spaced gaps (tokensOf v) = q ++ rest → rest ≠ [] →
      ∃ e pf, parser.parse T (newParser q) = some (none, some e, pf)) ∧
    (∀ (q rest : List Char), rest ≠ [] → endsWithCloser (q ++ rest) →
      ((parser.load T (newScanner (q ++ rest))).token = tokenLBrace
        ∨ (parser.load T (newScanner (q ++ rest))).token = tokenLBracket) →
      (∀ v pf, parser.parse T (newParser (q ++ rest)) = some (some v, none, pf) →
        pf.token = tokenEOF) →
      ∃ e pf, parser.parse T (newParser q) = some (none, some e, pf)) ∧
    ToValue T "[\"a\\".toList = some (none, some errEOF) ∧
    ToValue T "[\"a\\u00".toList = some (none, some errEOF) ∧
    ToValue T "[12.".toList = some (none, some errEOF) ∧
    ToValue T "[tr".toList = some (none, some errEOF) ∧
    ToValue T "[true".toList = some (none, some errEOF) ∧
    ToValue T "[12".toList = some (none, some (errorf "expected:], got: ")) ∧
    ToValue T "\x7b\"k\":\"v".toList
      = some (none, some (errorf "expect: key-value pair or '\x7d' got:")) :=
  ⟨fun v gaps q rest hroot hplain hg hlen hsplit hrest =>
      truncated_tree_rejected T v hroot hplain gaps hg hlen q rest hsplit hrest,
    fun q rest hrest hclose hroot hend => truncated_rejected T q rest hrest hclose hroot hend,
    rfl, rfl, rfl, rfl, rfl, rfl, rfl⟩

theorem truncated_document_rejected_witness :
    (truncatedPiece = "\x7b\"k\":[\"a\\".toList
      ∧ ∃ e pf, parser.parse asciiTables (newParser truncatedPiece) = some (none, some e, pf))
    ∧ ((spaced testArrayGaps (tokensOf testArray)).take 29
        = "[null,true, false, \"key\", \"ke".toList
      ∧ ∃ e pf, parser.parse asciiTables
          (newParser ((spaced testArrayGaps (tokensOf testArray)).take 29))
        = some (none, some e, pf)) :=
  ⟨⟨by decide, (truncated_document_rejected asciiTables).2.1 truncatedPiece truncatedRest
      (by decide) ⟨truncatedDocument.dropLast, '\x7d', by decide, Or.inl rfl⟩
      (Or.inl (by decide))
      (fun v pf h => by
        have h2 : (parser.parse asciiTables (newParser (truncatedPiece ++ truncatedRest))).map
            (fun r => r.2.2.token) = some tokenEOF := by decide
        rw [h] at h2
        exact Option.some.inj h2)⟩,
    ⟨by decide, (truncated_document_rejected asciiTables).1 testArray testArrayGaps
      ((spaced testArrayGaps (tokensOf testArray)).take 29)
      ((spaced testArrayGaps (tokensOf testArray)).drop 29)
      (by decide) (by decide) (by unfold allSpace; decide) (by decide)
      (List.take_append_drop 29 _).symm (by decide)⟩⟩

/-- C20, as the code has it: `parse` returns the end-of-input error on input that is
whitespace only, and a production returns it where a `switch` on the lookahead has a
case for the end of the input: in `parseValues` and at the start of a round of the loop
of `parseArray`. The loop of `parseObject` has no such case: on the end of the input it
is left and the closing check returns its own error. So `[`, `[1,` and `{"a":` give
the end-of-input error, while `{`, `{"a":1,`, `{"a":1`, `{"a"` and `[1` give an
"expect" error. -/
theorem eof_error_where_a_value_starts (T : UnicodeTables) :
    (∀ ws : List Char, (∀ c ∈ ws, isSpace c = true) →
      ∃ p, parser.parse T (newParser ws) = some (none, some errEOF, p)) ∧
    (∀ (n : Nat) (p : parser), p.token = tokenEOF →
      parser.parseValues T (n + 1) p = some (.error errEOF, p)) ∧
    (∀ (n : Nat) (arr : List Value) (p : parser), p.token = tokenEOF →
      parser.parseArrayLoop T (n + 1) arr p = some (.error errEOF, p)) ∧
    (∀ (n : Nat) (obj : List (List Char × Value)) (p : parser), p.token = tokenEOF →
      parser.parseObjectLoop T (n + 1) obj p
        = some (.error (p.getErr
            (errorf ("expect: key-value pair or '\x7d' got:" ++ String.mk p.literal))), p)) ∧
    ToValue T "[".toList = some (none, some errEOF) ∧
    ToValue T "[1,".toList = some (none, some errEOF) ∧
    ToValue T "\x7b\"a\":".toList = some (none, some errEOF) ∧
    ToValue T "\x7b".toList
      = some (none, some (errorf "expect: key-value pair or '\x7d' got:")) ∧
    ToValue T "\x7b\"a\":1,".toList
      = some (none, some (errorf "expect: key-value pair or '\x7d' got:")) ∧
    ToValue T "\x7b\"a\":1".toList
      = some (none, some (errorf "expect: key-value pair or '\x7d' got:")) ∧
    ToValue T "\x7b\"a\"".toList = some (none, some (errorf "expect: ':' got:")) ∧
    ToValue T "[1".toList = some (none, some (errorf "expected:], got: ")) :=
  ⟨parse_blank T, parseValues_eof T, parseArrayLoop_eof T, parseObjectLoop_eof T,
    rfl, rfl, rfl, rfl, rfl, rfl, rfl, rfl⟩

end hjson

namespace hjson

open Token Error Value

/-! ## Implicit properties of `parse` -/

/-- C21: on every input on which `parse` returns a tree, every Integer node of the tree
is at least 0; the same holds for `ToValue`. A number token begins with the digit that
`nextToken` saw and never with `-`, so `Atoi` of its literal is not negative, whether it
succeeds or fails; `[-5]` is rejected. -/
theorem parsed_integers_nonnegative (T : UnicodeTables) (p : parser) (v : Value) (pf : parser)
    (h : parser.parse T p = some (some v, none, pf)) :
    nonNegative v = true
      ∧ (∀ (data : List Char) (w : Value), ToValue T data = some (some w, none) →
          nonNegative w = true)
      ∧ (∀ s : scanner, (nextToken T s).1 = tokenNumber →
          (nextToken T s).2.1.head? ≠ some '-')
      ∧ (∀ lit : List Char, lit.head? ≠ some '-' → 0 ≤ (Atoi lit).1)
      ∧ ToValue T "[-5]".toList = some (none, some (errorf "expected:], got: "))
      ∧ ToValue T "\x7b\"a\":-5\x7d".toList
          = some (none, some (errorf "expect: STRING, NUMBER, TRUE, FALSE, NULL, \x7b, [")) := by
  refine ⟨parse_nonNegative T p v pf h, ?_, ?_, Atoi_nonneg, rfl, rfl⟩
  · intro data w hw
    obtain ⟨pf2, hp⟩ := ToValue_ok_inv T data w hw
    exact parse_nonNegative T _ w pf2 hp
  · intro s
    exact nextTokenLoop_unsigned T s.reader s

theorem parsed_integers_nonnegative_witness :
    ∃ pf, parser.parse asciiTables (newParser "[12,0,\x7b\"a\":7.5\x7d]".toList)
        = some (some (JArray [JNumber 12, JNumber 0, JObject [(['a'], JNumber 0)]]), none, pf)
      ∧ nonNegative (JArray [JNumber 12, JNumber 0, JObject [(['a'], JNumber 0)]]) = true :=
  ⟨_, rfl, (parsed_integers_nonnegative asciiTables
    (newParser "[12,0,\x7b\"a\":7.5\x7d]".toList) _ _ rfl).1⟩

/-- C22: when `parse` returns a tree on an input, it returns the same tree on that
input followed by any text, and so does `ToValue`: nothing behind the closing bracket
of the root is looked at beyond the one token of lookahead. `\x7b\x7dgarbage` and `[1]]`
are accepted. -/
theorem trailing_input_ignored (T : UnicodeTables) (s u : List Char) (v : Value) (pf : parser)
    (h : parser.parse T (newParser s) = some (some v, none, pf)) :
    (∃ pf2, parser.parse T (newParser (s ++ u)) = some (some v, none, pf2))
      ∧ ToValue T (s ++ u) = some (some v, none)
      ∧ ToValue T "\x7b\x7dgarbage".toList = some (some (JObject []), none)
      ∧ ToValue T "[1]]".toList = some (some (JArray [JNumber 1]), none) := by
  obtain ⟨pf2, h2⟩ := parse_append T s u v pf h
  exact ⟨⟨pf2, h2⟩, ToValue_of_parse T _ v pf2 h2, rfl, rfl⟩

theorem trailing_input_ignored_witness :
    (∃ pf, parser.parse asciiTables (newParser "[1, \"a\"]".toList)
        = some (some (JArray [JNumber 1, JString ['a']]), none, pf))
      ∧ ToValue asciiTables ("[1, \"a\"]".toList ++ "]\x7d \"x".toList)
        = some (some (JArray [JNumber 1, JString ['a']]), none) :=
  ⟨⟨_, rfl⟩, (trailing_input_ignored asciiTables "[1, \"a\"]".toList "]\x7d \"x".toList
    (JArray [JNumber 1, JString ['a']]) _ rfl).2.1⟩

end hjson

